import Mathlib

/-!
Multilevel feedback queue scheduler: embedding and verification.

A shallow embedding of `mlfq_scheduler.cpp`: the process record, the
configuration, the MLFQ engine's tick loop with its helper steps, the three
baseline engines (FCFS, SJF, Round-Robin) and the metrics computations.

Conventions of the embedding.

* A `Process*` is the index of the record in the engine's process vector.
* `int` values are mathematical integers (`Int`); a level or a loop index,
  which the program only ever sets to non-negative values, is a `Nat`.
* `double` values are rationals (`ℚ`), so every metric is the exact quotient.
* The `while` loops are run with a step budget; every statement that the
  program returns a result is proved as "a stated budget suffices".
* Console output (the `verbose_mode` branches) is not part of the model.
* The member `deque<Process*> queues[10]` is a list of ten queues; indexing
  it at a level beyond the tenth is a fault of the run, not a result.
* `std::sort` is a parameter constrained by its contract (a permutation of
  its input, ordered by arrival), since it fixes no order among ties.
-/

namespace MlfqScheduler

/-! ## Process records and configuration -/

/-- Record `struct Process`. -/
structure Process where
  pid : Int
  arrival : Int
  burst : Int
  remaining : Int
  priority : Nat
  start_time : Int
  completion : Int
  time_in_current_quantum : Int
  time_in_queue : Int
  started : Bool
  deriving DecidableEq, Repr

/-- Constructor `Process(int pid_, int a, int b)`. -/
def Process.new (pid a b : Int) : Process :=
  { pid := pid, arrival := a, burst := b, remaining := b, priority := 0,
    start_time := -1, completion := -1, time_in_current_quantum := 0,
    time_in_queue := 0, started := false }

/-- Copy constructor `Process(const Process& other)`: it keeps the pid, the
arrival and the burst and resets every other field. -/
def Process.copy (other : Process) : Process :=
  { pid := other.pid, arrival := other.arrival, burst := other.burst,
    remaining := other.burst, priority := 0, start_time := -1,
    completion := -1, time_in_current_quantum := 0, time_in_queue := 0,
    started := false }

instance : Inhabited Process := ⟨Process.new 0 0 0⟩

/-- Record `struct Config` without the cosmetic `algo_names`. -/
structure Config where
  num_queues : Nat
  time_quantum : List Int
  aging_threshold : Int
  aging_check_interval : Int
  boost_interval : Int
  deriving DecidableEq, Repr

/-- Record `struct Metrics`; the `double` fields are rationals (a finite
`double` is a rational number). -/
structure Metrics where
  avg_turnaround : ℚ
  avg_waiting : ℚ
  throughput : ℚ
  cpu_util : ℚ
  context_switches : Int
  deriving DecidableEq

/-! ## Pointers into the process vector and the array of queues -/

/-- Dereference of the process pointer `i`. -/
def getP (ps : List Process) (i : Nat) : Process := ps.getD i default

/-- Write through the process pointer `i`. -/
def setP (ps : List Process) (i : Nat) (f : Process → Process) : List Process :=
  ps.set i (f (getP ps i))

/-- Number of slots of the member `deque<Process*> queues[10]`. -/
def QUEUE_SLOTS : Nat := 10

/-- Read of `queues[q]`. -/
def qget (qs : List (List Nat)) (q : Nat) : List Nat := qs.getD q []

/-- Assignment to `queues[q]`. -/
def qset (qs : List (List Nat)) (q : Nat) (v : List Nat) : List (List Nat) :=
  qs.set q v

/-- Lookup `config.time_quantum[level]`. -/
def Config.quantum (c : Config) (level : Nat) : Int := c.time_quantum.getD level 0

/-! ## The MLFQ engine -/

/-- State of `class MLFQ_Scheduler`. -/
structure MLFQ_Scheduler where
  all_processes : List Process
  queues : List (List Nat)
  config : Config
  current_time : Int
  completed : Int
  total_busy_time : Int
  context_switches : Int
  timeline_pid : List Int
  timeline_queue : List Int
  currently_running : Option Nat
  deriving DecidableEq

namespace MLFQ_Scheduler

/-- Constructor `MLFQ_Scheduler(vector<Process>& procs, const Config& cfg)`:
the vector assignment copy-constructs every record. -/
def init (procs : List Process) (cfg : Config) : MLFQ_Scheduler :=
  { all_processes := procs.map Process.copy,
    queues := List.replicate QUEUE_SLOTS [],
    config := cfg,
    current_time := 0,
    completed := 0,
    total_busy_time := 0,
    context_switches := 0,
    timeline_pid := [],
    timeline_queue := [],
    currently_running := none }

/-- Body of the loop of `add_arrivals` for the record at index `i`. -/
def add_arrival (s : MLFQ_Scheduler) (i : Nat) : MLFQ_Scheduler :=
  let p := getP s.all_processes i
  if p.arrival = s.current_time ∧ p.started = false ∧ p.start_time = -1 then
    { s with
      all_processes := setP s.all_processes i (fun x => { x with priority := 0 }),
      queues := qset s.queues 0 (qget s.queues 0 ++ [i]) }
  else s

/-- Method `add_arrivals`. -/
def add_arrivals (s : MLFQ_Scheduler) : MLFQ_Scheduler :=
  (List.range s.all_processes.length).foldl add_arrival s

/-- The purge at the head of the loop body: `remove_if` of the entries with
`remaining <= 0` from `queues[q]`. -/
def purge_queue (s : MLFQ_Scheduler) (q : Nat) : MLFQ_Scheduler :=
  let kept := (qget s.queues q).filter (fun p => decide (0 < (getP s.all_processes p).remaining))
  { s with queues := qset s.queues q kept }

/-- The purge of every `queues[q]`, `q < num_queues`. -/
def purge (s : MLFQ_Scheduler) : MLFQ_Scheduler :=
  (List.range s.config.num_queues).foldl purge_queue s

/-- The writes of `apply_aging` to a record promoted from level `q`. -/
def aging_reset (q : Nat) (x : Process) : Process :=
  { x with priority := q - 1, time_in_queue := 0, time_in_current_quantum := 0 }

/-- Inner loop of `apply_aging` over the entries of `queues[q]`: the result
is the process vector, the entries kept in `queues[q]` and the entries pushed
to the back of `queues[q - 1]`, in that order. -/
def aging_scan (thr : Int) (running : Option Nat) (q : Nat) :
    List Nat → List Process → List Process × List Nat × List Nat
  | [], ps => (ps, [], [])
  | p :: rest, ps =>
    if some p ≠ running ∧ thr ≤ (getP ps p).time_in_queue then
      let r := aging_scan thr running q rest (setP ps p (aging_reset q))
      (r.1, r.2.1, p :: r.2.2)
    else
      let r := aging_scan thr running q rest ps
      (r.1, p :: r.2.1, r.2.2)

/-- Body of the outer loop of `apply_aging` for the level `q`. -/
def age_level (s : MLFQ_Scheduler) (q : Nat) : MLFQ_Scheduler :=
  let r := aging_scan s.config.aging_threshold s.currently_running q
    (qget s.queues q) s.all_processes
  let qs1 := qset s.queues q r.2.1
  { s with
    all_processes := r.1,
    queues := qset qs1 (q - 1) (qget qs1 (q - 1) ++ r.2.2) }

/-- Method `apply_aging`: the levels `1 .. num_queues - 1` in increasing order. -/
def apply_aging (s : MLFQ_Scheduler) : MLFQ_Scheduler :=
  ((List.range s.config.num_queues).tail).foldl age_level s

/-- The reset that `apply_priority_boost` applies to a waiting record. -/
def boost_reset (x : Process) : Process :=
  { x with priority := 0, time_in_queue := 0, time_in_current_quantum := 0 }

/-- Body of the first loop of `apply_priority_boost` for the level `q`: the
state is the engine together with the vector `all_waiting`. -/
def boost_level (acc : MLFQ_Scheduler × List Nat) (q : Nat) : MLFQ_Scheduler × List Nat :=
  let s := acc.1
  ({ s with
     all_processes := (qget s.queues q).foldl (fun ps p => setP ps p boost_reset) s.all_processes,
     queues := qset s.queues q [] },
   acc.2 ++ qget s.queues q)

/-- Method `apply_priority_boost`. -/
def apply_priority_boost (s : MLFQ_Scheduler) : MLFQ_Scheduler :=
  let r := ((List.range s.config.num_queues).tail).foldl boost_level (s, [])
  let s1 := r.1
  let s2 := { s1 with queues := qset s1.queues 0 (qget s1.queues 0 ++ r.2) }
  match s2.currently_running with
  | some c =>
    if 0 < (getP s2.all_processes c).priority then
      let ps := setP s2.all_processes c (fun x => { x with priority := 0, time_in_current_quantum := 0 })
      { s2 with all_processes := ps }
    else s2
  | none => s2

/-- Body of the inner loop of `update_waiting_times` for the entry `p`. -/
def bump_waiting (running : Option Nat) (ps : List Process) (p : Nat) : List Process :=
  if some p ≠ running ∧ 0 < (getP ps p).remaining then
    setP ps p (fun x => { x with time_in_queue := x.time_in_queue + 1 })
  else ps

/-- Method `update_waiting_times`. -/
def update_waiting_times (s : MLFQ_Scheduler) : MLFQ_Scheduler :=
  let ps := (List.range s.config.num_queues).foldl
    (fun ps q => (qget s.queues q).foldl (bump_waiting s.currently_running) ps) s.all_processes
  { s with all_processes := ps }

/-- Method `get_highest_priority_queue`; `none` is the result `-1`. -/
def get_highest_priority_queue (s : MLFQ_Scheduler) : Option Nat :=
  (List.range s.config.num_queues).find? (fun q => !(qget s.queues q).isEmpty)

/-- Method `should_preempt`. -/
def should_preempt (s : MLFQ_Scheduler) (running_queue : Nat) : Bool :=
  (List.range running_queue).any (fun q => !(qget s.queues q).isEmpty)

/-- Result of one pass through the body of the `while` loop of `run`. -/
inductive Outcome where
  /-- The body reached its end or its `continue`. -/
  | next (s : MLFQ_Scheduler)
  /-- The body left the loop through `break`. -/
  | exit (s : MLFQ_Scheduler)
  /-- The body indexed `queues` outside its slots or took `front()` of an
  empty queue; the program has no defined behaviour from there. -/
  | fault
  deriving DecidableEq

/-- The test `has_future` of the idle branch: some record has
`arrival > current_time` and `remaining > 0`. -/
def has_future (s : MLFQ_Scheduler) : Bool :=
  s.all_processes.any (fun p => decide (s.current_time < p.arrival ∧ 0 < p.remaining))

/-- The preemption check of `run` (the block guarded by
`currently_running != nullptr && currently_running->remaining > 0`). -/
def preempt_check (s : MLFQ_Scheduler) : MLFQ_Scheduler :=
  match s.currently_running with
  | some c =>
    if 0 < (getP s.all_processes c).remaining then
      let running_queue := (getP s.all_processes c).priority
      if s.should_preempt running_queue then
        { s with
          queues := qset s.queues running_queue (c :: qget s.queues running_queue),
          currently_running := none,
          context_switches := s.context_switches + 1 }
      else s
    else s
  | none => s

/-- The completion and demotion check at the end of the loop body, for the
running record `c`, followed by `current_time++`. -/
def finish_tick (s : MLFQ_Scheduler) (c : Nat) : MLFQ_Scheduler :=
  let p := getP s.all_processes c
  if p.remaining = 0 then
    { s with
      all_processes := setP s.all_processes c (fun x => { x with completion := s.current_time + 1 }),
      completed := s.completed + 1,
      currently_running := none,
      current_time := s.current_time + 1 }
  else if 0 < s.config.quantum p.priority ∧
      s.config.quantum p.priority ≤ p.time_in_current_quantum then
    let level := if p.priority + 1 < s.config.num_queues then p.priority + 1 else p.priority
    { s with
      all_processes := setP s.all_processes c
        (fun x => { x with priority := level, time_in_current_quantum := 0, time_in_queue := 0 }),
      queues := qset s.queues level (qget s.queues level ++ [c]),
      currently_running := none,
      context_switches := s.context_switches + 1,
      current_time := s.current_time + 1 }
  else
    { s with current_time := s.current_time + 1 }

/-- The part of the loop body from the timeline record to `current_time++`,
with `currently_running` pointing to the record `c`. -/
def execute (s : MLFQ_Scheduler) (c : Nat) : MLFQ_Scheduler :=
  let p := getP s.all_processes c
  let s1 : MLFQ_Scheduler :=
    { s with
      timeline_pid := s.timeline_pid ++ [p.pid],
      timeline_queue := s.timeline_queue ++ [(p.priority : Int)],
      all_processes := setP s.all_processes c
        (fun x => { x with remaining := x.remaining - 1,
                           time_in_current_quantum := x.time_in_current_quantum + 1 }),
      total_busy_time := s.total_busy_time + 1 }
  finish_tick (update_waiting_times s1) c

/-- The dispatch block of `run` (the block guarded by
`currently_running == nullptr || currently_running->remaining == 0`) and the
rest of the loop body after it. -/
def dispatch (s : MLFQ_Scheduler) : Outcome :=
  match s.get_highest_priority_queue with
  | none =>
    if s.has_future then
      Outcome.next { s with
        timeline_pid := s.timeline_pid ++ [0],
        timeline_queue := s.timeline_queue ++ [-1],
        current_time := s.current_time + 1 }
    else Outcome.exit s
  | some active_queue =>
    match qget s.queues active_queue with
    | [] => Outcome.fault
    | c :: rest =>
      let p := getP s.all_processes c
      let ps := if p.started = false then
          setP s.all_processes c (fun x => { x with started := true, start_time := s.current_time })
        else s.all_processes
      Outcome.next (execute
        { s with
          all_processes := ps,
          queues := qset s.queues active_queue rest,
          currently_running := some c,
          context_switches := s.context_switches + 1 } c)

/-- The guarded call of `apply_aging` in `run`; `%` on `int` truncates. -/
def maybe_aging (s : MLFQ_Scheduler) : MLFQ_Scheduler :=
  if 0 < s.current_time ∧ Int.tmod s.current_time s.config.aging_check_interval = 0
  then s.apply_aging else s

/-- The guarded call of `apply_priority_boost` in `run`. -/
def maybe_boost (s : MLFQ_Scheduler) : MLFQ_Scheduler :=
  if 0 < s.current_time ∧ Int.tmod s.current_time s.config.boost_interval = 0
  then s.apply_priority_boost else s

/-- The loop body of `run` from the purge to the preemption check. -/
def housekeeping (s : MLFQ_Scheduler) : MLFQ_Scheduler :=
  preempt_check (maybe_boost (maybe_aging (purge s)))

/-- The loop body from the test
`currently_running == nullptr || currently_running->remaining == 0` on. -/
def resume_or_dispatch (s : MLFQ_Scheduler) : Outcome :=
  match s.currently_running with
  | none => s.dispatch
  | some c =>
    if (getP s.all_processes c).remaining = 0 then s.dispatch
    else Outcome.next (s.execute c)

/-- Body of the `while` loop of `run`. The purge indexes `queues[q]` for every
`q < num_queues`, so with more levels than slots the body leaves the array. -/
def step (s : MLFQ_Scheduler) : Outcome :=
  let s1 := s.add_arrivals
  if s1.queues.length < s1.config.num_queues then Outcome.fault
  else resume_or_dispatch (housekeeping s1)

/-- Result of `run`. -/
inductive RunResult where
  /-- The loop ended; `by_break` tells whether it was left through `break`. -/
  | done (s : MLFQ_Scheduler) (by_break : Bool)
  /-- The loop left the defined behaviour of the program. -/
  | fault
  /-- The step budget ran out before the loop ended. -/
  | out_of_budget
  deriving DecidableEq

/-- Method `run`: the loop `while (completed < all_processes.size())`, with a
budget of loop iterations. -/
def run : Nat → MLFQ_Scheduler → RunResult
  | 0, s =>
    if s.completed < (s.all_processes.length : Int) then RunResult.out_of_budget
    else RunResult.done s false
  | budget + 1, s =>
    if s.completed < (s.all_processes.length : Int) then
      match s.step with
      | Outcome.next s1 => run budget s1
      | Outcome.exit s1 => RunResult.done s1 true
      | Outcome.fault => RunResult.fault
    else RunResult.done s false

end MLFQ_Scheduler

namespace MLFQ_Scheduler

/-- Body of the loop of `get_metrics` over `all_processes`: the accumulator is
`(total_turnaround, total_waiting, last_completion)`. -/
def metrics_acc (acc : ℚ × ℚ × Int) (p : Process) : ℚ × ℚ × Int :=
  let tat := p.completion - p.arrival
  let wt := tat - p.burst
  (acc.1 + (tat : ℚ), acc.2.1 + (wt : ℚ), max acc.2.2 p.completion)

/-- Method `get_metrics`. A quotient whose divisor is `0` is outside the
model: `double` division gives an infinity or a NaN there. -/
def get_metrics (s : MLFQ_Scheduler) : Metrics :=
  let acc := s.all_processes.foldl metrics_acc (0, 0, 0)
  { avg_turnaround := acc.1 / (s.all_processes.length : ℚ),
    avg_waiting := acc.2.1 / (s.all_processes.length : ℚ),
    throughput := (s.all_processes.length : ℚ) / ((max 1 acc.2.2 : Int) : ℚ),
    cpu_util := 100 * (s.total_busy_time : ℚ) / ((max 1 acc.2.2 : Int) : ℚ),
    context_switches := s.context_switches }

end MLFQ_Scheduler

/-! ## The baseline engines -/

/-- Contract of the call `sort(processes.begin(), processes.end(), cmp)` with
`cmp(a, b) = a.arrival < b.arrival`: the result is a rearrangement of the
vector in non-decreasing arrival order. `std::sort` leaves the order of
records with equal arrival unspecified, so the engines take the sort as a
parameter and the theorems hold for every sort that meets the contract. -/
def StdSort (sort : List Process → List Process) : Prop :=
  ∀ l, (sort l).Perm l ∧ (sort l).Sorted (fun a b => a.arrival ≤ b.arrival)

/-- A sort that meets `StdSort`: insertion sort, which keeps records with
equal arrival in their input order. -/
def insertion_sort (l : List Process) : List Process :=
  l.insertionSort (fun a b => a.arrival ≤ b.arrival)

/-- Constant `INT_MAX` of `<climits>` for the 32-bit `int`. -/
def INT_MAX : Int := 2147483647

/-- Value that the 32-bit `int` holds after an addition whose mathematical
result is `x`: the representative of `x` modulo `2^32` between `-2^31` and
`2^31 - 1`. It is `x` itself when `x` is in that range. The additions of a
burst to a clock or to a busy time (`current_time += p.burst`,
`total_busy_time += p.burst`) and the subtractions of the metrics loop of the
baseline engines, whose operands an input can make large, are modelled with
it; a counter that rises by one per loop iteration is not, since it stays
below the number of iterations. -/
def wrapInt (x : Int) : Int := (x + 2147483648) % 4294967296 - 2147483648

/-- A record as an engine leaves it on a list it completes within the range of
`int`: arrival and burst are not negative, and the completion is at least
arrival + burst and at most `INT_MAX`. -/
def CompletedRecord (p : Process) : Prop :=
  0 ≤ p.arrival ∧ 0 ≤ p.burst ∧ p.arrival + p.burst ≤ p.completion ∧ p.completion ≤ INT_MAX

/-- Body of the metrics loop at the end of `run` of the three baseline engines,
which is the same text in each: the accumulator is
`(total_tat, total_wt, last_completion)`. The two terms
`p.completion - p.arrival` and `p.completion - p.arrival - p.burst` are `int`
expressions, converted to `double` when they are added to the totals. -/
def baseline_acc (acc : ℚ × ℚ × Int) (p : Process) : ℚ × ℚ × Int :=
  (acc.1 + ((wrapInt (p.completion - p.arrival) : Int) : ℚ),
   acc.2.1 + ((wrapInt (wrapInt (p.completion - p.arrival) - p.burst) : Int) : ℚ),
   max acc.2.2 p.completion)

/-- The rational `2^k` for an integer exponent `k`. -/
def pow2 (k : Int) : ℚ := if 0 ≤ k then (2 : ℚ) ^ k.toNat else 1 / (2 : ℚ) ^ (-k).toNat

/-- Binary exponent of the positive rational `a`: the integer `e` with
`2^e <= a < 2^(e + 1)`. The difference of the bit lengths of numerator and
denominator is `e` or `e + 1`. -/
def binaryExponent (a : ℚ) : Int :=
  let e := (a.num.natAbs.log2 : Int) - (a.den.log2 : Int)
  if pow2 e ≤ a then e else e - 1

/-- The integer nearest to the rational `t`, the even one of the two when `t`
lies half-way between two integers. -/
def roundHalfEven (t : ℚ) : Int :=
  if t - (⌊t⌋ : ℚ) < 1 / 2 then ⌊t⌋
  else if 1 / 2 < t - (⌊t⌋ : ℚ) then ⌊t⌋ + 1
  else if ⌊t⌋ % 2 = 0 then ⌊t⌋ else ⌊t⌋ + 1

/-- The `double` nearest to the rational `x` (IEEE 754 binary64, round to
nearest, ties to even): `x` is scaled so that its magnitude lies between
`2^52` and `2^53`, rounded to an integer and scaled back. This is the result
of a `double` division whose exact quotient is `x`. Quotients outside the
normal range of `double` (magnitude below `2^-1022` or above `2^1023`) are
outside the model; a quotient of two `int` or `size_t` values is within it. -/
def roundDouble (x : ℚ) : ℚ :=
  if x = 0 then 0
  else if x < 0 then
    -((roundHalfEven (-x / pow2 (binaryExponent (-x) - 52)) : ℚ) *
      pow2 (binaryExponent (-x) - 52))
  else (roundHalfEven (x / pow2 (binaryExponent x - 52)) : ℚ) * pow2 (binaryExponent x - 52)

/-- The metrics block at the end of `run` of the three baseline engines; it
divides by `last_completion` as it is. The two sums are sums of `int` values,
which the `double` accumulators hold exactly, and so is `100.0 *
total_busy_time`; every field is then one `double` division, whose result is
the `double` nearest to the quotient. A quotient whose divisor is `0` is
outside the model. -/
def baseline_metrics (processes : List Process) (total_busy_time context_switches : Int) :
    Metrics :=
  let acc := processes.foldl baseline_acc (0, 0, 0)
  { avg_turnaround := roundDouble (acc.1 / (processes.length : ℚ)),
    avg_waiting := roundDouble (acc.2.1 / (processes.length : ℚ)),
    throughput := roundDouble ((processes.length : ℚ) / (acc.2.2 : ℚ)),
    cpu_util := roundDouble (100 * (total_busy_time : ℚ) / (acc.2.2 : ℚ)),
    context_switches := context_switches }

/-- Result of the serving loop of an engine: the records, the clock, the busy
time and the event counter. -/
structure Served where
  processes : List Process
  current_time : Int
  total_busy_time : Int
  context_switches : Int
  deriving DecidableEq

namespace FCFS_Scheduler

/-- Body of the serving loop of `FCFS_Scheduler::run` for the record `p` at the
clock `current_time`: the record after the writes. The completion is the
`int` clock after `current_time += p.burst`. -/
def serve (current_time : Int) (p : Process) : Process :=
  let start := if current_time < p.arrival then p.arrival else current_time
  { p with start_time := start, started := true, completion := wrapInt (start + p.burst) }

/-- The serving loop of `FCFS_Scheduler::run` over the sorted records. -/
def loop : Int → Int → Int → List Process → Served
  | current_time, total_busy_time, context_switches, [] =>
    { processes := [], current_time := current_time, total_busy_time := total_busy_time,
      context_switches := context_switches }
  | current_time, total_busy_time, context_switches, p :: rest =>
    let q := serve current_time p
    let r := loop q.completion (wrapInt (total_busy_time + p.burst)) (context_switches + 1) rest
    { r with processes := q :: r.processes }

/-- The records of `FCFS_Scheduler` after `run`: the constructor copies the
vector, `run` sorts it and serves it in that order. -/
def served (sort : List Process → List Process) (procs : List Process) : Served :=
  loop 0 0 0 (sort (procs.map Process.copy))

/-- Method `FCFS_Scheduler::run`. -/
def run (sort : List Process → List Process) (procs : List Process) : Metrics :=
  let r := served sort procs
  baseline_metrics r.processes r.total_busy_time r.context_switches

end FCFS_Scheduler

/-- State of the loop of `SJF_Scheduler::run`. -/
structure SJF_Scheduler where
  processes : List Process
  done : List Bool
  current_time : Int
  completed : Int
  total_busy_time : Int
  context_switches : Int
  deriving DecidableEq

namespace SJF_Scheduler

/-- State of `SJF_Scheduler::run` at its first loop test: the constructor
copies the vector and `run` sorts it. -/
def init (sort : List Process → List Process) (procs : List Process) : SJF_Scheduler :=
  { processes := sort (procs.map Process.copy),
    done := List.replicate (sort (procs.map Process.copy)).length false,
    current_time := 0, completed := 0, total_busy_time := 0, context_switches := 0 }

/-- Body of the selection scan for the index `i`: the accumulator is
`(shortest, min_burst)`, with `none` for `shortest == -1`. -/
def scan_one (s : SJF_Scheduler) (acc : Option Nat × Int) (i : Nat) : Option Nat × Int :=
  if s.done.getD i false = false ∧ (getP s.processes i).arrival ≤ s.current_time ∧
      (getP s.processes i).burst < acc.2 then
    (some i, (getP s.processes i).burst)
  else acc

/-- The selection scan of the loop body, started from `(-1, INT_MAX)`. -/
def scan (s : SJF_Scheduler) : Option Nat × Int :=
  (List.range s.processes.length).foldl (scan_one s) (none, INT_MAX)

/-- The writes of the loop body to the selected record at the clock
`current_time`. The completion is the `int` clock after
`current_time += p.burst`. -/
def select (current_time : Int) (x : Process) : Process :=
  { x with start_time := current_time, started := true,
           completion := wrapInt (current_time + x.burst) }

/-- Body of the `while` loop of `SJF_Scheduler::run`. -/
def step (s : SJF_Scheduler) : SJF_Scheduler :=
  match s.scan.1 with
  | none => { s with current_time := s.current_time + 1 }
  | some j =>
    { processes := setP s.processes j (select s.current_time),
      done := s.done.set j true,
      current_time := wrapInt (s.current_time + (getP s.processes j).burst),
      completed := s.completed + 1,
      total_busy_time := wrapInt (s.total_busy_time + (getP s.processes j).burst),
      context_switches := s.context_switches + 1 }

/-- The loop `while (completed < processes.size())` with a budget of loop
iterations; `none` when the budget runs out. -/
def loop : Nat → SJF_Scheduler → Option SJF_Scheduler
  | 0, s => if s.completed < (s.processes.length : Int) then none else some s
  | budget + 1, s =>
    if s.completed < (s.processes.length : Int) then loop budget s.step else some s

/-- The engine after `n` passes through the loop body. -/
def after : Nat → SJF_Scheduler → SJF_Scheduler
  | 0, s => s
  | n + 1, s => after n s.step

/-- The record `i` is unfinished and has arrived: the scan considers it. -/
def candidate (s : SJF_Scheduler) (i : Nat) : Prop :=
  s.done.getD i false = false ∧ (getP s.processes i).arrival ≤ s.current_time

/-- The record `j` is the candidate with the smallest burst and, among the
candidates with that burst, the one with the lowest index. -/
def shortest (s : SJF_Scheduler) (j : Nat) : Prop :=
  j < s.processes.length ∧ s.candidate j ∧
  ∀ i, i < s.processes.length → s.candidate i →
    (getP s.processes j).burst < (getP s.processes i).burst ∨
    ((getP s.processes j).burst = (getP s.processes i).burst ∧ j ≤ i)

/-- Sum of the bursts of the records that are not done. -/
def undoneBurst (s : SJF_Scheduler) : Int :=
  ((List.range s.processes.length).map
    (fun i => if s.done.getD i false = true then 0 else (getP s.processes i).burst)).sum

/-- The `int` clock cannot overflow from the state `s` on, with `A` a bound of
the arrivals: `done` has one flag per record, the clock is not negative, every
burst is between `0` and `INT_MAX - 1`, and as long as a record is not done
the later of the clock and `A`, plus the bursts still to serve, is at most
`INT_MAX`. -/
structure InRange (A : Int) (s : SJF_Scheduler) : Prop where
  dlen : s.done.length = s.processes.length
  time_nonneg : 0 ≤ s.current_time
  burst : ∀ i, 0 ≤ (getP s.processes i).burst ∧ (getP s.processes i).burst < INT_MAX
  arrival : ∀ i, i < s.processes.length → (getP s.processes i).arrival ≤ A
  bound : ∀ j, j < s.processes.length → s.done.getD j false = false →
    max s.current_time A + s.undoneBurst ≤ INT_MAX

/-- Method `SJF_Scheduler::run`. -/
def run (sort : List Process → List Process) (budget : Nat) (procs : List Process) :
    Option Metrics :=
  (loop budget (init sort procs)).map
    (fun s => baseline_metrics s.processes s.total_busy_time s.context_switches)

end SJF_Scheduler

/-- State of the loop of `RR_Scheduler::run`. -/
structure RR_Scheduler where
  processes : List Process
  time_quantum : Int
  ready_queue : List Nat
  current_time : Int
  completed : Int
  total_busy_time : Int
  context_switches : Int
  next_arrival : Nat
  currently_running : Option Nat
  quantum_used : Int
  deriving DecidableEq

namespace RR_Scheduler

/-- State of `RR_Scheduler::run` at its first loop test: the constructor
copies the vector and stores the quantum, `run` sorts the vector. -/
def init (sort : List Process → List Process) (procs : List Process) (tq : Int) :
    RR_Scheduler :=
  { processes := sort (procs.map Process.copy),
    time_quantum := tq,
    ready_queue := [], current_time := 0, completed := 0, total_busy_time := 0,
    context_switches := 0, next_arrival := 0, currently_running := none, quantum_used := 0 }

/-- The records that the inner `while` loop at the head of the loop body pushes:
the indices from `next_arrival` on, as long as the record has arrived. -/
def arriving (s : RR_Scheduler) : List Nat :=
  ((List.range s.processes.length).drop s.next_arrival).takeWhile
    (fun i => decide ((getP s.processes i).arrival ≤ s.current_time))

/-- The inner `while` loop at the head of the loop body. -/
def arrivals (s : RR_Scheduler) : RR_Scheduler :=
  { s with ready_queue := s.ready_queue ++ s.arriving,
           next_arrival := s.next_arrival + s.arriving.length }

/-- The loop body from `currently_running->remaining--` on, with
`currently_running` pointing to the record `c`. -/
def execute (s : RR_Scheduler) (c : Nat) : RR_Scheduler :=
  let s1 : RR_Scheduler :=
    { s with
      processes := setP s.processes c (fun x => { x with remaining := x.remaining - 1 }),
      quantum_used := s.quantum_used + 1,
      current_time := s.current_time + 1,
      total_busy_time := s.total_busy_time + 1 }
  if (getP s1.processes c).remaining = 0 then
    { s1 with
      processes := setP s1.processes c (fun x => { x with completion := s1.current_time }),
      completed := s1.completed + 1,
      currently_running := none }
  else if s1.time_quantum ≤ s1.quantum_used then
    { s1 with ready_queue := s1.ready_queue ++ [c], currently_running := none }
  else s1

/-- The dispatch block of the loop body and the rest of the body after it. -/
def dispatch (s : RR_Scheduler) : RR_Scheduler :=
  match s.ready_queue with
  | [] => { s with current_time := s.current_time + 1 }
  | c :: rest =>
    let ps := if (getP s.processes c).started = false then
        setP s.processes c (fun x => { x with started := true, start_time := s.current_time })
      else s.processes
    execute
      { s with
        processes := ps,
        ready_queue := rest,
        currently_running := some c,
        quantum_used := 0,
        context_switches := s.context_switches + 1 } c

/-- Body of the `while` loop of `RR_Scheduler::run`. -/
def step (s : RR_Scheduler) : RR_Scheduler :=
  let s1 := s.arrivals
  match s1.currently_running with
  | none => s1.dispatch
  | some c =>
    if (getP s1.processes c).remaining = 0 then s1.dispatch else s1.execute c

/-- The loop `while (completed < processes.size())` with a budget of loop
iterations; `none` when the budget runs out. -/
def loop : Nat → RR_Scheduler → Option RR_Scheduler
  | 0, s => if s.completed < (s.processes.length : Int) then none else some s
  | budget + 1, s =>
    if s.completed < (s.processes.length : Int) then loop budget s.step else some s

/-- Method `RR_Scheduler::run`. -/
def run (sort : List Process → List Process) (budget : Nat) (procs : List Process) (tq : Int) :
    Option Metrics :=
  (loop budget (init sort procs tq)).map
    (fun s => baseline_metrics s.processes s.total_busy_time s.context_switches)

/-- The engine after `n` passes through the loop body. -/
def after : Nat → RR_Scheduler → RR_Scheduler
  | 0, s => s
  | n + 1, s => after n s.step

/-- The record `c`, dispatched at the clock `ct0` with `r` units remaining when
`completed` was `done0` and `total_busy_time` was `busy0`, has executed `k`
units of its slice and still holds the CPU in the state `s`. -/
structure InSlice (s : RR_Scheduler) (c : Nat) (q r ct0 busy0 done0 : Int) (k : Nat) : Prop where
  running : s.currently_running = some c
  quantum_used : s.quantum_used = (k : Int)
  remaining : (getP s.processes c).remaining = r - (k : Int)
  current_time : s.current_time = ct0 + (k : Int)
  total_busy_time : s.total_busy_time = busy0 + (k : Int)
  completed : s.completed = done0
  time_quantum : s.time_quantum = q
  index : c < s.processes.length

/-- The slice of the record `c`, dispatched at the clock `ct0` with `r` units
remaining, has ended after `m` units in the state `s`: the CPU is free, and
the record is complete with `completion = ct0 + m` when `r <= q` and at the
tail of the ready queue otherwise. -/
structure SliceEnd (s : RR_Scheduler) (c : Nat) (q r ct0 busy0 done0 : Int) (m : Nat) : Prop where
  running : s.currently_running = none
  remaining : (getP s.processes c).remaining = r - (m : Int)
  current_time : s.current_time = ct0 + (m : Int)
  total_busy_time : s.total_busy_time = busy0 + (m : Int)
  complete : r ≤ q → (getP s.processes c).remaining = 0 ∧
    (getP s.processes c).completion = ct0 + (m : Int) ∧ s.completed = done0 + 1
  requeue : q < r → (getP s.processes c).remaining = r - q ∧ s.completed = done0 ∧
    ∃ front, s.ready_queue = front ++ [c]

end RR_Scheduler

/-! ## Specification vocabulary -/

/-- Fields of a record that only dispatch, execution and completion write. -/
def Process.core (p : Process) : Int × Int × Int × Int × Int × Int × Bool :=
  (p.pid, p.arrival, p.burst, p.remaining, p.start_time, p.completion, p.started)

/-- Two process vectors agree on length and on the `core` of every record. -/
def CoreEq (ps qs : List Process) : Prop :=
  qs.length = ps.length ∧ ∀ i, (getP qs i).core = (getP ps i).core

/-- Every record of the vector has a level below `nq`. -/
def PrioBound (nq : Nat) (ps : List Process) : Prop :=
  ∀ i, (getP ps i).priority < nq

/-- The record `i` is referenced by one of the queues `0 .. num_queues - 1`. -/
def MLFQ_Scheduler.waiting (s : MLFQ_Scheduler) (i : Nat) : Prop :=
  ∃ q, q < s.config.num_queues ∧ i ∈ qget s.queues q

/-- The test of `add_arrivals` on the record `i`. -/
def MLFQ_Scheduler.arriving (s : MLFQ_Scheduler) (i : Nat) : Prop :=
  (getP s.all_processes i).arrival = s.current_time ∧
  (getP s.all_processes i).started = false ∧ (getP s.all_processes i).start_time = -1

/-- Relation between the engine before and after a stage that writes only
queue entries, the running slot, the event counter and the level and counter
fields of records: the clock, the counters of completed and busy units, the
timeline, the number of queue slots and the `core` of every record are
unchanged, and levels stay below `num_queues`. -/
structure Frame (s t : MLFQ_Scheduler) : Prop where
  config : t.config = s.config
  current_time : t.current_time = s.current_time
  completed : t.completed = s.completed
  total_busy_time : t.total_busy_time = s.total_busy_time
  timeline_pid : t.timeline_pid = s.timeline_pid
  timeline_queue : t.timeline_queue = s.timeline_queue
  qlen : t.queues.length = s.queues.length
  core : CoreEq s.all_processes t.all_processes
  prio : PrioBound s.config.num_queues s.all_processes →
    PrioBound s.config.num_queues t.all_processes

/-- A `Frame` stage that moreover lets no entry appear from nowhere, loses no
entry of an unfinished record, and at most clears the running slot. -/
structure Shuffle (s t : MLFQ_Scheduler) extends Frame s t : Prop where
  context_switches_le : s.context_switches ≤ t.context_switches
  back : ∀ i, t.waiting i ∨ t.currently_running = some i →
    s.waiting i ∨ s.currently_running = some i
  fwd : ∀ i, 0 < (getP s.all_processes i).remaining →
    s.waiting i ∨ s.currently_running = some i →
    t.waiting i ∨ t.currently_running = some i
  running : ∀ c, t.currently_running = some c → s.currently_running = some c

/-- Number of records of the vector with `remaining = 0`. -/
def doneCount (ps : List Process) : Nat :=
  ps.countP (fun p => decide (p.remaining = 0))

/-- Sum of the `remaining` fields of the vector. -/
def totalRemaining (ps : List Process) : Int :=
  (ps.map (fun p => p.remaining)).sum

/-- Latest arrival time of the vector, `0` for the empty vector. -/
def maxArrival (ps : List Process) : Int :=
  (ps.map (fun p => p.arrival)).foldl max 0

/-- A process list as the engines expect it: no arrival before time `0` and
every burst at least `1`. -/
def ValidInput (procs : List Process) : Prop :=
  ∀ p ∈ procs, 0 ≤ p.arrival ∧ 1 ≤ p.burst

/-- A configuration as the engine expects it: between one level and as many as
`queues` has slots, one quantum `>= 0` per level, and positive aging threshold,
aging check interval and boost interval. -/
def ValidConfig (cfg : Config) : Prop :=
  1 ≤ cfg.num_queues ∧ cfg.num_queues ≤ QUEUE_SLOTS ∧
  cfg.time_quantum.length = cfg.num_queues ∧ (∀ x ∈ cfg.time_quantum, 0 ≤ x) ∧
  0 < cfg.aging_threshold ∧ 0 < cfg.aging_check_interval ∧ 0 < cfg.boost_interval

/-- Invariant of the loop of `run` for the start vector `P` and the
configuration `cfg`. `T` is the admission horizon: the records with
`arrival < T` have been admitted. At the head of the loop body `T` is
`current_time`; from `add_arrivals` to the end of the body it is
`current_time + 1`. -/
structure Inv (P : List Process) (cfg : Config) (T : Int) (s : MLFQ_Scheduler) : Prop where
  config : s.config = cfg
  qlen : s.queues.length = QUEUE_SLOTS
  len : s.all_processes.length = P.length
  static : ∀ i, (getP s.all_processes i).pid = (getP P i).pid ∧
    (getP s.all_processes i).arrival = (getP P i).arrival ∧
    (getP s.all_processes i).burst = (getP P i).burst
  prio : PrioBound cfg.num_queues s.all_processes
  active_lt : ∀ i, s.waiting i ∨ s.currently_running = some i →
    i < P.length ∧ (getP s.all_processes i).arrival < T
  running_pos : ∀ c, s.currently_running = some c →
    0 < (getP s.all_processes c).remaining ∧ (getP s.all_processes c).started = true
  rem_range : ∀ i, 0 ≤ (getP s.all_processes i).remaining ∧
    (getP s.all_processes i).remaining ≤ (getP s.all_processes i).burst
  fresh : ∀ i, i < P.length → T ≤ (getP s.all_processes i).arrival →
    (getP s.all_processes i).remaining = (getP s.all_processes i).burst ∧
    (getP s.all_processes i).started = false ∧ (getP s.all_processes i).start_time = -1
  no_lost : ∀ i, i < P.length → (getP s.all_processes i).arrival < T →
    0 < (getP s.all_processes i).remaining → s.waiting i ∨ s.currently_running = some i
  completed_eq : s.completed = (doneCount s.all_processes : Int)

/-- Every record referenced by a queue or by the running slot is unfinished. -/
def Live (s : MLFQ_Scheduler) : Prop :=
  ∀ i, s.waiting i ∨ s.currently_running = some i → 0 < (getP s.all_processes i).remaining

/-- Effect of the completion and demotion check on the engine `s` whose
running record `c` has just executed one unit; `t` is the engine after it. -/
structure FinishSpec (s t : MLFQ_Scheduler) (c : Nat) : Prop where
  config : t.config = s.config
  qlen : t.queues.length = s.queues.length
  len : t.all_processes.length = s.all_processes.length
  others : ∀ i, i ≠ c → getP t.all_processes i = getP s.all_processes i
  pid : (getP t.all_processes c).pid = (getP s.all_processes c).pid
  arrival : (getP t.all_processes c).arrival = (getP s.all_processes c).arrival
  burst : (getP t.all_processes c).burst = (getP s.all_processes c).burst
  remaining : (getP t.all_processes c).remaining = (getP s.all_processes c).remaining
  started : (getP t.all_processes c).started = (getP s.all_processes c).started
  start_time : (getP t.all_processes c).start_time = (getP s.all_processes c).start_time
  completion : (getP t.all_processes c).completion =
    if (getP s.all_processes c).remaining = 0 then s.current_time + 1
    else (getP s.all_processes c).completion
  prio : PrioBound s.config.num_queues t.all_processes
  completed : t.completed =
    if (getP s.all_processes c).remaining = 0 then s.completed + 1 else s.completed
  current_time : t.current_time = s.current_time + 1
  total_busy_time : t.total_busy_time = s.total_busy_time
  timeline_pid : t.timeline_pid = s.timeline_pid
  timeline_queue : t.timeline_queue = s.timeline_queue
  slot : (getP s.all_processes c).remaining = 0 → t.currently_running = none
  place : (t.currently_running = none ∧ (getP s.all_processes c).remaining = 0 ∧
      ∀ i, t.waiting i ↔ s.waiting i) ∨
    (t.currently_running = none ∧ (getP s.all_processes c).remaining ≠ 0 ∧
      ∀ i, t.waiting i ↔ (s.waiting i ∨ i = c)) ∨
    (t.currently_running = s.currently_running ∧ (getP s.all_processes c).remaining ≠ 0 ∧
      ∀ i, t.waiting i ↔ s.waiting i)

/-- One pass through the loop body that recorded an idle unit. -/
structure IdleTick (s t : MLFQ_Scheduler) : Prop where
  core : CoreEq s.all_processes t.all_processes
  completed : t.completed = s.completed
  current_time : t.current_time = s.current_time + 1
  total_busy_time : t.total_busy_time = s.total_busy_time
  timeline_pid : t.timeline_pid = s.timeline_pid ++ [0]
  timeline_queue : t.timeline_queue = s.timeline_queue ++ [-1]
  future : ∃ i, i < s.all_processes.length ∧ s.current_time < (getP s.all_processes i).arrival
  idle : ∀ i, i < s.all_processes.length → (getP s.all_processes i).arrival ≤ s.current_time →
    (getP s.all_processes i).remaining = 0

/-- One pass through the loop body that executed one unit of the record `c`. -/
structure BusyTick (s t : MLFQ_Scheduler) (c : Nat) : Prop where
  lt : c < s.all_processes.length
  pos : 0 < (getP s.all_processes c).remaining
  arrived : (getP s.all_processes c).arrival ≤ s.current_time
  len : t.all_processes.length = s.all_processes.length
  others : ∀ i, i ≠ c → (getP t.all_processes i).core = (getP s.all_processes i).core
  pid : (getP t.all_processes c).pid = (getP s.all_processes c).pid
  arrival : (getP t.all_processes c).arrival = (getP s.all_processes c).arrival
  burst : (getP t.all_processes c).burst = (getP s.all_processes c).burst
  remaining : (getP t.all_processes c).remaining = (getP s.all_processes c).remaining - 1
  started : (getP t.all_processes c).started = true
  start_time : (getP t.all_processes c).start_time =
    if (getP s.all_processes c).started = true then (getP s.all_processes c).start_time
    else s.current_time
  completion : (getP t.all_processes c).completion =
    if (getP s.all_processes c).remaining = 1 then s.current_time + 1
    else (getP s.all_processes c).completion
  completed : t.completed =
    if (getP s.all_processes c).remaining = 1 then s.completed + 1 else s.completed
  current_time : t.current_time = s.current_time + 1
  total_busy_time : t.total_busy_time = s.total_busy_time + 1
  timeline_pid : t.timeline_pid = s.timeline_pid ++ [(getP s.all_processes c).pid]
  timeline_queue : ∃ level : Nat, level < s.config.num_queues ∧
    t.timeline_queue = s.timeline_queue ++ [(level : Int)]

/-- The engine `t` stands at the head of the loop of `run` started in `s0`:
`t` is `s0`, or `t` results from one pass through the loop body from such a
state in which the loop condition holds. -/
inductive Reaches (s0 : MLFQ_Scheduler) : MLFQ_Scheduler → Prop where
  | start : Reaches s0 s0
  | tick (s t : MLFQ_Scheduler) : Reaches s0 s →
      s.completed < (s.all_processes.length : Int) → s.step = MLFQ_Scheduler.Outcome.next t →
      Reaches s0 t

/-- Number of loop iterations that suffices for `run` on the list `procs`:
the sum of the bursts plus the latest arrival time. -/
def MLFQ_Scheduler.budget (procs : List Process) : Nat :=
  ((procs.map (fun p => p.burst)).sum + maxArrival procs).toNat

/-- Bound on the loop iterations still to come: the units still to execute
plus the idle units that can still occur. -/
def MLFQ_Scheduler.measure (P : List Process) (s : MLFQ_Scheduler) : Int :=
  totalRemaining s.all_processes + max 0 (maxArrival P - s.current_time)

/-- The timeline as the list of its `(pid, level)` units. -/
def MLFQ_Scheduler.timeline (s : MLFQ_Scheduler) : List (Int × Int) :=
  s.timeline_pid.zip s.timeline_queue

/-- The unit recorded for an idle time unit. -/
def IDLE : Int × Int := (0, -1)

/-- Invariant of the loop of `run` on the clock, the timeline and the
completion times. -/
structure TInv (s : MLFQ_Scheduler) : Prop where
  time_nonneg : 0 ≤ s.current_time
  tl_pid : (s.timeline_pid.length : Int) = s.current_time
  tl_queue : s.timeline_queue.length = s.timeline_pid.length
  completion_le : ∀ i, i < s.all_processes.length → (getP s.all_processes i).remaining = 0 →
    1 ≤ (getP s.all_processes i).completion ∧
    (getP s.all_processes i).completion ≤ s.current_time
  last : s.all_processes ≠ [] → s.completed = (s.all_processes.length : Int) →
    ∃ i, i < s.all_processes.length ∧ (getP s.all_processes i).completion = s.current_time
  empty : s.all_processes = [] → s.current_time = 0

/-- Configuration of Scenario C with the aging check interval `aci` and the
boost interval `bi`. -/
def scenarioC (aci bi : Int) : Config :=
  { num_queues := 2, time_quantum := [2, 0], aging_threshold := 3,
    aging_check_interval := aci, boost_interval := bi }

/-- Process list of Scenario C: `P1(arrival 0, burst 10)`, `P2(arrival 0, burst 1)`. -/
def scenarioC_procs : List Process := [Process.new 1 0 10, Process.new 2 0 1]

/-- The engine after `n` passes through the loop body from the state `s`; a
pass that does not reach the end of the body leaves the state as it is. -/
def MLFQ_Scheduler.after : Nat → MLFQ_Scheduler → MLFQ_Scheduler
  | 0, s => s
  | n + 1, s =>
    match s.step with
    | MLFQ_Scheduler.Outcome.next s1 => MLFQ_Scheduler.after n s1
    | _ => s

/-- The engine `s` with the aging check interval `aci` and the boost interval
`bi` in place of those of its configuration. -/
def MLFQ_Scheduler.withIntervals (s : MLFQ_Scheduler) (aci bi : Int) : MLFQ_Scheduler :=
  { s with config := { s.config with aging_check_interval := aci, boost_interval := bi } }

/-- The result `o` of a pass through the loop body with the intervals `aci`
and `bi` in place of those of its configuration. -/
def MLFQ_Scheduler.Outcome.withIntervals (o : MLFQ_Scheduler.Outcome) (aci bi : Int) :
    MLFQ_Scheduler.Outcome :=
  match o with
  | MLFQ_Scheduler.Outcome.next s => MLFQ_Scheduler.Outcome.next (s.withIntervals aci bi)
  | MLFQ_Scheduler.Outcome.exit s => MLFQ_Scheduler.Outcome.exit (s.withIntervals aci bi)
  | MLFQ_Scheduler.Outcome.fault => MLFQ_Scheduler.Outcome.fault

/-- Loop-head state number `t` of Scenario C with the intervals `12` and `12`. -/
def scenarioC_state (t : Nat) : MLFQ_Scheduler :=
  MLFQ_Scheduler.after t (MLFQ_Scheduler.init scenarioC_procs (scenarioC 12 12))

/-- Process list of Scenario B: `P1(0, 8)`, `P2(1, 3)`, `P3(2, 1)`. -/
def scenarioB_procs : List Process := [Process.new 1 0 8, Process.new 2 1 3, Process.new 3 2 1]

/-- Process list of Scenario A: `P1(arrival 0, burst 5)`, `P2(arrival 1, burst 3)`. -/
def scenarioA_procs : List Process := [Process.new 1 0 5, Process.new 2 1 3]

/-- A configuration with eleven levels, one more than `queues` has slots. -/
def elevenLevels : Config :=
  { num_queues := 11, time_quantum := List.replicate 11 1, aging_threshold := 1,
    aging_check_interval := 1, boost_interval := 1 }

/-- Quotient `a / b` of two `double`s as a number: with the divisor `0` the
program computes an infinity or a NaN, which is `none` here. -/
def fdiv (a b : ℚ) : Option ℚ := if b = 0 then none else some (a / b)

/-- The values that a metrics block divides by, one for each of its four
quotients. -/
structure Divisors where
  avg_turnaround : Int
  avg_waiting : Int
  throughput : Int
  cpu_util : Int
  deriving DecidableEq

/-- A metrics block from the numerators and divisors of its four quotients;
`none` when one of the quotients is not a number. -/
def checked_metrics (tat wt n busy : ℚ) (d : Divisors) (cs : Int) : Option Metrics :=
  match fdiv tat (d.avg_turnaround : ℚ), fdiv wt (d.avg_waiting : ℚ),
    fdiv n (d.throughput : ℚ), fdiv (100 * busy) (d.cpu_util : ℚ) with
  | some a, some b, some c, some e =>
    some { avg_turnaround := a, avg_waiting := b, throughput := c, cpu_util := e,
           context_switches := cs }
  | _, _, _, _ => none

/-- The divisors of `MLFQ_Scheduler::get_metrics`: `all_processes.size()` for
the two averages and `max(1, last_completion)` for throughput and
utilisation. -/
def MLFQ_Scheduler.get_metrics_divisors (s : MLFQ_Scheduler) : Divisors :=
  let acc := s.all_processes.foldl MLFQ_Scheduler.metrics_acc (0, 0, 0)
  { avg_turnaround := (s.all_processes.length : Int),
    avg_waiting := (s.all_processes.length : Int),
    throughput := max 1 acc.2.2,
    cpu_util := max 1 acc.2.2 }

/-- Method `get_metrics` with every quotient checked. -/
def MLFQ_Scheduler.get_metrics_checked (s : MLFQ_Scheduler) : Option Metrics :=
  let acc := s.all_processes.foldl MLFQ_Scheduler.metrics_acc (0, 0, 0)
  checked_metrics acc.1 acc.2.1 (s.all_processes.length : ℚ) (s.total_busy_time : ℚ)
    s.get_metrics_divisors s.context_switches

/-- The divisors of the metrics block at the end of `run` of the three
baseline engines: `processes.size()` for the two averages and
`last_completion` as it is for throughput and utilisation. -/
def baseline_divisors (processes : List Process) : Divisors :=
  let acc := processes.foldl baseline_acc (0, 0, 0)
  { avg_turnaround := (processes.length : Int),
    avg_waiting := (processes.length : Int),
    throughput := acc.2.2,
    cpu_util := acc.2.2 }

/-- The metrics with each of the four quotients replaced by the `double`
nearest to it. -/
def Metrics.as_double (m : Metrics) : Metrics :=
  { avg_turnaround := roundDouble m.avg_turnaround,
    avg_waiting := roundDouble m.avg_waiting,
    throughput := roundDouble m.throughput,
    cpu_util := roundDouble m.cpu_util,
    context_switches := m.context_switches }

/-- The metrics block of the baseline engines with every quotient checked:
`none` when a divisor is `0`, and otherwise the `double` values that
`baseline_metrics` gives. -/
def baseline_metrics_checked (processes : List Process)
    (total_busy_time context_switches : Int) : Option Metrics :=
  let acc := processes.foldl baseline_acc (0, 0, 0)
  (checked_metrics acc.1 acc.2.1 (processes.length : ℚ) (total_busy_time : ℚ)
    (baseline_divisors processes) context_switches).map Metrics.as_double

/-- Every divisor of the block is at least one. -/
def Divisors.positive (d : Divisors) : Prop :=
  1 ≤ d.avg_turnaround ∧ 1 ≤ d.avg_waiting ∧ 1 ≤ d.throughput ∧ 1 ≤ d.cpu_util

/-! ## Stages of the loop body and the exclusivity invariant -/

/-- The dispatch block of `run` when `get_highest_priority_queue` returns
`active_queue` and `queues[active_queue]` is `c :: rest`: the engine after the
block, before the timeline record. -/
def MLFQ_Scheduler.take (s : MLFQ_Scheduler) (active_queue c : Nat) (rest : List Nat) :
    MLFQ_Scheduler :=
  let p := getP s.all_processes c
  let ps := if p.started = false then
      setP s.all_processes c (fun x => { x with started := true, start_time := s.current_time })
    else s.all_processes
  { s with
    all_processes := ps,
    queues := qset s.queues active_queue rest,
    currently_running := some c,
    context_switches := s.context_switches + 1 }

/-- The dispatch block of `run` when it dispatches: the engine after it and
the record dispatched, `none` when no queue has an entry. -/
def MLFQ_Scheduler.take_front (s : MLFQ_Scheduler) : Option (MLFQ_Scheduler × Nat) :=
  match s.get_highest_priority_queue with
  | none => none
  | some active_queue =>
    match qget s.queues active_queue with
    | [] => none
    | c :: rest => some (s.take active_queue c rest, c)

/-- The engine at the timeline record of the loop body together with the
record that executes in the pass: the running record when the test
`currently_running == nullptr || currently_running->remaining == 0` fails, the
record dispatched otherwise; `none` when the pass does not execute. -/
def MLFQ_Scheduler.on_cpu (s : MLFQ_Scheduler) : Option (MLFQ_Scheduler × Nat) :=
  match s.currently_running with
  | none => s.take_front
  | some c => if (getP s.all_processes c).remaining = 0 then s.take_front else some (s, c)

/-- The loop body from the timeline record through `update_waiting_times()`,
with `currently_running` pointing to the record `c`: the engine at the
completion and demotion check. -/
def MLFQ_Scheduler.before_check (s : MLFQ_Scheduler) (c : Nat) : MLFQ_Scheduler :=
  let p := getP s.all_processes c
  MLFQ_Scheduler.update_waiting_times
    { s with
      timeline_pid := s.timeline_pid ++ [p.pid],
      timeline_queue := s.timeline_queue ++ [(p.priority : Int)],
      all_processes := setP s.all_processes c
        (fun x => { x with remaining := x.remaining - 1,
                           time_in_current_quantum := x.time_in_current_quantum + 1 }),
      total_busy_time := s.total_busy_time + 1 }

/-- Number of references to the record `i` in an array of queues. -/
def refsOf (qs : List (List Nat)) (i : Nat) : Nat :=
  (qs.map (fun q => q.count i)).sum

/-- Number of references to the record `i` in the queues of the engine. -/
def MLFQ_Scheduler.refs (s : MLFQ_Scheduler) (i : Nat) : Nat := refsOf s.queues i

/-- Exclusivity of the queues and the running slot: no record is referenced
twice, a record referenced by `queues[q]` has level `q` and is unfinished, the
running record is referenced by no queue, and a record that has never been
dispatched has level `0`. -/
structure XInv (s : MLFQ_Scheduler) : Prop where
  once : ∀ i, s.refs i ≤ 1
  level : ∀ q i, i ∈ qget s.queues q → (getP s.all_processes i).priority = q
  live : ∀ q i, i ∈ qget s.queues q → 0 < (getP s.all_processes i).remaining
  running : ∀ c, s.currently_running = some c → s.refs c = 0
  unstarted : ∀ i, (getP s.all_processes i).started = false →
    (getP s.all_processes i).priority = 0

/-- Invariant of the first loop of `apply_priority_boost`, on the engine
together with the vector `all_waiting`: what `XInv` says of the queues holds of
the queues and `all_waiting` taken together, and the records of `all_waiting`
have level `0` and both counters `0`. -/
structure BInv (acc : MLFQ_Scheduler × List Nat) : Prop where
  once : ∀ i, acc.1.refs i + acc.2.count i ≤ 1
  level : ∀ q i, i ∈ qget acc.1.queues q → (getP acc.1.all_processes i).priority = q
  reset : ∀ i, i ∈ acc.2 → (getP acc.1.all_processes i).priority = 0 ∧
    (getP acc.1.all_processes i).time_in_current_quantum = 0 ∧
    (getP acc.1.all_processes i).time_in_queue = 0
  live : ∀ i, 0 < acc.1.refs i ∨ i ∈ acc.2 → 0 < (getP acc.1.all_processes i).remaining
  idx : ∀ i, 0 < acc.1.refs i ∨ i ∈ acc.2 → i < acc.1.all_processes.length
  running : ∀ c, acc.1.currently_running = some c → acc.1.refs c = 0 ∧ c ∉ acc.2
  unstarted : ∀ i, (getP acc.1.all_processes i).started = false →
    (getP acc.1.all_processes i).priority = 0

/-- Effect of `apply_priority_boost` on the engine `s`, with result `t`: the
queues of the levels from `1` on are empty, the records they referenced are in
`queues[0]` at level `0` with both counters `0`, `queues[0]` keeps its entries
in front, the running slot is unchanged, and the running record is at level
`0`, with its quantum counter reset when its level was above `0`. -/
structure BoostSpec (s t : MLFQ_Scheduler) : Prop where
  emptied : ∀ l, 1 ≤ l → qget t.queues l = []
  moved : ∀ l i, 1 ≤ l → i ∈ qget s.queues l →
    i ∈ qget t.queues 0 ∧ (getP t.all_processes i).priority = 0 ∧
    (getP t.all_processes i).time_in_current_quantum = 0 ∧
    (getP t.all_processes i).time_in_queue = 0
  front : ∃ back, qget t.queues 0 = qget s.queues 0 ++ back
  running : t.currently_running = s.currently_running
  run_reset : ∀ c, s.currently_running = some c →
    (getP t.all_processes c).priority = 0 ∧
    (0 < (getP s.all_processes c).priority →
      (getP t.all_processes c).time_in_current_quantum = 0) ∧
    ((getP s.all_processes c).priority = 0 →
      getP t.all_processes c = getP s.all_processes c)

/-- Every record referenced by a queue has the index of that queue as its
level. -/
def MLFQ_Scheduler.LevelsAgree (s : MLFQ_Scheduler) : Prop :=
  ∀ q i, i ∈ qget s.queues q → (getP s.all_processes i).priority = q

/-- State *waiting* of the record `i`: exactly one reference in the queues,
and it is in the queue of the level of the record. -/
def MLFQ_Scheduler.IsWaiting (s : MLFQ_Scheduler) (i : Nat) : Prop :=
  s.refs i = 1 ∧ i ∈ qget s.queues (getP s.all_processes i).priority

/-- State *running* of the record `i`: it is in the running slot and in no
queue. -/
def MLFQ_Scheduler.IsRunning (s : MLFQ_Scheduler) (i : Nat) : Prop :=
  s.currently_running = some i ∧ s.refs i = 0

/-- State *completed* of the record `i`: nothing remains of its burst and it is
neither in a queue nor in the running slot. -/
def MLFQ_Scheduler.IsCompleted (s : MLFQ_Scheduler) (i : Nat) : Prop :=
  (getP s.all_processes i).remaining = 0 ∧ s.refs i = 0 ∧ s.currently_running ≠ some i

/-- All fields of a record but the aging counter `time_in_queue`. -/
def Process.sched (p : Process) :
    (Int × Int × Int × Int × Int × Int × Bool) × Nat × Int :=
  (p.core, p.priority, p.time_in_current_quantum)

/-- The loop invariant of `run` together with the exclusivity of the queues
and the running slot. -/
structure WF (P : List Process) (cfg : Config) (T : Int) (s : MLFQ_Scheduler) : Prop where
  inv : Inv P cfg T s
  xinv : XInv s

/-- The record `b` is the record `a`, or it is `a` moved to a lower level
with its quantum counter reset. -/
def Lower (a b : Process) : Prop :=
  b = a ∨ (b.priority < a.priority ∧ b.time_in_current_quantum = 0 ∧ b.core = a.core)

/-- Relation between the process vectors before and after a stage that at
most lowers levels. -/
def Lowers (ps qs : List Process) : Prop :=
  qs.length = ps.length ∧ ∀ i, Lower (getP ps i) (getP qs i)

/-- Bounds of the engine state: every record has `0 <= remaining <= burst` and
a level below `num_queues`, and every level has a slot of `queues` and an entry
of `time_quantum`. -/
def MLFQ_Scheduler.Bounded (s : MLFQ_Scheduler) : Prop :=
  (∀ i, 0 ≤ (getP s.all_processes i).remaining ∧
    (getP s.all_processes i).remaining ≤ (getP s.all_processes i).burst ∧
    (getP s.all_processes i).priority < s.config.num_queues) ∧
  s.config.num_queues ≤ s.queues.length ∧
  s.config.time_quantum.length = s.config.num_queues

/-- The loop condition of `run` holds in `s` and the pass through the loop
body from `s` reaches its end. -/
def MLFQ_Scheduler.advances (s : MLFQ_Scheduler) : Bool :=
  decide (s.completed < (s.all_processes.length : Int)) &&
  match s.step with
  | MLFQ_Scheduler.Outcome.next _ => true
  | _ => false

/-- Loop-head state number `t` of Scenario C with the aging check interval
`12` and the boost interval `2`, so that the boost runs at the times 2, 4, 6,
8 and 10. -/
def boost_state (t : Nat) : MLFQ_Scheduler :=
  MLFQ_Scheduler.after t (MLFQ_Scheduler.init scenarioC_procs (scenarioC 12 2))

/-- A configuration with three levels, quanta `2`, `3` and `0`, and aging and
boost parameters that stay inert for a hundred time units. -/
def threeLevels : Config :=
  { num_queues := 3, time_quantum := [2, 3, 0], aging_threshold := 100,
    aging_check_interval := 100, boost_interval := 100 }

/-- Process list for a preemption: `P1(arrival 0, burst 10)` is at level 1 when
`P2(arrival 3, burst 1)` arrives. -/
def preempt_procs : List Process := [Process.new 1 0 10, Process.new 2 3 1]

/-- Loop-head state number `t` of the run on `preempt_procs` with the
configuration `threeLevels`. -/
def preempt_state (t : Nat) : MLFQ_Scheduler :=
  MLFQ_Scheduler.after t (MLFQ_Scheduler.init preempt_procs threeLevels)

/-- Process list for an aging promotion: `P1(arrival 0, burst 10)` and
`P2(arrival 0, burst 10)`, which both reach level 1 of Scenario C. -/
def aging_procs : List Process := [Process.new 1 0 10, Process.new 2 0 10]

/-- Loop-head state number `t` of the run on `aging_procs` with the
configuration of Scenario C, aging check interval `1` and boost interval `50`:
the aging sweep runs in every pass from time 1 on. -/
def aging_state (t : Nat) : MLFQ_Scheduler :=
  MLFQ_Scheduler.after t (MLFQ_Scheduler.init aging_procs (scenarioC 1 50))

/-- A sequence of passes of the run from the loop-head state `s` to the
loop-head state `t` in each of which neither the aging sweep nor the boost
moves the record `c` (its level after the stages up to the preemption check
is its level at the head of the pass) and after each of which `c` is
unfinished. -/
inductive QuietRun (c : Nat) (s : MLFQ_Scheduler) : MLFQ_Scheduler → Prop where
  | start : QuietRun c s s
  | tick (t u : MLFQ_Scheduler) : QuietRun c s t →
      t.completed < (t.all_processes.length : Int) →
      t.step = MLFQ_Scheduler.Outcome.next u →
      (getP t.add_arrivals.housekeeping.all_processes c).priority =
        (getP t.all_processes c).priority →
      0 < (getP u.all_processes c).remaining →
      QuietRun c s u

/-! ## Invariants on the order of events in time -/

/-- Invariant of the loop of `run` on the order of arrival, start, executed
units and completion of every record: a record that has not started has its
full burst left; a started record started at or after its arrival, and the
units it has executed fit between its start and the clock; a finished record
has `start_time + burst <= completion`. -/
structure OInv (s : MLFQ_Scheduler) : Prop where
  unstarted : ∀ i, i < s.all_processes.length → (getP s.all_processes i).started = false →
    (getP s.all_processes i).remaining = (getP s.all_processes i).burst
  started : ∀ i, i < s.all_processes.length → (getP s.all_processes i).started = true →
    (getP s.all_processes i).arrival ≤ (getP s.all_processes i).start_time ∧
    (getP s.all_processes i).start_time +
      ((getP s.all_processes i).burst - (getP s.all_processes i).remaining) ≤ s.current_time
  finished : ∀ i, i < s.all_processes.length → (getP s.all_processes i).started = true →
    (getP s.all_processes i).remaining = 0 →
    (getP s.all_processes i).start_time + (getP s.all_processes i).burst ≤
      (getP s.all_processes i).completion

/-- Invariant of the loop of `run` on the idle units of the timeline: when the
unit at the time `t` is the idle sentinel, some record arrives after `t`, and
every record that has arrived by `t` is finished with `completion <= t`. -/
def IdleInv (s : MLFQ_Scheduler) : Prop :=
  ∀ t : Nat, s.timeline[t]? = some IDLE →
    (∃ i, i < s.all_processes.length ∧ (t : Int) < (getP s.all_processes i).arrival) ∧
    ∀ i, i < s.all_processes.length → (getP s.all_processes i).arrival ≤ (t : Int) →
      (getP s.all_processes i).remaining = 0 ∧ (getP s.all_processes i).completion ≤ (t : Int)

/-- Process list with an idle gap: `P1(arrival 0, burst 1)` and
`P2(arrival 3, burst 1)`, so that the units 1 and 2 are idle. -/
def gap_procs : List Process := [Process.new 1 0 1, Process.new 2 3 1]

/-- The quantum bound on a process vector for the configuration `cfg`: every
unfinished record whose level has a positive quantum has used less than that
quantum. -/
def QuantumBound (cfg : Config) (ps : List Process) : Prop :=
  ∀ i, 0 < (getP ps i).remaining → 0 < cfg.quantum (getP ps i).priority →
    (getP ps i).time_in_current_quantum < cfg.quantum (getP ps i).priority

/-! ## Transition events of a pass -/

/-- The guard of the preemption block of `run` in the engine `s`:
`currently_running != nullptr && currently_running->remaining > 0` and
`should_preempt(running_queue)`. -/
def MLFQ_Scheduler.preempt_guard (s : MLFQ_Scheduler) : Bool :=
  match s.currently_running with
  | some c => decide (0 < (getP s.all_processes c).remaining) &&
      s.should_preempt (getP s.all_processes c).priority
  | none => false

/-- The dispatch block of `run` dispatches in the engine `s`: its guard
`currently_running == nullptr || currently_running->remaining == 0` holds and
`get_highest_priority_queue()` is not `-1`. -/
def MLFQ_Scheduler.dispatch_guard (s : MLFQ_Scheduler) : Bool :=
  (match s.currently_running with
   | some c => decide ((getP s.all_processes c).remaining = 0)
   | none => true) && s.get_highest_priority_queue.isSome

/-- The guard of the `else if` branch of the completion and demotion check for
the running record `c`: the record is unfinished, the quantum of its level is
positive and used up. The branch does not test the level. -/
def MLFQ_Scheduler.requeue_guard (s : MLFQ_Scheduler) (c : Nat) : Bool :=
  decide ((getP s.all_processes c).remaining ≠ 0 ∧
    0 < s.config.quantum (getP s.all_processes c).priority ∧
    s.config.quantum (getP s.all_processes c).priority ≤
      (getP s.all_processes c).time_in_current_quantum)

/-- The pass from the loop-head state `s` preempts the running record. -/
def MLFQ_Scheduler.preempts (s : MLFQ_Scheduler) : Bool :=
  s.add_arrivals.purge.maybe_aging.maybe_boost.preempt_guard

/-- The pass from the loop-head state `s` dispatches a record. -/
def MLFQ_Scheduler.dispatches (s : MLFQ_Scheduler) : Bool :=
  s.add_arrivals.housekeeping.dispatch_guard

/-- The pass from the loop-head state `s` requeues the record that executed
because its quantum is used up. -/
def MLFQ_Scheduler.requeues (s : MLFQ_Scheduler) : Bool :=
  match s.add_arrivals.housekeeping.on_cpu with
  | some (w, c) => (MLFQ_Scheduler.before_check w c).requeue_guard c
  | none => false

/-- Number of transition events of the pass from the loop-head state `s`: one
for a preemption, one for a dispatch and one for a quantum-expiry requeue. -/
def MLFQ_Scheduler.events (s : MLFQ_Scheduler) : Int :=
  (if s.preempts then 1 else 0) + (if s.dispatches then 1 else 0) +
    (if s.requeues then 1 else 0)

/-- The records that `add_arrivals` admits in the engine `s`: the indices of
the process vector, in its order, that pass the test of `add_arrivals`. -/
def MLFQ_Scheduler.admitted (s : MLFQ_Scheduler) : List Nat :=
  (List.range s.all_processes.length).filter (fun i =>
    decide ((getP s.all_processes i).arrival = s.current_time ∧
      (getP s.all_processes i).started = false ∧ (getP s.all_processes i).start_time = -1))

/-! ## The aging sweep -/

/-- The test of `apply_aging` on a queue entry `i` in the engine `s`:
`p != currently_running && p->time_in_queue >= config.aging_threshold`. -/
def MLFQ_Scheduler.aged (s : MLFQ_Scheduler) (i : Nat) : Bool :=
  decide (some i ≠ s.currently_running ∧
    s.config.aging_threshold ≤ (getP s.all_processes i).time_in_queue)

/-- The engine `t` results from the engine `s` by the passes of the outer loop
of `apply_aging` for the levels `1 .. a - 1`: a queue below level `a - 1` has
lost its aged entries and got the aged entries of the queue above at its
tail, the queue of level `a - 1` has lost its aged entries, the queues from
level `a` on are untouched; the aged records of the levels done are reset by
`aging_reset`, every other record is as in `s`. -/
structure AgedTo (s : MLFQ_Scheduler) (a : Nat) (t : MLFQ_Scheduler) : Prop where
  below : ∀ l, l + 1 < a → qget t.queues l =
    (qget s.queues l).filter (fun i => decide (l = 0) || !s.aged i) ++
      (qget s.queues (l + 1)).filter s.aged
  last : ∀ l, l + 1 = a → qget t.queues l =
    (qget s.queues l).filter (fun i => decide (l = 0) || !s.aged i)
  above : ∀ l, a ≤ l → qget t.queues l = qget s.queues l
  promoted : ∀ l i, 1 ≤ l → l < a → i ∈ qget s.queues l → s.aged i = true →
    getP t.all_processes i = MLFQ_Scheduler.aging_reset l (getP s.all_processes i)
  kept : ∀ i, (∀ l, 1 ≤ l → l < a → i ∈ qget s.queues l → s.aged i = false) →
    getP t.all_processes i = getP s.all_processes i
  config : t.config = s.config
  running : t.currently_running = s.currently_running
  qlen : t.queues.length = s.queues.length
  plen : t.all_processes.length = s.all_processes.length

/-- Effect of the aging sweep `apply_aging` on the engine `s`, with result
`t`: the queue of a level keeps its entries that are not aged in their order
(the queue of level 0 keeps all), followed by the aged entries of the queue of
the next level in their order; an aged record of a level `l >= 1` is reset by
after the sweep the record it was before with `priority = l - 1`,
`time_in_queue = 0` and `time_in_current_quantum = 0`; every other record and
the running slot are unchanged. -/
structure SweepSpec (s t : MLFQ_Scheduler) : Prop where
  queues : ∀ l, l < s.config.num_queues → qget t.queues l =
    (qget s.queues l).filter (fun i => decide (l = 0) || !s.aged i) ++
      (if l + 1 < s.config.num_queues then (qget s.queues (l + 1)).filter s.aged else [])
  promoted : ∀ l i, 1 ≤ l → l < s.config.num_queues → i ∈ qget s.queues l →
    s.aged i = true →
    getP t.all_processes i = { getP s.all_processes i with
      priority := l - 1, time_in_queue := 0, time_in_current_quantum := 0 }
  kept : ∀ i, (∀ l, 1 ≤ l → l < s.config.num_queues → i ∈ qget s.queues l →
    s.aged i = false) → getP t.all_processes i = getP s.all_processes i
  running : t.currently_running = s.currently_running

/-- The queues of the engine are exclusive: an entry of `queues[q]` is the
index of a record of level `q`, and no queue has an entry twice. -/
def MLFQ_Scheduler.Exclusive (s : MLFQ_Scheduler) : Prop :=
  s.LevelsAgree ∧ (∀ q, (qget s.queues q).Nodup) ∧
  (∀ q i, i ∈ qget s.queues q → i < s.all_processes.length) ∧
  s.config.num_queues ≤ s.queues.length

/-! ## Comparison of the engines -/

/-- Simulation relation between the MLFQ engine `m` with the single level 0
and the Round-Robin engine `r` with the quantum `q`, with the admission
horizon `T`: the records agree on the fields that both engines write, the
ready queue is `queues[0]`, the running slots, clocks and counters of
completed records agree, the quantum counter of the running record is
`quantum_used` and that of every other unfinished record is `0`, and
`next_arrival` separates the records with `arrival < T` from the others. -/
structure Sim (q T : Int) (m : MLFQ_Scheduler) (r : RR_Scheduler) : Prop where
  len : r.processes.length = m.all_processes.length
  core : ∀ i, (getP r.processes i).core = (getP m.all_processes i).core
  queue : r.ready_queue = qget m.queues 0
  running : r.currently_running = m.currently_running
  current_time : r.current_time = m.current_time
  completed : r.completed = m.completed
  time_quantum : r.time_quantum = q
  tic : ∀ i, 0 < (getP m.all_processes i).remaining →
    (getP m.all_processes i).time_in_current_quantum =
      if m.currently_running = some i then r.quantum_used else 0
  next : ∀ i, i < m.all_processes.length →
    (i < r.next_arrival ↔ (getP m.all_processes i).arrival < T)
  next_le : r.next_arrival ≤ m.all_processes.length

/-- The dispatch block of `RR_Scheduler::run` when the ready queue is
`c :: rest`: the engine after the block, before the execution of a unit. -/
def RR_Scheduler.take (s : RR_Scheduler) (c : Nat) (rest : List Nat) : RR_Scheduler :=
  let ps := if (getP s.processes c).started = false then
      setP s.processes c (fun x => { x with started := true, start_time := s.current_time })
    else s.processes
  { s with
    processes := ps,
    ready_queue := rest,
    currently_running := some c,
    quantum_used := 0,
    context_switches := s.context_switches + 1 }

/-- A configuration with the single level 0 of quantum `q`, aging threshold
`3`, aging check interval `3` and boost interval `5`. -/
def oneLevel (q : Int) : Config :=
  { num_queues := 1, time_quantum := [q], aging_threshold := 3,
    aging_check_interval := 3, boost_interval := 5 }

/-- Invariant of the loop of `run` of an engine whose level 0 has the quantum
`0`, for the start vector `P`. `D` lists the records dispatched so far, in the
order of their dispatch. The dispatched records are the started ones, they
arrived before every record not yet dispatched and in the order of `D`, and
their start times follow the serving rule of FCFS along `D`: the first starts
at its arrival, every other one at the maximum of its arrival and of
`start_time + burst` of the record before it. A finished record has
`completion = start_time + burst`; the running record is the last of `D` and
has `start_time + burst - current_time` units left; with an empty slot the
last of `D` ended by the clock, and exactly at the clock when `queues[0]`
holds a record. `queues[0]` is in order of arrival and holds only records
that have not started. -/
structure Fifo (P : List Process) (m : MLFQ_Scheduler) (D : List Nat) : Prop where
  mem : ∀ i, i ∈ D ↔ i < P.length ∧ (getP m.all_processes i).started = true
  order : ∀ i, i ∈ D → ∀ j, j < P.length → j ∉ D → (getP P i).arrival < (getP P j).arrival
  sorted : D.Pairwise (fun i j => (getP P i).arrival < (getP P j).arrival)
  chain : D.Chain' (fun a b => (getP m.all_processes b).start_time =
    max ((getP m.all_processes a).start_time + (getP P a).burst) (getP P b).arrival)
  head : ∀ a, D.head? = some a → (getP m.all_processes a).start_time = (getP P a).arrival
  finished : ∀ i, i ∈ D → (getP m.all_processes i).remaining = 0 →
    (getP m.all_processes i).completion = (getP m.all_processes i).start_time + (getP P i).burst
  run : ∀ c, m.currently_running = some c → D.getLast? = some c ∧
    (getP m.all_processes c).remaining =
      (getP m.all_processes c).start_time + (getP P c).burst - m.current_time
  idle : m.currently_running = none → ∀ l, D.getLast? = some l →
    (getP m.all_processes l).start_time + (getP P l).burst ≤ m.current_time
  busy : m.currently_running = none → qget m.queues 0 ≠ [] →
    ∃ l, D.getLast? = some l ∧
      (getP m.all_processes l).start_time + (getP P l).burst = m.current_time
  queue_sorted : (qget m.queues 0).Pairwise
    (fun i j => (getP P i).arrival < (getP P j).arrival)
  queue_unstarted : ∀ i, i ∈ qget m.queues 0 → (getP m.all_processes i).started = false

/-- A configuration whose level 0 has no quantum: two levels with the quanta
`0` and `2`, aging threshold `3`, aging check interval `3` and boost interval
`5`. -/
def fcfsLevels : Config :=
  { num_queues := 2, time_quantum := [0, 2], aging_threshold := 3,
    aging_check_interval := 3, boost_interval := 5 }

/-! ## Pointer and queue lemmas -/

theorem length_setP (ps : List Process) (i : Nat) (f : Process → Process) :
    (setP ps i f).length = ps.length := by
  simp [setP]

theorem getP_setP (ps : List Process) (i j : Nat) (f : Process → Process) :
    getP (setP ps i f) j = if i = j ∧ i < ps.length then f (getP ps i) else getP ps j := by
  unfold setP getP
  simp only [List.getD_eq_getElem?_getD, List.getElem?_set]
  by_cases h : i = j
  · subst h
    by_cases hl : i < ps.length
    · simp [hl]
    · simp [hl, List.getElem?_eq_none (Nat.le_of_not_lt hl)]
  · simp [h]

theorem getP_setP_self (ps : List Process) (i : Nat) (f : Process → Process)
    (h : i < ps.length) : getP (setP ps i f) i = f (getP ps i) := by
  simp [getP_setP, h]

theorem getP_setP_ne (ps : List Process) (i j : Nat) (f : Process → Process)
    (h : i ≠ j) : getP (setP ps i f) j = getP ps j := by
  simp [getP_setP, h]

theorem length_qset (qs : List (List Nat)) (q : Nat) (v : List Nat) :
    (qset qs q v).length = qs.length := by
  simp [qset]

theorem qget_qset (qs : List (List Nat)) (q r : Nat) (v : List Nat) :
    qget (qset qs q v) r = if q = r ∧ q < qs.length then v else qget qs r := by
  unfold qset qget
  simp only [List.getD_eq_getElem?_getD, List.getElem?_set]
  by_cases h : q = r
  · subst h
    by_cases hl : q < qs.length
    · simp [hl]
    · simp [hl, List.getElem?_eq_none (Nat.le_of_not_lt hl)]
  · simp [h]

theorem qget_of_length_le (qs : List (List Nat)) (q : Nat) (h : qs.length ≤ q) :
    qget qs q = [] := by
  unfold qget
  simp [List.getElem?_eq_none h]

theorem CoreEq.core_refl (ps : List Process) : CoreEq ps ps := ⟨rfl, fun _ => rfl⟩

theorem CoreEq.core_trans {a b c : List Process} (h1 : CoreEq a b) (h2 : CoreEq b c) :
    CoreEq a c :=
  ⟨h2.1.trans h1.1, fun i => (h2.2 i).trans (h1.2 i)⟩

theorem coreEq_setP (ps : List Process) (i : Nat) (f : Process → Process)
    (hf : ∀ x, (f x).core = x.core) : CoreEq ps (setP ps i f) := by
  refine ⟨length_setP ps i f, fun j => ?_⟩
  rw [getP_setP]
  split
  · next h => rw [hf, h.1]
  · rfl

theorem coreEq_foldl {α : Type} (g : List Process → α → List Process) (l : List α)
    (hg : ∀ ps a, CoreEq ps (g ps a)) (ps : List Process) : CoreEq ps (l.foldl g ps) := by
  induction l generalizing ps with
  | nil => exact CoreEq.core_refl ps
  | cons a l ih => exact (hg ps a).core_trans (ih (g ps a))

theorem core_fields {p q : Process} (h : p.core = q.core) :
    p.pid = q.pid ∧ p.arrival = q.arrival ∧ p.burst = q.burst ∧ p.remaining = q.remaining ∧
    p.start_time = q.start_time ∧ p.completion = q.completion ∧ p.started = q.started := by
  simpa [Process.core, Prod.ext_iff] using h

theorem CoreEq.remaining {a b : List Process} (h : CoreEq a b) (i : Nat) :
    (getP b i).remaining = (getP a i).remaining := (core_fields (h.2 i)).2.2.2.1

theorem Frame.frame_refl (s : MLFQ_Scheduler) : Frame s s where
  config := rfl
  current_time := rfl
  completed := rfl
  total_busy_time := rfl
  timeline_pid := rfl
  timeline_queue := rfl
  qlen := rfl
  core := CoreEq.core_refl _
  prio := fun h => h

theorem Frame.frame_trans {s t u : MLFQ_Scheduler} (h1 : Frame s t) (h2 : Frame t u) :
    Frame s u where
  config := h2.config.trans h1.config
  current_time := h2.current_time.trans h1.current_time
  completed := h2.completed.trans h1.completed
  total_busy_time := h2.total_busy_time.trans h1.total_busy_time
  timeline_pid := h2.timeline_pid.trans h1.timeline_pid
  timeline_queue := h2.timeline_queue.trans h1.timeline_queue
  qlen := h2.qlen.trans h1.qlen
  core := h1.core.core_trans h2.core
  prio := fun h => by
    have := h2.prio (h1.config ▸ h1.prio h)
    rwa [h1.config] at this

theorem Shuffle.shuffle_refl (s : MLFQ_Scheduler) : Shuffle s s where
  toFrame := Frame.frame_refl s
  context_switches_le := le_refl _
  back := fun _ h => h
  fwd := fun _ _ h => h
  running := fun _ h => h

theorem Shuffle.shuffle_trans {s t u : MLFQ_Scheduler} (h1 : Shuffle s t) (h2 : Shuffle t u) :
    Shuffle s u where
  toFrame := h1.toFrame.frame_trans h2.toFrame
  context_switches_le := le_trans h1.context_switches_le h2.context_switches_le
  back := fun i h => h1.back i (h2.back i h)
  fwd := fun i hr h => h2.fwd i (by rw [h1.core.remaining]; exact hr) (h1.fwd i hr h)
  running := fun c h => h1.running c (h2.running c h)

theorem getP_eq_getElem (ps : List Process) (i : Nat) (h : i < ps.length) :
    getP ps i = ps[i] := by
  simp [getP, h]

theorem CoreEq.map_core {a b : List Process} (h : CoreEq a b) :
    b.map Process.core = a.map Process.core := by
  apply List.ext_getElem
  · simp [h.1]
  · intro i h1 h2
    simp only [List.length_map] at h1 h2
    simp only [List.getElem_map]
    rw [← getP_eq_getElem b i h1, ← getP_eq_getElem a i h2]
    exact h.2 i

theorem doneCount_eq_core (ps : List Process) :
    doneCount ps = (ps.map Process.core).countP (fun c => decide (c.2.2.2.1 = 0)) := by
  unfold doneCount
  rw [List.countP_map]
  rfl

theorem CoreEq.doneCount {a b : List Process} (h : CoreEq a b) :
    doneCount b = doneCount a := by
  rw [doneCount_eq_core, doneCount_eq_core, h.map_core]

theorem totalRemaining_eq_core (ps : List Process) :
    totalRemaining ps = ((ps.map Process.core).map (fun c => c.2.2.2.1)).sum := by
  unfold totalRemaining
  rw [List.map_map]
  rfl

theorem CoreEq.totalRemaining {a b : List Process} (h : CoreEq a b) :
    totalRemaining b = totalRemaining a := by
  rw [totalRemaining_eq_core, totalRemaining_eq_core, h.map_core]

theorem Inv.shuffle {P : List Process} {cfg : Config} {T : Int} {s t : MLFQ_Scheduler}
    (h : Shuffle s t) (hi : Inv P cfg T s) : Inv P cfg T t := by
  have hc : ∀ i, (getP t.all_processes i).pid = (getP s.all_processes i).pid ∧
      (getP t.all_processes i).arrival = (getP s.all_processes i).arrival ∧
      (getP t.all_processes i).burst = (getP s.all_processes i).burst ∧
      (getP t.all_processes i).remaining = (getP s.all_processes i).remaining ∧
      (getP t.all_processes i).start_time = (getP s.all_processes i).start_time ∧
      (getP t.all_processes i).completion = (getP s.all_processes i).completion ∧
      (getP t.all_processes i).started = (getP s.all_processes i).started :=
    fun i => core_fields (h.core.2 i)
  exact {
    config := h.config.trans hi.config
    qlen := h.qlen.trans hi.qlen
    len := h.core.1.trans hi.len
    static := fun i => by
      obtain ⟨c1, c2, c3, _⟩ := hc i
      rw [c1, c2, c3]
      exact hi.static i
    prio := by
      have := h.prio (hi.config ▸ hi.prio)
      rwa [hi.config] at this
    active_lt := fun i ha => by
      rw [(hc i).2.1]
      exact hi.active_lt i (h.back i ha)
    running_pos := fun c hr => by
      obtain ⟨_, _, _, c4, _, _, c7⟩ := hc c
      rw [c4, c7]
      exact hi.running_pos c (h.running c hr)
    rem_range := fun i => by
      obtain ⟨_, _, c3, c4, _⟩ := hc i
      rw [c3, c4]
      exact hi.rem_range i
    fresh := fun i hl ha => by
      obtain ⟨_, c2, c3, c4, c5, _, c7⟩ := hc i
      rw [c2] at ha
      rw [c3, c4, c5, c7]
      exact hi.fresh i hl ha
    no_lost := fun i hl ha hr => by
      obtain ⟨_, c2, _, c4, _⟩ := hc i
      rw [c2] at ha
      rw [c4] at hr
      exact h.fwd i hr (hi.no_lost i hl ha hr)
    completed_eq := by
      rw [h.completed, h.core.doneCount]
      exact hi.completed_eq }

namespace MLFQ_Scheduler

theorem shuffle_foldl {α : Type} (g : MLFQ_Scheduler → α → MLFQ_Scheduler) (l : List α)
    (P : α → Prop) (J : MLFQ_Scheduler → Prop) (hl : ∀ a ∈ l, P a)
    (hJ : ∀ s a, P a → J s → J (g s a))
    (hg : ∀ s a, P a → J s → Shuffle s (g s a))
    (s : MLFQ_Scheduler) (hs : J s) : Shuffle s (l.foldl g s) := by
  induction l generalizing s with
  | nil => exact Shuffle.shuffle_refl s
  | cons a l ih =>
    have hPa := hl a (List.mem_cons_self a l)
    exact (hg s a hPa hs).shuffle_trans
      (ih (fun b hb => hl b (List.mem_cons_of_mem a hb)) (g s a) (hJ s a hPa hs))

/-! ### The purge -/

theorem purge_queue_fold (L : List Nat) (s : MLFQ_Scheduler) :
    (L.foldl purge_queue s).all_processes = s.all_processes ∧
    (L.foldl purge_queue s).config = s.config ∧
    (L.foldl purge_queue s).current_time = s.current_time ∧
    (L.foldl purge_queue s).completed = s.completed ∧
    (L.foldl purge_queue s).total_busy_time = s.total_busy_time ∧
    (L.foldl purge_queue s).context_switches = s.context_switches ∧
    (L.foldl purge_queue s).timeline_pid = s.timeline_pid ∧
    (L.foldl purge_queue s).timeline_queue = s.timeline_queue ∧
    (L.foldl purge_queue s).currently_running = s.currently_running ∧
    (L.foldl purge_queue s).queues.length = s.queues.length ∧
    ∀ q, qget (L.foldl purge_queue s).queues q =
      if q ∈ L then (qget s.queues q).filter
        (fun p => decide (0 < (getP s.all_processes p).remaining))
      else qget s.queues q := by
  induction L generalizing s with
  | nil => simp
  | cons a L ih =>
    obtain ⟨h1, h2, h3, h4, h5, h6, h7, h8, h9, h10, h11⟩ := ih (purge_queue s a)
    simp only [List.foldl_cons]
    refine ⟨h1, h2, h3, h4, h5, h6, h7, h8, h9, ?_, fun q => ?_⟩
    · rw [h10]; simp [purge_queue, length_qset]
    · rw [h11 q]
      simp only [purge_queue, qget_qset, List.mem_cons]
      by_cases hq : a = q
      · subst hq
        by_cases hl : a < s.queues.length
        · simp [hl, List.filter_filter]
        · have h0 : qget s.queues a = [] := qget_of_length_le _ _ (Nat.le_of_not_lt hl)
          simp [hl, h0]
      · have hq2 : ¬ q = a := fun h => hq h.symm
        simp [hq, hq2]

theorem waiting_purge (s : MLFQ_Scheduler) (i : Nat) :
    s.purge.waiting i ↔ s.waiting i ∧ 0 < (getP s.all_processes i).remaining := by
  obtain ⟨_, h2, _, _, _, _, _, _, _, _, h11⟩ := purge_queue_fold (List.range s.config.num_queues) s
  unfold waiting purge
  rw [h2]
  constructor
  · rintro ⟨q, hq, hi⟩
    rw [h11 q] at hi
    simp only [List.mem_range, hq, if_true, List.mem_filter, decide_eq_true_eq] at hi
    exact ⟨⟨q, hq, hi.1⟩, hi.2⟩
  · rintro ⟨⟨q, hq, hi⟩, hr⟩
    refine ⟨q, hq, ?_⟩
    rw [h11 q]
    simp only [List.mem_range, hq, if_true, List.mem_filter, decide_eq_true_eq]
    exact ⟨hi, hr⟩

theorem shuffle_purge (s : MLFQ_Scheduler) : Shuffle s s.purge := by
  obtain ⟨h1, h2, h3, h4, h5, h6, h7, h8, h9, h10, _⟩ :=
    purge_queue_fold (List.range s.config.num_queues) s
  have hw := waiting_purge s
  unfold purge at hw ⊢
  exact {
    config := h2
    current_time := h3
    completed := h4
    total_busy_time := h5
    context_switches_le := le_of_eq h6.symm
    timeline_pid := h7
    timeline_queue := h8
    qlen := h10
    core := by rw [h1]; exact CoreEq.core_refl _
    prio := fun h => by rw [h1]; exact h
    back := fun i h => by
      rw [h9] at h
      rcases h with h | h
      · exact Or.inl ((hw i).1 h).1
      · exact Or.inr h
    fwd := fun i hr h => by
      rw [h9]
      rcases h with h | h
      · exact Or.inl ((hw i).2 ⟨h, hr⟩)
      · exact Or.inr h
    running := fun c h => by rw [h9] at h; exact h }

/-! ### The aging sweep -/

theorem mem_tail_range {n q : Nat} (hq : q ∈ (List.range n).tail) : 1 ≤ q ∧ q < n := by
  have hq2 := List.mem_of_mem_tail hq
  rw [List.mem_range] at hq2
  refine ⟨?_, hq2⟩
  rcases Nat.eq_zero_or_pos q with h0 | h0
  · subst h0
    exfalso
    cases n with
    | zero => omega
    | succ n =>
      rw [List.range_succ_eq_map] at hq
      simp at hq
  · exact h0

theorem prioBound_setP (nq : Nat) (ps : List Process) (i : Nat) (f : Process → Process)
    (hf : ∀ x, x.priority < nq → (f x).priority < nq) (h : PrioBound nq ps) :
    PrioBound nq (setP ps i f) := by
  intro j
  rw [getP_setP]
  split
  · exact hf _ (h i)
  · exact h j

theorem aging_scan_spec (thr : Int) (running : Option Nat) (q nq : Nat) (hq : q - 1 < nq)
    (L : List Nat) (ps : List Process) :
    CoreEq ps (aging_scan thr running q L ps).1 ∧
    (PrioBound nq ps → PrioBound nq (aging_scan thr running q L ps).1) ∧
    (∀ i, i ∈ L ↔ i ∈ (aging_scan thr running q L ps).2.1 ∨
      i ∈ (aging_scan thr running q L ps).2.2) := by
  induction L generalizing ps with
  | nil => exact ⟨CoreEq.core_refl ps, fun h => h, fun i => by simp [aging_scan]⟩
  | cons p rest ih =>
    unfold aging_scan
    split
    · obtain ⟨h1, h2, h3⟩ := ih (setP ps p (aging_reset q))
      refine ⟨(coreEq_setP ps p (aging_reset q) (fun x => rfl)).core_trans h1, fun h => h2 ?_,
        fun i => ?_⟩
      · exact prioBound_setP nq ps p (aging_reset q) (fun _ _ => hq) h
      · simp only [List.mem_cons, h3 i]
        tauto
    · obtain ⟨h1, h2, h3⟩ := ih ps
      refine ⟨h1, h2, fun i => ?_⟩
      simp only [List.mem_cons, h3 i]
      tauto

theorem qget_age_level (s : MLFQ_Scheduler) (q l : Nat) (h1 : 1 ≤ q) (hq : q < s.queues.length) :
    qget (age_level s q).queues l =
      if l = q - 1 then qget s.queues (q - 1) ++
        (aging_scan s.config.aging_threshold s.currently_running q
          (qget s.queues q) s.all_processes).2.2
      else if l = q then
        (aging_scan s.config.aging_threshold s.currently_running q
          (qget s.queues q) s.all_processes).2.1
      else qget s.queues l := by
  have hne : ¬ q = q - 1 := by omega
  have hlt : q - 1 < s.queues.length := by omega
  simp only [age_level, qget_qset, length_qset, hne, hlt, hq, and_true, false_and, if_false]
  by_cases hl : l = q - 1
  · simp [hl]
  · have hl2 : ¬ q - 1 = l := fun h => hl h.symm
    simp only [hl, hl2, if_false]
    by_cases hl3 : l = q
    · simp [hl3]
    · have hl4 : ¬ q = l := fun h => hl3 h.symm
      simp [hl3, hl4]

theorem waiting_age_level (s : MLFQ_Scheduler) (q : Nat) (h1 : 1 ≤ q)
    (hq : q < s.config.num_queues) (hcap : s.config.num_queues ≤ s.queues.length) (i : Nat) :
    (age_level s q).waiting i ↔ s.waiting i := by
  have hql : q < s.queues.length := by omega
  have hmem := (aging_scan_spec s.config.aging_threshold s.currently_running q
    s.config.num_queues (by omega) (qget s.queues q) s.all_processes).2.2 i
  unfold waiting
  have hcfg : (age_level s q).config = s.config := rfl
  rw [hcfg]
  constructor
  · rintro ⟨l, hl, hi⟩
    rw [qget_age_level s q l h1 hql] at hi
    split at hi
    · next h =>
      rcases List.mem_append.1 hi with hi | hi
      · exact ⟨q - 1, by omega, hi⟩
      · exact ⟨q, hq, hmem.2 (Or.inr hi)⟩
    · split at hi
      · exact ⟨q, hq, hmem.2 (Or.inl hi)⟩
      · exact ⟨l, hl, hi⟩
  · rintro ⟨l, hl, hi⟩
    by_cases hlq : l = q
    · subst hlq
      rcases hmem.1 hi with hk | hp
      · refine ⟨l, hl, ?_⟩
        rw [qget_age_level s l l h1 hql]
        have : ¬ l = l - 1 := by omega
        simp [this, hk]
      · refine ⟨l - 1, by omega, ?_⟩
        rw [qget_age_level s l (l - 1) h1 hql]
        simp [hp]
    · refine ⟨l, hl, ?_⟩
      rw [qget_age_level s q l h1 hql]
      by_cases hl1 : l = q - 1
      · simp [hl1]
        left
        rw [← hl1]; exact hi
      · simp [hl1, hlq, hi]

theorem shuffle_age_level (s : MLFQ_Scheduler) (q : Nat) (h1 : 1 ≤ q)
    (hq : q < s.config.num_queues) (hcap : s.config.num_queues ≤ s.queues.length) :
    Shuffle s (age_level s q) := by
  have hsp := aging_scan_spec s.config.aging_threshold s.currently_running q
    s.config.num_queues (by omega) (qget s.queues q) s.all_processes
  have hw := waiting_age_level s q h1 hq hcap
  have hrun : (age_level s q).currently_running = s.currently_running := rfl
  exact {
    config := rfl
    current_time := rfl
    completed := rfl
    total_busy_time := rfl
    timeline_pid := rfl
    timeline_queue := rfl
    qlen := by simp [age_level, length_qset]
    core := hsp.1
    prio := hsp.2.1
    context_switches_le := le_refl _
    back := fun i h => by rwa [hw i, hrun] at h
    fwd := fun i _ h => by rwa [hw i, hrun]
    running := fun c h => h }

theorem shuffle_apply_aging (s : MLFQ_Scheduler)
    (hcap : s.config.num_queues ≤ s.queues.length) : Shuffle s s.apply_aging := by
  unfold apply_aging
  refine shuffle_foldl age_level _ (fun q => 1 ≤ q ∧ q < s.config.num_queues)
    (fun t => t.config = s.config ∧ t.queues.length = s.queues.length) ?_ ?_ ?_ s ⟨rfl, rfl⟩
  · exact fun q hq => mem_tail_range hq
  · intro t q _ ht
    exact ⟨ht.1, by simp [age_level, length_qset, ht.2]⟩
  · intro t q hq ht
    exact shuffle_age_level t q hq.1 (by rw [ht.1]; exact hq.2) (by rw [ht.1, ht.2]; exact hcap)

/-! ### The priority boost -/

theorem boost_reset_fold (nq : Nat) (L : List Nat) (ps : List Process) :
    CoreEq ps (L.foldl (fun ps p => setP ps p boost_reset) ps) ∧
    (PrioBound nq ps → PrioBound nq (L.foldl (fun ps p => setP ps p boost_reset) ps)) := by
  induction L generalizing ps with
  | nil => exact ⟨CoreEq.core_refl ps, fun h => h⟩
  | cons p L ih =>
    obtain ⟨h1, h2⟩ := ih (setP ps p boost_reset)
    refine ⟨(coreEq_setP ps p boost_reset (fun x => rfl)).core_trans h1, fun h => h2 ?_⟩
    exact prioBound_setP nq ps p boost_reset (fun x hx => Nat.lt_of_le_of_lt (Nat.zero_le _) hx) h

theorem boost_level_spec (acc : MLFQ_Scheduler × List Nat) (q : Nat) (h1 : 1 ≤ q)
    (hq : q < acc.1.config.num_queues) (hcap : acc.1.config.num_queues ≤ acc.1.queues.length) :
    Frame acc.1 (boost_level acc q).1 ∧
    (boost_level acc q).1.currently_running = acc.1.currently_running ∧
    (boost_level acc q).1.context_switches = acc.1.context_switches ∧
    qget (boost_level acc q).1.queues 0 = qget acc.1.queues 0 ∧
    ∀ i, ((boost_level acc q).1.waiting i ∨ i ∈ (boost_level acc q).2) ↔
      (acc.1.waiting i ∨ i ∈ acc.2) := by
  have hql : q < acc.1.queues.length := by omega
  have hfold := boost_reset_fold acc.1.config.num_queues (qget acc.1.queues q) acc.1.all_processes
  have hqg : ∀ l, qget (boost_level acc q).1.queues l = if l = q then [] else qget acc.1.queues l := by
    intro l
    simp only [boost_level, qget_qset, hql, and_true]
    by_cases h : q = l
    · simp [h]
    · have h2 : ¬ l = q := fun e => h e.symm
      simp [h, h2]
  refine ⟨?_, rfl, rfl, ?_, fun i => ?_⟩
  · exact {
      config := rfl
      current_time := rfl
      completed := rfl
      total_busy_time := rfl
      timeline_pid := rfl
      timeline_queue := rfl
      qlen := by simp [boost_level, length_qset]
      core := hfold.1
      prio := hfold.2 }
  · rw [hqg 0]
    have : ¬ 0 = q := by omega
    simp [this]
  · have hcfg : (boost_level acc q).1.config = acc.1.config := rfl
    have h2 : (boost_level acc q).2 = acc.2 ++ qget acc.1.queues q := rfl
    unfold waiting
    rw [hcfg, h2]
    constructor
    · rintro (⟨l, hl, hi⟩ | hi)
      · rw [hqg l] at hi
        split at hi
        · simp at hi
        · exact Or.inl ⟨l, hl, hi⟩
      · rcases List.mem_append.1 hi with hi | hi
        · exact Or.inr hi
        · exact Or.inl ⟨q, hq, hi⟩
    · rintro (⟨l, hl, hi⟩ | hi)
      · by_cases hlq : l = q
        · subst hlq
          exact Or.inr (List.mem_append.2 (Or.inr hi))
        · refine Or.inl ⟨l, hl, ?_⟩
          rw [hqg l]
          simp [hlq, hi]
      · exact Or.inr (List.mem_append.2 (Or.inl hi))

theorem boost_fold_spec (nq : Nat) (L : List Nat) (hL : ∀ q ∈ L, 1 ≤ q ∧ q < nq)
    (acc : MLFQ_Scheduler × List Nat) (hcfg : acc.1.config.num_queues = nq)
    (hcap : nq ≤ acc.1.queues.length) :
    Frame acc.1 (L.foldl boost_level acc).1 ∧
    (L.foldl boost_level acc).1.currently_running = acc.1.currently_running ∧
    (L.foldl boost_level acc).1.context_switches = acc.1.context_switches ∧
    qget (L.foldl boost_level acc).1.queues 0 = qget acc.1.queues 0 ∧
    ∀ i, ((L.foldl boost_level acc).1.waiting i ∨ i ∈ (L.foldl boost_level acc).2) ↔
      (acc.1.waiting i ∨ i ∈ acc.2) := by
  induction L generalizing acc with
  | nil => exact ⟨Frame.frame_refl _, rfl, rfl, rfl, fun i => Iff.rfl⟩
  | cons q L ih =>
    have hq := hL q (List.mem_cons_self q L)
    obtain ⟨f1, r1, c1, z1, w1⟩ := boost_level_spec acc q hq.1 (by rw [hcfg]; exact hq.2)
      (by rw [hcfg]; exact hcap)
    obtain ⟨f2, r2, c2, z2, w2⟩ := ih (fun b hb => hL b (List.mem_cons_of_mem q hb))
      (boost_level acc q) (by rw [f1.config]; exact hcfg) (by rw [f1.qlen]; exact hcap)
    simp only [List.foldl_cons]
    exact ⟨f1.frame_trans f2, r2.trans r1, c2.trans c1, z2.trans z1, fun i => (w2 i).trans (w1 i)⟩

theorem shuffle_write (s : MLFQ_Scheduler) (c : Nat) (f : Process → Process)
    (hf : ∀ x, (f x).core = x.core)
    (hp : ∀ x, x.priority < s.config.num_queues → (f x).priority < s.config.num_queues) :
    Shuffle s { s with all_processes := setP s.all_processes c f } where
  config := rfl
  current_time := rfl
  completed := rfl
  total_busy_time := rfl
  timeline_pid := rfl
  timeline_queue := rfl
  qlen := rfl
  core := coreEq_setP _ c f hf
  prio := prioBound_setP _ _ c f hp
  context_switches_le := le_refl _
  back := fun _ h => h
  fwd := fun _ _ h => h
  running := fun _ h => h

theorem shuffle_apply_priority_boost (s : MLFQ_Scheduler) (hnq : 0 < s.config.num_queues)
    (hcap : s.config.num_queues ≤ s.queues.length) : Shuffle s s.apply_priority_boost := by
  obtain ⟨f1, r1, c1, z1, w1⟩ := boost_fold_spec s.config.num_queues
    ((List.range s.config.num_queues).tail) (fun q hq => mem_tail_range hq) (s, []) rfl hcap
  have hlen0 : 0 < s.queues.length := by omega
  have hs2 : Shuffle s
      { (((List.range s.config.num_queues).tail).foldl boost_level (s, [])).1 with
        queues := qset (((List.range s.config.num_queues).tail).foldl boost_level (s, [])).1.queues 0
          (qget (((List.range s.config.num_queues).tail).foldl boost_level (s, [])).1.queues 0 ++
            (((List.range s.config.num_queues).tail).foldl boost_level (s, [])).2) } := by
    generalize ((List.range s.config.num_queues).tail).foldl boost_level (s, []) = r at f1 r1 c1 z1 w1
    have hl : 0 < r.1.queues.length := by rw [f1.qlen]; exact hlen0
    have hw : ∀ i, MLFQ_Scheduler.waiting
        { r.1 with queues := qset r.1.queues 0 (qget r.1.queues 0 ++ r.2) } i ↔ s.waiting i := by
      intro i
      have hw1 := w1 i
      simp only [List.not_mem_nil, or_false] at hw1
      rw [← hw1]
      unfold waiting
      simp only [qget_qset, hl, and_true]
      constructor
      · rintro ⟨l, hl, hi⟩
        by_cases h0 : 0 = l
        · subst h0
          simp only [if_true] at hi
          rcases List.mem_append.1 hi with hi | hi
          · exact Or.inl ⟨0, hl, hi⟩
          · exact Or.inr hi
        · simp only [h0, if_false] at hi
          exact Or.inl ⟨l, hl, hi⟩
      · rintro (⟨l, hl, hi⟩ | hi)
        · refine ⟨l, hl, ?_⟩
          by_cases h0 : 0 = l
          · subst h0
            simp [hi]
          · simp [h0, hi]
        · refine ⟨0, by rw [f1.config]; exact hnq, ?_⟩
          simp [hi]
    exact {
      config := f1.config
      current_time := f1.current_time
      completed := f1.completed
      total_busy_time := f1.total_busy_time
      timeline_pid := f1.timeline_pid
      timeline_queue := f1.timeline_queue
      qlen := by simp [length_qset, f1.qlen]
      core := f1.core
      prio := f1.prio
      context_switches_le := le_of_eq c1.symm
      back := fun i h => by
        rw [hw i] at h
        rcases h with h | h
        · exact Or.inl h
        · exact Or.inr (r1 ▸ h)
      fwd := fun i _ h => by
        rw [hw i]
        rcases h with h | h
        · exact Or.inl h
        · exact Or.inr (r1.symm ▸ h)
      running := fun c h => r1 ▸ h }
  unfold apply_priority_boost
  simp only
  split
  · split
    · refine hs2.shuffle_trans (shuffle_write _ _ _ (fun x => rfl) (fun x hx => ?_))
      exact Nat.lt_of_le_of_lt (Nat.zero_le _) hx
    · exact hs2
  · exact hs2

theorem shuffle_maybe_aging (s : MLFQ_Scheduler)
    (hcap : s.config.num_queues ≤ s.queues.length) : Shuffle s s.maybe_aging := by
  unfold maybe_aging
  split
  · exact shuffle_apply_aging s hcap
  · exact Shuffle.shuffle_refl s

theorem shuffle_maybe_boost (s : MLFQ_Scheduler) (hnq : 0 < s.config.num_queues)
    (hcap : s.config.num_queues ≤ s.queues.length) : Shuffle s s.maybe_boost := by
  unfold maybe_boost
  split
  · exact shuffle_apply_priority_boost s hnq hcap
  · exact Shuffle.shuffle_refl s

/-! ### The preemption check -/

theorem shuffle_preempt_check (s : MLFQ_Scheduler)
    (hprio : PrioBound s.config.num_queues s.all_processes)
    (hcap : s.config.num_queues ≤ s.queues.length) : Shuffle s s.preempt_check := by
  unfold preempt_check
  split
  · next c hc =>
    split
    · simp only
      split
      · have hpc := hprio c
        have hl : (getP s.all_processes c).priority < s.queues.length := by omega
        have hw : ∀ i, MLFQ_Scheduler.waiting
            { s with
              queues := qset s.queues (getP s.all_processes c).priority
                (c :: qget s.queues (getP s.all_processes c).priority),
              currently_running := none,
              context_switches := s.context_switches + 1 } i ↔ s.waiting i ∨ i = c := by
          intro i
          unfold waiting
          simp only [qget_qset, hl, and_true]
          constructor
          · rintro ⟨l, hl, hi⟩
            split at hi
            · next h =>
              rcases List.mem_cons.1 hi with hi | hi
              · exact Or.inr hi
              · exact Or.inl ⟨l, hl, h ▸ hi⟩
            · exact Or.inl ⟨l, hl, hi⟩
          · rintro (⟨l, hl, hi⟩ | hi)
            · refine ⟨l, hl, ?_⟩
              split
              · next h => exact List.mem_cons_of_mem _ (h ▸ hi)
              · exact hi
            · exact ⟨_, hpc, by simp [hi]⟩
        exact {
          config := rfl
          current_time := rfl
          completed := rfl
          total_busy_time := rfl
          timeline_pid := rfl
          timeline_queue := rfl
          qlen := by simp [length_qset]
          core := CoreEq.core_refl _
          prio := fun h => h
          context_switches_le := by simp
          back := fun i h => by
            rcases h with h | h
            · rcases (hw i).1 h with h | h
              · exact Or.inl h
              · exact Or.inr (by rw [hc, h])
            · simp at h
          fwd := fun i _ h => by
            left
            rw [hw i]
            rcases h with h | h
            · exact Or.inl h
            · rw [hc] at h
              exact Or.inr (Option.some.inj h).symm
          running := fun c h => by simp at h }
      · exact Shuffle.shuffle_refl s
    · exact Shuffle.shuffle_refl s
  · exact Shuffle.shuffle_refl s

/-! ### Admission -/

theorem arriving_congr {s t : MLFQ_Scheduler} (h : Frame s t) (i : Nat) :
    t.arriving i ↔ s.arriving i := by
  obtain ⟨_, h2, _, _, h5, _, h7⟩ := core_fields (h.core.2 i)
  unfold arriving
  rw [h2, h5, h7, h.current_time]

theorem add_arrival_spec (s : MLFQ_Scheduler) (i : Nat) (hnq : 0 < s.config.num_queues)
    (hlen : 0 < s.queues.length) :
    Frame s (add_arrival s i) ∧
    (add_arrival s i).currently_running = s.currently_running ∧
    (add_arrival s i).context_switches = s.context_switches ∧
    ∀ j, (add_arrival s i).waiting j ↔ (s.waiting j ∨ (j = i ∧ s.arriving i)) := by
  unfold add_arrival
  simp only
  split
  · next hc =>
    refine ⟨?_, rfl, rfl, fun j => ?_⟩
    · exact {
        config := rfl
        current_time := rfl
        completed := rfl
        total_busy_time := rfl
        timeline_pid := rfl
        timeline_queue := rfl
        qlen := by simp [length_qset]
        core := by
          dsimp only
          apply coreEq_setP
          intro x
          rfl
        prio := by
          dsimp only
          apply prioBound_setP
          intro x _
          exact hnq }
    · unfold waiting
      simp only [qget_qset, hlen, and_true]
      constructor
      · rintro ⟨l, hl, hj⟩
        split at hj
        · next h =>
          rcases List.mem_append.1 hj with hj | hj
          · exact Or.inl ⟨l, hl, h ▸ hj⟩
          · exact Or.inr ⟨by simpa using hj, hc⟩
        · exact Or.inl ⟨l, hl, hj⟩
      · rintro (⟨l, hl, hj⟩ | ⟨hj, _⟩)
        · refine ⟨l, hl, ?_⟩
          split
          · next h => exact List.mem_append.2 (Or.inl (h ▸ hj))
          · exact hj
        · exact ⟨0, hnq, by simp [hj]⟩
  · next hc =>
    refine ⟨Frame.frame_refl s, rfl, rfl, fun j => ?_⟩
    constructor
    · exact fun h => Or.inl h
    · rintro (h | ⟨_, h⟩)
      · exact h
      · exact absurd h hc

theorem add_arrival_fold (L : List Nat) (s : MLFQ_Scheduler) (hnq : 0 < s.config.num_queues)
    (hlen : 0 < s.queues.length) :
    Frame s (L.foldl add_arrival s) ∧
    (L.foldl add_arrival s).currently_running = s.currently_running ∧
    (L.foldl add_arrival s).context_switches = s.context_switches ∧
    ∀ j, (L.foldl add_arrival s).waiting j ↔ (s.waiting j ∨ (j ∈ L ∧ s.arriving j)) := by
  induction L generalizing s with
  | nil => exact ⟨Frame.frame_refl s, rfl, rfl, fun j => by simp⟩
  | cons a L ih =>
    obtain ⟨f1, r1, c1, w1⟩ := add_arrival_spec s a hnq hlen
    obtain ⟨f2, r2, c2, w2⟩ := ih (add_arrival s a) (by rw [f1.config]; exact hnq)
      (by rw [f1.qlen]; exact hlen)
    simp only [List.foldl_cons]
    refine ⟨f1.frame_trans f2, r2.trans r1, c2.trans c1, fun j => ?_⟩
    rw [w2 j, w1 j, arriving_congr f1 j, List.mem_cons]
    constructor
    · rintro ((h | ⟨h1, h2⟩) | ⟨h1, h2⟩)
      · exact Or.inl h
      · exact Or.inr ⟨Or.inl h1, h1 ▸ h2⟩
      · exact Or.inr ⟨Or.inr h1, h2⟩
    · rintro (h | ⟨h1 | h1, h2⟩)
      · exact Or.inl (Or.inl h)
      · exact Or.inl (Or.inr ⟨h1, h1 ▸ h2⟩)
      · exact Or.inr ⟨h1, h2⟩

theorem add_arrivals_spec (s : MLFQ_Scheduler) (hnq : 0 < s.config.num_queues)
    (hlen : 0 < s.queues.length) :
    Frame s s.add_arrivals ∧
    s.add_arrivals.currently_running = s.currently_running ∧
    s.add_arrivals.context_switches = s.context_switches ∧
    ∀ j, s.add_arrivals.waiting j ↔
      (s.waiting j ∨ (j < s.all_processes.length ∧ s.arriving j)) := by
  have h := add_arrival_fold (List.range s.all_processes.length) s hnq hlen
  simpa [add_arrivals, List.mem_range] using h

/-! ### The loop body up to the preemption check -/

theorem inv_add_arrivals {P : List Process} {cfg : Config} {s : MLFQ_Scheduler}
    (hi : Inv P cfg s.current_time s) (hnq : 1 ≤ cfg.num_queues) :
    Inv P cfg (s.current_time + 1) s.add_arrivals := by
  have hq0 : 0 < s.queues.length := by rw [hi.qlen]; decide
  obtain ⟨f, hr, _, hw⟩ := add_arrivals_spec s (by rw [hi.config]; exact hnq) hq0
  have hc : ∀ i, (getP s.add_arrivals.all_processes i).pid = (getP s.all_processes i).pid ∧
      (getP s.add_arrivals.all_processes i).arrival = (getP s.all_processes i).arrival ∧
      (getP s.add_arrivals.all_processes i).burst = (getP s.all_processes i).burst ∧
      (getP s.add_arrivals.all_processes i).remaining = (getP s.all_processes i).remaining ∧
      (getP s.add_arrivals.all_processes i).start_time = (getP s.all_processes i).start_time ∧
      (getP s.add_arrivals.all_processes i).completion = (getP s.all_processes i).completion ∧
      (getP s.add_arrivals.all_processes i).started = (getP s.all_processes i).started :=
    fun i => core_fields (f.core.2 i)
  exact {
    config := f.config.trans hi.config
    qlen := f.qlen.trans hi.qlen
    len := f.core.1.trans hi.len
    static := fun i => by
      obtain ⟨c1, c2, c3, _⟩ := hc i
      rw [c1, c2, c3]
      exact hi.static i
    prio := by
      have := f.prio (hi.config ▸ hi.prio)
      rwa [hi.config] at this
    active_lt := fun i ha => by
      rw [(hc i).2.1]
      rcases ha with ha | ha
      · rcases (hw i).1 ha with h | ⟨h1, h2⟩
        · have := hi.active_lt i (Or.inl h)
          exact ⟨this.1, by omega⟩
        · exact ⟨hi.len ▸ h1, by rw [h2.1]; omega⟩
      · have := hi.active_lt i (Or.inr (hr ▸ ha))
        exact ⟨this.1, by omega⟩
    running_pos := fun c hrc => by
      obtain ⟨_, _, _, c4, _, _, c7⟩ := hc c
      rw [c4, c7]
      exact hi.running_pos c (hr ▸ hrc)
    rem_range := fun i => by
      obtain ⟨_, _, c3, c4, _⟩ := hc i
      rw [c3, c4]
      exact hi.rem_range i
    fresh := fun i hl ha => by
      obtain ⟨_, c2, c3, c4, c5, _, c7⟩ := hc i
      rw [c2] at ha
      rw [c3, c4, c5, c7]
      exact hi.fresh i hl (by omega)
    no_lost := fun i hl ha hrem => by
      obtain ⟨_, c2, _, c4, _⟩ := hc i
      rw [c2] at ha
      rw [c4] at hrem
      rw [hw i, hr]
      by_cases hlt : (getP s.all_processes i).arrival < s.current_time
      · rcases hi.no_lost i hl hlt hrem with h | h
        · exact Or.inl (Or.inl h)
        · exact Or.inr h
      · have he : (getP s.all_processes i).arrival = s.current_time := by omega
        have hf := hi.fresh i hl (by omega)
        exact Or.inl (Or.inr ⟨hi.len ▸ hl, he, hf.2.1, hf.2.2⟩)
    completed_eq := by
      rw [f.completed, f.core.doneCount]
      exact hi.completed_eq }

theorem live_shuffle {s t : MLFQ_Scheduler} (h : Shuffle s t) (hl : Live s) : Live t := by
  intro i ha
  rw [h.core.remaining]
  exact hl i (h.back i ha)

theorem live_purge {P : List Process} {cfg : Config} {T : Int} {s : MLFQ_Scheduler}
    (hi : Inv P cfg T s) : Live s.purge := by
  intro i ha
  have hsh := shuffle_purge s
  rw [hsh.core.remaining]
  rcases ha with ha | ha
  · exact ((waiting_purge s i).1 ha).2
  · exact (hi.running_pos i (hsh.running i ha)).1

theorem shuffle_housekeeping {P : List Process} {cfg : Config} {T : Int} {s : MLFQ_Scheduler}
    (hi : Inv P cfg T s) (hnq : 1 ≤ cfg.num_queues) (hcap : cfg.num_queues ≤ QUEUE_SLOTS) :
    Shuffle s s.housekeeping := by
  have h1 := shuffle_purge s
  have i1 := hi.shuffle h1
  have h2 := shuffle_maybe_aging s.purge (by rw [i1.config, i1.qlen]; exact hcap)
  have i2 := i1.shuffle h2
  have h3 := shuffle_maybe_boost s.purge.maybe_aging (by rw [i2.config]; exact hnq)
    (by rw [i2.config, i2.qlen]; exact hcap)
  have i3 := i2.shuffle h3
  have h4 := shuffle_preempt_check s.purge.maybe_aging.maybe_boost (by rw [i3.config]; exact i3.prio)
    (by rw [i3.config, i3.qlen]; exact hcap)
  exact ((h1.shuffle_trans h2).shuffle_trans h3).shuffle_trans h4

theorem live_housekeeping {P : List Process} {cfg : Config} {T : Int} {s : MLFQ_Scheduler}
    (hi : Inv P cfg T s) (hnq : 1 ≤ cfg.num_queues) (hcap : cfg.num_queues ≤ QUEUE_SLOTS) :
    Live s.housekeeping := by
  have h1 := shuffle_purge s
  have i1 := hi.shuffle h1
  have h2 := shuffle_maybe_aging s.purge (by rw [i1.config, i1.qlen]; exact hcap)
  have i2 := i1.shuffle h2
  have h3 := shuffle_maybe_boost s.purge.maybe_aging (by rw [i2.config]; exact hnq)
    (by rw [i2.config, i2.qlen]; exact hcap)
  have i3 := i2.shuffle h3
  have h4 := shuffle_preempt_check s.purge.maybe_aging.maybe_boost (by rw [i3.config]; exact i3.prio)
    (by rw [i3.config, i3.qlen]; exact hcap)
  exact live_shuffle h4 (live_shuffle h3 (live_shuffle h2 (live_purge hi)))

/-! ### Waiting-time accounting -/

theorem priority_foldl {α : Type} (g : List Process → α → List Process) (l : List α)
    (hg : ∀ ps a i, (getP (g ps a) i).priority = (getP ps i).priority) (ps : List Process)
    (i : Nat) : (getP (l.foldl g ps) i).priority = (getP ps i).priority := by
  induction l generalizing ps with
  | nil => rfl
  | cons a l ih => exact (ih (g ps a)).trans (hg ps a i)

theorem coreEq_bump_waiting (running : Option Nat) (ps : List Process) (p : Nat) :
    CoreEq ps (bump_waiting running ps p) := by
  unfold bump_waiting
  split
  · exact coreEq_setP ps p _ (fun x => rfl)
  · exact CoreEq.core_refl ps

theorem priority_bump_waiting (running : Option Nat) (ps : List Process) (p i : Nat) :
    (getP (bump_waiting running ps p) i).priority = (getP ps i).priority := by
  unfold bump_waiting
  split
  · rw [getP_setP]
    split
    · next h => rw [h.1]
    · rfl
  · rfl

theorem shuffle_update_waiting_times (s : MLFQ_Scheduler) :
    Shuffle s s.update_waiting_times where
  config := rfl
  current_time := rfl
  completed := rfl
  total_busy_time := rfl
  timeline_pid := rfl
  timeline_queue := rfl
  qlen := rfl
  core := by
    unfold update_waiting_times
    exact coreEq_foldl _ _ (fun ps q => coreEq_foldl _ _ (coreEq_bump_waiting _) ps) _
  prio := fun h i => by
    have : (getP s.update_waiting_times.all_processes i).priority =
        (getP s.all_processes i).priority := by
      unfold update_waiting_times
      exact priority_foldl _ _
        (fun ps q j => priority_foldl _ _ (priority_bump_waiting _) ps j) _ i
    rw [this]
    exact h i
  context_switches_le := le_refl _
  back := fun _ h => h
  fwd := fun _ _ h => h
  running := fun _ h => h

/-! ### Counting finished records -/

theorem countP_set_add {α : Type} (p : α → Bool) (l : List α) (c : Nat) (a : α)
    (h : c < l.length) :
    (l.set c a).countP p + (if p l[c] = true then 1 else 0) =
      l.countP p + (if p a = true then 1 else 0) := by
  induction l generalizing c with
  | nil => simp at h
  | cons x l ih =>
    cases c with
    | zero =>
      simp only [List.set_cons_zero, List.countP_cons, List.getElem_cons_zero]
      omega
    | succ c =>
      have h2 : c < l.length := by simpa using h
      have := ih c h2
      simp only [List.set_cons_succ, List.countP_cons, List.getElem_cons_succ]
      omega

theorem sum_set_add (l : List Int) (c : Nat) (a : Int) (h : c < l.length) :
    (l.set c a).sum + l[c] = l.sum + a := by
  induction l generalizing c with
  | nil => simp at h
  | cons x l ih =>
    cases c with
    | zero =>
      simp only [List.set_cons_zero, List.sum_cons, List.getElem_cons_zero]
      omega
    | succ c =>
      have h2 : c < l.length := by simpa using h
      have := ih c h2
      simp only [List.set_cons_succ, List.sum_cons, List.getElem_cons_succ]
      omega

theorem map_remaining_eq_set (a b : List Process) (c : Nat) (hlen : b.length = a.length)
    (ho : ∀ i, i ≠ c → (getP b i).core = (getP a i).core) :
    b.map (fun p => p.remaining) =
      (a.map (fun p => p.remaining)).set c (getP b c).remaining := by
  apply List.ext_getElem
  · simp [hlen]
  · intro i h1 h2
    simp only [List.length_map] at h1
    have h3 : i < a.length := hlen ▸ h1
    simp only [List.getElem_map, List.getElem_set]
    by_cases hic : c = i
    · subst hic
      simp [getP_eq_getElem b c h1]
    · simp only [hic, if_false]
      have := (core_fields (ho i (fun e => hic e.symm))).2.2.2.1
      rwa [getP_eq_getElem b i h1, getP_eq_getElem a i h3] at this

theorem doneCount_update (a b : List Process) (c : Nat) (hc : c < a.length)
    (hlen : b.length = a.length)
    (ho : ∀ i, i ≠ c → (getP b i).core = (getP a i).core) :
    doneCount b + (if (getP a c).remaining = 0 then 1 else 0) =
      doneCount a + (if (getP b c).remaining = 0 then 1 else 0) := by
  have hm := map_remaining_eq_set a b c hlen ho
  have e1 : ∀ l : List Process, doneCount l =
      (l.map (fun p => p.remaining)).countP (fun r => decide (r = 0)) := by
    intro l
    unfold doneCount
    rw [List.countP_map]
    rfl
  have hc2 : c < (a.map (fun p => p.remaining)).length := by simpa using hc
  have := countP_set_add (fun r : Int => decide (r = 0)) (a.map (fun p => p.remaining)) c
    (getP b c).remaining hc2
  rw [e1 b, e1 a, hm]
  simp only [List.getElem_map, decide_eq_true_eq] at this
  rw [getP_eq_getElem a c hc]
  exact this

theorem totalRemaining_update (a b : List Process) (c : Nat) (hc : c < a.length)
    (hlen : b.length = a.length)
    (ho : ∀ i, i ≠ c → (getP b i).core = (getP a i).core) :
    totalRemaining b + (getP a c).remaining = totalRemaining a + (getP b c).remaining := by
  have hm := map_remaining_eq_set a b c hlen ho
  have hc2 : c < (a.map (fun p => p.remaining)).length := by simpa using hc
  have := sum_set_add (a.map (fun p => p.remaining)) c (getP b c).remaining hc2
  unfold totalRemaining
  rw [hm]
  simp only [List.getElem_map] at this
  rw [getP_eq_getElem a c hc]
  exact this

/-! ### The completion and demotion check -/

theorem finish_tick_spec (s : MLFQ_Scheduler) (c : Nat) (hc : c < s.all_processes.length)
    (hprio : PrioBound s.config.num_queues s.all_processes)
    (hcap : s.config.num_queues ≤ s.queues.length) : FinishSpec s (finish_tick s c) c := by
  unfold finish_tick
  simp only
  split
  · next h0 =>
    exact {
      config := rfl
      qlen := rfl
      len := by simp [length_setP]
      others := fun i hi => by simp [getP_setP, Ne.symm hi]
      pid := by simp [getP_setP_self _ _ _ hc]
      arrival := by simp [getP_setP_self _ _ _ hc]
      burst := by simp [getP_setP_self _ _ _ hc]
      remaining := by simp [getP_setP_self _ _ _ hc]
      started := by simp [getP_setP_self _ _ _ hc]
      start_time := by simp [getP_setP_self _ _ _ hc]
      completion := by simp [getP_setP_self _ _ _ hc, h0]
      prio := by
        dsimp only
        apply prioBound_setP _ _ _ _ _ hprio
        intro x hx
        exact hx
      completed := by simp [h0]
      current_time := rfl
      total_busy_time := rfl
      timeline_pid := rfl
      timeline_queue := rfl
      slot := fun _ => rfl
      place := Or.inl ⟨rfl, h0, fun i => Iff.rfl⟩ }
  · next h0 =>
    split
    · have hlev : (if (getP s.all_processes c).priority + 1 < s.config.num_queues
          then (getP s.all_processes c).priority + 1 else (getP s.all_processes c).priority) <
          s.config.num_queues := by
        split
        · assumption
        · exact hprio c
      generalize (if (getP s.all_processes c).priority + 1 < s.config.num_queues
          then (getP s.all_processes c).priority + 1 else (getP s.all_processes c).priority) =
          level at hlev
      have hll : level < s.queues.length := by omega
      exact {
        config := rfl
        qlen := by simp [length_qset]
        len := by simp [length_setP]
        others := fun i hi => by simp [getP_setP, Ne.symm hi]
        pid := by simp [getP_setP_self _ _ _ hc]
        arrival := by simp [getP_setP_self _ _ _ hc]
        burst := by simp [getP_setP_self _ _ _ hc]
        remaining := by simp [getP_setP_self _ _ _ hc]
        started := by simp [getP_setP_self _ _ _ hc]
        start_time := by simp [getP_setP_self _ _ _ hc]
        completion := by simp [getP_setP_self _ _ _ hc, h0]
        prio := by
          dsimp only
          apply prioBound_setP _ _ _ _ _ hprio
          intro x _
          exact hlev
        completed := by simp [h0]
        current_time := rfl
        total_busy_time := rfl
        timeline_pid := rfl
        timeline_queue := rfl
        slot := fun _ => rfl
        place := by
          refine Or.inr (Or.inl ⟨rfl, h0, fun i => ?_⟩)
          unfold waiting
          simp only [qget_qset, hll, and_true]
          constructor
          · rintro ⟨l, hl, hi⟩
            split at hi
            · next h =>
              rcases List.mem_append.1 hi with hi | hi
              · exact Or.inl ⟨l, hl, h ▸ hi⟩
              · exact Or.inr (by simpa using hi)
            · exact Or.inl ⟨l, hl, hi⟩
          · rintro (⟨l, hl, hi⟩ | hi)
            · refine ⟨l, hl, ?_⟩
              split
              · next h => exact List.mem_append.2 (Or.inl (h ▸ hi))
              · exact hi
            · exact ⟨level, hlev, by simp [hi]⟩ }
    · exact {
        config := rfl
        qlen := rfl
        len := rfl
        others := fun i _ => rfl
        pid := rfl
        arrival := rfl
        burst := rfl
        remaining := rfl
        started := rfl
        start_time := rfl
        completion := by simp [h0]
        prio := hprio
        completed := by simp [h0]
        current_time := rfl
        total_busy_time := rfl
        timeline_pid := rfl
        timeline_queue := rfl
        slot := fun h => absurd h h0
        place := Or.inr (Or.inr ⟨rfl, h0, fun i => Iff.rfl⟩) }

/-! ### Execution of one unit -/

theorem busyTick_execute {P : List Process} {cfg : Config} {T : Int} (s : MLFQ_Scheduler)
    (c : Nat) (hrun : s.currently_running = some c) (hi : Inv P cfg T s)
    (hT : T = s.current_time + 1) (hcap : cfg.num_queues ≤ QUEUE_SLOTS) :
    BusyTick s (execute s c) c ∧
    FinishSpec (update_waiting_times
      { s with
        timeline_pid := s.timeline_pid ++ [(getP s.all_processes c).pid],
        timeline_queue := s.timeline_queue ++ [((getP s.all_processes c).priority : Int)],
        all_processes := setP s.all_processes c
          (fun x => { x with remaining := x.remaining - 1,
                             time_in_current_quantum := x.time_in_current_quantum + 1 }),
        total_busy_time := s.total_busy_time + 1 }) (execute s c) c := by
  have hact := hi.active_lt c (Or.inr hrun)
  have hpos := hi.running_pos c hrun
  have hcl : c < s.all_processes.length := by rw [hi.len]; exact hact.1
  have hsh := shuffle_update_waiting_times
      { s with
        timeline_pid := s.timeline_pid ++ [(getP s.all_processes c).pid],
        timeline_queue := s.timeline_queue ++ [((getP s.all_processes c).priority : Int)],
        all_processes := setP s.all_processes c
          (fun x => { x with remaining := x.remaining - 1,
                             time_in_current_quantum := x.time_in_current_quantum + 1 }),
        total_busy_time := s.total_busy_time + 1 }
  have hp1 : PrioBound s.config.num_queues (setP s.all_processes c
      (fun x => { x with remaining := x.remaining - 1,
                         time_in_current_quantum := x.time_in_current_quantum + 1 })) := by
    apply prioBound_setP _ _ _ _ _ (hi.config ▸ hi.prio)
    intro x hx
    exact hx
  have hfin := finish_tick_spec _ c (by rw [hsh.core.1]; simpa [length_setP] using hcl)
    (hsh.prio hp1) (by
      rw [hsh.config, hsh.qlen]
      show s.config.num_queues ≤ s.queues.length
      rw [hi.config, hi.qlen]; exact hcap)
  have hexe : execute s c = finish_tick (update_waiting_times
      { s with
        timeline_pid := s.timeline_pid ++ [(getP s.all_processes c).pid],
        timeline_queue := s.timeline_queue ++ [((getP s.all_processes c).priority : Int)],
        all_processes := setP s.all_processes c
          (fun x => { x with remaining := x.remaining - 1,
                             time_in_current_quantum := x.time_in_current_quantum + 1 }),
        total_busy_time := s.total_busy_time + 1 }) c := rfl
  rw [hexe]
  refine ⟨?_, hfin⟩
  have hc2 := core_fields (hsh.core.2 c)
  simp only [getP_setP_self _ _ _ hcl] at hc2
  obtain ⟨c1, c2, c3, c4, c5, c6, c7⟩ := hc2
  have hrem0 : (getP (update_waiting_times
      { s with
        timeline_pid := s.timeline_pid ++ [(getP s.all_processes c).pid],
        timeline_queue := s.timeline_queue ++ [((getP s.all_processes c).priority : Int)],
        all_processes := setP s.all_processes c
          (fun x => { x with remaining := x.remaining - 1,
                             time_in_current_quantum := x.time_in_current_quantum + 1 }),
        total_busy_time := s.total_busy_time + 1 }).all_processes c).remaining = 0 ↔
      (getP s.all_processes c).remaining = 1 := by
    rw [c4]
    constructor <;> intro h <;> omega
  exact {
    lt := hcl
    pos := hpos.1
    arrived := by have := hact.2; omega
    len := by rw [hfin.len, hsh.core.1]; simp [length_setP]
    others := fun i hic => by
      rw [hfin.others i hic, hsh.core.2 i]
      simp [getP_setP, Ne.symm hic]
    pid := by rw [hfin.pid, c1]
    arrival := by rw [hfin.arrival, c2]
    burst := by rw [hfin.burst, c3]
    remaining := by rw [hfin.remaining, c4]
    started := by rw [hfin.started, c7]; exact hpos.2
    start_time := by rw [hfin.start_time, c5]; simp [hpos.2]
    completion := by
      rw [hfin.completion, c6]
      simp only [hrem0]
      rfl
    completed := by
      rw [hfin.completed]
      simp only [hrem0]
      rfl
    current_time := by rw [hfin.current_time]; rfl
    total_busy_time := by rw [hfin.total_busy_time]; rfl
    timeline_pid := by rw [hfin.timeline_pid]; rfl
    timeline_queue := ⟨(getP s.all_processes c).priority, hi.config ▸ hi.prio c,
      by rw [hfin.timeline_queue]; rfl⟩ }

theorem inv_execute {P : List Process} {cfg : Config} {T : Int} (s : MLFQ_Scheduler)
    (c : Nat) (hrun : s.currently_running = some c) (hi : Inv P cfg T s)
    (hT : T = s.current_time + 1) (hcap : cfg.num_queues ≤ QUEUE_SLOTS) :
    Inv P cfg T (execute s c) := by
  obtain ⟨hb, hfin⟩ := busyTick_execute s c hrun hi hT hcap
  have hact := hi.active_lt c (Or.inr hrun)
  have hsh := shuffle_update_waiting_times
      { s with
        timeline_pid := s.timeline_pid ++ [(getP s.all_processes c).pid],
        timeline_queue := s.timeline_queue ++ [((getP s.all_processes c).priority : Int)],
        all_processes := setP s.all_processes c
          (fun x => { x with remaining := x.remaining - 1,
                             time_in_current_quantum := x.time_in_current_quantum + 1 }),
        total_busy_time := s.total_busy_time + 1 }
  have hrem2 := hfin.remaining
  rw [hb.remaining] at hrem2
  generalize execute s c = t at hb hfin hrem2
  have hplace : (t.currently_running = none ∧ (getP t.all_processes c).remaining = 0 ∧
      ∀ i, t.waiting i ↔ s.waiting i) ∨
    (t.currently_running = none ∧ (getP t.all_processes c).remaining ≠ 0 ∧
      ∀ i, t.waiting i ↔ (s.waiting i ∨ i = c)) ∨
    (t.currently_running = some c ∧ (getP t.all_processes c).remaining ≠ 0 ∧
      ∀ i, t.waiting i ↔ s.waiting i) := by
    rw [hb.remaining, hrem2]
    rcases hfin.place with h | h | h
    · exact Or.inl h
    · exact Or.inr (Or.inl h)
    · exact Or.inr (Or.inr ⟨h.1.trans hrun, h.2⟩)
  have hback : ∀ i, t.waiting i ∨ t.currently_running = some i →
      s.waiting i ∨ s.currently_running = some i := by
    intro i h
    rcases hplace with ⟨h1, _, h3⟩ | ⟨h1, _, h3⟩ | ⟨h1, _, h3⟩
    · rcases h with h | h
      · exact Or.inl ((h3 i).1 h)
      · rw [h1] at h; cases h
    · rcases h with h | h
      · rcases (h3 i).1 h with h | h
        · exact Or.inl h
        · exact Or.inr (h ▸ hrun)
      · rw [h1] at h; cases h
    · rcases h with h | h
      · exact Or.inl ((h3 i).1 h)
      · rw [h1] at h; exact Or.inr (h ▸ hrun)
  have hcore : ∀ i, i ≠ c →
      (getP t.all_processes i).pid = (getP s.all_processes i).pid ∧
      (getP t.all_processes i).arrival = (getP s.all_processes i).arrival ∧
      (getP t.all_processes i).burst = (getP s.all_processes i).burst ∧
      (getP t.all_processes i).remaining = (getP s.all_processes i).remaining ∧
      (getP t.all_processes i).start_time = (getP s.all_processes i).start_time ∧
      (getP t.all_processes i).completion = (getP s.all_processes i).completion ∧
      (getP t.all_processes i).started = (getP s.all_processes i).started :=
    fun i h => core_fields (hb.others i h)
  have harr : ∀ i, (getP t.all_processes i).arrival = (getP s.all_processes i).arrival := by
    intro i
    by_cases h : i = c
    · rw [h]; exact hb.arrival
    · exact (hcore i h).2.1
  exact {
    config := hfin.config.trans hi.config
    qlen := hfin.qlen.trans hi.qlen
    len := hb.len.trans hi.len
    static := fun i => by
      by_cases h : i = c
      · rw [h, hb.pid, hb.arrival, hb.burst]; exact hi.static c
      · obtain ⟨c1, c2, c3, _⟩ := hcore i h
        rw [c1, c2, c3]; exact hi.static i
    prio := by
      have := hfin.prio
      rw [hsh.config] at this
      exact hi.config ▸ this
    active_lt := fun i h => by
      rw [harr i]
      exact hi.active_lt i (hback i h)
    running_pos := fun c2 h => by
      rcases hplace with ⟨h1, _, _⟩ | ⟨h1, _, _⟩ | ⟨h1, h2, _⟩
      · rw [h1] at h; cases h
      · rw [h1] at h; cases h
      · rw [h1] at h
        cases h
        refine ⟨?_, hb.started⟩
        have := hb.remaining
        have := hb.pos
        omega
    rem_range := fun i => by
      by_cases h : i = c
      · rw [h, hb.remaining, hb.burst]
        have := hi.rem_range c
        have := hb.pos
        omega
      · obtain ⟨_, _, c3, c4, _⟩ := hcore i h
        rw [c3, c4]; exact hi.rem_range i
    fresh := fun i hl ha => by
      rw [harr i] at ha
      have hne : i ≠ c := by
        intro h
        rw [h] at ha
        have := hact.2
        omega
      obtain ⟨_, _, c3, c4, c5, _, c7⟩ := hcore i hne
      rw [c3, c4, c5, c7]
      exact hi.fresh i hl ha
    no_lost := fun i hl ha hr => by
      rw [harr i] at ha
      by_cases h : i = c
      · subst h
        rcases hplace with ⟨_, h2, _⟩ | ⟨_, _, h3⟩ | ⟨h1, _, _⟩
        · omega
        · exact Or.inl ((h3 i).2 (Or.inr rfl))
        · exact Or.inr h1
      · rw [(hcore i h).2.2.2.1] at hr
        rcases hi.no_lost i hl ha hr with hw | hw
        · left
          rcases hplace with ⟨_, _, h3⟩ | ⟨_, _, h3⟩ | ⟨_, _, h3⟩
          · exact (h3 i).2 hw
          · exact (h3 i).2 (Or.inl hw)
          · exact (h3 i).2 hw
        · rw [hrun] at hw
          exact absurd (Option.some.inj hw).symm h
    completed_eq := by
      have hd := doneCount_update s.all_processes t.all_processes c hb.lt hb.len hb.others
      have hpos := hb.pos
      have hne : ¬ (getP s.all_processes c).remaining = 0 := by omega
      rw [hb.remaining] at hd
      simp only [hne, if_false, add_zero] at hd
      rw [hb.completed, hi.completed_eq, hd]
      by_cases h1 : (getP s.all_processes c).remaining = 1
      · simp [h1]
      · have : ¬ (getP s.all_processes c).remaining - 1 = 0 := by omega
        simp [h1, this] }

/-! ### Dispatch -/

theorem get_highest_none (s : MLFQ_Scheduler) (h : s.get_highest_priority_queue = none)
    (i : Nat) : ¬ s.waiting i := by
  rintro ⟨q, hq, hi⟩
  unfold get_highest_priority_queue at h
  rw [List.find?_eq_none] at h
  have := h q (List.mem_range.2 hq)
  cases hqg : qget s.queues q with
  | nil => rw [hqg] at hi; cases hi
  | cons a l => simp [hqg] at this

theorem get_highest_some (s : MLFQ_Scheduler) (aq : Nat)
    (h : s.get_highest_priority_queue = some aq) :
    aq < s.config.num_queues ∧ qget s.queues aq ≠ [] := by
  unfold get_highest_priority_queue at h
  have h1 := List.mem_of_find?_eq_some h
  have h2 := List.find?_some h
  refine ⟨List.mem_range.1 h1, fun he => ?_⟩
  simp [he] at h2

theorem has_future_true (s : MLFQ_Scheduler) (h : s.has_future = true) :
    ∃ i, i < s.all_processes.length ∧ s.current_time < (getP s.all_processes i).arrival ∧
      0 < (getP s.all_processes i).remaining := by
  unfold has_future at h
  rw [List.any_eq_true] at h
  obtain ⟨p, hp, hd⟩ := h
  obtain ⟨i, hi, rfl⟩ := List.getElem_of_mem hp
  refine ⟨i, hi, ?_⟩
  rw [getP_eq_getElem _ i hi]
  simpa using hd

theorem has_future_false (s : MLFQ_Scheduler) (h : s.has_future = false) (i : Nat)
    (hi : i < s.all_processes.length) :
    ¬ (s.current_time < (getP s.all_processes i).arrival ∧
      0 < (getP s.all_processes i).remaining) := by
  unfold has_future at h
  rw [List.any_eq_false] at h
  have := h (s.all_processes[i]) (List.getElem_mem hi)
  rw [getP_eq_getElem _ i hi]
  simpa using this

theorem doneCount_full (ps : List Process)
    (h : ∀ i, i < ps.length → (getP ps i).remaining = 0) : doneCount ps = ps.length := by
  unfold doneCount
  rw [List.countP_eq_length]
  intro p hp
  obtain ⟨i, hi, rfl⟩ := List.getElem_of_mem hp
  have := h i hi
  rw [getP_eq_getElem _ i hi] at this
  simpa using this

theorem busyTick_of_frame {s u t : MLFQ_Scheduler} {c : Nat} (hb : BusyTick u t c)
    (hlen : u.all_processes.length = s.all_processes.length)
    (ho : ∀ i, i ≠ c → (getP u.all_processes i).core = (getP s.all_processes i).core)
    (hpid : (getP u.all_processes c).pid = (getP s.all_processes c).pid)
    (harr : (getP u.all_processes c).arrival = (getP s.all_processes c).arrival)
    (hbur : (getP u.all_processes c).burst = (getP s.all_processes c).burst)
    (hrem : (getP u.all_processes c).remaining = (getP s.all_processes c).remaining)
    (hcom : (getP u.all_processes c).completion = (getP s.all_processes c).completion)
    (hsta : (getP u.all_processes c).started = true)
    (hst : (getP u.all_processes c).start_time =
      if (getP s.all_processes c).started = true then (getP s.all_processes c).start_time
      else s.current_time)
    (htime : u.current_time = s.current_time) (hcomp : u.completed = s.completed)
    (hbusy : u.total_busy_time = s.total_busy_time) (htp : u.timeline_pid = s.timeline_pid)
    (htq : u.timeline_queue = s.timeline_queue) (hcfg : u.config = s.config) :
    BusyTick s t c where
  lt := hlen ▸ hb.lt
  pos := hrem ▸ hb.pos
  arrived := by have := hb.arrived; rw [harr, htime] at this; exact this
  len := hb.len.trans hlen
  others := fun i hi => (hb.others i hi).trans (ho i hi)
  pid := hb.pid.trans hpid
  arrival := hb.arrival.trans harr
  burst := hb.burst.trans hbur
  remaining := by rw [hb.remaining, hrem]
  started := hb.started
  start_time := by rw [hb.start_time, hst]; simp [hsta]
  completion := by rw [hb.completion, hrem, hcom, htime]
  completed := by rw [hb.completed, hrem, hcomp]
  current_time := by rw [hb.current_time, htime]
  total_busy_time := by rw [hb.total_busy_time, hbusy]
  timeline_pid := by rw [hb.timeline_pid, htp, hpid]
  timeline_queue := by
    obtain ⟨l, hl0, hl⟩ := hb.timeline_queue
    exact ⟨l, hcfg ▸ hl0, by rw [hl, htq]⟩

theorem dispatch_write_spec (s : MLFQ_Scheduler) (c : Nat) (hc : c < s.all_processes.length)
    (ps : List Process)
    (hps : ps = if (getP s.all_processes c).started = false then
        setP s.all_processes c (fun x => { x with started := true, start_time := s.current_time })
      else s.all_processes) :
    ps.length = s.all_processes.length ∧
    (∀ i, i ≠ c → getP ps i = getP s.all_processes i) ∧
    (getP ps c).pid = (getP s.all_processes c).pid ∧
    (getP ps c).arrival = (getP s.all_processes c).arrival ∧
    (getP ps c).burst = (getP s.all_processes c).burst ∧
    (getP ps c).remaining = (getP s.all_processes c).remaining ∧
    (getP ps c).completion = (getP s.all_processes c).completion ∧
    (getP ps c).priority = (getP s.all_processes c).priority ∧
    (getP ps c).started = true ∧
    (getP ps c).start_time =
      if (getP s.all_processes c).started = true then (getP s.all_processes c).start_time
      else s.current_time := by
  subst hps
  by_cases h : (getP s.all_processes c).started = false
  · simp only [h, if_true]
    refine ⟨length_setP _ _ _, fun i hi => getP_setP_ne _ _ _ _ (Ne.symm hi), ?_⟩
    simp [getP_setP_self _ _ _ hc]
  · have h2 : (getP s.all_processes c).started = true := by simpa using h
    simp [h2]

theorem dispatch_spec {P : List Process} {cfg : Config} (s : MLFQ_Scheduler)
    (hi : Inv P cfg (s.current_time + 1) s) (hl : Live s)
    (hrun : s.currently_running = none)
    (hburst : ∀ i, i < P.length → 1 ≤ (getP P i).burst)
    (hcap : cfg.num_queues ≤ QUEUE_SLOTS)
    (hlt : s.completed < (s.all_processes.length : Int)) :
    ∃ t, s.dispatch = Outcome.next t ∧ Inv P cfg t.current_time t ∧
      (IdleTick s t ∨ ∃ c, BusyTick s t c) := by
  unfold dispatch
  split
  · next hq =>
    have hnow : ∀ i, ¬ s.waiting i := get_highest_none s hq
    have hidle : ∀ i, i < s.all_processes.length →
        (getP s.all_processes i).arrival ≤ s.current_time →
        (getP s.all_processes i).remaining = 0 := by
      intro i hil ha
      by_contra hne
      have hr := (hi.rem_range i).1
      have hpos : 0 < (getP s.all_processes i).remaining := by omega
      rcases hi.no_lost i (hi.len ▸ hil) (by omega) hpos with h | h
      · exact hnow i h
      · rw [hrun] at h; cases h
    split
    · next hf =>
      obtain ⟨i, hil, ha, _⟩ := has_future_true s hf
      refine ⟨_, rfl, ?_, Or.inl ?_⟩
      · exact {
          config := hi.config
          qlen := hi.qlen
          len := hi.len
          static := hi.static
          prio := hi.prio
          active_lt := hi.active_lt
          running_pos := hi.running_pos
          rem_range := hi.rem_range
          fresh := hi.fresh
          no_lost := hi.no_lost
          completed_eq := hi.completed_eq }
      · exact {
          core := CoreEq.core_refl _
          completed := rfl
          current_time := rfl
          total_busy_time := rfl
          timeline_pid := rfl
          timeline_queue := rfl
          future := ⟨i, hil, ha⟩
          idle := hidle }
    · next hf =>
      exfalso
      have hf2 : s.has_future = false := by simpa using hf
      have hall : ∀ i, i < s.all_processes.length → (getP s.all_processes i).remaining = 0 := by
        intro i hil
        by_cases ha : (getP s.all_processes i).arrival ≤ s.current_time
        · exact hidle i hil ha
        · exfalso
          have hfr := hi.fresh i (hi.len ▸ hil) (by omega)
          have hb := hburst i (hi.len ▸ hil)
          rw [← (hi.static i).2.2] at hb
          exact has_future_false s hf2 i hil ⟨by omega, by omega⟩
      have := doneCount_full s.all_processes hall
      rw [hi.completed_eq, this] at hlt
      exact lt_irrefl _ hlt
  · next aq hq =>
    obtain ⟨haq, hne⟩ := get_highest_some s aq hq
    split
    · next he => exact absurd he hne
    · next c rest he =>
      have hwc : s.waiting c := ⟨aq, haq, by rw [he]; exact List.mem_cons_self c rest⟩
      have hact := hi.active_lt c (Or.inl hwc)
      have hcl : c < s.all_processes.length := by rw [hi.len]; exact hact.1
      have haql : aq < s.queues.length := by rw [hi.qlen]; rw [hi.config] at haq; omega
      obtain ⟨w1, w2, w3, w4, w5, w6, w7, w8, w9, w10⟩ := dispatch_write_spec s c hcl _ rfl
      dsimp only
      generalize (if (getP s.all_processes c).started = false then
          setP s.all_processes c (fun x => { x with started := true, start_time := s.current_time })
        else s.all_processes) = ps at w1 w2 w3 w4 w5 w6 w7 w8 w9 w10 ⊢
      have hsub : ∀ i, MLFQ_Scheduler.waiting
          { s with
            all_processes := ps,
            queues := qset s.queues aq rest,
            currently_running := some c,
            context_switches := s.context_switches + 1 } i → s.waiting i := by
        rintro i ⟨l, hl1, hl2⟩
        simp only [qget_qset, haql, and_true] at hl2
        split at hl2
        · next h => exact ⟨l, hl1, by rw [← h, he]; exact List.mem_cons_of_mem c hl2⟩
        · exact ⟨l, hl1, hl2⟩
      have hsup : ∀ i, s.waiting i → i = c ∨ MLFQ_Scheduler.waiting
          { s with
            all_processes := ps,
            queues := qset s.queues aq rest,
            currently_running := some c,
            context_switches := s.context_switches + 1 } i := by
        rintro i ⟨l, hl1, hl2⟩
        by_cases h : aq = l
        · subst h
          rw [he] at hl2
          rcases List.mem_cons.1 hl2 with h | h
          · exact Or.inl h
          · exact Or.inr ⟨aq, hl1, by simp [qget_qset, haql, h]⟩
        · exact Or.inr ⟨l, hl1, by simp [qget_qset, h, hl2]⟩
      have hcore : ∀ i, i ≠ c → (getP ps i).core = (getP s.all_processes i).core :=
        fun i h => by rw [w2 i h]
      have i6 : Inv P cfg (s.current_time + 1)
          { s with
            all_processes := ps,
            queues := qset s.queues aq rest,
            currently_running := some c,
            context_switches := s.context_switches + 1 } := {
        config := hi.config
        qlen := by simp [length_qset, hi.qlen]
        len := w1.trans hi.len
        static := fun i => by
          by_cases h : i = c
          · subst h
            dsimp only
            rw [w3, w4, w5]; exact hi.static i
          · dsimp only
            rw [w2 i h]; exact hi.static i
        prio := fun i => by
          by_cases h : i = c
          · subst h
            dsimp only
            rw [w8]; exact hi.prio i
          · dsimp only
            rw [w2 i h]; exact hi.prio i
        active_lt := fun i h => by
          have : s.waiting i := by
            rcases h with h | h
            · exact hsub i h
            · cases h; exact hwc
          have h2 := hi.active_lt i (Or.inl this)
          by_cases h : i = c
          · subst h
            dsimp only
            rw [w4]; exact h2
          · dsimp only
            rw [w2 i h]; exact h2
        running_pos := fun c2 h => by
          cases h
          dsimp only
          rw [w6]
          exact ⟨hl c (Or.inl hwc), w9⟩
        rem_range := fun i => by
          by_cases h : i = c
          · subst h
            dsimp only
            rw [w6, w5]; exact hi.rem_range i
          · dsimp only
            rw [w2 i h]; exact hi.rem_range i
        fresh := fun i hil ha => by
          have hne : i ≠ c := by
            intro h
            subst h
            dsimp only at ha
            rw [w4] at ha
            have := hact.2
            omega
          dsimp only at ha ⊢
          rw [w2 i hne] at ha ⊢
          exact hi.fresh i hil ha
        no_lost := fun i hil ha hr => by
          by_cases h : i = c
          · exact Or.inr (by rw [h])
          · dsimp only at ha hr
            rw [w2 i h] at ha hr
            rcases hi.no_lost i hil ha hr with hw | hw
            · rcases hsup i hw with h2 | h2
              · exact absurd h2 h
              · exact Or.inl h2
            · rw [hrun] at hw; cases hw
        completed_eq := by
          have hd := doneCount_update s.all_processes ps c hcl w1 hcore
          rw [w6] at hd
          dsimp only
          rw [hi.completed_eq]
          omega }
      refine ⟨_, rfl, ?_, Or.inr ⟨c, ?_⟩⟩
      · have := inv_execute _ c rfl i6 rfl hcap
        have ht : (execute
          { s with
            all_processes := ps,
            queues := qset s.queues aq rest,
            currently_running := some c,
            context_switches := s.context_switches + 1 } c).current_time = s.current_time + 1 :=
          (busyTick_execute _ c rfl i6 rfl hcap).1.current_time
        rw [ht]
        exact this
      · exact busyTick_of_frame (busyTick_execute _ c rfl i6 rfl hcap).1 w1 hcore w3 w4 w5 w6 w7 w9
          w10 rfl rfl rfl rfl rfl rfl

/-! ### One pass through the loop body -/

theorem idleTick_of_frame {s u t : MLFQ_Scheduler} (f : Frame s u) (h : IdleTick u t) :
    IdleTick s t where
  core := f.core.core_trans h.core
  completed := h.completed.trans f.completed
  current_time := by rw [h.current_time, f.current_time]
  total_busy_time := h.total_busy_time.trans f.total_busy_time
  timeline_pid := by rw [h.timeline_pid, f.timeline_pid]
  timeline_queue := by rw [h.timeline_queue, f.timeline_queue]
  future := by
    obtain ⟨i, h1, h2⟩ := h.future
    refine ⟨i, f.core.1 ▸ h1, ?_⟩
    rw [f.current_time, (core_fields (f.core.2 i)).2.1] at h2
    exact h2
  idle := fun i h1 h2 => by
    have := h.idle i (f.core.1.symm ▸ h1)
    rw [f.current_time, (core_fields (f.core.2 i)).2.1, f.core.remaining] at this
    exact this h2

theorem busyTick_of_coreEq {s u t : MLFQ_Scheduler} {c : Nat} (f : Frame s u)
    (h : BusyTick u t c) : BusyTick s t c := by
  obtain ⟨c1, c2, c3, c4, c5, c6, c7⟩ := core_fields (f.core.2 c)
  exact {
    lt := f.core.1 ▸ h.lt
    pos := c4 ▸ h.pos
    arrived := by have := h.arrived; rw [c2, f.current_time] at this; exact this
    len := h.len.trans f.core.1
    others := fun i hi => (h.others i hi).trans (f.core.2 i)
    pid := h.pid.trans c1
    arrival := h.arrival.trans c2
    burst := h.burst.trans c3
    remaining := by rw [h.remaining, c4]
    started := h.started
    start_time := by rw [h.start_time, c7, c5, f.current_time]
    completion := by rw [h.completion, c4, c6, f.current_time]
    completed := by rw [h.completed, c4, f.completed]
    current_time := by rw [h.current_time, f.current_time]
    total_busy_time := by rw [h.total_busy_time, f.total_busy_time]
    timeline_pid := by rw [h.timeline_pid, f.timeline_pid, c1]
    timeline_queue := by
      obtain ⟨l, hl0, hl⟩ := h.timeline_queue
      exact ⟨l, f.config ▸ hl0, by rw [hl, f.timeline_queue]⟩ }

theorem step_spec {P : List Process} {cfg : Config} (s : MLFQ_Scheduler)
    (hi : Inv P cfg s.current_time s)
    (hnq : 1 ≤ cfg.num_queues) (hcap : cfg.num_queues ≤ QUEUE_SLOTS)
    (hburst : ∀ i, i < P.length → 1 ≤ (getP P i).burst)
    (hlt : s.completed < (s.all_processes.length : Int)) :
    ∃ t, s.step = Outcome.next t ∧ Inv P cfg t.current_time t ∧
      (IdleTick s t ∨ ∃ c, BusyTick s t c) := by
  have i1 := inv_add_arrivals hi hnq
  have hq0 : 0 < s.queues.length := by rw [hi.qlen]; decide
  obtain ⟨f1, _, _, _⟩ := add_arrivals_spec s (by rw [hi.config]; exact hnq) hq0
  have hsh := shuffle_housekeeping i1 hnq hcap
  have i5 := i1.shuffle hsh
  have l5 := live_housekeeping i1 hnq hcap
  have f5 : Frame s s.add_arrivals.housekeeping := f1.frame_trans hsh.toFrame
  have hnf : ¬ s.add_arrivals.queues.length < s.add_arrivals.config.num_queues := by
    rw [i1.qlen, i1.config]; omega
  have hstep : s.step = resume_or_dispatch s.add_arrivals.housekeeping := by
    unfold step
    simp only [hnf, if_false]
  rw [hstep]
  have hT : s.current_time + 1 = s.add_arrivals.housekeeping.current_time + 1 := by
    rw [f5.current_time]
  rw [hT] at i5
  have hlt5 : s.add_arrivals.housekeeping.completed <
      (s.add_arrivals.housekeeping.all_processes.length : Int) := by
    rw [f5.completed, f5.core.1]; exact hlt
  unfold resume_or_dispatch
  split
  · next hrun =>
    obtain ⟨t, h1, h2, h3⟩ := dispatch_spec _ i5 l5 hrun hburst hcap hlt5
    refine ⟨t, h1, h2, ?_⟩
    rcases h3 with h3 | ⟨c, h3⟩
    · exact Or.inl (idleTick_of_frame f5 h3)
    · exact Or.inr ⟨c, busyTick_of_coreEq f5 h3⟩
  · next c hrun =>
    have hpos := (i5.running_pos c hrun).1
    have hne : ¬ (getP s.add_arrivals.housekeeping.all_processes c).remaining = 0 := by omega
    simp only [hne, if_false]
    have hb := (busyTick_execute _ c hrun i5 rfl hcap).1
    refine ⟨_, rfl, ?_, Or.inr ⟨c, busyTick_of_coreEq f5 hb⟩⟩
    have := inv_execute _ c hrun i5 rfl hcap
    rw [hb.current_time]
    exact this

/-! ### Termination of the loop -/

theorem totalRemaining_nonneg (ps : List Process) (h : ∀ i, 0 ≤ (getP ps i).remaining) :
    0 ≤ totalRemaining ps ∧ (doneCount ps < ps.length → 1 ≤ totalRemaining ps) := by
  induction ps with
  | nil => simp [totalRemaining, doneCount]
  | cons p ps ih =>
    have h0 : 0 ≤ p.remaining := by simpa [getP] using h 0
    have ht : ∀ i, 0 ≤ (getP ps i).remaining := by
      intro i
      have := h (i + 1)
      simpa [getP] using this
    obtain ⟨ih1, ih2⟩ := ih ht
    have e1 : totalRemaining (p :: ps) = p.remaining + totalRemaining ps := by
      simp [totalRemaining]
    have e2 : doneCount (p :: ps) = doneCount ps + (if p.remaining = 0 then 1 else 0) := by
      simp [doneCount, List.countP_cons]
    rw [e1, e2]
    refine ⟨by omega, fun hlt => ?_⟩
    by_cases hp : p.remaining = 0
    · simp only [hp, if_true, List.length_cons] at hlt
      have := ih2 (by omega)
      omega
    · omega

theorem le_foldl_max (l : List Int) (m : Int) :
    m ≤ l.foldl max m ∧ ∀ x ∈ l, x ≤ l.foldl max m := by
  induction l generalizing m with
  | nil => simp
  | cons a l ih =>
    obtain ⟨h1, h2⟩ := ih (max m a)
    simp only [List.foldl_cons, List.mem_cons]
    refine ⟨le_trans (le_max_left m a) h1, fun x hx => ?_⟩
    rcases hx with hx | hx
    · rw [hx]; exact le_trans (le_max_right m a) h1
    · exact h2 x hx

theorem arrival_le_maxArrival (P : List Process) (i : Nat) (h : i < P.length) :
    (getP P i).arrival ≤ maxArrival P := by
  unfold maxArrival
  apply (le_foldl_max _ 0).2
  rw [getP_eq_getElem P i h]
  exact List.mem_map.2 ⟨P[i], List.getElem_mem h, rfl⟩

theorem measure_tick {P : List Process} {cfg : Config} {s t : MLFQ_Scheduler}
    (hi : Inv P cfg s.current_time s)
    (h : IdleTick s t ∨ ∃ c, BusyTick s t c) : measure P t + 1 ≤ measure P s := by
  unfold measure
  rcases h with h | ⟨c, h⟩
  · obtain ⟨i, hil, ha⟩ := h.future
    have := arrival_le_maxArrival P i (hi.len ▸ hil)
    rw [← (hi.static i).2.1] at this
    rw [h.core.totalRemaining, h.current_time]
    have e1 : max 0 (maxArrival P - (s.current_time + 1)) = maxArrival P - s.current_time - 1 := by
      rw [max_eq_right (by omega)]; omega
    have e2 : max 0 (maxArrival P - s.current_time) = maxArrival P - s.current_time := by
      rw [max_eq_right (by omega)]
    rw [e1, e2]
    omega
  · have := totalRemaining_update s.all_processes t.all_processes c h.lt h.len h.others
    rw [h.remaining] at this
    rw [h.current_time]
    have e3 : max 0 (maxArrival P - (s.current_time + 1)) ≤ max 0 (maxArrival P - s.current_time) :=
      max_le_max (le_refl 0) (by omega)
    omega

theorem reaches_trans {a b c : MLFQ_Scheduler} (h1 : Reaches a b) (h2 : Reaches b c) :
    Reaches a c := by
  induction h2 with
  | start => exact h1
  | tick s t _ hlt hstep ih => exact Reaches.tick s t ih hlt hstep

theorem run_done {P : List Process} {cfg : Config}
    (hnq : 1 ≤ cfg.num_queues) (hcap : cfg.num_queues ≤ QUEUE_SLOTS)
    (hburst : ∀ i, i < P.length → 1 ≤ (getP P i).burst)
    (fuel : Nat) (s : MLFQ_Scheduler) (hi : Inv P cfg s.current_time s)
    (hm : measure P s ≤ (fuel : Int)) :
    ∃ t, run fuel s = RunResult.done t false ∧ Reaches s t ∧
      Inv P cfg t.current_time t ∧ ¬ t.completed < (t.all_processes.length : Int) := by
  induction fuel generalizing s with
  | zero =>
    have hge : ¬ s.completed < (s.all_processes.length : Int) := by
      intro hlt
      rw [hi.completed_eq] at hlt
      have := (totalRemaining_nonneg s.all_processes (fun i => (hi.rem_range i).1)).2
        (by exact_mod_cast hlt)
      unfold measure at hm
      have : (0 : Int) ≤ max 0 (maxArrival P - s.current_time) := le_max_left _ _
      omega
    exact ⟨s, by simp [run, hge], Reaches.start, hi, hge⟩
  | succ fuel ih =>
    by_cases hlt : s.completed < (s.all_processes.length : Int)
    · obtain ⟨t, h1, h2, h3⟩ := step_spec s hi hnq hcap hburst hlt
      have hmt := measure_tick hi h3
      obtain ⟨u, r1, r2, r3, r4⟩ := ih t h2 (by push_cast at hm; omega)
      refine ⟨u, ?_, reaches_trans (Reaches.tick s t Reaches.start hlt h1) r2, r3, r4⟩
      simp only [run, hlt, if_true, h1]
      exact r1
    · exact ⟨s, by simp [run, hlt], Reaches.start, hi, hlt⟩

/-! ### The start state -/

theorem getP_map_copy (procs : List Process) (i : Nat) :
    getP (procs.map Process.copy) i =
      if i < procs.length then Process.copy (getP procs i) else default := by
  unfold getP
  by_cases h : i < procs.length
  · simp [h]
  · simp [h, List.getElem?_eq_none (Nat.le_of_not_lt h)]

theorem qget_replicate (n q : Nat) : qget (List.replicate n []) q = [] := by
  unfold qget
  by_cases h : q < n
  · simp [List.getElem?_replicate, h]
  · simp [List.getElem?_replicate, h]

theorem validInput_getP {procs : List Process} (h : ValidInput procs) (i : Nat)
    (hi : i < procs.length) : 0 ≤ (getP procs i).arrival ∧ 1 ≤ (getP procs i).burst := by
  rw [getP_eq_getElem procs i hi]
  exact h _ (List.getElem_mem hi)

theorem doneCount_map_copy (procs : List Process) (h : ValidInput procs) :
    doneCount (procs.map Process.copy) = 0 := by
  unfold doneCount
  rw [List.countP_eq_zero]
  intro p hp
  obtain ⟨q, hq, rfl⟩ := List.mem_map.1 hp
  have := (h q hq).2
  simp only [Process.copy, decide_eq_true_eq]
  omega

theorem inv_init (procs : List Process) (cfg : Config) (hin : ValidInput procs)
    (hnq : 1 ≤ cfg.num_queues) :
    Inv (procs.map Process.copy) cfg 0 (init procs cfg) where
  config := rfl
  qlen := by simp [init]
  len := rfl
  static := fun i => ⟨rfl, rfl, rfl⟩
  prio := fun i => by
    show (getP (procs.map Process.copy) i).priority < cfg.num_queues
    rw [getP_map_copy]
    split
    · exact hnq
    · exact hnq
  active_lt := fun i h => by
    rcases h with ⟨q, _, hq⟩ | h
    · simp [init, qget_replicate] at hq
    · simp [init] at h
  running_pos := fun c h => by simp [init] at h
  rem_range := fun i => by
    show 0 ≤ (getP (procs.map Process.copy) i).remaining ∧
      (getP (procs.map Process.copy) i).remaining ≤ (getP (procs.map Process.copy) i).burst
    rw [getP_map_copy]
    split
    · next h =>
      have := (validInput_getP hin i h).2
      simp only [Process.copy]
      omega
    · exact ⟨le_refl _, le_refl _⟩
  fresh := fun i hi _ => by
    show (getP (procs.map Process.copy) i).remaining = (getP (procs.map Process.copy) i).burst ∧
      (getP (procs.map Process.copy) i).started = false ∧
      (getP (procs.map Process.copy) i).start_time = -1
    rw [getP_map_copy]
    have hi2 : i < procs.length := by simpa using hi
    simp [hi2, Process.copy]
  no_lost := fun i hi ha _ => by
    exfalso
    have hi2 : i < procs.length := by simpa using hi
    have h1 : (getP (procs.map Process.copy) i).arrival < 0 := ha
    rw [getP_map_copy] at h1
    simp only [hi2, if_true, Process.copy] at h1
    have := (validInput_getP hin i hi2).1
    omega
  completed_eq := by
    show (0 : Int) = (doneCount (procs.map Process.copy) : Int)
    rw [doneCount_map_copy procs hin]
    rfl

theorem measure_init (procs : List Process) (cfg : Config) :
    measure (procs.map Process.copy) (init procs cfg) ≤ (budget procs : Int) := by
  unfold measure budget
  have e1 : totalRemaining (init procs cfg).all_processes = (procs.map (fun p => p.burst)).sum := by
    simp only [init, totalRemaining, List.map_map]
    rfl
  have e2 : maxArrival (procs.map Process.copy) = maxArrival procs := by
    simp only [maxArrival, List.map_map]
    rfl
  have e3 : (0 : Int) ≤ maxArrival procs := (le_foldl_max _ 0).1
  have e4 : (init procs cfg).current_time = 0 := rfl
  rw [e1, e2, e4, sub_zero, max_eq_right e3]
  exact Int.self_le_toNat _

/-! ### Clock, timeline length and completion times -/

theorem tinv_init (procs : List Process) (cfg : Config) (hin : ValidInput procs) :
    TInv (init procs cfg) where
  time_nonneg := le_refl _
  tl_pid := rfl
  tl_queue := rfl
  completion_le := fun i hi h0 => by
    exfalso
    have hi2 : i < procs.length := by simpa [init] using hi
    have h1 : (getP (procs.map Process.copy) i).remaining = 0 := h0
    rw [getP_map_copy] at h1
    simp only [hi2, if_true, Process.copy] at h1
    have := (validInput_getP hin i hi2).2
    omega
  last := fun hne hc => by
    exfalso
    have h0 : (init procs cfg).completed = 0 := rfl
    rw [h0] at hc
    have : (init procs cfg).all_processes.length = 0 := by exact_mod_cast hc.symm
    exact hne (List.length_eq_zero.1 this)
  empty := fun _ => rfl

theorem tinv_tick {s t : MLFQ_Scheduler} (hs : TInv s)
    (hlt : s.completed < (s.all_processes.length : Int))
    (h : IdleTick s t ∨ ∃ c, BusyTick s t c) : TInv t := by
  rcases h with h | ⟨c, h⟩
  · exact {
      time_nonneg := by rw [h.current_time]; have := hs.time_nonneg; omega
      tl_pid := by
        rw [h.timeline_pid, h.current_time, List.length_append, ← hs.tl_pid]
        simp
      tl_queue := by
        rw [h.timeline_pid, h.timeline_queue, List.length_append, List.length_append, hs.tl_queue]
        simp
      completion_le := fun i hi h0 => by
        obtain ⟨_, _, _, c4, _, c6, _⟩ := core_fields (h.core.2 i)
        rw [c4] at h0
        rw [c6, h.current_time]
        have := hs.completion_le i (h.core.1 ▸ hi) h0
        omega
      last := fun _ hc => by
        exfalso
        rw [h.completed, h.core.1] at hc
        omega
      empty := fun he => by
        exfalso
        obtain ⟨i, hi, _⟩ := h.future
        rw [← h.core.1, he] at hi
        simp at hi }
  · exact {
      time_nonneg := by rw [h.current_time]; have := hs.time_nonneg; omega
      tl_pid := by
        rw [h.timeline_pid, h.current_time, List.length_append, ← hs.tl_pid]
        simp
      tl_queue := by
        obtain ⟨l, _, hl⟩ := h.timeline_queue
        rw [h.timeline_pid, hl, List.length_append, List.length_append, hs.tl_queue]
        simp
      completion_le := fun i hi h0 => by
        have hn := hs.time_nonneg
        by_cases hic : i = c
        · subst hic
          rw [h.remaining] at h0
          have h1 : (getP s.all_processes i).remaining = 1 := by omega
          rw [h.completion, h.current_time]
          simp only [h1, if_true]
          omega
        · obtain ⟨_, _, _, c4, _, c6, _⟩ := core_fields (h.others i hic)
          rw [c4] at h0
          rw [c6, h.current_time]
          have := hs.completion_le i (h.len ▸ hi) h0
          omega
      last := fun _ hc => by
        refine ⟨c, h.len ▸ h.lt, ?_⟩
        rw [h.completed, h.len] at hc
        by_cases h1 : (getP s.all_processes c).remaining = 1
        · rw [h.completion, h.current_time]
          simp [h1]
        · simp only [h1, if_false] at hc
          omega
      empty := fun he => by
        exfalso
        have := h.lt
        rw [← h.len, he] at this
        simp at this }

theorem reaches_inv (procs : List Process) (cfg : Config) (hin : ValidInput procs)
    (hnq : 1 ≤ cfg.num_queues) (hcap : cfg.num_queues ≤ QUEUE_SLOTS)
    (s : MLFQ_Scheduler) (h : Reaches (init procs cfg) s) :
    Inv (procs.map Process.copy) cfg s.current_time s ∧ TInv s := by
  induction h with
  | start => exact ⟨inv_init procs cfg hin hnq, tinv_init procs cfg hin⟩
  | tick s t _ hlt hstep ih =>
    have hburst : ∀ i, i < (procs.map Process.copy).length →
        1 ≤ (getP (procs.map Process.copy) i).burst := by
      intro i hi
      have hi2 : i < procs.length := by simpa using hi
      rw [getP_map_copy]
      simp only [hi2, if_true, Process.copy]
      exact (validInput_getP hin i hi2).2
    obtain ⟨u, h1, h2, h3⟩ := step_spec s ih.1 hnq hcap hburst hlt
    rw [hstep] at h1
    cases h1
    exact ⟨h2, tinv_tick ih.2 hlt h3⟩

theorem doneCount_eq_length (ps : List Process) (h : doneCount ps = ps.length) :
    ∀ p ∈ ps, p.remaining = 0 := by
  unfold doneCount at h
  rw [List.countP_eq_length] at h
  intro p hp
  simpa using h p hp

theorem doneCount_le (ps : List Process) : doneCount ps ≤ ps.length :=
  List.countP_le_length _

theorem run_reaches (procs : List Process) (cfg : Config) (hin : ValidInput procs)
    (hcfg : ValidConfig cfg) (fuel : Nat) (hfuel : budget procs ≤ fuel) :
    ∃ s, run fuel (init procs cfg) = RunResult.done s false ∧
      Reaches (init procs cfg) s ∧ s.completed = (procs.length : Int) ∧
      s.all_processes.length = procs.length ∧ ∀ p ∈ s.all_processes, p.remaining = 0 := by
  have hburst : ∀ i, i < (procs.map Process.copy).length →
      1 ≤ (getP (procs.map Process.copy) i).burst := by
    intro i hi
    have hi2 : i < procs.length := by simpa using hi
    rw [getP_map_copy]
    simp only [hi2, if_true, Process.copy]
    exact (validInput_getP hin i hi2).2
  have hm : measure (procs.map Process.copy) (init procs cfg) ≤ (fuel : Int) :=
    le_trans (measure_init procs cfg) (by exact_mod_cast hfuel)
  obtain ⟨s, r1, r2, r3, r4⟩ := run_done hcfg.1 hcfg.2.1 hburst fuel (init procs cfg)
    (inv_init procs cfg hin hcfg.1) hm
  have hlen : s.all_processes.length = procs.length := by rw [r3.len]; simp
  have hd := doneCount_le s.all_processes
  have hc := r3.completed_eq
  have hdc : doneCount s.all_processes = s.all_processes.length := by
    rw [hc] at r4
    have : ¬ doneCount s.all_processes < s.all_processes.length := by exact_mod_cast r4
    omega
  exact ⟨s, r1, r2, by rw [hc, hdc, hlen], hlen, doneCount_eq_length _ hdc⟩

theorem timeline_length {s : MLFQ_Scheduler} (hs : TInv s) :
    (s.timeline.length : Int) = s.current_time := by
  unfold timeline
  rw [List.length_zip, hs.tl_queue, Nat.min_self]
  exact hs.tl_pid

theorem level_unit_ne_idle (x : Int) (level : Nat) : (x, (level : Int)) ≠ IDLE := by
  intro h
  have := congrArg Prod.snd h
  simp only [IDLE] at this
  omega

end MLFQ_Scheduler

/-! ## Termination and completion of the MLFQ run -/

namespace MLFQ_Scheduler

theorem foldl_withIntervals {α : Type} (g : MLFQ_Scheduler → α → MLFQ_Scheduler) (a b : Int)
    (hg : ∀ s x, g (s.withIntervals a b) x = (g s x).withIntervals a b) (L : List α)
    (s : MLFQ_Scheduler) : L.foldl g (s.withIntervals a b) = (L.foldl g s).withIntervals a b := by
  induction L generalizing s with
  | nil => rfl
  | cons x L ih => simp only [List.foldl_cons, hg, ih]

theorem add_arrival_withIntervals (a b : Int) (s : MLFQ_Scheduler) (i : Nat) :
    add_arrival (s.withIntervals a b) i = (add_arrival s i).withIntervals a b := by
  unfold add_arrival
  by_cases h : (getP s.all_processes i).arrival = s.current_time ∧
      (getP s.all_processes i).started = false ∧ (getP s.all_processes i).start_time = -1
  · have h2 : (getP (s.withIntervals a b).all_processes i).arrival =
        (s.withIntervals a b).current_time ∧
        (getP (s.withIntervals a b).all_processes i).started = false ∧
        (getP (s.withIntervals a b).all_processes i).start_time = -1 := h
    simp only [h, h2, and_self, if_true]
    rfl
  · have h2 : ¬ ((getP (s.withIntervals a b).all_processes i).arrival =
        (s.withIntervals a b).current_time ∧
        (getP (s.withIntervals a b).all_processes i).started = false ∧
        (getP (s.withIntervals a b).all_processes i).start_time = -1) := h
    simp only [h, h2, if_false]

theorem add_arrivals_withIntervals (a b : Int) (s : MLFQ_Scheduler) :
    (s.withIntervals a b).add_arrivals = s.add_arrivals.withIntervals a b :=
  foldl_withIntervals add_arrival a b (add_arrival_withIntervals a b) _ s

theorem purge_withIntervals (a b : Int) (s : MLFQ_Scheduler) :
    (s.withIntervals a b).purge = s.purge.withIntervals a b :=
  foldl_withIntervals purge_queue a b (fun _ _ => rfl) _ s

theorem apply_aging_withIntervals (a b : Int) (s : MLFQ_Scheduler) :
    (s.withIntervals a b).apply_aging = s.apply_aging.withIntervals a b :=
  foldl_withIntervals age_level a b (fun _ _ => rfl) _ s

theorem preempt_check_withIntervals (a b : Int) (s : MLFQ_Scheduler) :
    (s.withIntervals a b).preempt_check = s.preempt_check.withIntervals a b := by
  unfold preempt_check
  cases hr : s.currently_running with
  | none =>
    have h2 : (s.withIntervals a b).currently_running = none := hr
    simp only [h2]
  | some c =>
    have h2 : (s.withIntervals a b).currently_running = some c := hr
    simp only [h2]
    by_cases h1 : 0 < (getP s.all_processes c).remaining
    · have h1b : 0 < (getP (s.withIntervals a b).all_processes c).remaining := h1
      simp only [h1, h1b, if_true]
      cases h3 : s.should_preempt (getP s.all_processes c).priority with
      | true =>
        have h3b : (s.withIntervals a b).should_preempt
            (getP (s.withIntervals a b).all_processes c).priority = true := h3
        simp only [h3b, if_true]
        rfl
      | false =>
        have h3b : (s.withIntervals a b).should_preempt
            (getP (s.withIntervals a b).all_processes c).priority = false := h3
        simp only [h3b]
        rfl
    · have h1b : ¬ 0 < (getP (s.withIntervals a b).all_processes c).remaining := h1
      simp only [h1, h1b, if_false]

theorem finish_tick_withIntervals (a b : Int) (s : MLFQ_Scheduler) (c : Nat) :
    finish_tick (s.withIntervals a b) c = (finish_tick s c).withIntervals a b := by
  unfold finish_tick
  by_cases h1 : (getP s.all_processes c).remaining = 0
  · have h1b : (getP (s.withIntervals a b).all_processes c).remaining = 0 := h1
    simp only [h1, h1b, if_true]
    rfl
  · have h1b : ¬ (getP (s.withIntervals a b).all_processes c).remaining = 0 := h1
    simp only [h1, h1b, if_false]
    by_cases h2 : 0 < s.config.quantum (getP s.all_processes c).priority ∧
        s.config.quantum (getP s.all_processes c).priority ≤
          (getP s.all_processes c).time_in_current_quantum
    · have h2b : 0 < (s.withIntervals a b).config.quantum
            (getP (s.withIntervals a b).all_processes c).priority ∧
          (s.withIntervals a b).config.quantum
            (getP (s.withIntervals a b).all_processes c).priority ≤
            (getP (s.withIntervals a b).all_processes c).time_in_current_quantum := h2
      simp only [h2, h2b, and_self, if_true]
      rfl
    · have h2b : ¬ (0 < (s.withIntervals a b).config.quantum
            (getP (s.withIntervals a b).all_processes c).priority ∧
          (s.withIntervals a b).config.quantum
            (getP (s.withIntervals a b).all_processes c).priority ≤
            (getP (s.withIntervals a b).all_processes c).time_in_current_quantum) := h2
      simp only [h2, h2b, if_false]
      rfl

theorem execute_withIntervals (a b : Int) (s : MLFQ_Scheduler) (c : Nat) :
    execute (s.withIntervals a b) c = (execute s c).withIntervals a b := by
  have e : execute (s.withIntervals a b) c = finish_tick ((update_waiting_times
      { s with
        timeline_pid := s.timeline_pid ++ [(getP s.all_processes c).pid],
        timeline_queue := s.timeline_queue ++ [((getP s.all_processes c).priority : Int)],
        all_processes := setP s.all_processes c
          (fun x => { x with remaining := x.remaining - 1,
                             time_in_current_quantum := x.time_in_current_quantum + 1 }),
        total_busy_time := s.total_busy_time + 1 }).withIntervals a b) c := rfl
  rw [e, finish_tick_withIntervals]
  rfl

theorem dispatch_withIntervals (a b : Int) (s : MLFQ_Scheduler) :
    dispatch (s.withIntervals a b) = (dispatch s).withIntervals a b := by
  unfold dispatch
  cases hq : s.get_highest_priority_queue with
  | none =>
    have hq2 : (s.withIntervals a b).get_highest_priority_queue = none := hq
    simp only [hq2]
    by_cases hf : s.has_future = true
    · have hf2 : (s.withIntervals a b).has_future = true := hf
      simp only [hf, hf2, if_true]
      rfl
    · have hf2 : ¬ (s.withIntervals a b).has_future = true := hf
      simp only [hf, hf2, if_false]
      rfl
  | some aq =>
    have hq2 : (s.withIntervals a b).get_highest_priority_queue = some aq := hq
    simp only [hq2]
    cases he : qget s.queues aq with
    | nil =>
      have he2 : qget (s.withIntervals a b).queues aq = [] := he
      simp only [he2]
      rfl
    | cons c rest =>
      have he2 : qget (s.withIntervals a b).queues aq = c :: rest := he
      simp only [he2]
      have e := execute_withIntervals a b
        { s with
          all_processes := if (getP s.all_processes c).started = false then
              setP s.all_processes c
                (fun x => { x with started := true, start_time := s.current_time })
            else s.all_processes,
          queues := qset s.queues aq rest,
          currently_running := some c,
          context_switches := s.context_switches + 1 } c
      exact congrArg Outcome.next e

theorem resume_or_dispatch_withIntervals (a b : Int) (s : MLFQ_Scheduler) :
    resume_or_dispatch (s.withIntervals a b) = (resume_or_dispatch s).withIntervals a b := by
  unfold resume_or_dispatch
  cases hr : s.currently_running with
  | none =>
    have h2 : (s.withIntervals a b).currently_running = none := hr
    simp only [h2]
    exact dispatch_withIntervals a b s
  | some c =>
    have h2 : (s.withIntervals a b).currently_running = some c := hr
    simp only [h2]
    by_cases h1 : (getP s.all_processes c).remaining = 0
    · have h1b : (getP (s.withIntervals a b).all_processes c).remaining = 0 := h1
      simp only [h1, h1b, if_true]
      exact dispatch_withIntervals a b s
    · have h1b : ¬ (getP (s.withIntervals a b).all_processes c).remaining = 0 := h1
      simp only [h1, h1b, if_false]
      exact congrArg Outcome.next (execute_withIntervals a b s c)

theorem step_withIntervals_quiet (a b : Int) (s : MLFQ_Scheduler)
    (hA : apply_aging (purge (add_arrivals s)) = purge (add_arrivals s))
    (hB : ¬ (0 < (purge (add_arrivals s)).current_time ∧
      Int.tmod (purge (add_arrivals s)).current_time b = 0)) :
    step (s.withIntervals a b) =
      (if s.add_arrivals.queues.length < s.add_arrivals.config.num_queues then Outcome.fault
        else resume_or_dispatch (preempt_check (purge (add_arrivals s)))).withIntervals a b := by
  have hage : maybe_aging ((purge (add_arrivals s)).withIntervals a b) =
      (purge (add_arrivals s)).withIntervals a b := by
    unfold maybe_aging
    split
    · rw [apply_aging_withIntervals, hA]
    · rfl
  have hboost : maybe_boost ((purge (add_arrivals s)).withIntervals a b) =
      (purge (add_arrivals s)).withIntervals a b := by
    unfold maybe_boost
    have : ¬ (0 < ((purge (add_arrivals s)).withIntervals a b).current_time ∧
        Int.tmod ((purge (add_arrivals s)).withIntervals a b).current_time
          ((purge (add_arrivals s)).withIntervals a b).config.boost_interval = 0) := hB
    rw [if_neg this]
  have hstep : step (s.withIntervals a b) =
      if (add_arrivals (s.withIntervals a b)).queues.length <
          (add_arrivals (s.withIntervals a b)).config.num_queues then Outcome.fault
      else resume_or_dispatch (preempt_check (maybe_boost (maybe_aging
        (purge (add_arrivals (s.withIntervals a b)))))) := rfl
  rw [hstep, add_arrivals_withIntervals, purge_withIntervals, hage, hboost,
    preempt_check_withIntervals, resume_or_dispatch_withIntervals]
  by_cases hc : s.add_arrivals.queues.length < s.add_arrivals.config.num_queues
  · have hc2 : (s.add_arrivals.withIntervals a b).queues.length <
        (s.add_arrivals.withIntervals a b).config.num_queues := hc
    rw [if_pos hc, if_pos hc2]
    rfl
  · have hc2 : ¬ (s.add_arrivals.withIntervals a b).queues.length <
        (s.add_arrivals.withIntervals a b).config.num_queues := hc
    rw [if_neg hc, if_neg hc2]

set_option maxRecDepth 100000 in
theorem scenarioC_step (a b : Int) (hb : 12 ≤ b) (t : Nat) (ht : t ≤ 10) :
    ((scenarioC_state t).withIntervals a b).step =
      Outcome.next ((scenarioC_state (t + 1)).withIntervals a b) := by
  have hA : apply_aging (purge (add_arrivals (scenarioC_state t))) =
      purge (add_arrivals (scenarioC_state t)) := by
    interval_cases t <;> decide!
  have hct : (purge (add_arrivals (scenarioC_state t))).current_time = (t : Int) := by
    interval_cases t <;> decide!
  have hB : ¬ (0 < (purge (add_arrivals (scenarioC_state t))).current_time ∧
      Int.tmod (purge (add_arrivals (scenarioC_state t))).current_time b = 0) := by
    rw [hct, Int.tmod_eq_of_lt (by omega) (by omega)]
    omega
  rw [step_withIntervals_quiet a b _ hA hB]
  have hq : (if (scenarioC_state t).add_arrivals.queues.length <
        (scenarioC_state t).add_arrivals.config.num_queues then Outcome.fault
      else resume_or_dispatch (preempt_check (purge (add_arrivals (scenarioC_state t))))) =
      Outcome.next (scenarioC_state (t + 1)) := by
    interval_cases t <;> decide!
  rw [hq]
  rfl

set_option maxRecDepth 100000 in
theorem scenarioC_running (a b : Int) (t : Nat) (ht : t ≤ 10) :
    ((scenarioC_state t).withIntervals a b).completed <
      (((scenarioC_state t).withIntervals a b).all_processes.length : Int) := by
  have : (scenarioC_state t).completed < ((scenarioC_state t).all_processes.length : Int) := by
    interval_cases t <;> decide!
  exact this

set_option maxRecDepth 100000 in
theorem scenarioC_run (a b : Int) (hb : 12 ≤ b) (j : Nat) (hj : j ≤ 11) (k : Nat) :
    run (k + j) ((scenarioC_state (11 - j)).withIntervals a b) =
      RunResult.done ((scenarioC_state 11).withIntervals a b) false := by
  induction j with
  | zero =>
    have hd : ¬ ((scenarioC_state 11).withIntervals a b).completed <
        (((scenarioC_state 11).withIntervals a b).all_processes.length : Int) := by
      have : ¬ (scenarioC_state 11).completed <
          ((scenarioC_state 11).all_processes.length : Int) := by decide!
      exact this
    cases k with
    | zero => simp only [Nat.add_zero, Nat.sub_zero, run, hd, if_false]
    | succ k => simp only [Nat.add_zero, Nat.sub_zero, run, hd, if_false]
  | succ j ih =>
    have ht : 11 - (j + 1) ≤ 10 := by omega
    have hs := scenarioC_step a b hb (11 - (j + 1)) ht
    have hr := scenarioC_running a b (11 - (j + 1)) ht
    have e : 11 - (j + 1) + 1 = 11 - j := by omega
    rw [e] at hs
    have e2 : k + (j + 1) = (k + j) + 1 := by omega
    rw [e2]
    simp only [run, hr, if_true, hs]
    exact ih (by omega)

end MLFQ_Scheduler

/-- C5 (Scenario C): with two levels, `quantum = [2, 0]`, aging threshold `3`,
any aging check interval `aci >= 1` and any boost interval `bi >= 12`, the run
on `P1(arrival 0, burst 10)`, `P2(arrival 0, burst 1)` ends after eleven
passes through the loop; `P1` runs the units 0-1 at level 0, `P2` the unit 2 at
level 0 and `P1` the units 3-10 at level 1; `P1` starts at 0 and completes at
11 (turnaround 11, waiting 1), `P2` starts at 2 and completes at 3 (turnaround
3, waiting 2). -/
theorem mlfq_scenario_c (aci bi : Int) (_haci : 1 ≤ aci) (hbi : 12 ≤ bi)
    (fuel : Nat) (hfuel : 11 ≤ fuel) :
    ∃ s, MLFQ_Scheduler.run fuel (MLFQ_Scheduler.init scenarioC_procs (scenarioC aci bi)) =
        MLFQ_Scheduler.RunResult.done s false ∧
      s.timeline = [(1, 0), (1, 0), (2, 0), (1, 1), (1, 1), (1, 1), (1, 1), (1, 1), (1, 1),
        (1, 1), (1, 1)] ∧
      s.all_processes.map (fun p => (p.pid, p.start_time, p.completion,
          p.completion - p.arrival, p.completion - p.arrival - p.burst)) =
        [(1, 0, 11, 11, 1), (2, 2, 3, 3, 2)] := by
  refine ⟨(scenarioC_state 11).withIntervals aci bi, ?_, ?_, ?_⟩
  · have h := MLFQ_Scheduler.scenarioC_run aci bi hbi 11 (le_refl _) (fuel - 11)
    have e : fuel - 11 + 11 = fuel := by omega
    rw [e] at h
    exact h
  · have : (scenarioC_state 11).timeline = [(1, 0), (1, 0), (2, 0), (1, 1), (1, 1), (1, 1),
        (1, 1), (1, 1), (1, 1), (1, 1), (1, 1)] := by decide!
    exact this
  · have : (scenarioC_state 11).all_processes.map (fun p => (p.pid, p.start_time, p.completion,
          p.completion - p.arrival, p.completion - p.arrival - p.burst)) =
        [(1, 0, 11, 11, 1), (2, 2, 3, 3, 2)] := by decide!
    exact this

/-- Witness of `mlfq_scenario_c`: aging check interval 3, boost interval 50. -/
theorem mlfq_scenario_c_witness :
    (1 : Int) ≤ 3 ∧ (12 : Int) ≤ 50 ∧ 11 ≤ 11 ∧
    ∃ s, MLFQ_Scheduler.run 11 (MLFQ_Scheduler.init scenarioC_procs (scenarioC 3 50)) =
        MLFQ_Scheduler.RunResult.done s false ∧
      s.timeline = [(1, 0), (1, 0), (2, 0), (1, 1), (1, 1), (1, 1), (1, 1), (1, 1), (1, 1),
        (1, 1), (1, 1)] ∧
      s.all_processes.map (fun p => (p.pid, p.start_time, p.completion,
          p.completion - p.arrival, p.completion - p.arrival - p.burst)) =
        [(1, 0, 11, 11, 1), (2, 2, 3, 3, 2)] :=
  ⟨by decide, by decide, le_refl _,
    mlfq_scenario_c 3 50 (by decide) (by decide) 11 (le_refl _)⟩

/-! ## FCFS -/

theorem map_getP_range (l : List Process) : (List.range l.length).map (getP l) = l := by
  apply List.ext_getElem
  · simp
  · intro k h1 h2
    rw [List.getElem_map, List.getElem_range]
    exact getP_eq_getElem l k h2

theorem wrapInt_of_range (x : Int) (h1 : -2147483648 ≤ x) (h2 : x ≤ INT_MAX) :
    wrapInt x = x := by
  unfold wrapInt
  unfold INT_MAX at h2
  omega

theorem sum_burst_nonneg (l : List Process) (h : ∀ p ∈ l, 0 ≤ p.burst) :
    0 ≤ (l.map (fun p => p.burst)).sum := by
  apply List.sum_nonneg
  intro x hx
  obtain ⟨p, hp, e⟩ := List.mem_map.1 hx
  rw [← e]
  exact h p hp

theorem sorted_input_range (sort : List Process → List Process) (hsort : StdSort sort)
    (procs : List Process) (hin : ValidInput procs) :
    (∀ p ∈ sort (procs.map Process.copy),
      0 ≤ p.arrival ∧ p.arrival ≤ maxArrival procs ∧ 1 ≤ p.burst) ∧
    ((sort (procs.map Process.copy)).map (fun p => p.burst)).sum =
      (procs.map (fun p => p.burst)).sum := by
  obtain ⟨hperm, _⟩ := hsort (procs.map Process.copy)
  constructor
  · intro p hp
    obtain ⟨x, hx, e⟩ := List.mem_map.1 (hperm.mem_iff.1 hp)
    obtain ⟨i, hi, hxi⟩ := List.getElem_of_mem hx
    have h1 := hin x hx
    have h2 := MLFQ_Scheduler.arrival_le_maxArrival procs i hi
    rw [getP_eq_getElem procs i hi, hxi] at h2
    rw [← e]
    exact ⟨h1.1, h2, h1.2⟩
  · have := (hperm.map (fun p => p.burst)).sum_eq
    rw [this, List.map_map]
    rfl

namespace FCFS_Scheduler

theorem getP_cons_succ (p : Process) (l : List Process) (k : Nat) :
    getP (p :: l) (k + 1) = getP l k := by
  simp [getP]

theorem getP_cons_zero (p : Process) (l : List Process) : getP (p :: l) 0 = p := by
  simp [getP]

theorem loop_spec (l : List Process) (ct busy cs : Int) :
    (loop ct busy cs l).processes.length = l.length ∧
    ∀ i, i < l.length →
      getP (loop ct busy cs l).processes i =
        serve (if i = 0 then ct else (getP (loop ct busy cs l).processes (i - 1)).completion)
          (getP l i) := by
  induction l generalizing ct busy cs with
  | nil => exact ⟨rfl, fun i hi => by simp at hi⟩
  | cons p rest ih =>
    obtain ⟨h1, h2⟩ := ih (serve ct p).completion (wrapInt (busy + p.burst)) (cs + 1)
    refine ⟨by simp [loop, h1], fun i hi => ?_⟩
    cases i with
    | zero => simp [loop, getP_cons_zero]
    | succ k =>
      have hk : k < rest.length := by simpa using hi
      have := h2 k hk
      simp only [loop, getP_cons_succ, Nat.add_sub_cancel, Nat.succ_ne_zero, if_false]
      rw [this]
      cases k with
      | zero => simp [getP_cons_zero]
      | succ j => simp [getP_cons_succ]

theorem loop_static (l : List Process) (ct busy cs : Int) :
    (loop ct busy cs l).processes.map (fun p => (p.pid, p.arrival, p.burst)) =
      l.map (fun p => (p.pid, p.arrival, p.burst)) := by
  induction l generalizing ct busy cs with
  | nil => rfl
  | cons p rest ih =>
    simp only [loop, List.map_cons, ih]
    rfl

theorem served_perm (sort : List Process → List Process) (hsort : StdSort sort)
    (procs : List Process) :
    ((served sort procs).processes.map (fun p => (p.pid, p.arrival, p.burst))).Perm
      (procs.map (fun p => (p.pid, p.arrival, p.burst))) := by
  unfold served
  rw [loop_static]
  have := (hsort (procs.map Process.copy)).1.map (fun p => (p.pid, p.arrival, p.burst))
  rw [List.map_map] at this
  exact this

theorem loop_no_wrap (A : Int) (l : List Process) (ct busy cs : Int) (h0 : 0 ≤ ct)
    (hl : ∀ p ∈ l, 0 ≤ p.arrival ∧ p.arrival ≤ A ∧ 0 ≤ p.burst)
    (hb : max ct A + (l.map (fun p => p.burst)).sum ≤ INT_MAX) :
    ∀ q ∈ (loop ct busy cs l).processes,
      0 ≤ q.start_time ∧ q.completion = q.start_time + q.burst ∧ CompletedRecord q := by
  induction l generalizing ct busy cs with
  | nil =>
    intro q hq
    simp [loop] at hq
  | cons p rest ih =>
    obtain ⟨ha0, haA, hb0⟩ := hl p (List.mem_cons_self p rest)
    have hsum := sum_burst_nonneg rest (fun x hx => (hl x (List.mem_cons_of_mem p hx)).2.2)
    simp only [List.map_cons, List.sum_cons] at hb
    have hct : ct ≤ max ct A := le_max_left _ _
    have hA : A ≤ max ct A := le_max_right _ _
    have hstart : 0 ≤ (if ct < p.arrival then p.arrival else ct) ∧
        (if ct < p.arrival then p.arrival else ct) ≤ max ct A ∧
        p.arrival ≤ (if ct < p.arrival then p.arrival else ct) := by
      split <;> refine ⟨?_, ?_, ?_⟩ <;> omega
    have hcomp : (serve ct p).completion =
        (if ct < p.arrival then p.arrival else ct) + p.burst := by
      show wrapInt _ = _
      exact wrapInt_of_range _ (by omega) (by omega)
    intro q hq
    simp only [loop, List.mem_cons] at hq
    rcases hq with hq | hq
    · rw [hq]
      refine ⟨hstart.1, hcomp, ha0, hb0, ?_, ?_⟩
      · rw [hcomp]
        show p.arrival + p.burst ≤ _
        omega
      · rw [hcomp]
        omega
    · refine ih (serve ct p).completion (wrapInt (busy + p.burst)) (cs + 1) ?_
        (fun x hx => hl x (List.mem_cons_of_mem p hx)) ?_ q hq
      · rw [hcomp]
        omega
      · rw [hcomp]
        have : max ((if ct < p.arrival then p.arrival else ct) + p.burst) A ≤
            max ct A + p.burst := max_le (by omega) (by omega)
        omega

theorem served_no_wrap (sort : List Process → List Process) (hsort : StdSort sort)
    (procs : List Process) (hin : ValidInput procs)
    (hrange : (procs.map (fun p => p.burst)).sum + maxArrival procs ≤ INT_MAX) :
    ∀ q ∈ (served sort procs).processes,
      0 ≤ q.start_time ∧ q.completion = q.start_time + q.burst ∧ CompletedRecord q := by
  obtain ⟨h1, h2⟩ := sorted_input_range sort hsort procs hin
  have hA : 0 ≤ maxArrival procs := (MLFQ_Scheduler.le_foldl_max _ 0).1
  apply loop_no_wrap (maxArrival procs) _ 0 0 0 (le_refl 0)
    (fun p hp => ⟨(h1 p hp).1, (h1 p hp).2.1, by have := (h1 p hp).2.2; omega⟩)
  rw [h2, max_eq_right hA]
  omega

end FCFS_Scheduler

theorem stdSort_insertion_sort : StdSort insertion_sort := by
  intro l
  haveI : IsTotal Process (fun a b => a.arrival ≤ b.arrival) := ⟨fun a b => le_total _ _⟩
  haveI : IsTrans Process (fun a b => a.arrival ≤ b.arrival) :=
    ⟨fun a b c h1 h2 => le_trans h1 h2⟩
  exact ⟨List.perm_insertionSort _ l, List.sorted_insertionSort _ l⟩

/-- C6, as amended: for every sort that orders by arrival and every process
list with `arrival >= 0`, `burst >= 1` and the sum of the bursts plus the
latest arrival at most `INT_MAX` (so that the `int` clock does not overflow),
the FCFS engine serves the records of the input in non-decreasing arrival
order, the i-th served record starts at the maximum of its arrival and the
completion of the record served before it (`0` for the first) and completes
at start + burst. Scenario A: `P1(0, 5)`, `P2(1, 3)` gives `P1` start 0 and
completion 5, `P2` start 5 and completion 8, average turnaround 6 and average
waiting 2. -/
theorem fcfs_order (sort : List Process → List Process) (hsort : StdSort sort)
    (procs : List Process) (hin : ValidInput procs)
    (hrange : (procs.map (fun p => p.burst)).sum + maxArrival procs ≤ INT_MAX) :
    ((FCFS_Scheduler.served sort procs).processes.map
        (fun p => (p.pid, p.arrival, p.burst))).Perm
      (procs.map (fun p => (p.pid, p.arrival, p.burst))) ∧
    (FCFS_Scheduler.served sort procs).processes.Sorted (fun a b => a.arrival ≤ b.arrival) ∧
    (∀ i, i < (FCFS_Scheduler.served sort procs).processes.length →
      (getP (FCFS_Scheduler.served sort procs).processes i).start_time =
        max (if i = 0 then 0
            else (getP (FCFS_Scheduler.served sort procs).processes (i - 1)).completion)
          (getP (FCFS_Scheduler.served sort procs).processes i).arrival ∧
      (getP (FCFS_Scheduler.served sort procs).processes i).completion =
        (getP (FCFS_Scheduler.served sort procs).processes i).start_time +
          (getP (FCFS_Scheduler.served sort procs).processes i).burst) ∧
    (FCFS_Scheduler.served insertion_sort scenarioA_procs).processes.map
        (fun p => (p.pid, p.start_time, p.completion)) = [(1, 0, 5), (2, 5, 8)] ∧
    (FCFS_Scheduler.run insertion_sort scenarioA_procs).avg_turnaround = 6 ∧
    (FCFS_Scheduler.run insertion_sort scenarioA_procs).avg_waiting = 2 := by
  obtain ⟨hperm, hsorted⟩ := hsort (procs.map Process.copy)
  have hstat := FCFS_Scheduler.loop_static (sort (procs.map Process.copy)) 0 0 0
  obtain ⟨hlen, hspec⟩ := FCFS_Scheduler.loop_spec (sort (procs.map Process.copy)) 0 0 0
  have hnw := FCFS_Scheduler.served_no_wrap sort hsort procs hin hrange
  refine ⟨FCFS_Scheduler.served_perm sort hsort procs, ?_, ?_, ?_, ?_, ?_⟩
  · unfold FCFS_Scheduler.served
    have h1 : ((FCFS_Scheduler.loop 0 0 0 (sort (procs.map Process.copy))).processes.map
        (fun p => p.arrival)).Sorted (· ≤ ·) := by
      have e : (FCFS_Scheduler.loop 0 0 0 (sort (procs.map Process.copy))).processes.map
          (fun p => p.arrival) = (sort (procs.map Process.copy)).map (fun p => p.arrival) := by
        have := congrArg (List.map (fun t : Int × Int × Int => t.2.1)) hstat
        simpa [List.map_map] using this
      rw [e]
      exact List.pairwise_map.2 hsorted
    exact List.pairwise_map.1 h1
  · intro i hi
    refine ⟨?_, ?_⟩
    · unfold FCFS_Scheduler.served at hi ⊢
      rw [hspec i (hlen ▸ hi)]
      generalize (if i = 0 then (0 : Int) else (getP (FCFS_Scheduler.loop 0 0 0
        (sort (procs.map Process.copy))).processes (i - 1)).completion) = prev
      simp only [FCFS_Scheduler.serve]
      split
      · next h => rw [max_eq_right (le_of_lt h)]
      · next h => rw [max_eq_left (not_lt.1 h)]
    · rw [getP_eq_getElem _ i hi]
      exact (hnw _ (List.getElem_mem hi)).2.1
  · decide!
  · decide!
  · decide!

/-- Witness of `fcfs_order`: insertion sort on Scenario A, whose bursts and
latest arrival add up to 9. -/
theorem fcfs_order_witness :
    StdSort insertion_sort ∧ ValidInput scenarioA_procs ∧
    (scenarioA_procs.map (fun p => p.burst)).sum + maxArrival scenarioA_procs ≤ INT_MAX ∧
    (FCFS_Scheduler.served insertion_sort scenarioA_procs).processes.Sorted
      (fun a b => a.arrival ≤ b.arrival) ∧
    (FCFS_Scheduler.served insertion_sort scenarioA_procs).processes.map
        (fun p => (p.pid, p.start_time, p.completion)) = [(1, 0, 5), (2, 5, 8)] ∧
    (FCFS_Scheduler.run insertion_sort scenarioA_procs).avg_turnaround = 6 ∧
    (FCFS_Scheduler.run insertion_sort scenarioA_procs).avg_waiting = 2 :=
  have h1 : ValidInput scenarioA_procs := by simp [ValidInput, scenarioA_procs, Process.new]
  have h2 : (scenarioA_procs.map (fun p => p.burst)).sum + maxArrival scenarioA_procs ≤
      INT_MAX := by decide
  ⟨stdSort_insertion_sort, h1, h2,
    (fcfs_order insertion_sort stdSort_insertion_sort scenarioA_procs h1 h2).2.1,
    (fcfs_order insertion_sort stdSort_insertion_sort scenarioA_procs h1 h2).2.2.2⟩

/-- C6, counterexample: the list `P1(0, 2147483647)`, `P2(0, 1)` has
`arrival >= 0` and `burst >= 1`. FCFS serves `P1` from 0 to 2147483647 and
starts `P2` at 2147483647; the `int` addition `current_time += p.burst` then
leaves `INT_MAX`, and the completion stored for `P2` is -2147483648, which is
not start + burst. -/
theorem fcfs_completion_overflow :
    ValidInput [Process.new 1 0 2147483647, Process.new 2 0 1] ∧
    (FCFS_Scheduler.served insertion_sort
        [Process.new 1 0 2147483647, Process.new 2 0 1]).processes.map
      (fun p => (p.pid, p.start_time, p.burst, p.completion)) =
      [(1, 0, 2147483647, 2147483647), (2, 2147483647, 1, -2147483648)] ∧
    ¬ ∀ q ∈ (FCFS_Scheduler.served insertion_sort
        [Process.new 1 0 2147483647, Process.new 2 0 1]).processes,
      q.completion = q.start_time + q.burst := by
  refine ⟨by simp [ValidInput, Process.new], by decide!, fun h => ?_⟩
  have e : (FCFS_Scheduler.served insertion_sort
      [Process.new 1 0 2147483647, Process.new 2 0 1]).processes =
      [FCFS_Scheduler.serve 0 (Process.new 1 0 2147483647),
       FCFS_Scheduler.serve 2147483647 (Process.new 2 0 1)] := by decide!
  have := h (FCFS_Scheduler.serve 2147483647 (Process.new 2 0 1)) (by rw [e]; simp)
  exact absurd this (by decide)

/-! ## SJF -/

namespace SJF_Scheduler

theorem scan_fold (s : SJF_Scheduler) (k : Nat) :
    (((List.range k).foldl (scan_one s) (none, INT_MAX)).1 = none →
      ((List.range k).foldl (scan_one s) (none, INT_MAX)).2 = INT_MAX ∧
      ∀ i, i < k → s.candidate i → ¬ (getP s.processes i).burst < INT_MAX) ∧
    (∀ j, ((List.range k).foldl (scan_one s) (none, INT_MAX)).1 = some j →
      j < k ∧ s.candidate j ∧
      ((List.range k).foldl (scan_one s) (none, INT_MAX)).2 = (getP s.processes j).burst ∧
      ∀ i, i < k → s.candidate i →
        (getP s.processes j).burst < (getP s.processes i).burst ∨
        ((getP s.processes j).burst = (getP s.processes i).burst ∧ j ≤ i)) := by
  induction k with
  | zero => simp
  | succ k ih =>
    rw [List.range_succ, List.foldl_append]
    simp only [List.foldl_cons, List.foldl_nil]
    generalize (List.range k).foldl (scan_one s) (none, INT_MAX) = acc at ih
    obtain ⟨ih1, ih2⟩ := ih
    unfold scan_one
    by_cases hc : s.done.getD k false = false ∧ (getP s.processes k).arrival ≤ s.current_time ∧
        (getP s.processes k).burst < acc.2
    · rw [if_pos hc]
      refine ⟨fun h => by simp at h, fun j hj => ?_⟩
      have hjk : k = j := by simpa using hj
      subst hjk
      refine ⟨Nat.lt_succ_self _, ⟨hc.1, hc.2.1⟩, rfl, fun i hi hci => ?_⟩
      by_cases hik : i = k
      · subst hik
        exact Or.inr ⟨rfl, le_refl _⟩
      · have hi2 : i < k := by omega
        left
        cases hacc : acc.1 with
        | none =>
          obtain ⟨e1, e2⟩ := ih1 hacc
          have := e2 i hi2 hci
          have := hc.2.2
          omega
        | some j0 =>
          obtain ⟨_, _, e3, e4⟩ := ih2 j0 hacc
          have h5 := hc.2.2
          rcases e4 i hi2 hci with h | ⟨h, _⟩ <;> omega
    · rw [if_neg hc]
      refine ⟨fun h => ?_, fun j hj => ?_⟩
      · obtain ⟨e1, e2⟩ := ih1 h
        refine ⟨e1, fun i hi hci => ?_⟩
        by_cases hik : i = k
        · subst hik
          intro hlt
          exact hc ⟨hci.1, hci.2, by omega⟩
        · exact e2 i (by omega) hci
      · obtain ⟨e1, e2, e3, e4⟩ := ih2 j hj
        refine ⟨by omega, e2, e3, fun i hi hci => ?_⟩
        by_cases hik : i = k
        · subst hik
          have : ¬ (getP s.processes i).burst < acc.2 := fun hlt => hc ⟨hci.1, hci.2, hlt⟩
          have hji : j ≤ i := by omega
          by_cases heq : (getP s.processes j).burst = (getP s.processes i).burst
          · exact Or.inr ⟨heq, hji⟩
          · left; omega
        · exact e4 i (by omega) hci

theorem burst_step (s : SJF_Scheduler) (i : Nat) :
    (getP s.step.processes i).burst = (getP s.processes i).burst := by
  unfold step
  split
  · rfl
  · simp only [getP_setP]
    split
    · next h => rw [h.1]; rfl
    · rfl

theorem arrival_step (s : SJF_Scheduler) (i : Nat) :
    (getP s.step.processes i).arrival = (getP s.processes i).arrival := by
  unfold step
  split
  · rfl
  · simp only [getP_setP]
    split
    · next h => rw [h.1]; rfl
    · rfl

theorem length_step (s : SJF_Scheduler) : s.step.processes.length = s.processes.length := by
  unfold step
  split
  · rfl
  · exact length_setP _ _ _

theorem getD_set_true (l : List Bool) (j i : Nat) :
    (l.set j true).getD i false =
      if i = j ∧ j < l.length then true else l.getD i false := by
  rw [List.getD_eq_getElem?_getD, List.getD_eq_getElem?_getD, List.getElem?_set]
  by_cases h : j = i
  · subst h
    by_cases hl : j < l.length
    · simp [hl]
    · simp [hl, List.getElem?_eq_none (not_lt.1 hl)]
  · have h2 : ¬ i = j := fun e => h e.symm
    simp [h, h2]

theorem sum_range_update (n j : Nat) (f g : Nat → Int) (hj : j < n)
    (h : ∀ i, i ≠ j → g i = f i) :
    ((List.range n).map g).sum = ((List.range n).map f).sum - f j + g j := by
  induction n with
  | zero => omega
  | succ n ih =>
    rw [List.sum_range_succ, List.sum_range_succ]
    by_cases hjn : j = n
    · have e : (List.range n).map g = (List.range n).map f := by
        apply List.map_congr_left
        intro i hi
        rw [List.mem_range] at hi
        exact h i (by omega)
      rw [e, hjn]
      omega
    · rw [ih (by omega), h n (fun e => hjn e.symm)]
      omega

theorem burst_le_undoneBurst (s : SJF_Scheduler) (j : Nat)
    (hb : ∀ i, 0 ≤ (getP s.processes i).burst) (hj : j < s.processes.length)
    (hd : s.done.getD j false = false) :
    (getP s.processes j).burst ≤ s.undoneBurst := by
  unfold undoneBurst
  apply List.single_le_sum
  · intro x hx
    obtain ⟨i, _, e⟩ := List.mem_map.1 hx
    rw [← e]
    split
    · exact le_refl 0
    · exact hb i
  · refine List.mem_map.2 ⟨j, List.mem_range.2 hj, ?_⟩
    rw [hd]
    rfl

theorem step_idle_eq (s : SJF_Scheduler) (hs : s.scan.1 = none) :
    s.step = { s with current_time := s.current_time + 1 } := by
  unfold step
  rw [hs]

theorem step_select_eq (s : SJF_Scheduler) (j : Nat) (hs : s.scan.1 = some j) :
    s.step =
      { processes := setP s.processes j (select s.current_time),
        done := s.done.set j true,
        current_time := wrapInt (s.current_time + (getP s.processes j).burst),
        completed := s.completed + 1,
        total_busy_time := wrapInt (s.total_busy_time + (getP s.processes j).burst),
        context_switches := s.context_switches + 1 } := by
  unfold step
  rw [hs]

theorem select_in_range {A : Int} (s : SJF_Scheduler) (hr : s.InRange A) (j : Nat)
    (hj : j < s.processes.length) (hd : s.done.getD j false = false) :
    wrapInt (s.current_time + (getP s.processes j).burst) =
      s.current_time + (getP s.processes j).burst := by
  have h1 := burst_le_undoneBurst s j (fun i => (hr.burst i).1) hj hd
  have h2 := hr.bound j hj hd
  have h3 := (hr.burst j).1
  have h4 := hr.time_nonneg
  exact wrapInt_of_range _ (by omega) (by omega)

theorem undoneBurst_select (s : SJF_Scheduler) (j : Nat) (hs : s.scan.1 = some j)
    (hj : j < s.processes.length) (hl : s.done.length = s.processes.length)
    (hd : s.done.getD j false = false) :
    s.step.undoneBurst = s.undoneBurst - (getP s.processes j).burst := by
  unfold undoneBurst
  rw [length_step]
  rw [sum_range_update s.processes.length j
    (fun i => if s.done.getD i false = true then 0 else (getP s.processes i).burst)
    (fun i => if s.step.done.getD i false = true then 0 else (getP s.step.processes i).burst)
    hj ?_]
  · have e1 : s.step.done.getD j false = true := by
      rw [step_select_eq s j hs]
      show (s.done.set j true).getD j false = true
      rw [getD_set_true, if_pos ⟨rfl, by rw [hl]; exact hj⟩]
    simp only [e1, if_true, hd]
    simp
  · intro i hi
    have e1 : s.step.done.getD i false = s.done.getD i false := by
      rw [step_select_eq s j hs]
      show (s.done.set j true).getD i false = _
      rw [getD_set_true, if_neg (fun h => hi h.1)]
    simp only [e1, burst_step]

theorem inRange_step {A : Int} (s : SJF_Scheduler) (hr : s.InRange A) :
    s.step.InRange A ∧ s.current_time ≤ s.step.current_time := by
  obtain ⟨h1, h2⟩ := scan_fold s s.processes.length
  cases hs : s.scan.1 with
  | none =>
    have hst := step_idle_eq s hs
    have hn := (h1 hs).2
    refine ⟨{
      dlen := by rw [hst]; exact hr.dlen
      time_nonneg := by rw [hst]; have := hr.time_nonneg; show 0 ≤ s.current_time + 1; omega
      burst := fun i => by rw [burst_step]; exact hr.burst i
      arrival := fun i hi => by
        rw [arrival_step]
        exact hr.arrival i (by rw [← length_step]; exact hi)
      bound := fun j hj hd => ?_ }, by rw [hst]; show s.current_time ≤ s.current_time + 1; omega⟩
    rw [length_step] at hj
    have hd2 : s.done.getD j false = false := by rw [hst] at hd; exact hd
    have hu : s.step.undoneBurst = s.undoneBurst := by rw [hst]; rfl
    have hct : s.step.current_time = s.current_time + 1 := by rw [hst]
    have hb := hr.bound j hj hd2
    have ha := hr.arrival j hj
    have hna : ¬ (getP s.processes j).arrival ≤ s.current_time := fun hx =>
      hn j hj ⟨hd2, hx⟩ (hr.burst j).2
    rw [hu, hct]
    omega
  | some j =>
    obtain ⟨e1, e2, _, _⟩ := h2 j hs
    have hst := step_select_eq s j hs
    have hw := select_in_range s hr j e1 e2.1
    have hb0 := (hr.burst j).1
    have hct : s.step.current_time = s.current_time + (getP s.processes j).burst := by
      rw [hst]
      exact hw
    have hu := undoneBurst_select s j hs e1 hr.dlen e2.1
    have hbd := hr.bound j e1 e2.1
    refine ⟨{
      dlen := by
        rw [length_step, hst]
        show (s.done.set j true).length = _
        rw [List.length_set]
        exact hr.dlen
      time_nonneg := by rw [hct]; have := hr.time_nonneg; omega
      burst := fun i => by rw [burst_step]; exact hr.burst i
      arrival := fun i hi => by
        rw [arrival_step]
        exact hr.arrival i (by rw [← length_step]; exact hi)
      bound := fun k _ _ => by
        rw [hu, hct]
        omega }, by rw [hct]; omega⟩

theorem inRange_after {A : Int} (n : Nat) (s : SJF_Scheduler) (hr : s.InRange A) :
    (after n s).InRange A ∧ s.current_time ≤ (after n s).current_time := by
  induction n generalizing s with
  | zero => exact ⟨hr, le_refl _⟩
  | succ n ih =>
    obtain ⟨h1, h2⟩ := inRange_step s hr
    obtain ⟨h3, h4⟩ := ih s.step h1
    exact ⟨h3, le_trans h2 h4⟩

theorem inRange_init (sort : List Process → List Process) (hsort : StdSort sort)
    (procs : List Process) (hin : ValidInput procs)
    (hlt : ∀ p ∈ procs, p.burst < INT_MAX)
    (hrange : (procs.map (fun p => p.burst)).sum + maxArrival procs ≤ INT_MAX) :
    (init sort procs).InRange (maxArrival procs) := by
  obtain ⟨h1, h2⟩ := sorted_input_range sort hsort procs hin
  obtain ⟨hperm, _⟩ := hsort (procs.map Process.copy)
  have hA : 0 ≤ maxArrival procs := (MLFQ_Scheduler.le_foldl_max _ 0).1
  have hmem : ∀ i, i < (sort (procs.map Process.copy)).length →
      getP (sort (procs.map Process.copy)) i ∈ sort (procs.map Process.copy) := by
    intro i hi
    rw [getP_eq_getElem _ i hi]
    exact List.getElem_mem hi
  have hu : (init sort procs).undoneBurst = (procs.map (fun p => p.burst)).sum := by
    rw [← h2]
    unfold undoneBurst
    have e : (List.range (init sort procs).processes.length).map
        (fun i => if (init sort procs).done.getD i false = true then 0
          else (getP (init sort procs).processes i).burst) =
        (List.range (sort (procs.map Process.copy)).length).map
          (fun i => (getP (sort (procs.map Process.copy)) i).burst) := by
      apply List.map_congr_left
      intro i _
      have : (init sort procs).done.getD i false = false := by
        show (List.replicate _ false).getD i false = false
        rw [List.getD_eq_getElem?_getD, List.getElem?_replicate]
        split <;> rfl
      rw [this]
      rfl
    rw [e]
    conv_rhs => rw [← map_getP_range (sort (procs.map Process.copy))]
    rw [List.map_map]
    rfl
  exact {
    dlen := by simp [init]
    time_nonneg := le_refl 0
    burst := fun i => by
      show 0 ≤ (getP (sort (procs.map Process.copy)) i).burst ∧
        (getP (sort (procs.map Process.copy)) i).burst < INT_MAX
      by_cases hi : i < (sort (procs.map Process.copy)).length
      · have hm := hmem i hi
        obtain ⟨x, hx, e⟩ := List.mem_map.1 (hperm.mem_iff.1 hm)
        have := (h1 _ hm).2.2
        refine ⟨by omega, ?_⟩
        rw [← e]
        exact hlt x hx
      · rw [getP, List.getD_eq_default _ _ (not_lt.1 hi)]
        decide
    arrival := fun i hi => (h1 _ (hmem i hi)).2.1
    bound := fun j _ _ => by
      rw [hu]
      show max 0 (maxArrival procs) + _ ≤ INT_MAX
      rw [max_eq_right hA]
      omega }

end SJF_Scheduler

/-- C7, as amended: in every state of the SJF loop (the CPU is free at each
pass, since a selected record runs to completion within the pass) from which
the `int` clock cannot overflow (`InRange`: every burst is below `INT_MAX`, and
the bursts still to serve fit between the clock, or the latest arrival, and
`INT_MAX`) and in which some unfinished record has `arrival <= current_time`,
the pass selects the unfinished arrived record with the smallest burst, the
one with the lowest index among equal bursts, sets its `start_time` to the
clock and its `completion` to clock + burst, marks it done, and moves the
clock to that completion time, so that every later pass, and with it every
later selection, takes place at that completion time or later. Every state of
the loop on a process list with `arrival >= 0`, `1 <= burst < INT_MAX` and the
sum of the bursts plus the latest arrival at most `INT_MAX` is such a state.
Scenario B: `P1(0, 8)`, `P2(1, 3)`, `P3(2, 1)` gives the completions 8, 12,
9, and the average turnaround and waiting returned are the doubles nearest to
26/3 and 14/3. -/
theorem sjf_selects_shortest (A : Int) (s : SJF_Scheduler) (hr : s.InRange A)
    (hex : ∃ i, i < s.processes.length ∧ s.candidate i) :
    (∃ j, s.shortest j ∧
      s.step.processes = setP s.processes j (SJF_Scheduler.select s.current_time) ∧
      (getP s.step.processes j).start_time = s.current_time ∧
      (getP s.step.processes j).completion = s.current_time + (getP s.processes j).burst ∧
      s.step.done = s.done.set j true ∧
      s.step.completed = s.completed + 1 ∧
      s.step.current_time = s.current_time + (getP s.processes j).burst ∧
      ∀ n, s.current_time + (getP s.processes j).burst ≤
        (SJF_Scheduler.after n s.step).current_time) ∧
    (∀ (sort : List Process → List Process) (procs : List Process), StdSort sort →
      ValidInput procs → (∀ p ∈ procs, p.burst < INT_MAX) →
      (procs.map (fun p => p.burst)).sum + maxArrival procs ≤ INT_MAX →
      ∀ n, (SJF_Scheduler.after n (SJF_Scheduler.init sort procs)).InRange
        (maxArrival procs)) ∧
    (SJF_Scheduler.loop 3 (SJF_Scheduler.init insertion_sort scenarioB_procs)).map
        (fun t => t.processes.map (fun p => (p.pid, p.start_time, p.completion))) =
      some [(1, 0, 8), (2, 9, 12), (3, 8, 9)] ∧
    (SJF_Scheduler.run insertion_sort 3 scenarioB_procs).map
        (fun m => (m.avg_turnaround, m.avg_waiting)) =
      some (roundDouble (26 / 3), roundDouble (14 / 3)) := by
  refine ⟨?_, fun sort procs hsort hin hlt hrange n =>
    (SJF_Scheduler.inRange_after n _
      (SJF_Scheduler.inRange_init sort hsort procs hin hlt hrange)).1, by decide!, by decide!⟩
  obtain ⟨h1, h2⟩ := SJF_Scheduler.scan_fold s s.processes.length
  cases hs : s.scan.1 with
  | none =>
    exfalso
    obtain ⟨i, hi, hc⟩ := hex
    exact (h1 hs).2 i hi hc (hr.burst i).2
  | some j =>
    obtain ⟨e1, e2, _, e4⟩ := h2 j hs
    have hstep := SJF_Scheduler.step_select_eq s j hs
    have hw := SJF_Scheduler.select_in_range s hr j e1 e2.1
    have hct : s.step.current_time = s.current_time + (getP s.processes j).burst := by
      rw [hstep]
      exact hw
    refine ⟨j, ⟨e1, e2, e4⟩, by rw [hstep], ?_, ?_, by rw [hstep], by rw [hstep], hct,
      fun n => ?_⟩
    · rw [hstep]
      simp [getP_setP_self _ _ _ e1, SJF_Scheduler.select]
    · rw [hstep]
      simp only [getP_setP_self _ _ _ e1, SJF_Scheduler.select]
      exact hw
    · have := (SJF_Scheduler.inRange_after n s.step (SJF_Scheduler.inRange_step s hr).1).2
      rw [hct] at this
      exact this

/-- Witness of `sjf_selects_shortest`: the start state of Scenario B, whose
first pass selects `P1`. -/
theorem sjf_selects_shortest_witness :
    (SJF_Scheduler.init insertion_sort scenarioB_procs).InRange (maxArrival scenarioB_procs) ∧
    (∃ i, i < (SJF_Scheduler.init insertion_sort scenarioB_procs).processes.length ∧
      (SJF_Scheduler.init insertion_sort scenarioB_procs).candidate i) ∧
    (∃ j, (SJF_Scheduler.init insertion_sort scenarioB_procs).shortest j ∧
      (SJF_Scheduler.init insertion_sort scenarioB_procs).step.processes =
        setP (SJF_Scheduler.init insertion_sort scenarioB_procs).processes j
          (SJF_Scheduler.select (SJF_Scheduler.init insertion_sort scenarioB_procs).current_time) ∧
      (getP (SJF_Scheduler.init insertion_sort scenarioB_procs).step.processes j).completion =
        (SJF_Scheduler.init insertion_sort scenarioB_procs).current_time +
          (getP (SJF_Scheduler.init insertion_sort scenarioB_procs).processes j).burst) :=
  have hr : (SJF_Scheduler.init insertion_sort scenarioB_procs).InRange
      (maxArrival scenarioB_procs) :=
    SJF_Scheduler.inRange_init insertion_sort stdSort_insertion_sort scenarioB_procs
      (by simp [ValidInput, scenarioB_procs, Process.new])
      (by simp [scenarioB_procs, Process.new, INT_MAX]) (by decide)
  have hex : ∃ i, i < (SJF_Scheduler.init insertion_sort scenarioB_procs).processes.length ∧
      (SJF_Scheduler.init insertion_sort scenarioB_procs).candidate i :=
    ⟨0, by decide!, ⟨by decide!, by decide!⟩⟩
  ⟨hr, hex, by
    obtain ⟨j, h1, h2, _, h4, _⟩ := (sjf_selects_shortest _ _ hr hex).1
    exact ⟨j, h1, h2, h4⟩⟩

/-- C7, counterexamples. The one-process list `P1(arrival 0, burst INT_MAX)` has
`arrival >= 0` and `burst >= 1` and at time 0 the CPU is free and the record
is unfinished and has arrived, but the pass selects nothing: the scan starts
from `min_burst = INT_MAX` and compares with `<`, so the records and the done
flags stay as they are and the clock moves to 1. On the list
`P1(0, 2147483646)`, `P2(0, 2)`, whose bursts are below `INT_MAX`, the first
pass serves `P2` from 0 to 2 and the second selects `P1` at the clock 2; the
`int` addition `current_time += p.burst` then leaves `INT_MAX`, and the
completion stored for `P1` is -2147483648, not 2 + 2147483646. -/
theorem sjf_int_max_not_selected :
    ValidInput [Process.new 1 0 INT_MAX] ∧
    (SJF_Scheduler.init insertion_sort [Process.new 1 0 INT_MAX]).candidate 0 ∧
    (SJF_Scheduler.init insertion_sort [Process.new 1 0 INT_MAX]).step.processes =
      (SJF_Scheduler.init insertion_sort [Process.new 1 0 INT_MAX]).processes ∧
    (SJF_Scheduler.init insertion_sort [Process.new 1 0 INT_MAX]).step.done = [false] ∧
    (SJF_Scheduler.init insertion_sort [Process.new 1 0 INT_MAX]).step.current_time = 1 ∧
    ValidInput [Process.new 1 0 2147483646, Process.new 2 0 2] ∧
    (SJF_Scheduler.loop 2 (SJF_Scheduler.init insertion_sort
        [Process.new 1 0 2147483646, Process.new 2 0 2])).map
      (fun t => t.processes.map (fun p => (p.pid, p.start_time, p.burst, p.completion))) =
      some [(1, 2, 2147483646, -2147483648), (2, 0, 2, 2)] := by
  refine ⟨?_, ⟨by decide!, by decide!⟩, by decide!, by decide!, by decide!, ?_, by decide!⟩
  · simp [ValidInput, Process.new, INT_MAX]
  · simp [ValidInput, Process.new]

/-! ## Round-Robin -/

namespace RR_Scheduler

theorem drop_range' (a len k : Nat) :
    (List.range' a len).drop k = List.range' (a + k) (len - k) := by
  induction k generalizing a len with
  | zero => simp
  | succ k ih =>
    cases len with
    | zero => simp
    | succ len =>
      rw [List.range'_succ, List.drop_succ_cons, ih]
      congr 1
      · omega
      · omega

theorem takeWhile_range' (p : Nat → Bool) (a len : Nat) :
    ∃ k, k ≤ len ∧ (List.range' a len).takeWhile p = List.range' a k ∧
      (∀ i, a ≤ i → i < a + k → p i = true) ∧ (k < len → p (a + k) = false) := by
  induction len generalizing a with
  | zero => exact ⟨0, le_refl _, by simp, fun i h1 h2 => by omega, fun h => by omega⟩
  | succ len ih =>
    rw [List.range'_succ, List.takeWhile_cons]
    cases hp : p a with
    | false => exact ⟨0, Nat.zero_le _, by simp, fun i h1 h2 => by omega, fun _ => by simpa using hp⟩
    | true =>
      obtain ⟨k, k1, k2, k3, k4⟩ := ih (a + 1)
      refine ⟨k + 1, by omega, ?_, fun i h1 h2 => ?_, fun h => ?_⟩
      · simp only [if_true]
        rw [k2, List.range'_succ]
      · by_cases hia : i = a
        · rw [hia]; exact hp
        · exact k3 i (by omega) (by omega)
      · have := k4 (by omega)
        have e : a + (k + 1) = a + 1 + k := by omega
        rw [e]
        exact this

theorem arriving_spec (s : RR_Scheduler) :
    ∃ k, s.next_arrival + k ≤ max s.next_arrival s.processes.length ∧
      s.arriving = List.range' s.next_arrival k ∧
      (∀ i, s.next_arrival ≤ i → i < s.next_arrival + k →
        (getP s.processes i).arrival ≤ s.current_time) ∧
      (s.next_arrival + k < s.processes.length →
        s.current_time < (getP s.processes (s.next_arrival + k)).arrival) := by
  unfold arriving
  rw [List.range_eq_range', drop_range', Nat.zero_add]
  obtain ⟨k, k1, k2, k3, k4⟩ := takeWhile_range'
    (fun i => decide ((getP s.processes i).arrival ≤ s.current_time)) s.next_arrival
    (s.processes.length - s.next_arrival)
  refine ⟨k, ?_, k2, fun i h1 h2 => by simpa using k3 i h1 h2, fun h => ?_⟩
  · rw [le_max_iff]
    omega
  · have := k4 (by omega)
    simpa using this

theorem after_succ (n : Nat) (s : RR_Scheduler) : after (n + 1) s = (after n s).step := by
  induction n generalizing s with
  | zero => rfl
  | succ n ih =>
    show after (n + 1) s.step = (after (n + 1) s).step
    rw [ih s.step]
    rfl

theorem execute_spec (s : RR_Scheduler) (c : Nat) (q r ct0 busy0 done0 : Int) (k : Nat)
    (h : InSlice s c q r ct0 busy0 done0 k) (hk : (k : Int) < min q r) :
    ((k : Int) + 1 < min q r → InSlice (execute s c) c q r ct0 busy0 done0 (k + 1)) ∧
    ((k : Int) + 1 = min q r → SliceEnd (execute s c) c q r ct0 busy0 done0 (k + 1)) := by
  have hkq : (k : Int) < q := lt_of_lt_of_le hk (min_le_left _ _)
  have hkr : (k : Int) < r := lt_of_lt_of_le hk (min_le_right _ _)
  have hrem : (getP (setP s.processes c (fun x => { x with remaining := x.remaining - 1 }))
      c).remaining = r - (k : Int) - 1 := by
    rw [getP_setP_self _ _ _ h.index]
    simp [h.remaining]
  unfold execute
  simp only [hrem, h.time_quantum, h.quantum_used]
  by_cases h0 : r - (k : Int) - 1 = 0
  · simp only [h0, if_true]
    constructor
    · intro hlt
      exfalso
      have := lt_of_lt_of_le hlt (min_le_right _ _)
      omega
    · intro _
      have hl : c < (setP s.processes c
          (fun x => { x with remaining := x.remaining - 1 })).length := by
        rw [length_setP]; exact h.index
      exact {
        running := rfl
        remaining := by
          simp only [getP_setP_self _ _ _ hl, hrem]
          push_cast
          omega
        current_time := by simp only [h.current_time]; push_cast; omega
        total_busy_time := by simp only [h.total_busy_time]; push_cast; omega
        complete := fun _ => by
          refine ⟨?_, ?_, ?_⟩
          · simp only [getP_setP_self _ _ _ hl, hrem]
            omega
          · simp only [getP_setP_self _ _ _ hl, h.current_time]
            push_cast
            omega
          · simp only [h.completed]
        requeue := fun hlt => by omega }
  · simp only [h0, if_false]
    by_cases h1 : q ≤ (k : Int) + 1
    · simp only [h1, if_true]
      constructor
      · intro hlt
        exfalso
        have := lt_of_lt_of_le hlt (min_le_left _ _)
        omega
      · intro _
        exact {
          running := rfl
          remaining := by simp only [hrem]; push_cast; omega
          current_time := by simp only [h.current_time]; push_cast; omega
          total_busy_time := by simp only [h.total_busy_time]; push_cast; omega
          complete := fun hle => by omega
          requeue := fun _ => by
            refine ⟨?_, h.completed, s.ready_queue, rfl⟩
            simp only [hrem]
            omega }
    · simp only [h1, if_false]
      constructor
      · intro _
        exact {
          running := h.running
          quantum_used := by push_cast; rfl
          remaining := by simp only [hrem]; push_cast; omega
          current_time := by simp only [h.current_time]; push_cast; omega
          total_busy_time := by simp only [h.total_busy_time]; push_cast; omega
          completed := h.completed
          time_quantum := rfl
          index := by simp only [length_setP]; exact h.index }
      · intro he
        exfalso
        rcases min_choice q r with hm | hm
        · rw [hm] at he; omega
        · rw [hm] at he; omega

theorem inSlice_arrivals (s : RR_Scheduler) (c : Nat) (q r ct0 busy0 done0 : Int) (k : Nat)
    (h : InSlice s c q r ct0 busy0 done0 k) : InSlice s.arrivals c q r ct0 busy0 done0 k where
  running := h.running
  quantum_used := h.quantum_used
  remaining := h.remaining
  current_time := h.current_time
  total_busy_time := h.total_busy_time
  completed := h.completed
  time_quantum := h.time_quantum
  index := h.index

theorem step_inSlice (s : RR_Scheduler) (c : Nat) (q r ct0 busy0 done0 : Int) (k : Nat)
    (h : InSlice s c q r ct0 busy0 done0 k) (hk : (k : Int) < min q r) :
    ((k : Int) + 1 < min q r → InSlice s.step c q r ct0 busy0 done0 (k + 1)) ∧
    ((k : Int) + 1 = min q r → SliceEnd s.step c q r ct0 busy0 done0 (k + 1)) := by
  have ha := inSlice_arrivals s c q r ct0 busy0 done0 k h
  have hkr : (k : Int) < r := lt_of_lt_of_le hk (min_le_right _ _)
  have hne : ¬ (getP s.arrivals.processes c).remaining = 0 := by
    rw [ha.remaining]; omega
  have hstep : s.step = s.arrivals.execute c := by
    unfold step
    simp only [ha.running, hne, if_false]
  rw [hstep]
  exact execute_spec s.arrivals c q r ct0 busy0 done0 k ha hk

theorem step_dispatch (s : RR_Scheduler) (c : Nat) (rest : List Nat)
    (hfree : s.arrivals.currently_running = none) (hfront : s.arrivals.ready_queue = c :: rest)
    (hc : c < s.processes.length) :
    ∃ u, s.step = execute u c ∧
      InSlice u c s.time_quantum (getP s.processes c).remaining s.current_time
        s.total_busy_time s.completed 0 := by
  have hps : ∀ ps : List Process,
      ps = (if (getP s.processes c).started = false then
        setP s.processes c (fun x => { x with started := true, start_time := s.current_time })
      else s.processes) →
      ps.length = s.processes.length ∧ (getP ps c).remaining = (getP s.processes c).remaining := by
    intro ps hps
    subst hps
    by_cases h : (getP s.processes c).started = false
    · simp only [h, if_true, length_setP, getP_setP_self _ _ _ hc, and_self]
    · rw [if_neg h]
      exact ⟨rfl, rfl⟩
  obtain ⟨p1, p2⟩ := hps _ rfl
  refine ⟨{ s.arrivals with
      processes := if (getP s.processes c).started = false then
          setP s.processes c (fun x => { x with started := true, start_time := s.current_time })
        else s.processes,
      ready_queue := rest,
      currently_running := some c,
      quantum_used := 0,
      context_switches := s.arrivals.context_switches + 1 }, ?_, ?_⟩
  · unfold step
    simp only [hfree]
    unfold dispatch
    simp only [hfront]
    rfl
  · exact {
      running := rfl
      quantum_used := rfl
      remaining := by simp only [p2]; push_cast; omega
      current_time := by show s.current_time = _; push_cast; omega
      total_busy_time := by show s.total_busy_time = _; push_cast; omega
      completed := rfl
      time_quantum := rfl
      index := by simp only [p1]; exact hc }

theorem slice_chain (s : RR_Scheduler) (c : Nat) (rest : List Nat)
    (hfree : s.arrivals.currently_running = none) (hfront : s.arrivals.ready_queue = c :: rest)
    (hc : c < s.processes.length) (k : Nat)
    (hk : (k : Int) < min s.time_quantum (getP s.processes c).remaining) :
    ((k : Int) + 1 < min s.time_quantum (getP s.processes c).remaining →
      InSlice (after (k + 1) s) c s.time_quantum (getP s.processes c).remaining s.current_time
        s.total_busy_time s.completed (k + 1)) ∧
    ((k : Int) + 1 = min s.time_quantum (getP s.processes c).remaining →
      SliceEnd (after (k + 1) s) c s.time_quantum (getP s.processes c).remaining s.current_time
        s.total_busy_time s.completed (k + 1)) := by
  induction k with
  | zero =>
    obtain ⟨u, hu, hin⟩ := step_dispatch s c rest hfree hfront hc
    have e : after (0 + 1) s = execute u c := by rw [← hu]; rfl
    rw [e]
    exact execute_spec u c _ _ _ _ _ 0 hin hk
  | succ k ih =>
    have hk2 : (k : Int) + 1 < min s.time_quantum (getP s.processes c).remaining := by
      push_cast at hk; exact hk
    have hin := (ih (by omega)).1 hk2
    rw [after_succ (k + 1) s]
    exact step_inSlice _ c _ _ _ _ _ (k + 1) hin hk

end RR_Scheduler

/-- C8: in the Round-Robin engine with quantum `q >= 1`, when the CPU is free
and the record `c` is at the front of the ready queue with `r >= 1` units
remaining, the next `m = min(q, r)` passes through the loop body each execute
one unit of `c`: after `k < m` of them `c` still holds the CPU with
`remaining = r - k`, and after `m` of them the CPU is free and `c` is complete
with `completion` equal to the clock after its last unit when `r <= q`, and at
the tail of the ready queue with `remaining = r - q` otherwise. Records enter
the ready queue in the order of the arrival-sorted vector: the arrival loop of
a pass appends the indices `next_arrival, next_arrival + 1, ...` of the records
that have arrived, and the vector is sorted by arrival. -/
theorem rr_quantum_slice (s : RR_Scheduler) (c : Nat) (rest : List Nat) (m : Nat)
    (hq : 1 ≤ s.time_quantum) (hr : 1 ≤ (getP s.processes c).remaining)
    (hfree : s.arrivals.currently_running = none) (hfront : s.arrivals.ready_queue = c :: rest)
    (hc : c < s.processes.length)
    (hm : (m : Int) = min s.time_quantum (getP s.processes c).remaining) :
    (∀ k, 1 ≤ k → k < m →
      RR_Scheduler.InSlice (RR_Scheduler.after k s) c s.time_quantum
        (getP s.processes c).remaining s.current_time s.total_busy_time s.completed k) ∧
    RR_Scheduler.SliceEnd (RR_Scheduler.after m s) c s.time_quantum
      (getP s.processes c).remaining s.current_time s.total_busy_time s.completed m ∧
    (∀ t : RR_Scheduler, ∃ k, t.arrivals.ready_queue = t.ready_queue ++ List.range' t.next_arrival k ∧
      t.arrivals.next_arrival = t.next_arrival + k ∧
      (∀ i, t.next_arrival ≤ i → i < t.next_arrival + k →
        (getP t.processes i).arrival ≤ t.current_time) ∧
      (t.next_arrival + k < t.processes.length →
        t.current_time < (getP t.processes (t.next_arrival + k)).arrival)) ∧
    (∀ sort procs tq, StdSort sort →
      (RR_Scheduler.init sort procs tq).processes.Sorted (fun a b => a.arrival ≤ b.arrival) ∧
      (RR_Scheduler.init sort procs tq).next_arrival = 0 ∧
      (RR_Scheduler.init sort procs tq).ready_queue = []) := by
  have hm1 : 1 ≤ m := by
    have : (1 : Int) ≤ min s.time_quantum (getP s.processes c).remaining := le_min hq hr
    omega
  refine ⟨fun k hk1 hkm => ?_, ?_, fun t => ?_, fun sort procs tq hs => ?_⟩
  · have := (RR_Scheduler.slice_chain s c rest hfree hfront hc (k - 1) (by omega)).1 (by omega)
    have e : k - 1 + 1 = k := by omega
    rw [e] at this
    exact this
  · have := (RR_Scheduler.slice_chain s c rest hfree hfront hc (m - 1) (by omega)).2 (by omega)
    have e : m - 1 + 1 = m := by omega
    rw [e] at this
    exact this
  · obtain ⟨k, _, k2, k3, k4⟩ := RR_Scheduler.arriving_spec t
    refine ⟨k, ?_, ?_, k3, k4⟩
    · show t.ready_queue ++ t.arriving = _
      rw [k2]
    · show t.next_arrival + t.arriving.length = _
      rw [k2, List.length_range']
  · exact ⟨(hs _).2, rfl, rfl⟩

/-- Witness of `rr_quantum_slice`: the first slice of Scenario B under the
quantum 4 is four units of `P1`, which has eight units remaining. -/
theorem rr_quantum_slice_witness :
    RR_Scheduler.SliceEnd
      (RR_Scheduler.after 4 (RR_Scheduler.init insertion_sort scenarioB_procs 4)) 0
      (RR_Scheduler.init insertion_sort scenarioB_procs 4).time_quantum
      (getP (RR_Scheduler.init insertion_sort scenarioB_procs 4).processes 0).remaining
      (RR_Scheduler.init insertion_sort scenarioB_procs 4).current_time
      (RR_Scheduler.init insertion_sort scenarioB_procs 4).total_busy_time
      (RR_Scheduler.init insertion_sort scenarioB_procs 4).completed 4 :=
  (rr_quantum_slice (RR_Scheduler.init insertion_sort scenarioB_procs 4) 0 [] 4
    (by decide!) (by decide!) (by decide!) (by decide!) (by decide!) (by decide!)).2.1

/-! ## Metrics -/

theorem fdiv_intCast (a : ℚ) (d : Int) (h : 1 ≤ d) : fdiv a (d : ℚ) = some (a / (d : ℚ)) := by
  have : (d : ℚ) ≠ 0 := by
    have : d ≠ 0 := by omega
    exact_mod_cast this
  simp [fdiv, this]

theorem checked_metrics_positive (tat wt n busy : ℚ) (d : Divisors) (cs : Int)
    (h : d.positive) :
    checked_metrics tat wt n busy d cs =
      some { avg_turnaround := tat / (d.avg_turnaround : ℚ),
             avg_waiting := wt / (d.avg_waiting : ℚ),
             throughput := n / (d.throughput : ℚ),
             cpu_util := 100 * busy / (d.cpu_util : ℚ),
             context_switches := cs } := by
  obtain ⟨h1, h2, h3, h4⟩ := h
  simp [checked_metrics, fdiv_intCast _ _ h1, fdiv_intCast _ _ h2, fdiv_intCast _ _ h3,
    fdiv_intCast _ _ h4]

/-- C11, as amended: in `get_metrics` the divisor of throughput and of
utilisation is `max(1, last_completion)`, at least one for every record set,
the empty one and those with latest completion `0` included; the divisor of
the two averages is the number of records, so for every non-empty record set
all four divisors are at least one and every field of the metrics is a
number, the one `get_metrics` gives. -/
theorem mlfq_metrics_guarded (s : MLFQ_Scheduler) :
    1 ≤ s.get_metrics_divisors.throughput ∧ 1 ≤ s.get_metrics_divisors.cpu_util ∧
    (s.all_processes ≠ [] →
      s.get_metrics_divisors.positive ∧ s.get_metrics_checked = some s.get_metrics) := by
  have h3 : 1 ≤ s.get_metrics_divisors.throughput := by
    simp [MLFQ_Scheduler.get_metrics_divisors]
  have h4 : 1 ≤ s.get_metrics_divisors.cpu_util := by
    simp [MLFQ_Scheduler.get_metrics_divisors]
  refine ⟨h3, h4, fun hne => ?_⟩
  have hlen : 1 ≤ (s.all_processes.length : Int) := by
    have : 0 < s.all_processes.length := List.length_pos.mpr hne
    omega
  have hpos : s.get_metrics_divisors.positive :=
    ⟨by simpa [MLFQ_Scheduler.get_metrics_divisors] using hlen,
     by simpa [MLFQ_Scheduler.get_metrics_divisors] using hlen, h3, h4⟩
  refine ⟨hpos, ?_⟩
  unfold MLFQ_Scheduler.get_metrics_checked
  rw [checked_metrics_positive _ _ _ _ _ _ hpos]
  simp [MLFQ_Scheduler.get_metrics, MLFQ_Scheduler.get_metrics_divisors]

/-- Witness of `mlfq_metrics_guarded`: the engine built for the one-record list
`P1(arrival 0, burst 1)`, whose latest completion is `0` before the run. -/
theorem mlfq_metrics_guarded_witness :
    (MLFQ_Scheduler.init [Process.new 1 0 1] (scenarioC 12 12)).all_processes ≠ [] ∧
    (MLFQ_Scheduler.init [Process.new 1 0 1] (scenarioC 12 12)).get_metrics_divisors.positive ∧
    (MLFQ_Scheduler.init [Process.new 1 0 1] (scenarioC 12 12)).get_metrics_checked =
      some (MLFQ_Scheduler.init [Process.new 1 0 1] (scenarioC 12 12)).get_metrics :=
  have h : (MLFQ_Scheduler.init [Process.new 1 0 1] (scenarioC 12 12)).all_processes ≠ [] := by
    simp [MLFQ_Scheduler.init]
  ⟨h, (mlfq_metrics_guarded _).2.2 h⟩

/-- C11, counterexample: for the empty process list the run ends at once, and
`get_metrics` on its end state divides the two sums by `all_processes.size()`,
which is `0`: the two averages are not numbers. -/
theorem mlfq_metrics_empty_unguarded :
    MLFQ_Scheduler.run 0 (MLFQ_Scheduler.init [] (scenarioC 12 12)) =
      MLFQ_Scheduler.RunResult.done (MLFQ_Scheduler.init [] (scenarioC 12 12)) false ∧
    (MLFQ_Scheduler.init [] (scenarioC 12 12)).get_metrics_divisors.avg_turnaround = 0 ∧
    (MLFQ_Scheduler.init [] (scenarioC 12 12)).get_metrics_divisors.avg_waiting = 0 ∧
    (MLFQ_Scheduler.init [] (scenarioC 12 12)).get_metrics_checked = none := by
  refine ⟨by decide, by decide, by decide, ?_⟩
  simp [MLFQ_Scheduler.get_metrics_checked, checked_metrics, fdiv,
    MLFQ_Scheduler.get_metrics_divisors, MLFQ_Scheduler.init]

/-- C12, evaluation: FCFS and SJF complete the one-record list
`P1(arrival 0, burst 0)` with latest completion `0`, Round-Robin completes the
empty list, and the metrics block of the three engines then divides by that
`0` itself: throughput and utilisation are not numbers. On the empty list
`get_metrics` of the MLFQ engine divides by `max(1, last_completion) = 1`. -/
theorem baseline_divisor_unclamped :
    (baseline_divisors
      (FCFS_Scheduler.served insertion_sort [Process.new 1 0 0]).processes).throughput = 0 ∧
    baseline_metrics_checked
      (FCFS_Scheduler.served insertion_sort [Process.new 1 0 0]).processes
      (FCFS_Scheduler.served insertion_sort [Process.new 1 0 0]).total_busy_time
      (FCFS_Scheduler.served insertion_sort [Process.new 1 0 0]).context_switches = none ∧
    (SJF_Scheduler.loop 1 (SJF_Scheduler.init insertion_sort [Process.new 1 0 0])).map
      (fun t => (baseline_divisors t.processes).throughput) = some 0 ∧
    (SJF_Scheduler.loop 1 (SJF_Scheduler.init insertion_sort [Process.new 1 0 0])).map
      (fun t => baseline_metrics_checked t.processes t.total_busy_time t.context_switches) =
      some none ∧
    (RR_Scheduler.loop 0 (RR_Scheduler.init insertion_sort [] 4)).map
      (fun t => (baseline_divisors t.processes).throughput) = some 0 ∧
    (RR_Scheduler.loop 0 (RR_Scheduler.init insertion_sort [] 4)).map
      (fun t => baseline_metrics_checked t.processes t.total_busy_time t.context_switches) =
      some none ∧
    (MLFQ_Scheduler.init [] (scenarioC 12 12)).get_metrics_divisors.throughput = 1 := by
  refine ⟨by decide, by decide, by decide, by decide, by decide, by decide, by decide⟩

/-! ## Exclusivity of the queues and the running slot -/

theorem refsOf_qset (qs : List (List Nat)) (q : Nat) (v : List Nat) (i : Nat)
    (h : q < qs.length) :
    refsOf (qset qs q v) i + (qget qs q).count i = refsOf qs i + v.count i := by
  induction qs generalizing q with
  | nil => simp at h
  | cons a qs ih =>
    cases q with
    | zero => simp [refsOf, qset, qget]; omega
    | succ q =>
      have := ih q (by simpa using h)
      simp only [refsOf, qset, qget, List.set_cons_succ, List.map_cons, List.sum_cons,
        List.getD_cons_succ] at this ⊢
      omega

theorem count_qget_le_refsOf (qs : List (List Nat)) (q i : Nat) :
    (qget qs q).count i ≤ refsOf qs i := by
  induction qs generalizing q with
  | nil => simp [qget]
  | cons a qs ih =>
    cases q with
    | zero => simp [refsOf, qget]
    | succ q =>
      have := ih q
      simp only [refsOf, qget, List.map_cons, List.sum_cons, List.getD_cons_succ] at this ⊢
      omega

theorem refsOf_pos (qs : List (List Nat)) (i : Nat) :
    0 < refsOf qs i ↔ ∃ q, i ∈ qget qs q := by
  constructor
  · intro h
    induction qs with
    | nil => simp [refsOf] at h
    | cons a qs ih =>
      by_cases ha : i ∈ a
      · exact ⟨0, by simpa [qget] using ha⟩
      · have h0 : a.count i = 0 := List.count_eq_zero.2 ha
        have : 0 < refsOf qs i := by
          simp only [refsOf, List.map_cons, List.sum_cons] at h ⊢
          omega
        obtain ⟨q, hq⟩ := ih this
        exact ⟨q + 1, by simpa [qget] using hq⟩
  · rintro ⟨q, hq⟩
    have h1 : 0 < (qget qs q).count i := List.count_pos_iff.2 hq
    have h2 := count_qget_le_refsOf qs q i
    omega

theorem refsOf_eq_zero (qs : List (List Nat)) (i : Nat) :
    refsOf qs i = 0 ↔ ∀ q, i ∉ qget qs q := by
  constructor
  · intro h q hq
    have := (refsOf_pos qs i).2 ⟨q, hq⟩
    omega
  · intro h
    by_contra hne
    obtain ⟨q, hq⟩ := (refsOf_pos qs i).1 (by omega)
    exact h q hq

theorem qset_qget_self (qs : List (List Nat)) (q : Nat) : qset qs q (qget qs q) = qs := by
  induction qs generalizing q with
  | nil => simp [qset]
  | cons a qs ih =>
    cases q with
    | zero => simp [qset, qget]
    | succ q =>
      have := ih q
      simp only [qset, qget, List.set_cons_succ, List.getD_cons_succ] at this ⊢
      rw [this]

theorem purge_queue_eq_self (s : MLFQ_Scheduler) (q : Nat)
    (h : ∀ i, i ∈ qget s.queues q → 0 < (getP s.all_processes i).remaining) :
    MLFQ_Scheduler.purge_queue s q = s := by
  unfold MLFQ_Scheduler.purge_queue
  have hf : (qget s.queues q).filter
      (fun p => decide (0 < (getP s.all_processes p).remaining)) = qget s.queues q :=
    List.filter_eq_self.2 (fun i hi => by simpa using h i hi)
  simp only [hf, qset_qget_self]

theorem purge_eq_self (s : MLFQ_Scheduler)
    (h : ∀ q i, i ∈ qget s.queues q → 0 < (getP s.all_processes i).remaining) :
    s.purge = s := by
  unfold MLFQ_Scheduler.purge
  generalize List.range s.config.num_queues = L
  induction L with
  | nil => rfl
  | cons q L ih => rw [List.foldl_cons, purge_queue_eq_self s q (h q)]; exact ih

/-! ### Admission -/

theorem add_arrival_x (s : MLFQ_Scheduler) (i : Nat) (hlen : 0 < s.queues.length) :
    (∀ j, (¬ (j = i ∧ s.arriving i) → (MLFQ_Scheduler.add_arrival s i).refs j = s.refs j) ∧
      (j = i ∧ s.arriving i → (MLFQ_Scheduler.add_arrival s i).refs j = s.refs j + 1)) ∧
    (∀ q j, j ∈ qget (MLFQ_Scheduler.add_arrival s i).queues q ↔
      (j ∈ qget s.queues q ∨ (q = 0 ∧ j = i ∧ s.arriving i))) ∧
    (∀ j, (¬ (j = i ∧ s.arriving i) →
        getP (MLFQ_Scheduler.add_arrival s i).all_processes j = getP s.all_processes j) ∧
      (j = i ∧ s.arriving i → j < s.all_processes.length →
        getP (MLFQ_Scheduler.add_arrival s i).all_processes j =
          { getP s.all_processes j with priority := 0 })) := by
  by_cases hc : s.arriving i
  · have he : MLFQ_Scheduler.add_arrival s i =
        { s with
          all_processes := setP s.all_processes i (fun x => { x with priority := 0 }),
          queues := qset s.queues 0 (qget s.queues 0 ++ [i]) } := by
      unfold MLFQ_Scheduler.add_arrival
      exact if_pos hc
    rw [he]
    have hq := refsOf_qset s.queues 0 (qget s.queues 0 ++ [i])
    refine ⟨fun j => ?_, fun q j => ?_, fun j => ?_⟩
    · have := hq j hlen
      simp only [List.count_append, List.count_singleton] at this
      constructor
      · intro hne
        have hji : ¬ (i == j) = true := by
          intro h
          exact hne ⟨(by simpa using h : i = j).symm, hc⟩
        rw [if_neg hji] at this
        simp only [MLFQ_Scheduler.refs]
        omega
      · rintro ⟨hji, _⟩
        have hji2 : (i == j) = true := by simp [hji]
        rw [if_pos hji2] at this
        simp only [MLFQ_Scheduler.refs]
        omega
    · simp only [qget_qset, hlen, and_true]
      by_cases h0 : 0 = q
      · subst h0
        simp [hc]
      · have : ¬ q = 0 := fun h => h0 h.symm
        simp [h0, this]
    · constructor
      · intro hne
        have hij : i ≠ j := fun h => hne ⟨h.symm, hc⟩
        dsimp only
        exact getP_setP_ne _ _ _ _ hij
      · rintro ⟨hji, _⟩ hj
        subst hji
        dsimp only
        exact getP_setP_self _ _ _ hj
  · have he : MLFQ_Scheduler.add_arrival s i = s := by
      unfold MLFQ_Scheduler.add_arrival
      exact if_neg hc
    rw [he]
    simp [hc]

theorem add_arrival_fold_x (L : List Nat) (hL : L.Nodup) (s : MLFQ_Scheduler)
    (hnq : 0 < s.config.num_queues) (hlen : 0 < s.queues.length) :
    (∀ j, (¬ (j ∈ L ∧ s.arriving j) → (L.foldl MLFQ_Scheduler.add_arrival s).refs j = s.refs j) ∧
      (j ∈ L ∧ s.arriving j → (L.foldl MLFQ_Scheduler.add_arrival s).refs j = s.refs j + 1)) ∧
    (∀ q j, j ∈ qget (L.foldl MLFQ_Scheduler.add_arrival s).queues q ↔
      (j ∈ qget s.queues q ∨ (q = 0 ∧ j ∈ L ∧ s.arriving j))) ∧
    (∀ j, (¬ (j ∈ L ∧ s.arriving j) →
        getP (L.foldl MLFQ_Scheduler.add_arrival s).all_processes j = getP s.all_processes j) ∧
      (j ∈ L ∧ s.arriving j → j < s.all_processes.length →
        getP (L.foldl MLFQ_Scheduler.add_arrival s).all_processes j =
          { getP s.all_processes j with priority := 0 })) := by
  induction L generalizing s with
  | nil => simp
  | cons a L ih =>
    obtain ⟨haL, hL2⟩ := List.nodup_cons.1 hL
    obtain ⟨f1, _, _, _⟩ := MLFQ_Scheduler.add_arrival_spec s a hnq hlen
    obtain ⟨r1, q1, p1⟩ := add_arrival_x s a hlen
    obtain ⟨r2, q2, p2⟩ := ih hL2 (MLFQ_Scheduler.add_arrival s a) (by rw [f1.config]; exact hnq)
      (by rw [f1.qlen]; exact hlen)
    have harr : ∀ j, (MLFQ_Scheduler.add_arrival s a).arriving j ↔ s.arriving j :=
      fun j => MLFQ_Scheduler.arriving_congr f1 j
    simp only [List.foldl_cons, List.mem_cons]
    refine ⟨fun j => ⟨fun hne => ?_, fun hj => ?_⟩, fun q j => ?_, fun j => ⟨fun hne => ?_, fun hj hjl => ?_⟩⟩
    · rw [(r2 j).1 (fun h => hne ⟨Or.inr h.1, (harr j).1 h.2⟩)]
      exact (r1 j).1 (fun h => hne ⟨Or.inl h.1, h.1 ▸ h.2⟩)
    · rcases hj with ⟨hj | hj, hja⟩
      · subst hj
        rw [(r2 j).1 (fun h => haL h.1)]
        exact (r1 j).2 ⟨rfl, hja⟩
      · rw [(r2 j).2 ⟨hj, (harr j).2 hja⟩]
        have hne : j ≠ a := fun h => haL (h ▸ hj)
        rw [(r1 j).1 (fun h => hne h.1)]
    · rw [q2 q j, q1 q j, harr j]
      constructor
      · rintro ((h | ⟨h1, h2, h3⟩) | ⟨h1, h2, h3⟩)
        · exact Or.inl h
        · exact Or.inr ⟨h1, Or.inl h2, h2 ▸ h3⟩
        · exact Or.inr ⟨h1, Or.inr h2, h3⟩
      · rintro (h | ⟨h1, h2 | h2, h3⟩)
        · exact Or.inl (Or.inl h)
        · exact Or.inl (Or.inr ⟨h1, h2, h2 ▸ h3⟩)
        · exact Or.inr ⟨h1, h2, h3⟩
    · rw [(p2 j).1 (fun h => hne ⟨Or.inr h.1, (harr j).1 h.2⟩)]
      exact (p1 j).1 (fun h => hne ⟨Or.inl h.1, h.1 ▸ h.2⟩)
    · rcases hj with ⟨hj | hj, hja⟩
      · subst hj
        rw [(p2 j).1 (fun h => haL h.1)]
        exact (p1 j).2 ⟨rfl, hja⟩ hjl
      · have hne : j ≠ a := fun h => haL (h ▸ hj)
        rw [(p2 j).2 ⟨hj, (harr j).2 hja⟩ (by rw [f1.core.1]; exact hjl)]
        rw [(p1 j).1 (fun h => hne h.1)]

theorem add_arrivals_x (s : MLFQ_Scheduler) (hnq : 0 < s.config.num_queues)
    (hlen : 0 < s.queues.length) :
    (∀ j, (¬ (j < s.all_processes.length ∧ s.arriving j) → s.add_arrivals.refs j = s.refs j) ∧
      (j < s.all_processes.length ∧ s.arriving j → s.add_arrivals.refs j = s.refs j + 1)) ∧
    (∀ q j, j ∈ qget s.add_arrivals.queues q ↔
      (j ∈ qget s.queues q ∨ (q = 0 ∧ j < s.all_processes.length ∧ s.arriving j))) ∧
    (∀ j, (¬ (j < s.all_processes.length ∧ s.arriving j) →
        getP s.add_arrivals.all_processes j = getP s.all_processes j) ∧
      (j < s.all_processes.length ∧ s.arriving j →
        getP s.add_arrivals.all_processes j = { getP s.all_processes j with priority := 0 })) := by
  have h := add_arrival_fold_x (List.range s.all_processes.length) (List.nodup_range _) s hnq hlen
  simp only [List.mem_range] at h
  obtain ⟨h1, h2, h3⟩ := h
  exact ⟨h1, h2, fun j => ⟨(h3 j).1, fun hj => (h3 j).2 hj hj.1⟩⟩

theorem priority_zero_eq (x : Process) (h : x.priority = 0) : { x with priority := 0 } = x := by
  cases x
  simp_all

theorem waiting_of_mem {P : List Process} {cfg : Config} {T : Int} {s : MLFQ_Scheduler}
    (hi : Inv P cfg T s) (hx : XInv s) {q i : Nat} (h : i ∈ qget s.queues q) :
    q < cfg.num_queues ∧ s.waiting i := by
  have h1 := hx.level q i h
  have h2 := hi.prio i
  rw [h1] at h2
  exact ⟨h2, q, by rw [hi.config]; exact h2, h⟩

theorem xinv_add_arrivals {P : List Process} {cfg : Config} {s : MLFQ_Scheduler}
    (hi : Inv P cfg s.current_time s) (hx : XInv s) (hnq : 1 ≤ cfg.num_queues)
    (hburst : ∀ i, i < P.length → 1 ≤ (getP P i).burst) :
    XInv s.add_arrivals ∧
    ∀ j, getP s.add_arrivals.all_processes j = getP s.all_processes j := by
  have hq0 : 0 < s.queues.length := by rw [hi.qlen]; decide
  have hnq2 : 0 < s.config.num_queues := by rw [hi.config]; exact hnq
  obtain ⟨r, q, p⟩ := add_arrivals_x s hnq2 hq0
  obtain ⟨_, run1, _, _⟩ := MLFQ_Scheduler.add_arrivals_spec s hnq2 hq0
  have hfree : ∀ j, s.arriving j → s.refs j = 0 ∧ s.currently_running ≠ some j := by
    intro j hj
    have ha : (getP s.all_processes j).arrival = s.current_time := hj.1
    constructor
    · by_contra hne
      obtain ⟨l, hl⟩ := (refsOf_pos s.queues j).1 (Nat.pos_of_ne_zero hne)
      have := (hi.active_lt j (Or.inl (waiting_of_mem hi hx hl).2)).2
      omega
    · intro hr
      have := (hi.active_lt j (Or.inr hr)).2
      omega
  have hsame : ∀ j, getP s.add_arrivals.all_processes j = getP s.all_processes j := by
    intro j
    by_cases hj : j < s.all_processes.length ∧ s.arriving j
    · rw [(p j).2 hj]
      exact priority_zero_eq _ (hx.unstarted j hj.2.2.1)
    · exact (p j).1 hj
  refine ⟨?_, hsame⟩
  exact {
    once := fun j => by
      by_cases hj : j < s.all_processes.length ∧ s.arriving j
      · rw [(r j).2 hj, (hfree j hj.2).1]
      · rw [(r j).1 hj]; exact hx.once j
    level := fun l j hj => by
      rw [hsame j]
      rcases (q l j).1 hj with h | ⟨h1, _, h3⟩
      · exact hx.level l j h
      · rw [h1]; exact hx.unstarted j h3.2.1
    live := fun l j hj => by
      rw [hsame j]
      rcases (q l j).1 hj with h | ⟨_, h2, h3⟩
      · exact hx.live l j h
      · have h4 : (getP s.all_processes j).arrival = s.current_time := h3.1
        have hjP : j < P.length := hi.len ▸ h2
        have hf := (hi.fresh j hjP (by omega)).1
        have hb := hburst j hjP
        rw [← (hi.static j).2.2] at hb
        omega
    running := fun c hc => by
      rw [run1] at hc
      have hna : ¬ (c < s.all_processes.length ∧ s.arriving c) :=
        fun h => (hfree c h.2).2 hc
      rw [(r c).1 hna]
      exact hx.running c hc
    unstarted := fun j hj => by
      rw [hsame j] at hj ⊢
      exact hx.unstarted j hj }

/-! ### Stages that lower levels -/

theorem lower_refl (a : Process) : Lower a a := Or.inl rfl

theorem lower_trans {a b c : Process} (h1 : Lower a b) (h2 : Lower b c) : Lower a c := by
  rcases h1 with h1 | ⟨p1, t1, c1⟩
  · rw [h1] at h2; exact h2
  · rcases h2 with h2 | ⟨p2, t2, c2⟩
    · rw [h2]; exact Or.inr ⟨p1, t1, c1⟩
    · exact Or.inr ⟨by omega, t2, c2.trans c1⟩

theorem lowers_refl (ps : List Process) : Lowers ps ps := ⟨rfl, fun _ => lower_refl _⟩

theorem lowers_trans {a b c : List Process} (h1 : Lowers a b) (h2 : Lowers b c) :
    Lowers a c :=
  ⟨h2.1.trans h1.1, fun i => lower_trans (h1.2 i) (h2.2 i)⟩

theorem lower_priority_le {a b : Process} (h : Lower a b) : b.priority ≤ a.priority := by
  rcases h with h | ⟨h, _, _⟩
  · rw [h]
  · omega

theorem lower_eq_of_priority {a b : Process} (h : Lower a b) (hp : b.priority = a.priority) :
    b = a := by
  rcases h with h | ⟨h, _, _⟩
  · exact h
  · omega

theorem lower_core {a b : Process} (h : Lower a b) : b.core = a.core := by
  rcases h with h | ⟨_, _, h⟩
  · rw [h]
  · exact h

namespace MLFQ_Scheduler

theorem aging_scan_x (thr : Int) (running : Option Nat) (q : Nat) (L : List Nat)
    (ps : List Process) :
    (∀ j, (aging_scan thr running q L ps).2.1.count j +
      (aging_scan thr running q L ps).2.2.count j = L.count j) ∧
    (∀ j, j ∉ (aging_scan thr running q L ps).2.2 →
      getP (aging_scan thr running q L ps).1 j = getP ps j) ∧
    (∀ j, j < ps.length → j ∈ (aging_scan thr running q L ps).2.2 →
      getP (aging_scan thr running q L ps).1 j = aging_reset q (getP ps j)) := by
  induction L generalizing ps with
  | nil => simp [aging_scan]
  | cons p rest ih =>
    unfold aging_scan
    split
    · obtain ⟨h1, h2, h3⟩ := ih (setP ps p (aging_reset q))
      refine ⟨fun j => ?_, fun j hj => ?_, fun j hjl hj => ?_⟩
      · have := h1 j
        simp only [List.count_cons]
        omega
      · have hjp : p ≠ j := fun h => hj (by simp [h])
        have hjm : j ∉ (aging_scan thr running q rest (setP ps p (aging_reset q))).2.2 :=
          fun h => hj (List.mem_cons_of_mem _ h)
        dsimp only
        rw [h2 j hjm, getP_setP_ne _ _ _ _ hjp]
      · dsimp only
        by_cases hjm : j ∈ (aging_scan thr running q rest (setP ps p (aging_reset q))).2.2
        · rw [h3 j (by rw [length_setP]; exact hjl) hjm]
          by_cases hjp : p = j
          · subst hjp
            rw [getP_setP_self _ _ _ hjl]
            rfl
          · rw [getP_setP_ne _ _ _ _ hjp]
        · have hjp : j = p := by
            rcases List.mem_cons.1 hj with h | h
            · exact h
            · exact absurd h hjm
          subst hjp
          rw [h2 j hjm, getP_setP_self _ _ _ hjl]
    · obtain ⟨h1, h2, h3⟩ := ih ps
      refine ⟨fun j => ?_, fun j hj => h2 j hj, fun j hjl hj => h3 j hjl hj⟩
      have := h1 j
      simp only [List.count_cons]
      omega

theorem xinv_age_level {P : List Process} {cfg : Config} {T : Int} (s : MLFQ_Scheduler)
    (q : Nat) (h1 : 1 ≤ q) (hq : q < cfg.num_queues) (hcap : cfg.num_queues ≤ QUEUE_SLOTS)
    (hi : Inv P cfg T s) (hx : XInv s) :
    XInv (age_level s q) ∧ Lowers s.all_processes (age_level s q).all_processes := by
  have hql : q < s.queues.length := by rw [hi.qlen]; omega
  obtain ⟨hcnt, hsame, hreset⟩ := aging_scan_x s.config.aging_threshold s.currently_running q
    (qget s.queues q) s.all_processes
  have hsp := aging_scan_spec s.config.aging_threshold s.currently_running q
    s.config.num_queues (by rw [hi.config]; omega) (qget s.queues q) s.all_processes
  have hps : (age_level s q).all_processes =
      (aging_scan s.config.aging_threshold s.currently_running q
        (qget s.queues q) s.all_processes).1 := rfl
  have hmoved : ∀ j, j ∈ (aging_scan s.config.aging_threshold s.currently_running q
      (qget s.queues q) s.all_processes).2.2 → j ∈ qget s.queues q := by
    intro j hj
    have := hcnt j
    have h0 := List.count_pos_iff.2 hj
    exact List.count_pos_iff.1 (by omega)
  have hkept : ∀ j, j ∈ (aging_scan s.config.aging_threshold s.currently_running q
      (qget s.queues q) s.all_processes).2.1 → j ∈ qget s.queues q ∧
      j ∉ (aging_scan s.config.aging_threshold s.currently_running q
        (qget s.queues q) s.all_processes).2.2 := by
    intro j hj
    have := hcnt j
    have h0 := List.count_pos_iff.2 hj
    have h2 := count_qget_le_refsOf s.queues q j
    have h3 : refsOf s.queues j ≤ 1 := hx.once j
    refine ⟨List.count_pos_iff.1 (by omega), fun hm => ?_⟩
    have := List.count_pos_iff.2 hm
    omega
  have hrefs : ∀ j, (age_level s q).refs j = s.refs j := by
    intro j
    have e1 := refsOf_qset s.queues q (aging_scan s.config.aging_threshold s.currently_running q
      (qget s.queues q) s.all_processes).2.1 j hql
    have e2 := refsOf_qset (qset s.queues q (aging_scan s.config.aging_threshold
      s.currently_running q (qget s.queues q) s.all_processes).2.1) (q - 1)
      (qget (qset s.queues q (aging_scan s.config.aging_threshold s.currently_running q
        (qget s.queues q) s.all_processes).2.1) (q - 1) ++
        (aging_scan s.config.aging_threshold s.currently_running q
          (qget s.queues q) s.all_processes).2.2) j (by rw [length_qset]; omega)
    have e3 := hcnt j
    rw [List.count_append] at e2
    simp only [refs, age_level]
    omega
  have hlen : ∀ l j, j ∈ qget s.queues l → j < s.all_processes.length := by
    intro l j hj
    rw [hi.len]
    exact (hi.active_lt j (Or.inl (waiting_of_mem hi hx hj).2)).1
  have hunch : ∀ l j, l ≠ q → j ∈ qget s.queues l →
      getP (age_level s q).all_processes j = getP s.all_processes j := by
    intro l j hl hj
    rw [hps]
    apply hsame
    intro hm
    have a1 := hx.level l j hj
    have a2 := hx.level q j (hmoved j hm)
    omega
  have hpast : ∀ l j, j ∈ qget (age_level s q).queues l → ∃ l2, j ∈ qget s.queues l2 := by
    intro l j hj
    have : 0 < (age_level s q).refs j := (refsOf_pos _ j).2 ⟨l, hj⟩
    rw [hrefs j] at this
    exact (refsOf_pos _ j).1 this
  refine ⟨?_, hsp.1.1, fun j => ?_⟩
  · exact {
      once := fun j => by rw [hrefs j]; exact hx.once j
      level := fun l j hj => by
        rw [qget_age_level s q l h1 hql] at hj
        split at hj
        · next hl =>
          rcases List.mem_append.1 hj with hj | hj
          · rw [hunch (q - 1) j (by omega) hj, hl]
            exact hx.level _ j hj
          · rw [hps, hreset j (hlen q j (hmoved j hj)) hj, hl]
            rfl
        · split at hj
          · next hl =>
            obtain ⟨k1, k2⟩ := hkept j hj
            rw [hps, hsame j k2, hl]
            exact hx.level q j k1
          · next hl1 hl2 =>
            rw [hunch l j hl2 hj]
            exact hx.level l j hj
      live := fun l j hj => by
        obtain ⟨l2, h2⟩ := hpast l j hj
        rw [hps, hsp.1.remaining]
        exact hx.live l2 j h2
      running := fun c hc => by
        rw [hrefs c]
        exact hx.running c hc
      unstarted := fun j hj => by
        have hst : (getP (age_level s q).all_processes j).started =
          (getP s.all_processes j).started := (core_fields (hsp.1.2 j)).2.2.2.2.2.2
        rw [hst] at hj
        have h0 := hx.unstarted j hj
        rw [hps, hsame j (fun hm => by
          have := hx.level q j (hmoved j hm)
          omega)]
        exact h0 }
  · by_cases hm : j ∈ (aging_scan s.config.aging_threshold s.currently_running q
        (qget s.queues q) s.all_processes).2.2
    · right
      rw [hps, hreset j (hlen q j (hmoved j hm)) hm]
      have := hx.level q j (hmoved j hm)
      refine ⟨?_, rfl, rfl⟩
      show q - 1 < (getP s.all_processes j).priority
      omega
    · left
      rw [hps]
      exact hsame j hm

theorem xinv_age_fold {P : List Process} {cfg : Config} {T : Int} (L : List Nat)
    (hL : ∀ q ∈ L, 1 ≤ q ∧ q < cfg.num_queues) (hcap : cfg.num_queues ≤ QUEUE_SLOTS)
    (s : MLFQ_Scheduler) (hi : Inv P cfg T s) (hx : XInv s) :
    XInv (L.foldl age_level s) ∧ Lowers s.all_processes (L.foldl age_level s).all_processes := by
  induction L generalizing s with
  | nil => exact ⟨hx, lowers_refl _⟩
  | cons q L ih =>
    obtain ⟨hq1, hq2⟩ := hL q (List.mem_cons_self q L)
    obtain ⟨x1, l1⟩ := xinv_age_level s q hq1 hq2 hcap hi hx
    have i1 : Inv P cfg T (age_level s q) :=
      hi.shuffle (shuffle_age_level s q hq1 (by rw [hi.config]; exact hq2)
        (by rw [hi.config, hi.qlen]; exact hcap))
    obtain ⟨x2, l2⟩ := ih (fun r hr => hL r (List.mem_cons_of_mem q hr)) (age_level s q) i1 x1
    exact ⟨x2, lowers_trans l1 l2⟩

theorem xinv_apply_aging {P : List Process} {cfg : Config} {T : Int} (s : MLFQ_Scheduler)
    (hcap : cfg.num_queues ≤ QUEUE_SLOTS) (hi : Inv P cfg T s) (hx : XInv s) :
    XInv s.apply_aging ∧ Lowers s.all_processes s.apply_aging.all_processes := by
  unfold apply_aging
  rw [hi.config]
  exact xinv_age_fold _ (fun q hq => mem_tail_range hq) hcap s hi hx

end MLFQ_Scheduler

namespace MLFQ_Scheduler

theorem boost_reset_fold_x (L : List Nat) (ps : List Process) :
    (∀ j, j ∉ L → getP (L.foldl (fun ps p => setP ps p boost_reset) ps) j = getP ps j) ∧
    (∀ j, j < ps.length → j ∈ L →
      getP (L.foldl (fun ps p => setP ps p boost_reset) ps) j = boost_reset (getP ps j)) := by
  induction L generalizing ps with
  | nil => simp
  | cons p rest ih =>
    obtain ⟨h1, h2⟩ := ih (setP ps p boost_reset)
    simp only [List.foldl_cons]
    refine ⟨fun j hj => ?_, fun j hjl hj => ?_⟩
    · have hjp : p ≠ j := fun h => hj (by simp [h])
      rw [h1 j (fun h => hj (List.mem_cons_of_mem _ h)), getP_setP_ne _ _ _ _ hjp]
    · by_cases hjm : j ∈ rest
      · rw [h2 j (by rw [length_setP]; exact hjl) hjm]
        by_cases hjp : p = j
        · subst hjp
          rw [getP_setP_self _ _ _ hjl]
          rfl
        · rw [getP_setP_ne _ _ _ _ hjp]
      · have hjp : j = p := by
          rcases List.mem_cons.1 hj with h | h
          · exact h
          · exact absurd h hjm
        subst hjp
        rw [h1 j hjm, getP_setP_self _ _ _ hjl]

theorem binv_boost_level (acc : MLFQ_Scheduler × List Nat) (q : Nat) (h1 : 1 ≤ q)
    (hq : q < acc.1.queues.length) (hb : BInv acc) :
    BInv (boost_level acc q) ∧
    Lowers acc.1.all_processes (boost_level acc q).1.all_processes ∧
    (∀ i, (boost_level acc q).1.refs i + (boost_level acc q).2.count i =
      acc.1.refs i + acc.2.count i) ∧
    (∀ l, qget (boost_level acc q).1.queues l = if l = q then [] else qget acc.1.queues l) ∧
    (∀ i, i ∈ (boost_level acc q).2 ↔ (i ∈ acc.2 ∨ i ∈ qget acc.1.queues q)) ∧
    (∀ i, i ∉ qget acc.1.queues q →
      getP (boost_level acc q).1.all_processes i = getP acc.1.all_processes i) := by
  obtain ⟨hsame, hreset⟩ := boost_reset_fold_x (qget acc.1.queues q) acc.1.all_processes
  have hco := (boost_reset_fold acc.1.config.num_queues (qget acc.1.queues q)
    acc.1.all_processes).1
  have hps : (boost_level acc q).1.all_processes =
      (qget acc.1.queues q).foldl (fun ps p => setP ps p boost_reset) acc.1.all_processes := rfl
  have hqs : (boost_level acc q).1.queues = qset acc.1.queues q [] := rfl
  have hacc : (boost_level acc q).2 = acc.2 ++ qget acc.1.queues q := rfl
  have hrun : (boost_level acc q).1.currently_running = acc.1.currently_running := rfl
  have hrefs : ∀ i, (boost_level acc q).1.refs i + (boost_level acc q).2.count i =
      acc.1.refs i + acc.2.count i := by
    intro i
    have e1 := refsOf_qset acc.1.queues q [] i hq
    simp only [refs, hqs, hacc, List.count_append, List.count_nil] at e1 ⊢
    omega
  have hqg : ∀ l, qget (boost_level acc q).1.queues l =
      if l = q then [] else qget acc.1.queues l := by
    intro l
    rw [hqs, qget_qset]
    by_cases hl : l = q
    · simp [hl, hq]
    · have : ¬ q = l := fun h => hl h.symm
      simp [hl, this]
  have hmem : ∀ i, i ∈ qget acc.1.queues q → i < acc.1.all_processes.length :=
    fun i hi => hb.idx i (Or.inl ((refsOf_pos _ i).2 ⟨q, hi⟩))
  have hold : ∀ i, 0 < (boost_level acc q).1.refs i ∨ i ∈ (boost_level acc q).2 →
      0 < acc.1.refs i ∨ i ∈ acc.2 := by
    intro i h
    have e := hrefs i
    by_cases hi : i ∈ acc.2
    · exact Or.inr hi
    · left
      have c0 : acc.2.count i = 0 := List.count_eq_zero.2 hi
      rcases h with h | h
      · omega
      · have := List.count_pos_iff.2 h
        omega
  have hrec : ∀ i, (i ∈ qget acc.1.queues q ∧
        getP (boost_level acc q).1.all_processes i = boost_reset (getP acc.1.all_processes i)) ∨
      (i ∉ qget acc.1.queues q ∧
        getP (boost_level acc q).1.all_processes i = getP acc.1.all_processes i) := by
    intro i
    by_cases hi : i ∈ qget acc.1.queues q
    · exact Or.inl ⟨hi, by rw [hps]; exact hreset i (hmem i hi) hi⟩
    · exact Or.inr ⟨hi, by rw [hps]; exact hsame i hi⟩
  refine ⟨?_, ⟨hco.1, fun i => ?_⟩, hrefs, hqg, fun i => by rw [hacc, List.mem_append],
    fun i hi => by rw [hps]; exact hsame i hi⟩
  · exact {
      once := fun i => by rw [hrefs i]; exact hb.once i
      level := fun l i hi => by
        rw [hqg l] at hi
        split at hi
        · simp at hi
        · next hl =>
          rcases hrec i with ⟨h2, _⟩ | ⟨_, h2⟩
          · have a1 := hb.level l i hi
            have a2 := hb.level q i h2
            omega
          · rw [h2]; exact hb.level l i hi
      reset := fun i hi => by
        rcases hrec i with ⟨_, h2⟩ | ⟨h3, h2⟩
        · rw [h2]; exact ⟨rfl, rfl, rfl⟩
        · rw [h2]
          rw [hacc, List.mem_append] at hi
          rcases hi with hi | hi
          · exact hb.reset i hi
          · exact absurd hi h3
      live := fun i hi => by
        rw [hps, hco.remaining]
        exact hb.live i (hold i hi)
      idx := fun i hi => by
        rw [hps, hco.1]
        exact hb.idx i (hold i hi)
      running := fun c hc => by
        rw [hrun] at hc
        obtain ⟨r1, r2⟩ := hb.running c hc
        have e := hrefs c
        have c0 : acc.2.count c = 0 := List.count_eq_zero.2 r2
        constructor
        · omega
        · intro hm
          have := List.count_pos_iff.2 hm
          omega
      unstarted := fun i hi => by
        rcases hrec i with ⟨_, h2⟩ | ⟨_, h2⟩
        · rw [h2]; rfl
        · rw [h2] at hi ⊢; exact hb.unstarted i hi }
  · rcases hrec i with ⟨h3, h2⟩ | ⟨_, h2⟩
    · right
      rw [h2]
      have := hb.level q i h3
      refine ⟨?_, rfl, rfl⟩
      show 0 < (getP acc.1.all_processes i).priority
      omega
    · left; exact h2

theorem binv_boost_fold (L : List Nat) (acc : MLFQ_Scheduler × List Nat)
    (hL : ∀ q ∈ L, 1 ≤ q ∧ q < acc.1.queues.length) (hb : BInv acc) :
    BInv (L.foldl boost_level acc) ∧
    Lowers acc.1.all_processes (L.foldl boost_level acc).1.all_processes ∧
    (∀ i, (L.foldl boost_level acc).1.refs i + (L.foldl boost_level acc).2.count i =
      acc.1.refs i + acc.2.count i) ∧
    (∀ l, qget (L.foldl boost_level acc).1.queues l =
      if l ∈ L then [] else qget acc.1.queues l) ∧
    (∀ i, i ∈ (L.foldl boost_level acc).2 ↔ (i ∈ acc.2 ∨ ∃ q ∈ L, i ∈ qget acc.1.queues q)) ∧
    (L.foldl boost_level acc).1.currently_running = acc.1.currently_running ∧
    (∀ i, (∀ q ∈ L, i ∉ qget acc.1.queues q) →
      getP (L.foldl boost_level acc).1.all_processes i = getP acc.1.all_processes i) := by
  induction L generalizing acc with
  | nil =>
    exact ⟨hb, lowers_refl _, fun i => rfl, fun l => by simp, fun i => by simp, rfl,
      fun i _ => rfl⟩
  | cons q L ih =>
    obtain ⟨hq1, hq2⟩ := hL q (List.mem_cons_self q L)
    obtain ⟨b1, l1, r1, g1, m1, u1⟩ := binv_boost_level acc q hq1 hq2 hb
    have hlen : (boost_level acc q).1.queues.length = acc.1.queues.length := by
      simp [boost_level, length_qset]
    obtain ⟨b2, l2, r2, g2, m2, c2, u2⟩ := ih (boost_level acc q)
      (fun r hr => by rw [hlen]; exact hL r (List.mem_cons_of_mem q hr)) b1
    simp only [List.foldl_cons]
    refine ⟨b2, lowers_trans l1 l2, fun i => (r2 i).trans (r1 i), fun l => ?_, fun i => ?_, c2,
      fun i hi => ?_⟩
    · rw [g2 l, g1 l]
      by_cases h1 : l ∈ L
      · simp [h1]
      · by_cases h2 : l = q
        · simp [h2]
        · simp [h1, h2]
    · rw [m2 i, m1 i]
      constructor
      · rintro ((h | h) | ⟨r, hr, h⟩)
        · exact Or.inl h
        · exact Or.inr ⟨q, List.mem_cons_self q L, h⟩
        · rw [g1 r] at h
          split at h
          · simp at h
          · exact Or.inr ⟨r, List.mem_cons_of_mem q hr, h⟩
      · rintro (h | ⟨r, hr, h⟩)
        · exact Or.inl (Or.inl h)
        · by_cases hrq : r = q
          · subst hrq; exact Or.inl (Or.inr h)
          · rcases List.mem_cons.1 hr with h2 | h2
            · exact absurd h2 hrq
            · exact Or.inr ⟨r, h2, by rw [g1 r]; simp [hrq, h]⟩
    · rw [u2 i (fun r hr => ?_), u1 i (hi q (List.mem_cons_self q L))]
      rw [g1 r]
      split
      · simp
      · exact hi r (List.mem_cons_of_mem q hr)

end MLFQ_Scheduler

namespace MLFQ_Scheduler

theorem mem_lt_length {P : List Process} {cfg : Config} {T : Int} {s : MLFQ_Scheduler}
    (hi : Inv P cfg T s) (hx : XInv s) {l i : Nat} (h : i ∈ qget s.queues l) :
    i < s.all_processes.length := by
  rw [hi.len]
  exact (hi.active_lt i (Or.inl (waiting_of_mem hi hx h).2)).1

theorem binv_of_xinv {P : List Process} {cfg : Config} {T : Int} {s : MLFQ_Scheduler}
    (hi : Inv P cfg T s) (hx : XInv s) : BInv (s, []) where
  once := fun i => by simpa using hx.once i
  level := hx.level
  reset := fun i h => by simp at h
  live := fun i h => by
    rcases h with h | h
    · obtain ⟨l, hl⟩ := (refsOf_pos _ i).1 h
      exact hx.live l i hl
    · simp at h
  idx := fun i h => by
    rcases h with h | h
    · obtain ⟨l, hl⟩ := (refsOf_pos _ i).1 h
      exact mem_lt_length hi hx hl
    · simp at h
  running := fun c hc => ⟨hx.running c hc, by simp⟩
  unstarted := hx.unstarted

theorem xinv_boost_merge (r : MLFQ_Scheduler × List Nat) (hb : BInv r)
    (h0 : 0 < r.1.queues.length) :
    XInv { r.1 with queues := qset r.1.queues 0 (qget r.1.queues 0 ++ r.2) } ∧
    ∀ i, MLFQ_Scheduler.refs
      { r.1 with queues := qset r.1.queues 0 (qget r.1.queues 0 ++ r.2) } i =
        r.1.refs i + r.2.count i := by
  have hrefs : ∀ i, MLFQ_Scheduler.refs
      { r.1 with queues := qset r.1.queues 0 (qget r.1.queues 0 ++ r.2) } i =
        r.1.refs i + r.2.count i := by
    intro i
    have e := refsOf_qset r.1.queues 0 (qget r.1.queues 0 ++ r.2) i h0
    rw [List.count_append] at e
    simp only [refs]
    omega
  have hmem : ∀ l i, i ∈ qget (qset r.1.queues 0 (qget r.1.queues 0 ++ r.2)) l →
      i ∈ qget r.1.queues l ∨ (l = 0 ∧ i ∈ r.2) := by
    intro l i hi
    rw [qget_qset] at hi
    by_cases hl : 0 = l
    · subst hl
      simp only [h0, and_self, if_true] at hi
      rcases List.mem_append.1 hi with hi | hi
      · exact Or.inl hi
      · exact Or.inr ⟨rfl, hi⟩
    · simp only [hl, false_and, if_false] at hi
      exact Or.inl hi
  refine ⟨?_, hrefs⟩
  exact {
    once := fun i => by rw [hrefs i]; exact hb.once i
    level := fun l i hi => by
      rcases hmem l i hi with h | ⟨h1, h2⟩
      · exact hb.level l i h
      · rw [h1]; exact (hb.reset i h2).1
    live := fun l i hi => by
      rcases hmem l i hi with h | ⟨_, h2⟩
      · exact hb.live i (Or.inl ((refsOf_pos _ i).2 ⟨l, h⟩))
      · exact hb.live i (Or.inr h2)
    running := fun c hc => by
      obtain ⟨r1, r2⟩ := hb.running c hc
      rw [hrefs c, r1, List.count_eq_zero.2 r2]
    unstarted := hb.unstarted }

theorem xinv_reset_running (s : MLFQ_Scheduler) (c : Nat) (hx : XInv s)
    (hc : s.currently_running = some c) (hp : 0 < (getP s.all_processes c).priority) :
    XInv { s with all_processes := setP s.all_processes c (fun x =>
      { x with priority := 0, time_in_current_quantum := 0 }) } ∧
    Lowers s.all_processes (setP s.all_processes c (fun x =>
      { x with priority := 0, time_in_current_quantum := 0 })) := by
  have hne : ∀ l i, i ∈ qget s.queues l → c ≠ i := by
    intro l i hi h
    subst h
    have := (refsOf_pos _ c).2 ⟨l, hi⟩
    have := hx.running c hc
    simp only [refs] at this
    omega
  constructor
  · exact {
      once := hx.once
      level := fun l i hi => by
        dsimp only at hi ⊢
        rw [getP_setP_ne _ _ _ _ (hne l i hi)]
        exact hx.level l i hi
      live := fun l i hi => by
        dsimp only at hi ⊢
        rw [getP_setP_ne _ _ _ _ (hne l i hi)]
        exact hx.live l i hi
      running := hx.running
      unstarted := fun i hi => by
        dsimp only at hi ⊢
        rw [getP_setP] at hi ⊢
        split
        · rfl
        · next h =>
          rw [if_neg h] at hi
          exact hx.unstarted i hi }
  · refine ⟨length_setP _ _ _, fun i => ?_⟩
    rw [getP_setP]
    split
    · next h =>
      obtain ⟨h1, _⟩ := h
      subst h1
      exact Or.inr ⟨hp, rfl, rfl⟩
    · exact Or.inl rfl

end MLFQ_Scheduler

namespace MLFQ_Scheduler

theorem mem_tail_range_iff (n q : Nat) : q ∈ (List.range n).tail ↔ 1 ≤ q ∧ q < n := by
  rw [List.range_eq_range', List.tail_range', List.mem_range']
  constructor
  · rintro ⟨i, hi, rfl⟩
    omega
  · rintro ⟨h1, h2⟩
    exact ⟨q - 1, by omega, by omega⟩

theorem qget_eq_nil_of_le {P : List Process} {cfg : Config} {T : Int} {s : MLFQ_Scheduler}
    (hi : Inv P cfg T s) (hx : XInv s) (l : Nat) (hl : cfg.num_queues ≤ l) :
    qget s.queues l = [] := by
  apply List.eq_nil_iff_forall_not_mem.2
  intro i h
  have := (waiting_of_mem hi hx h).1
  omega

theorem xinv_apply_priority_boost {P : List Process} {cfg : Config} {T : Int}
    (s : MLFQ_Scheduler) (hcap : cfg.num_queues ≤ QUEUE_SLOTS)
    (hi : Inv P cfg T s) (hx : XInv s) :
    XInv s.apply_priority_boost ∧
    Lowers s.all_processes s.apply_priority_boost.all_processes ∧
    BoostSpec s s.apply_priority_boost := by
  have hcap2 : s.config.num_queues ≤ s.queues.length := by rw [hi.config, hi.qlen]; exact hcap
  have hL : ∀ q ∈ (List.range s.config.num_queues).tail, 1 ≤ q ∧ q < s.queues.length := by
    intro q hq
    have := mem_tail_range hq
    omega
  obtain ⟨f1, _, _, _, _⟩ := boost_fold_spec s.config.num_queues
    ((List.range s.config.num_queues).tail) (fun q hq => mem_tail_range hq) (s, []) rfl hcap2
  obtain ⟨b, lw, _, g, m, rc, un⟩ := binv_boost_fold ((List.range s.config.num_queues).tail)
    (s, []) hL (binv_of_xinv hi hx)
  have hnorun : ∀ c, s.currently_running = some c → ∀ l, c ∉ qget s.queues l := by
    intro c hc
    exact (refsOf_eq_zero _ c).1 (hx.running c hc)
  unfold apply_priority_boost
  simp only
  generalize ((List.range s.config.num_queues).tail).foldl boost_level (s, []) = r
    at f1 b lw g m rc un
  have h0 : 0 < r.1.queues.length := by rw [f1.qlen, hi.qlen]; decide
  have x2 := (xinv_boost_merge r b h0).1
  have hq0 : qget (qset r.1.queues 0 (qget r.1.queues 0 ++ r.2)) 0 = qget s.queues 0 ++ r.2 := by
    rw [qget_qset]
    simp only [h0, and_self, if_true]
    rw [g 0]
    have : 0 ∉ (List.range s.config.num_queues).tail := by
      rw [mem_tail_range_iff]; omega
    simp [this]
  have hemp : ∀ l, 1 ≤ l → qget (qset r.1.queues 0 (qget r.1.queues 0 ++ r.2)) l = [] := by
    intro l hl
    rw [qget_qset]
    have hl0 : ¬ 0 = l := by omega
    simp only [hl0, false_and, if_false]
    rw [g l]
    split
    · rfl
    · next hnl =>
      rw [mem_tail_range_iff] at hnl
      exact qget_eq_nil_of_le hi hx l (by rw [← hi.config]; omega)
  have hmov : ∀ l i, 1 ≤ l → i ∈ qget s.queues l →
      i ∈ qget (qset r.1.queues 0 (qget r.1.queues 0 ++ r.2)) 0 ∧
      (getP r.1.all_processes i).priority = 0 ∧
      (getP r.1.all_processes i).time_in_current_quantum = 0 ∧
      (getP r.1.all_processes i).time_in_queue = 0 := by
    intro l i hl hmem
    have hlt := (waiting_of_mem hi hx hmem).1
    have hm : i ∈ r.2 := (m i).2 (Or.inr ⟨l,
      (mem_tail_range_iff _ _).2 ⟨hl, by rw [hi.config]; exact hlt⟩, hmem⟩)
    refine ⟨?_, b.reset i hm⟩
    rw [hq0]
    exact List.mem_append.2 (Or.inr hm)
  have hsame : ∀ c, s.currently_running = some c →
      getP r.1.all_processes c = getP s.all_processes c :=
    fun c hc => un c (fun q _ => hnorun c hc q)
  split
  · next c hc =>
    have hc2 : r.1.currently_running = some c := hc
    have hcs : s.currently_running = some c := by rw [← rc]; exact hc2
    have hcl : c < r.1.all_processes.length := by
      rw [lw.1, hi.len]
      exact (hi.active_lt c (Or.inr hcs)).1
    split
    · next hp =>
      obtain ⟨x3, l3⟩ := xinv_reset_running _ c x2 hc hp
      refine ⟨x3, lowers_trans lw l3, ?_⟩
      exact {
        emptied := hemp
        moved := fun l i hl hmem => by
          have hne : c ≠ i := fun h => hnorun c hcs l (h ▸ hmem)
          dsimp only
          rw [getP_setP_ne _ _ _ _ hne]
          exact hmov l i hl hmem
        front := ⟨r.2, hq0⟩
        running := rc
        run_reset := fun c2 hc3 => by
          rw [hcs] at hc3
          cases hc3
          dsimp only
          rw [getP_setP_self _ _ _ hcl]
          refine ⟨rfl, fun _ => rfl, fun h => ?_⟩
          rw [hsame c hcs] at hp
          omega }
    · next hp =>
      refine ⟨x2, lw, ?_⟩
      exact {
        emptied := hemp
        moved := hmov
        front := ⟨r.2, hq0⟩
        running := rc
        run_reset := fun c2 hc3 => by
          rw [hcs] at hc3
          cases hc3
          dsimp only
          rw [hsame c hcs] at hp ⊢
          exact ⟨by omega, fun h => absurd h hp, fun _ => rfl⟩ }
  · next hc =>
    have hc2 : r.1.currently_running = none := hc
    refine ⟨x2, lw, ?_⟩
    exact {
      emptied := hemp
      moved := hmov
      front := ⟨r.2, hq0⟩
      running := rc
      run_reset := fun c2 hc3 => by
        rw [← rc, hc2] at hc3
        cases hc3 }

end MLFQ_Scheduler

/-! ### Preemption check, dispatch and execution -/

theorem sched_fields {p q : Process} (h : p.sched = q.sched) :
    p.core = q.core ∧ p.priority = q.priority ∧
    p.time_in_current_quantum = q.time_in_current_quantum := by
  simp only [Process.sched, Prod.mk.injEq] at h
  exact h

namespace MLFQ_Scheduler

theorem sched_foldl {α : Type} (g : List Process → α → List Process) (l : List α)
    (hg : ∀ ps a i, (getP (g ps a) i).sched = (getP ps i).sched) (ps : List Process)
    (i : Nat) : (getP (l.foldl g ps) i).sched = (getP ps i).sched := by
  induction l generalizing ps with
  | nil => rfl
  | cons a l ih => exact (ih (g ps a)).trans (hg ps a i)

theorem sched_bump_waiting (running : Option Nat) (ps : List Process) (p i : Nat) :
    (getP (bump_waiting running ps p) i).sched = (getP ps i).sched := by
  unfold bump_waiting
  split
  · rw [getP_setP]
    split
    · next h => rw [h.1]; rfl
    · rfl
  · rfl

theorem sched_update_waiting_times (s : MLFQ_Scheduler) (i : Nat) :
    (getP s.update_waiting_times.all_processes i).sched = (getP s.all_processes i).sched := by
  unfold update_waiting_times
  exact sched_foldl _ _ (fun ps q j => sched_foldl _ _ (sched_bump_waiting _) ps j) _ i

theorem execute_eq (s : MLFQ_Scheduler) (c : Nat) :
    execute s c = finish_tick (before_check s c) c := rfl

theorem before_check_spec (s : MLFQ_Scheduler) (c : Nat) :
    (before_check s c).queues = s.queues ∧
    (before_check s c).currently_running = s.currently_running ∧
    (before_check s c).config = s.config ∧
    (before_check s c).current_time = s.current_time ∧
    (before_check s c).context_switches = s.context_switches ∧
    (before_check s c).completed = s.completed ∧
    (before_check s c).all_processes.length = s.all_processes.length ∧
    (∀ i, i ≠ c → (getP (before_check s c).all_processes i).sched =
      (getP s.all_processes i).sched) ∧
    (c < s.all_processes.length →
      (getP (before_check s c).all_processes c).sched =
        (({ getP s.all_processes c with
            remaining := (getP s.all_processes c).remaining - 1,
            time_in_current_quantum :=
              (getP s.all_processes c).time_in_current_quantum + 1 }) : Process).sched) := by
  have hsh := shuffle_update_waiting_times
      { s with
        timeline_pid := s.timeline_pid ++ [(getP s.all_processes c).pid],
        timeline_queue := s.timeline_queue ++ [((getP s.all_processes c).priority : Int)],
        all_processes := setP s.all_processes c
          (fun x => { x with remaining := x.remaining - 1,
                             time_in_current_quantum := x.time_in_current_quantum + 1 }),
        total_busy_time := s.total_busy_time + 1 }
  refine ⟨rfl, rfl, rfl, rfl, rfl, rfl, ?_, fun i hi => ?_, fun hc => ?_⟩
  · unfold before_check
    rw [hsh.core.1]
    dsimp only
    exact length_setP _ _ _
  · unfold before_check
    rw [sched_update_waiting_times]
    dsimp only
    rw [getP_setP_ne _ _ _ _ (Ne.symm hi)]
  · unfold before_check
    rw [sched_update_waiting_times]
    dsimp only
    rw [getP_setP_self _ _ _ hc]

theorem xinv_preempt_check {P : List Process} {cfg : Config} {T : Int} (s : MLFQ_Scheduler)
    (hcap : cfg.num_queues ≤ QUEUE_SLOTS) (hi : Inv P cfg T s) (hx : XInv s) :
    XInv s.preempt_check ∧ s.preempt_check.all_processes = s.all_processes := by
  unfold preempt_check
  split
  · next c hc =>
    split
    · next hrem =>
      dsimp only
      split
      · next hpre =>
        refine ⟨?_, rfl⟩
        have hL : (getP s.all_processes c).priority < s.queues.length := by
          have := hi.prio c
          rw [hi.qlen]; omega
        have hrefs : ∀ i, refsOf (qset s.queues (getP s.all_processes c).priority
            (c :: qget s.queues (getP s.all_processes c).priority)) i =
            s.refs i + if c = i then 1 else 0 := by
          intro i
          have e := refsOf_qset s.queues (getP s.all_processes c).priority
            (c :: qget s.queues (getP s.all_processes c).priority) i hL
          rw [List.count_cons] at e
          simp only [refs]
          by_cases hci : c = i
          · subst hci; simp at e ⊢; omega
          · have : ¬ (c == i) = true := by simpa using hci
            rw [if_neg this] at e
            rw [if_neg hci]
            omega
        have hmem : ∀ l i, i ∈ qget (qset s.queues (getP s.all_processes c).priority
            (c :: qget s.queues (getP s.all_processes c).priority)) l →
            i ∈ qget s.queues l ∨ (l = (getP s.all_processes c).priority ∧ i = c) := by
          intro l i h
          rw [qget_qset] at h
          split at h
          · next hl =>
            rcases List.mem_cons.1 h with h | h
            · exact Or.inr ⟨hl.1.symm, h⟩
            · exact Or.inl (hl.1 ▸ h)
          · exact Or.inl h
        exact {
          once := fun i => by
            show refsOf _ i ≤ 1
            rw [hrefs i]
            have h1 := hx.once i
            by_cases hci : c = i
            · subst hci
              have := hx.running c hc
              simp [this]
            · simp only [hci, if_false]; omega
          level := fun l i h => by
            rcases hmem l i h with h | ⟨h1, h2⟩
            · exact hx.level l i h
            · rw [h2, h1]
          live := fun l i h => by
            rcases hmem l i h with h | ⟨_, h2⟩
            · exact hx.live l i h
            · rw [h2]; exact hrem
          running := fun c2 h => by cases h
          unstarted := hx.unstarted }
      · exact ⟨hx, rfl⟩
    · exact ⟨hx, rfl⟩
  · exact ⟨hx, rfl⟩

end MLFQ_Scheduler

namespace MLFQ_Scheduler

theorem take_spec (s : MLFQ_Scheduler) (a c : Nat) (rest : List Nat)
    (hc : c < s.all_processes.length) :
    (s.take a c rest).all_processes.length = s.all_processes.length ∧
    (∀ i, i ≠ c → getP (s.take a c rest).all_processes i = getP s.all_processes i) ∧
    (getP (s.take a c rest).all_processes c).pid = (getP s.all_processes c).pid ∧
    (getP (s.take a c rest).all_processes c).arrival = (getP s.all_processes c).arrival ∧
    (getP (s.take a c rest).all_processes c).burst = (getP s.all_processes c).burst ∧
    (getP (s.take a c rest).all_processes c).remaining = (getP s.all_processes c).remaining ∧
    (getP (s.take a c rest).all_processes c).completion = (getP s.all_processes c).completion ∧
    (getP (s.take a c rest).all_processes c).priority = (getP s.all_processes c).priority ∧
    (getP (s.take a c rest).all_processes c).started = true ∧
    (getP (s.take a c rest).all_processes c).start_time =
      if (getP s.all_processes c).started = true then (getP s.all_processes c).start_time
      else s.current_time :=
  dispatch_write_spec s c hc _ rfl

theorem take_counters (s : MLFQ_Scheduler) (a c : Nat) (rest : List Nat) (i : Nat) :
    (getP (s.take a c rest).all_processes i).priority = (getP s.all_processes i).priority ∧
    (getP (s.take a c rest).all_processes i).time_in_current_quantum =
      (getP s.all_processes i).time_in_current_quantum ∧
    (getP (s.take a c rest).all_processes i).time_in_queue =
      (getP s.all_processes i).time_in_queue ∧
    (getP (s.take a c rest).all_processes i).remaining = (getP s.all_processes i).remaining := by
  unfold take
  dsimp only
  split
  · rw [getP_setP]
    split
    · next h => rw [h.1]; exact ⟨rfl, rfl, rfl, rfl⟩
    · exact ⟨rfl, rfl, rfl, rfl⟩
  · exact ⟨rfl, rfl, rfl, rfl⟩

theorem inv_take {P : List Process} {cfg : Config} (s : MLFQ_Scheduler) (a c : Nat)
    (rest : List Nat) (hi : Inv P cfg (s.current_time + 1) s) (hl : Live s)
    (hrun : s.currently_running = none) (haq : a < s.config.num_queues)
    (he : qget s.queues a = c :: rest) :
    Inv P cfg (s.current_time + 1) (s.take a c rest) := by
  have hwc : s.waiting c := ⟨a, haq, by rw [he]; exact List.mem_cons_self c rest⟩
  have hact := hi.active_lt c (Or.inl hwc)
  have hcl : c < s.all_processes.length := by rw [hi.len]; exact hact.1
  have haql : a < s.queues.length := by
    by_contra h
    rw [qget_of_length_le _ _ (by omega)] at he
    cases he
  obtain ⟨w1, w2, w3, w4, w5, w6, w7, w8, w9, w10⟩ := take_spec s a c rest hcl
  have hqs : (s.take a c rest).queues = qset s.queues a rest := rfl
  have hcfg : (s.take a c rest).config = s.config := rfl
  have hrn : (s.take a c rest).currently_running = some c := rfl
  have hsub : ∀ i, (s.take a c rest).waiting i → s.waiting i := by
    rintro i ⟨l, hl1, hl2⟩
    rw [hqs] at hl2
    simp only [qget_qset, haql, and_true] at hl2
    split at hl2
    · next h => exact ⟨l, hl1, by rw [← h, he]; exact List.mem_cons_of_mem c hl2⟩
    · exact ⟨l, hl1, hl2⟩
  have hsup : ∀ i, s.waiting i → i = c ∨ (s.take a c rest).waiting i := by
    rintro i ⟨l, hl1, hl2⟩
    by_cases h : a = l
    · subst h
      rw [he] at hl2
      rcases List.mem_cons.1 hl2 with h | h
      · exact Or.inl h
      · exact Or.inr ⟨a, hl1, by rw [hqs]; simp [qget_qset, haql, h]⟩
    · exact Or.inr ⟨l, hl1, by rw [hqs]; simp [qget_qset, h, hl2]⟩
  have hcore : ∀ i, i ≠ c →
      (getP (s.take a c rest).all_processes i).core = (getP s.all_processes i).core :=
    fun i h => by rw [w2 i h]
  exact {
    config := hi.config
    qlen := by rw [hqs, length_qset]; exact hi.qlen
    len := w1.trans hi.len
    static := fun i => by
      by_cases h : i = c
      · subst h
        rw [w3, w4, w5]; exact hi.static i
      · rw [w2 i h]; exact hi.static i
    prio := fun i => by
      rw [(take_counters s a c rest i).1]; exact hi.prio i
    active_lt := fun i h => by
      have : s.waiting i := by
        rcases h with h | h
        · exact hsub i h
        · rw [hrn] at h; cases h; exact hwc
      have h2 := hi.active_lt i (Or.inl this)
      by_cases h : i = c
      · subst h
        rw [w4]; exact h2
      · rw [w2 i h]; exact h2
    running_pos := fun c2 h => by
      rw [hrn] at h
      cases h
      rw [w6]
      exact ⟨hl c (Or.inl hwc), w9⟩
    rem_range := fun i => by
      by_cases h : i = c
      · subst h
        rw [w6, w5]; exact hi.rem_range i
      · rw [w2 i h]; exact hi.rem_range i
    fresh := fun i hil ha => by
      have hne : i ≠ c := by
        intro h
        subst h
        rw [w4] at ha
        have := hact.2
        omega
      rw [w2 i hne] at ha ⊢
      exact hi.fresh i hil ha
    no_lost := fun i hil ha hr => by
      by_cases h : i = c
      · exact Or.inr (by rw [h]; rfl)
      · rw [w2 i h] at ha hr
        rcases hi.no_lost i hil ha hr with hw | hw
        · rcases hsup i hw with h2 | h2
          · exact absurd h2 h
          · exact Or.inl h2
        · rw [hrun] at hw; cases hw
    completed_eq := by
      have hd := doneCount_update s.all_processes (s.take a c rest).all_processes c hcl w1 hcore
      rw [w6] at hd
      show s.completed = _
      rw [hi.completed_eq]
      omega }

theorem xinv_take {P : List Process} {cfg : Config} {T : Int} (s : MLFQ_Scheduler)
    (a c : Nat) (rest : List Nat) (hi : Inv P cfg T s) (hx : XInv s)
    (he : qget s.queues a = c :: rest) : XInv (s.take a c rest) := by
  have hcl : c < s.all_processes.length :=
    mem_lt_length hi hx (by rw [he]; exact List.mem_cons_self c rest)
  have haql : a < s.queues.length := by
    by_contra h
    rw [qget_of_length_le _ _ (by omega)] at he
    cases he
  have hqs : (s.take a c rest).queues = qset s.queues a rest := rfl
  have hrefs : ∀ i, (s.take a c rest).refs i + (if c = i then 1 else 0) = s.refs i := by
    intro i
    have e := refsOf_qset s.queues a rest i haql
    rw [he, List.count_cons] at e
    simp only [refs, hqs]
    by_cases hci : c = i
    · subst hci; simp at e ⊢; omega
    · have : ¬ (c == i) = true := by simpa using hci
      rw [if_neg this] at e
      rw [if_neg hci]
      omega
  have hmem : ∀ l i, i ∈ qget (s.take a c rest).queues l → i ∈ qget s.queues l := by
    intro l i h
    rw [hqs, qget_qset] at h
    split at h
    · next hl => rw [← hl.1, he]; exact List.mem_cons_of_mem c h
    · exact h
  obtain ⟨_, _, _, _, _, _, _, _, w9, _⟩ := take_spec s a c rest hcl
  exact {
    once := fun i => by
      have := hrefs i
      have := hx.once i
      omega
    level := fun l i h => by
      rw [(take_counters s a c rest i).1]
      exact hx.level l i (hmem l i h)
    live := fun l i h => by
      rw [(take_counters s a c rest i).2.2.2]
      exact hx.live l i (hmem l i h)
    running := fun c2 h => by
      have h2 : (s.take a c rest).currently_running = some c := rfl
      rw [h2] at h
      cases h
      have e := hrefs c
      have := hx.once c
      simp only [if_true] at e
      omega
    unstarted := fun i h => by
      rw [(take_counters s a c rest i).1]
      by_cases hic : i = c
      · subst hic
        rw [w9] at h
        cases h
      · have : getP (s.take a c rest).all_processes i = getP s.all_processes i := by
          unfold take
          dsimp only
          split
          · exact getP_setP_ne _ _ _ _ (Ne.symm hic)
          · rfl
        rw [this] at h
        exact hx.unstarted i h }

end MLFQ_Scheduler

namespace MLFQ_Scheduler

theorem finish_tick_done (s : MLFQ_Scheduler) (c : Nat)
    (h0 : (getP s.all_processes c).remaining = 0) :
    finish_tick s c =
      { s with
        all_processes := setP s.all_processes c (fun x =>
          { x with completion := s.current_time + 1 }),
        completed := s.completed + 1,
        currently_running := none,
        current_time := s.current_time + 1 } := by
  unfold finish_tick
  dsimp only
  rw [if_pos h0]

theorem finish_tick_expire (s : MLFQ_Scheduler) (c : Nat)
    (h0 : (getP s.all_processes c).remaining ≠ 0)
    (hq : 0 < s.config.quantum (getP s.all_processes c).priority ∧
      s.config.quantum (getP s.all_processes c).priority ≤
        (getP s.all_processes c).time_in_current_quantum) :
    finish_tick s c =
      { s with
        all_processes := setP s.all_processes c (fun x =>
          { x with
            priority := if (getP s.all_processes c).priority + 1 < s.config.num_queues
              then (getP s.all_processes c).priority + 1 else (getP s.all_processes c).priority,
            time_in_current_quantum := 0, time_in_queue := 0 }),
        queues := qset s.queues
          (if (getP s.all_processes c).priority + 1 < s.config.num_queues
            then (getP s.all_processes c).priority + 1 else (getP s.all_processes c).priority)
          (qget s.queues
            (if (getP s.all_processes c).priority + 1 < s.config.num_queues
              then (getP s.all_processes c).priority + 1 else (getP s.all_processes c).priority)
            ++ [c]),
        currently_running := none,
        context_switches := s.context_switches + 1,
        current_time := s.current_time + 1 } := by
  unfold finish_tick
  dsimp only
  rw [if_neg h0, if_pos hq]

theorem finish_tick_stay (s : MLFQ_Scheduler) (c : Nat)
    (h0 : (getP s.all_processes c).remaining ≠ 0)
    (hq : ¬ (0 < s.config.quantum (getP s.all_processes c).priority ∧
      s.config.quantum (getP s.all_processes c).priority ≤
        (getP s.all_processes c).time_in_current_quantum)) :
    finish_tick s c = { s with current_time := s.current_time + 1 } := by
  unfold finish_tick
  dsimp only
  rw [if_neg h0, if_neg hq]

theorem xinv_before_check (s : MLFQ_Scheduler) (c : Nat) (hx : XInv s)
    (hc : s.currently_running = some c) (hcl : c < s.all_processes.length) :
    XInv (before_check s c) := by
  obtain ⟨b1, b2, _, _, _, _, _, b8, b9⟩ := before_check_spec s c
  have hne : ∀ l i, i ∈ qget s.queues l → i ≠ c := by
    intro l i hi h
    subst h
    have := (refsOf_eq_zero _ i).1 (hx.running i hc) l
    exact this hi
  have hprio : ∀ i, (getP (before_check s c).all_processes i).priority =
      (getP s.all_processes i).priority := by
    intro i
    by_cases h : i = c
    · subst h; exact (sched_fields (b9 hcl)).2.1
    · exact (sched_fields (b8 i h)).2.1
  have hst : ∀ i, (getP (before_check s c).all_processes i).started =
      (getP s.all_processes i).started := by
    intro i
    by_cases h : i = c
    · subst h; exact (core_fields (sched_fields (b9 hcl)).1).2.2.2.2.2.2
    · exact (core_fields (sched_fields (b8 i h)).1).2.2.2.2.2.2
  exact {
    once := fun i => by
      show refsOf (before_check s c).queues i ≤ 1
      rw [b1]; exact hx.once i
    level := fun l i hi => by
      rw [b1] at hi
      rw [hprio i]; exact hx.level l i hi
    live := fun l i hi => by
      rw [b1] at hi
      rw [(core_fields (sched_fields (b8 i (hne l i hi))).1).2.2.2.1]
      exact hx.live l i hi
    running := fun c2 h => by
      rw [b2] at h
      show refsOf (before_check s c).queues c2 = 0
      rw [b1]; exact hx.running c2 h
    unstarted := fun i hi => by
      rw [hst i] at hi
      rw [hprio i]; exact hx.unstarted i hi }

theorem xinv_finish_tick (s : MLFQ_Scheduler) (c : Nat) (hx : XInv s)
    (hc : s.currently_running = some c) (hcl : c < s.all_processes.length)
    (hcap : s.config.num_queues ≤ s.queues.length)
    (hprio : (getP s.all_processes c).priority < s.config.num_queues)
    (hrem : 0 ≤ (getP s.all_processes c).remaining)
    (hst : (getP s.all_processes c).started = true) :
    XInv (finish_tick s c) := by
  have hne : ∀ l i, i ∈ qget s.queues l → c ≠ i := by
    intro l i hi h
    subst h
    exact (refsOf_eq_zero _ c).1 (hx.running c hc) l hi
  by_cases h0 : (getP s.all_processes c).remaining = 0
  · rw [finish_tick_done s c h0]
    exact {
      once := hx.once
      level := fun l i hi => by
        dsimp only at hi ⊢
        rw [getP_setP_ne _ _ _ _ (hne l i hi)]
        exact hx.level l i hi
      live := fun l i hi => by
        dsimp only at hi ⊢
        rw [getP_setP_ne _ _ _ _ (hne l i hi)]
        exact hx.live l i hi
      running := fun c2 h => by cases h
      unstarted := fun i hi => by
        dsimp only at hi ⊢
        rw [getP_setP] at hi ⊢
        split
        · next h =>
          rw [if_pos h] at hi
          exact hx.unstarted c hi
        · next h =>
          rw [if_neg h] at hi
          exact hx.unstarted i hi }
  · by_cases hq : 0 < s.config.quantum (getP s.all_processes c).priority ∧
        s.config.quantum (getP s.all_processes c).priority ≤
          (getP s.all_processes c).time_in_current_quantum
    · rw [finish_tick_expire s c h0 hq]
      have hlev : (if (getP s.all_processes c).priority + 1 < s.config.num_queues
          then (getP s.all_processes c).priority + 1 else (getP s.all_processes c).priority) <
          s.queues.length := by
        split <;> omega
      generalize (if (getP s.all_processes c).priority + 1 < s.config.num_queues
          then (getP s.all_processes c).priority + 1 else (getP s.all_processes c).priority) =
          level at hlev
      have hrefs : ∀ i, refsOf (qset s.queues level (qget s.queues level ++ [c])) i =
          s.refs i + if c = i then 1 else 0 := by
        intro i
        have e := refsOf_qset s.queues level (qget s.queues level ++ [c]) i hlev
        rw [List.count_append, List.count_singleton] at e
        simp only [refs]
        by_cases hci : c = i
        · subst hci; simp at e ⊢; omega
        · have : ¬ (c == i) = true := by simpa using hci
          rw [if_neg this] at e
          rw [if_neg hci]
          omega
      have hmem : ∀ l i, i ∈ qget (qset s.queues level (qget s.queues level ++ [c])) l →
          i ∈ qget s.queues l ∨ (l = level ∧ i = c) := by
        intro l i h
        rw [qget_qset] at h
        split at h
        · next hl =>
          rcases List.mem_append.1 h with h | h
          · exact Or.inl (hl.1 ▸ h)
          · exact Or.inr ⟨hl.1.symm, by simpa using h⟩
        · exact Or.inl h
      exact {
        once := fun i => by
          show refsOf _ i ≤ 1
          rw [hrefs i]
          have h1 := hx.once i
          by_cases hci : c = i
          · subst hci
            have := hx.running c hc
            simp [this]
          · rw [if_neg hci]; omega
        level := fun l i hi => by
          dsimp only at hi ⊢
          rcases hmem l i hi with h | ⟨h1, h2⟩
          · rw [getP_setP_ne _ _ _ _ (hne l i h)]
            exact hx.level l i h
          · rw [h2, getP_setP_self _ _ _ hcl, h1]
        live := fun l i hi => by
          dsimp only at hi ⊢
          rcases hmem l i hi with h | ⟨_, h2⟩
          · rw [getP_setP_ne _ _ _ _ (hne l i h)]
            exact hx.live l i h
          · rw [h2, getP_setP_self _ _ _ hcl]
            show 0 < (getP s.all_processes c).remaining
            omega
        running := fun c2 h => by cases h
        unstarted := fun i hi => by
          dsimp only at hi ⊢
          rw [getP_setP] at hi ⊢
          split
          · next h =>
            rw [if_pos h] at hi
            have : (getP s.all_processes c).started = false := hi
            rw [hst] at this
            cases this
          · next h =>
            rw [if_neg h] at hi
            exact hx.unstarted i hi }
    · rw [finish_tick_stay s c h0 hq]
      exact {
        once := hx.once
        level := hx.level
        live := hx.live
        running := hx.running
        unstarted := hx.unstarted }

end MLFQ_Scheduler

/-! ### The stages of one pass -/

namespace MLFQ_Scheduler

theorem wf_maybe_aging {P : List Process} {cfg : Config} {T : Int} (s : MLFQ_Scheduler)
    (hcap : cfg.num_queues ≤ QUEUE_SLOTS) (h : WF P cfg T s) :
    WF P cfg T s.maybe_aging ∧ Lowers s.all_processes s.maybe_aging.all_processes := by
  have hsh := shuffle_maybe_aging s (by rw [h.inv.config, h.inv.qlen]; exact hcap)
  refine ⟨⟨h.inv.shuffle hsh, ?_⟩, ?_⟩
  · unfold maybe_aging
    split
    · exact (xinv_apply_aging s hcap h.inv h.xinv).1
    · exact h.xinv
  · unfold maybe_aging
    split
    · exact (xinv_apply_aging s hcap h.inv h.xinv).2
    · exact lowers_refl _

theorem wf_maybe_boost {P : List Process} {cfg : Config} {T : Int} (s : MLFQ_Scheduler)
    (hnq : 1 ≤ cfg.num_queues) (hcap : cfg.num_queues ≤ QUEUE_SLOTS) (h : WF P cfg T s) :
    WF P cfg T s.maybe_boost ∧ Lowers s.all_processes s.maybe_boost.all_processes := by
  have hsh := shuffle_maybe_boost s (by rw [h.inv.config]; exact hnq)
    (by rw [h.inv.config, h.inv.qlen]; exact hcap)
  refine ⟨⟨h.inv.shuffle hsh, ?_⟩, ?_⟩
  · unfold maybe_boost
    split
    · exact (xinv_apply_priority_boost s hcap h.inv h.xinv).1
    · exact h.xinv
  · unfold maybe_boost
    split
    · exact (xinv_apply_priority_boost s hcap h.inv h.xinv).2.1
    · exact lowers_refl _

theorem wf_preempt_check {P : List Process} {cfg : Config} {T : Int} (s : MLFQ_Scheduler)
    (hcap : cfg.num_queues ≤ QUEUE_SLOTS) (h : WF P cfg T s) :
    WF P cfg T s.preempt_check ∧ s.preempt_check.all_processes = s.all_processes := by
  have hsh := shuffle_preempt_check s (by rw [h.inv.config]; exact h.inv.prio)
    (by rw [h.inv.config, h.inv.qlen]; exact hcap)
  obtain ⟨x, e⟩ := xinv_preempt_check s hcap h.inv h.xinv
  exact ⟨⟨h.inv.shuffle hsh, x⟩, e⟩

theorem wf_add_arrivals {P : List Process} {cfg : Config} {s : MLFQ_Scheduler}
    (h : WF P cfg s.current_time s) (hnq : 1 ≤ cfg.num_queues)
    (hburst : ∀ i, i < P.length → 1 ≤ (getP P i).burst) :
    WF P cfg (s.current_time + 1) s.add_arrivals ∧
    s.add_arrivals.purge = s.add_arrivals ∧
    (∀ j, getP s.add_arrivals.all_processes j = getP s.all_processes j) ∧
    s.add_arrivals.currently_running = s.currently_running ∧
    s.add_arrivals.current_time = s.current_time := by
  obtain ⟨x, e⟩ := xinv_add_arrivals h.inv h.xinv hnq hburst
  have hq0 : 0 < s.queues.length := by rw [h.inv.qlen]; decide
  obtain ⟨f1, r1, _, _⟩ := add_arrivals_spec s (by rw [h.inv.config]; exact hnq) hq0
  exact ⟨⟨inv_add_arrivals h.inv hnq, x⟩, purge_eq_self _ x.live, e, r1, f1.current_time⟩

theorem housekeeping_eq {P : List Process} {cfg : Config} {s : MLFQ_Scheduler}
    (h : WF P cfg s.current_time s) (hnq : 1 ≤ cfg.num_queues)
    (hburst : ∀ i, i < P.length → 1 ≤ (getP P i).burst) :
    s.add_arrivals.housekeeping = s.add_arrivals.maybe_aging.maybe_boost.preempt_check := by
  unfold housekeeping
  rw [(wf_add_arrivals h hnq hburst).2.1]

theorem step_eq {P : List Process} {cfg : Config} {s : MLFQ_Scheduler}
    (h : WF P cfg s.current_time s) (hnq : 1 ≤ cfg.num_queues)
    (hcap : cfg.num_queues ≤ QUEUE_SLOTS)
    (hburst : ∀ i, i < P.length → 1 ≤ (getP P i).burst) :
    s.step = resume_or_dispatch s.add_arrivals.maybe_aging.maybe_boost.preempt_check := by
  have i1 := (wf_add_arrivals h hnq hburst).1.inv
  have hnf : ¬ s.add_arrivals.queues.length < s.add_arrivals.config.num_queues := by
    rw [i1.qlen, i1.config]; omega
  unfold step
  simp only [hnf, if_false]
  rw [housekeeping_eq h hnq hburst]

theorem wf_housekeeping {P : List Process} {cfg : Config} {s : MLFQ_Scheduler}
    (h : WF P cfg s.current_time s) (hnq : 1 ≤ cfg.num_queues)
    (hcap : cfg.num_queues ≤ QUEUE_SLOTS)
    (hburst : ∀ i, i < P.length → 1 ≤ (getP P i).burst) :
    WF P cfg (s.current_time + 1) s.add_arrivals.maybe_aging ∧
    WF P cfg (s.current_time + 1) s.add_arrivals.maybe_aging.maybe_boost ∧
    WF P cfg (s.current_time + 1) s.add_arrivals.maybe_aging.maybe_boost.preempt_check ∧
    Lowers s.all_processes s.add_arrivals.maybe_aging.all_processes ∧
    Lowers s.add_arrivals.maybe_aging.all_processes
      s.add_arrivals.maybe_aging.maybe_boost.all_processes ∧
    s.add_arrivals.maybe_aging.maybe_boost.preempt_check.all_processes =
      s.add_arrivals.maybe_aging.maybe_boost.all_processes ∧
    s.add_arrivals.maybe_aging.maybe_boost.preempt_check.current_time = s.current_time := by
  obtain ⟨w1, _, e1, _, t1⟩ := wf_add_arrivals h hnq hburst
  obtain ⟨w3, l3⟩ := wf_maybe_aging _ hcap w1
  obtain ⟨w4, l4⟩ := wf_maybe_boost _ hnq hcap w3
  obtain ⟨w5, e5⟩ := wf_preempt_check _ hcap w4
  have hl1 : Lowers s.all_processes s.add_arrivals.all_processes :=
    ⟨by rw [w1.inv.len, h.inv.len], fun j => Or.inl (e1 j)⟩
  refine ⟨w3, w4, w5, lowers_trans hl1 l3, l4, e5, ?_⟩
  have a := (shuffle_maybe_aging s.add_arrivals
    (by rw [w1.inv.config, w1.inv.qlen]; exact hcap)).current_time
  have b := (shuffle_maybe_boost s.add_arrivals.maybe_aging
    (by rw [w3.inv.config]; exact hnq)
    (by rw [w3.inv.config, w3.inv.qlen]; exact hcap)).current_time
  have c := (shuffle_preempt_check s.add_arrivals.maybe_aging.maybe_boost
    (by rw [w4.inv.config]; exact w4.inv.prio)
    (by rw [w4.inv.config, w4.inv.qlen]; exact hcap)).current_time
  rw [c, b, a, t1]

end MLFQ_Scheduler

namespace MLFQ_Scheduler

theorem on_cpu_running (h : MLFQ_Scheduler) (c : Nat) (hc : h.currently_running = some c)
    (hpos : 0 < (getP h.all_processes c).remaining) :
    h.on_cpu = some (h, c) ∧ resume_or_dispatch h = Outcome.next (execute h c) := by
  have hne : ¬ (getP h.all_processes c).remaining = 0 := by omega
  unfold on_cpu resume_or_dispatch
  rw [hc]
  simp only [hne, if_false, and_self]

theorem on_cpu_take (h : MLFQ_Scheduler) (a c : Nat) (rest : List Nat)
    (hrun : h.currently_running = none) (hq : h.get_highest_priority_queue = some a)
    (he : qget h.queues a = c :: rest) :
    h.on_cpu = some (h.take a c rest, c) ∧
    resume_or_dispatch h = Outcome.next (execute (h.take a c rest) c) := by
  unfold on_cpu resume_or_dispatch
  rw [hrun]
  constructor
  · simp only [take_front, hq, he]
  · simp only [dispatch, hq, he]
    rfl

theorem on_cpu_idle (h : MLFQ_Scheduler) (hrun : h.currently_running = none)
    (hq : h.get_highest_priority_queue = none) :
    h.on_cpu = none ∧
    resume_or_dispatch h =
      if h.has_future then
        Outcome.next { h with
          timeline_pid := h.timeline_pid ++ [0],
          timeline_queue := h.timeline_queue ++ [-1],
          current_time := h.current_time + 1 }
      else Outcome.exit h := by
  constructor
  · unfold on_cpu
    rw [hrun]
    simp only [take_front, hq]
  · have hrd : resume_or_dispatch h = h.dispatch := by
      unfold resume_or_dispatch
      rw [hrun]
    rw [hrd]
    simp only [dispatch, hq]

theorem live_of_xinv {P : List Process} {cfg : Config} {T : Int} {s : MLFQ_Scheduler}
    (h : WF P cfg T s) : Live s := by
  rintro i (⟨l, _, hl⟩ | hr)
  · exact h.xinv.live l i hl
  · exact (h.inv.running_pos i hr).1

theorem pass_cases {P : List Process} {cfg : Config} (h : MLFQ_Scheduler)
    (hw : WF P cfg (h.current_time + 1) h)
    (hburst : ∀ i, i < P.length → 1 ≤ (getP P i).burst)
    (hcap : cfg.num_queues ≤ QUEUE_SLOTS)
    (hlt : h.completed < (h.all_processes.length : Int)) :
    (∃ c, h.currently_running = some c ∧ h.on_cpu = some (h, c) ∧
      resume_or_dispatch h = Outcome.next (execute h c)) ∨
    (h.currently_running = none ∧ ∃ a c rest, h.get_highest_priority_queue = some a ∧
      qget h.queues a = c :: rest ∧ h.on_cpu = some (h.take a c rest, c) ∧
      resume_or_dispatch h = Outcome.next (execute (h.take a c rest) c) ∧
      WF P cfg (h.current_time + 1) (h.take a c rest)) ∨
    (h.currently_running = none ∧ h.get_highest_priority_queue = none ∧ h.on_cpu = none ∧
      resume_or_dispatch h =
        Outcome.next { h with
          timeline_pid := h.timeline_pid ++ [0],
          timeline_queue := h.timeline_queue ++ [-1],
          current_time := h.current_time + 1 }) := by
  rcases Option.eq_none_or_eq_some h.currently_running with hrun | ⟨c, hrun⟩
  · right
    rcases Option.eq_none_or_eq_some h.get_highest_priority_queue with hq | ⟨a, hq⟩
    · obtain ⟨o1, o2⟩ := on_cpu_idle h hrun hq
      obtain ⟨t, ht, _, _⟩ := dispatch_spec h hw.inv (live_of_xinv hw) hrun hburst hcap hlt
      have hrd : resume_or_dispatch h = h.dispatch := by
        unfold resume_or_dispatch
        rw [hrun]
      refine Or.inr ⟨hrun, hq, o1, ?_⟩
      rw [o2]
      by_cases hf : h.has_future = true
      · rw [if_pos hf]
      · rw [hrd, ht, if_neg hf] at o2
        cases o2
    · obtain ⟨haq, hne⟩ := get_highest_some h a hq
      cases he : qget h.queues a with
      | nil => exact absurd he hne
      | cons c rest =>
        obtain ⟨o1, o2⟩ := on_cpu_take h a c rest hrun hq he
        exact Or.inl ⟨hrun, a, c, rest, hq, he, o1, o2,
          inv_take h a c rest hw.inv (live_of_xinv hw) hrun haq he,
          xinv_take h a c rest hw.inv hw.xinv he⟩
  · have hpos := (hw.inv.running_pos c hrun).1
    exact Or.inl ⟨c, hrun, on_cpu_running h c hrun hpos⟩

theorem wf_execute {P : List Process} {cfg : Config} (u : MLFQ_Scheduler) (c : Nat)
    (hw : WF P cfg (u.current_time + 1) u) (hrun : u.currently_running = some c)
    (hcap : cfg.num_queues ≤ QUEUE_SLOTS) :
    WF P cfg (u.current_time + 1) (execute u c) ∧
    (execute u c).current_time = u.current_time + 1 := by
  have hcl : c < u.all_processes.length := by
    rw [hw.inv.len]; exact (hw.inv.active_lt c (Or.inr hrun)).1
  obtain ⟨b1, b2, b3, _, _, _, b7, _, b9⟩ := before_check_spec u c
  have hs := sched_fields (b9 hcl)
  have hcore := core_fields hs.1
  have hpos := hw.inv.running_pos c hrun
  refine ⟨⟨inv_execute u c hrun hw.inv rfl hcap, ?_⟩,
    (busyTick_execute u c hrun hw.inv rfl hcap).1.current_time⟩
  rw [execute_eq]
  apply xinv_finish_tick _ c (xinv_before_check u c hw.xinv hrun hcl) (b2.trans hrun)
    (by rw [b7]; exact hcl)
  · rw [b3, b1, hw.inv.config, hw.inv.qlen]; exact hcap
  · rw [hs.2.1, b3, hw.inv.config]; exact hw.inv.prio c
  · rw [hcore.2.2.2.1]
    show 0 ≤ (getP u.all_processes c).remaining - 1
    omega
  · rw [hcore.2.2.2.2.2.2]
    exact hpos.2

theorem wf_step {P : List Process} {cfg : Config} (s t : MLFQ_Scheduler)
    (hw : WF P cfg s.current_time s)
    (hnq : 1 ≤ cfg.num_queues) (hcap : cfg.num_queues ≤ QUEUE_SLOTS)
    (hburst : ∀ i, i < P.length → 1 ≤ (getP P i).burst)
    (hlt : s.completed < (s.all_processes.length : Int))
    (hst : s.step = Outcome.next t) : WF P cfg t.current_time t := by
  obtain ⟨t2, ht2, hinv, _⟩ := step_spec s hw.inv hnq hcap hburst hlt
  rw [hst] at ht2
  cases ht2
  refine ⟨hinv, ?_⟩
  obtain ⟨_, _, w5, _, _, _, t5⟩ := wf_housekeeping hw hnq hcap hburst
  have hstep := step_eq hw hnq hcap hburst
  rw [hst] at hstep
  obtain ⟨f1, _⟩ := add_arrivals_spec s (by rw [hw.inv.config]; exact hnq)
    (by rw [hw.inv.qlen]; decide)
  have hsh := shuffle_housekeeping (inv_add_arrivals hw.inv hnq) hnq hcap
  have hlt5 : s.add_arrivals.maybe_aging.maybe_boost.preempt_check.completed <
      (s.add_arrivals.maybe_aging.maybe_boost.preempt_check.all_processes.length : Int) := by
    rw [← housekeeping_eq hw hnq hburst, hsh.completed, hsh.core.1, f1.completed, f1.core.1]
    exact hlt
  rw [← t5] at w5
  rcases pass_cases _ w5 hburst hcap hlt5 with ⟨c, hc, _, hr⟩ | ⟨_, a, c, rest, _, _, _, hr, hwt⟩ |
      ⟨_, _, _, hr⟩
  · rw [hr] at hstep
    cases hstep
    exact (wf_execute _ c w5 hc hcap).1.xinv
  · rw [hr] at hstep
    cases hstep
    exact (wf_execute (take _ a c rest) c hwt rfl hcap).1.xinv
  · rw [hr] at hstep
    cases hstep
    exact {
      once := w5.xinv.once
      level := w5.xinv.level
      live := w5.xinv.live
      running := w5.xinv.running
      unstarted := w5.xinv.unstarted }

theorem xinv_init (procs : List Process) (cfg : Config) : XInv (init procs cfg) where
  once := fun i => by
    have : (init procs cfg).refs i = 0 :=
      (refsOf_eq_zero _ i).2 (fun q => by simp [init, qget_replicate])
    omega
  level := fun q i h => by simp [init, qget_replicate] at h
  live := fun q i h => by simp [init, qget_replicate] at h
  running := fun c h => by simp [init] at h
  unstarted := fun i _ => by
    show (getP (procs.map Process.copy) i).priority = 0
    rw [getP_map_copy]
    split <;> rfl

theorem reaches_wf (procs : List Process) (cfg : Config) (hin : ValidInput procs)
    (hnq : 1 ≤ cfg.num_queues) (hcap : cfg.num_queues ≤ QUEUE_SLOTS)
    (s : MLFQ_Scheduler) (h : Reaches (init procs cfg) s) :
    WF (procs.map Process.copy) cfg s.current_time s := by
  have hburst : ∀ i, i < (procs.map Process.copy).length →
      1 ≤ (getP (procs.map Process.copy) i).burst := by
    intro i hi
    rw [List.length_map] at hi
    rw [getP_map_copy, if_pos hi]
    exact (validInput_getP hin i hi).2
  induction h with
  | start => exact ⟨inv_init procs cfg hin hnq, xinv_init procs cfg⟩
  | tick s t _ hlt hst ih => exact wf_step s t ih hnq hcap hburst hlt hst

end MLFQ_Scheduler

/-! ### Concrete runs -/

theorem reaches_after (n : Nat) (s : MLFQ_Scheduler)
    (h : ∀ j, j < n → (MLFQ_Scheduler.after j s).advances = true) :
    Reaches s (MLFQ_Scheduler.after n s) := by
  induction n generalizing s with
  | zero => exact Reaches.start
  | succ n ih =>
    have h0 := h 0 (Nat.succ_pos n)
    simp only [MLFQ_Scheduler.after, MLFQ_Scheduler.advances, Bool.and_eq_true,
      decide_eq_true_eq] at h0
    obtain ⟨hlt, hst⟩ := h0
    cases hs : s.step with
    | next s1 =>
      have e : MLFQ_Scheduler.after (n + 1) s = MLFQ_Scheduler.after n s1 := by
        simp only [MLFQ_Scheduler.after, hs]
      rw [e]
      refine MLFQ_Scheduler.reaches_trans (Reaches.tick s s1 Reaches.start hlt hs) (ih s1 ?_)
      intro j hj
      have := h (j + 1) (by omega)
      simp only [MLFQ_Scheduler.after, hs] at this
      exact this
    | exit s1 => rw [hs] at hst; cases hst
    | fault => rw [hs] at hst; cases hst

set_option maxRecDepth 100000 in
theorem scenarioC_reaches (t : Nat) (ht : t ≤ 11) :
    Reaches (MLFQ_Scheduler.init scenarioC_procs (scenarioC 12 12)) (scenarioC_state t) := by
  apply reaches_after
  intro j hj
  have hj2 : j ≤ 10 := by omega
  interval_cases j <;> decide!

set_option maxRecDepth 100000 in
theorem boost_reaches (t : Nat) (ht : t ≤ 11) :
    Reaches (MLFQ_Scheduler.init scenarioC_procs (scenarioC 12 2)) (boost_state t) := by
  apply reaches_after
  intro j hj
  have hj2 : j ≤ 10 := by omega
  interval_cases j <;> decide!

set_option maxRecDepth 100000 in
theorem preempt_reaches (t : Nat) (ht : t ≤ 11) :
    Reaches (MLFQ_Scheduler.init preempt_procs threeLevels) (preempt_state t) := by
  apply reaches_after
  intro j hj
  have hj2 : j ≤ 10 := by omega
  interval_cases j <;> decide!

theorem validInput_scenarioC : ValidInput scenarioC_procs := by
  simp [ValidInput, scenarioC_procs, Process.new]

theorem validInput_preempt : ValidInput preempt_procs := by
  simp [ValidInput, preempt_procs, Process.new]

theorem validConfig_scenarioC (a b : Int) (ha : 0 < a) (hb : 0 < b) :
    ValidConfig (scenarioC a b) := by
  simp [ValidConfig, scenarioC, QUEUE_SLOTS, ha, hb]

theorem validConfig_threeLevels : ValidConfig threeLevels := by
  simp [ValidConfig, threeLevels, QUEUE_SLOTS]

/-! ## State exclusivity -/

/-- C13: in a run on a valid input and configuration, at the head of every
pass through the loop each admitted record (`arrival < current_time`) is in
exactly one of three states: waiting (one reference in the queues, in the queue
of its level), running (in the running slot, in no queue) or completed
(`remaining = 0`, in no queue, not in the running slot); a waiting or running
record is unfinished and its level is below `num_queues`; a record not yet
admitted is in no queue and not running; and the purge of the entries with
`remaining <= 0` after `add_arrivals` changes nothing. -/
theorem mlfq_state_exclusivity (procs : List Process) (cfg : Config) (hin : ValidInput procs)
    (hcfg : ValidConfig cfg) (s : MLFQ_Scheduler)
    (h : Reaches (MLFQ_Scheduler.init procs cfg) s) :
    (∀ i, i < s.all_processes.length → (getP s.all_processes i).arrival < s.current_time →
      ((s.IsWaiting i ∧ ¬ s.IsRunning i ∧ ¬ s.IsCompleted i) ∨
       (¬ s.IsWaiting i ∧ s.IsRunning i ∧ ¬ s.IsCompleted i) ∨
       (¬ s.IsWaiting i ∧ ¬ s.IsRunning i ∧ s.IsCompleted i)) ∧
      (s.IsWaiting i ∨ s.IsRunning i → 0 < (getP s.all_processes i).remaining ∧
        (getP s.all_processes i).priority < s.config.num_queues)) ∧
    (∀ i, i < s.all_processes.length → s.current_time ≤ (getP s.all_processes i).arrival →
      s.refs i = 0 ∧ s.currently_running ≠ some i) ∧
    s.add_arrivals.purge = s.add_arrivals := by
  obtain ⟨hnq, hcap, _⟩ := hcfg
  have hw := MLFQ_Scheduler.reaches_wf procs cfg hin hnq hcap s h
  have hburst : ∀ i, i < (procs.map Process.copy).length →
      1 ≤ (getP (procs.map Process.copy) i).burst := by
    intro i hi
    rw [List.length_map] at hi
    rw [MLFQ_Scheduler.getP_map_copy, if_pos hi]
    exact (MLFQ_Scheduler.validInput_getP hin i hi).2
  have hprio : ∀ i, (getP s.all_processes i).priority < s.config.num_queues := by
    intro i
    rw [hw.inv.config]; exact hw.inv.prio i
  have hqueued : ∀ i, 0 < s.refs i → s.waiting i ∧
      i ∈ qget s.queues (getP s.all_processes i).priority := by
    intro i hi
    obtain ⟨l, hl⟩ := (refsOf_pos _ i).1 hi
    refine ⟨(waiting_of_mem hw.inv hw.xinv hl).2, ?_⟩
    rw [hw.xinv.level l i hl]; exact hl
  refine ⟨fun i hil ha => ?_, fun i hil ha => ?_, (MLFQ_Scheduler.wf_add_arrivals hw hnq hburst).2.1⟩
  · have hr := (hw.inv.rem_range i).1
    have honce := hw.xinv.once i
    by_cases hrem : (getP s.all_processes i).remaining = 0
    · have hnr : s.currently_running ≠ some i := by
        intro hc
        have := (hw.inv.running_pos i hc).1
        omega
      have h0 : s.refs i = 0 := by
        by_contra hne
        obtain ⟨l, hl⟩ := (refsOf_pos _ i).1 (Nat.pos_of_ne_zero hne)
        have := hw.xinv.live l i hl
        omega
      refine ⟨Or.inr (Or.inr ⟨fun hwt => ?_, fun hrn => hnr hrn.1, hrem, h0, hnr⟩), ?_⟩
      · have := hwt.1
        omega
      · rintro (hwt | hrn)
        · have := hwt.1
          omega
        · exact absurd hrn.1 hnr
    · have hpos : 0 < (getP s.all_processes i).remaining := by omega
      rcases hw.inv.no_lost i (hw.inv.len ▸ hil) ha hpos with hwt | hrn
      · obtain ⟨l, _, hl⟩ := hwt
        have h1 : 0 < s.refs i := (refsOf_pos _ i).2 ⟨l, hl⟩
        have hnr : s.currently_running ≠ some i := by
          intro hc
          have := hw.xinv.running i hc
          omega
        refine ⟨Or.inl ⟨⟨by omega, (hqueued i h1).2⟩, fun hrn => hnr hrn.1,
          fun hc => hrem hc.1⟩, fun _ => ⟨hpos, hprio i⟩⟩
      · have h0 := hw.xinv.running i hrn
        refine ⟨Or.inr (Or.inl ⟨fun hwt => ?_, ⟨hrn, h0⟩, fun hc => hrem hc.1⟩),
          fun _ => ⟨hpos, hprio i⟩⟩
        have := hwt.1
        omega
  · constructor
    · by_contra hne
      have := (hw.inv.active_lt i (Or.inl (hqueued i (Nat.pos_of_ne_zero hne)).1)).2
      omega
    · intro hc
      have := (hw.inv.active_lt i (Or.inr hc)).2
      omega

/-- Witness of `mlfq_state_exclusivity`: the head of pass 3 of the run on
`P1(0, 10)`, `P2(3, 1)` with three levels, where `P1` runs at level 1 and `P2`
is about to arrive. -/
theorem mlfq_state_exclusivity_witness :
    ValidInput preempt_procs ∧ ValidConfig threeLevels ∧
    Reaches (MLFQ_Scheduler.init preempt_procs threeLevels) (preempt_state 3) ∧
    (preempt_state 3).IsRunning 0 ∧
    (preempt_state 3).add_arrivals.purge = (preempt_state 3).add_arrivals :=
  have h := mlfq_state_exclusivity preempt_procs threeLevels validInput_preempt
    validConfig_threeLevels (preempt_state 3) (preempt_reaches 3 (by decide))
  ⟨validInput_preempt, validConfig_threeLevels, preempt_reaches 3 (by decide),
    by
      rcases (h.1 0 (by decide!) (by decide!)).1 with h1 | h1 | h1
      · exact absurd h1.1.1 (by decide!)
      · exact h1.2.1
      · exact absurd h1.2.2.1 (by decide!),
    h.2.2⟩

/-! ## Bounds of remaining time and level -/

theorem bounded_of_inv {P : List Process} {cfg : Config} {T : Int} {s : MLFQ_Scheduler}
    (hi : Inv P cfg T s) (hcap : cfg.num_queues ≤ QUEUE_SLOTS)
    (hq : cfg.time_quantum.length = cfg.num_queues) : s.Bounded := by
  refine ⟨fun i => ⟨(hi.rem_range i).1, (hi.rem_range i).2, ?_⟩, ?_, ?_⟩
  · rw [hi.config]; exact hi.prio i
  · rw [hi.config, hi.qlen]; exact hcap
  · rw [hi.config]; exact hq

theorem bounded_before_check {P : List Process} {cfg : Config} {T : Int} {u : MLFQ_Scheduler}
    (c : Nat) (hw : WF P cfg T u) (hrun : u.currently_running = some c)
    (hcap : cfg.num_queues ≤ QUEUE_SLOTS) (hq : cfg.time_quantum.length = cfg.num_queues) :
    c < u.all_processes.length ∧ (MLFQ_Scheduler.before_check u c).Bounded := by
  have hcl : c < u.all_processes.length := by
    rw [hw.inv.len]; exact (hw.inv.active_lt c (Or.inr hrun)).1
  obtain ⟨b1, _, b3, _, _, _, _, b8, b9⟩ := MLFQ_Scheduler.before_check_spec u c
  have hb := bounded_of_inv hw.inv hcap hq
  refine ⟨hcl, fun i => ?_, by rw [b3, b1]; exact hb.2.1, by rw [b3]; exact hb.2.2⟩
  by_cases hic : i = c
  · subst hic
    have hs := sched_fields (b9 hcl)
    have hc := core_fields hs.1
    have hpos := (hw.inv.running_pos i hrun).1
    have hr := hw.inv.rem_range i
    rw [hc.2.2.2.1, hc.2.2.1, hs.2.1, b3]
    refine ⟨?_, ?_, (hb.1 i).2.2⟩
    · show 0 ≤ (getP u.all_processes i).remaining - 1
      omega
    · show (getP u.all_processes i).remaining - 1 ≤ (getP u.all_processes i).burst
      omega
  · have hs := sched_fields (b8 i hic)
    have hc := core_fields hs.1
    rw [hc.2.2.2.1, hc.2.2.1, hs.2.1, b3]
    exact hb.1 i

/-- C14, as amended: in a run on a valid input and a valid configuration with
at most ten levels, at the head of every pass through the loop and after every
stage of the pass (admission, purge, aging sweep, boost, preemption check,
dispatch, execution with waiting-time accounting, completion and demotion
check) every record has `0 <= remaining <= burst` and a level below
`num_queues`, and `num_queues` is at most the number of slots of `queues` and
equal to the length of `time_quantum`: every `queues[...]` and
`time_quantum[...]` the pass indexes is in range. The queue that the dispatch
takes `front()` of has an entry, and the pass reaches its end. -/
theorem mlfq_bounds (procs : List Process) (cfg : Config) (hin : ValidInput procs)
    (hcfg : ValidConfig cfg) (s : MLFQ_Scheduler)
    (h : Reaches (MLFQ_Scheduler.init procs cfg) s) :
    s.Bounded ∧
    (s.completed < (s.all_processes.length : Int) →
      s.add_arrivals.Bounded ∧ s.add_arrivals.purge.Bounded ∧
      s.add_arrivals.purge.maybe_aging.Bounded ∧
      s.add_arrivals.purge.maybe_aging.maybe_boost.Bounded ∧
      s.add_arrivals.housekeeping.Bounded ∧
      (∀ a, s.add_arrivals.housekeeping.currently_running = none →
        s.add_arrivals.housekeeping.get_highest_priority_queue = some a →
        a < s.add_arrivals.housekeeping.config.num_queues ∧
        qget s.add_arrivals.housekeeping.queues a ≠ []) ∧
      (∀ u c, s.add_arrivals.housekeeping.on_cpu = some (u, c) →
        u.Bounded ∧ c < u.all_processes.length ∧ (MLFQ_Scheduler.before_check u c).Bounded ∧
        s.step = MLFQ_Scheduler.Outcome.next
          (MLFQ_Scheduler.finish_tick (MLFQ_Scheduler.before_check u c) c)) ∧
      ∃ t, s.step = MLFQ_Scheduler.Outcome.next t ∧ t.Bounded) := by
  obtain ⟨hnq, hcap, hq, _⟩ := hcfg
  have hw := MLFQ_Scheduler.reaches_wf procs cfg hin hnq hcap s h
  have hburst : ∀ i, i < (procs.map Process.copy).length →
      1 ≤ (getP (procs.map Process.copy) i).burst := by
    intro i hi
    rw [List.length_map] at hi
    rw [MLFQ_Scheduler.getP_map_copy, if_pos hi]
    exact (MLFQ_Scheduler.validInput_getP hin i hi).2
  refine ⟨bounded_of_inv hw.inv hcap hq, fun hlt => ?_⟩
  obtain ⟨w1, hp, _, _, _⟩ := MLFQ_Scheduler.wf_add_arrivals hw hnq hburst
  obtain ⟨w3, w4, w5, _, _, _, t5⟩ := MLFQ_Scheduler.wf_housekeeping hw hnq hcap hburst
  have hk := MLFQ_Scheduler.housekeeping_eq hw hnq hburst
  have hstep := MLFQ_Scheduler.step_eq hw hnq hcap hburst
  obtain ⟨t, ht, hti, _⟩ := MLFQ_Scheduler.step_spec s hw.inv hnq hcap hburst hlt
  obtain ⟨f1, _⟩ := MLFQ_Scheduler.add_arrivals_spec s (by rw [hw.inv.config]; exact hnq)
    (by rw [hw.inv.qlen]; decide)
  have hsh := MLFQ_Scheduler.shuffle_housekeeping (MLFQ_Scheduler.inv_add_arrivals hw.inv hnq)
    hnq hcap
  have hlt5 : s.add_arrivals.maybe_aging.maybe_boost.preempt_check.completed <
      (s.add_arrivals.maybe_aging.maybe_boost.preempt_check.all_processes.length : Int) := by
    rw [← hk, hsh.completed, hsh.core.1, f1.completed, f1.core.1]
    exact hlt
  rw [hp, hk]
  rw [← t5] at w5
  refine ⟨bounded_of_inv w1.inv hcap hq, bounded_of_inv w1.inv hcap hq,
    bounded_of_inv w3.inv hcap hq, bounded_of_inv w4.inv hcap hq,
    bounded_of_inv w5.inv hcap hq, fun a _ ha => MLFQ_Scheduler.get_highest_some _ a ha,
    fun u c hon => ?_, t, ht, bounded_of_inv hti hcap hq⟩
  rcases MLFQ_Scheduler.pass_cases _ w5 hburst hcap hlt5 with ⟨c2, hc, ho, hr⟩ |
      ⟨_, a, c2, rest, _, _, ho, hr, hwt⟩ | ⟨_, _, ho, _⟩
  · rw [ho] at hon
    cases hon
    obtain ⟨k1, k2⟩ := bounded_before_check c w5 hc hcap hq
    exact ⟨bounded_of_inv w5.inv hcap hq, k1, k2, by
      rw [hstep, hr, MLFQ_Scheduler.execute_eq]⟩
  · rw [ho] at hon
    cases hon
    obtain ⟨k1, k2⟩ := bounded_before_check c hwt rfl hcap hq
    exact ⟨bounded_of_inv hwt.inv hcap hq, k1, k2, by
      rw [hstep, hr, MLFQ_Scheduler.execute_eq]⟩
  · rw [ho] at hon
    cases hon

/-- Witness of `mlfq_bounds`: the head of pass 3 of the run on `P1(0, 10)`,
`P2(3, 1)` with three levels. -/
theorem mlfq_bounds_witness :
    ValidInput preempt_procs ∧ ValidConfig threeLevels ∧
    Reaches (MLFQ_Scheduler.init preempt_procs threeLevels) (preempt_state 3) ∧
    (preempt_state 3).Bounded ∧
    ∃ t, (preempt_state 3).step = MLFQ_Scheduler.Outcome.next t ∧ t.Bounded :=
  have h := mlfq_bounds preempt_procs threeLevels validInput_preempt
    validConfig_threeLevels (preempt_state 3) (preempt_reaches 3 (by decide))
  ⟨validInput_preempt, validConfig_threeLevels, preempt_reaches 3 (by decide), h.1,
    (h.2 (by decide!)).2.2.2.2.2.2.2⟩

/-- C14, counterexample: the configuration `elevenLevels` has `num_queues >= 1`,
one quantum `>= 0` per level and positive aging and boost parameters, and in
the first pass of the run on the one-process list `P1(arrival 0, burst 1)` the
purge loops over the levels `0 .. 10` while `queues` has the slots `0 .. 9`:
the index `10` is out of range. -/
theorem mlfq_eleven_levels_index :
    (1 ≤ elevenLevels.num_queues ∧
      elevenLevels.time_quantum.length = elevenLevels.num_queues ∧
      (∀ x ∈ elevenLevels.time_quantum, 0 ≤ x) ∧ 0 < elevenLevels.aging_threshold ∧
      0 < elevenLevels.aging_check_interval ∧ 0 < elevenLevels.boost_interval) ∧
    ValidInput [Process.new 1 0 1] ∧
    (MLFQ_Scheduler.init [Process.new 1 0 1] elevenLevels).completed <
      ((MLFQ_Scheduler.init [Process.new 1 0 1] elevenLevels).all_processes.length : Int) ∧
    10 ∈ List.range
      (MLFQ_Scheduler.init [Process.new 1 0 1] elevenLevels).add_arrivals.config.num_queues ∧
    ¬ 10 < (MLFQ_Scheduler.init [Process.new 1 0 1] elevenLevels).add_arrivals.queues.length ∧
    ¬ (MLFQ_Scheduler.init [Process.new 1 0 1] elevenLevels).add_arrivals.Bounded := by
  refine ⟨by simp [elevenLevels], by simp [ValidInput, Process.new], by decide, by decide,
    by decide, ?_⟩
  intro hb
  have := hb.2.1
  revert this
  decide

/-! ## Dispatch and preemption -/

theorem find_range' (p : Nat → Bool) (k n a : Nat)
    (h : (List.range' k n).find? p = some a) : ∀ q, k ≤ q → q < a → p q = false := by
  induction n generalizing k with
  | zero => simp at h
  | succ n ih =>
    rw [List.range'_succ, List.find?_cons] at h
    cases hp : p k with
    | true =>
      rw [hp] at h
      simp only [Option.some.injEq] at h
      intro q h1 h2
      omega
    | false =>
      rw [hp] at h
      intro q h1 h2
      by_cases hq : q = k
      · rw [hq]; exact hp
      · exact ih (k + 1) h q (by omega) h2

namespace MLFQ_Scheduler

theorem get_highest_lowest (s : MLFQ_Scheduler) (a : Nat)
    (h : s.get_highest_priority_queue = some a) : ∀ q, q < a → qget s.queues q = [] := by
  intro q hq
  unfold get_highest_priority_queue at h
  rw [List.range_eq_range'] at h
  have := find_range' _ 0 _ a h q (Nat.zero_le q) hq
  simpa using this

theorem should_preempt_iff (s : MLFQ_Scheduler) (level : Nat) :
    s.should_preempt level = true ↔ ∃ q, q < level ∧ qget s.queues q ≠ [] := by
  unfold should_preempt
  rw [List.any_eq_true]
  constructor
  · rintro ⟨q, hq, hp⟩
    exact ⟨q, List.mem_range.1 hq, by simpa using hp⟩
  · rintro ⟨q, hq, hp⟩
    exact ⟨q, List.mem_range.2 hq, by simpa using hp⟩

theorem preempt_check_preempts (s : MLFQ_Scheduler) (c : Nat)
    (hc : s.currently_running = some c) (hpos : 0 < (getP s.all_processes c).remaining)
    (hp : s.should_preempt (getP s.all_processes c).priority = true) :
    s.preempt_check =
      { s with
        queues := qset s.queues (getP s.all_processes c).priority
          (c :: qget s.queues (getP s.all_processes c).priority),
        currently_running := none,
        context_switches := s.context_switches + 1 } := by
  unfold preempt_check
  rw [hc]
  dsimp only
  rw [if_pos hpos, if_pos hp]

theorem preempt_check_stays (s : MLFQ_Scheduler)
    (h : ∀ c, s.currently_running = some c → 0 < (getP s.all_processes c).remaining →
      s.should_preempt (getP s.all_processes c).priority = false) :
    s.preempt_check = s := by
  unfold preempt_check
  cases hc : s.currently_running with
  | none => rfl
  | some c =>
    dsimp only
    by_cases hpos : 0 < (getP s.all_processes c).remaining
    · rw [if_pos hpos]
      have := h c hc hpos
      rw [this]
      rfl
    · rw [if_neg hpos]

end MLFQ_Scheduler

namespace MLFQ_Scheduler

theorem preempt_check_running (s : MLFQ_Scheduler) (c : Nat)
    (h : s.preempt_check.currently_running = some c) :
    s.preempt_check = s ∧ s.currently_running = some c ∧
    (0 < (getP s.all_processes c).remaining →
      s.should_preempt (getP s.all_processes c).priority = false) := by
  rcases Option.eq_none_or_eq_some s.currently_running with hrun | ⟨c2, hrun⟩
  · have e : s.preempt_check = s :=
      preempt_check_stays s (fun c3 h3 => by rw [hrun] at h3; cases h3)
    rw [e, hrun] at h
    cases h
  · by_cases hpos : 0 < (getP s.all_processes c2).remaining
    · cases hp : s.should_preempt (getP s.all_processes c2).priority with
      | true =>
        rw [preempt_check_preempts s c2 hrun hpos hp] at h
        cases h
      | false =>
        have e : s.preempt_check = s := preempt_check_stays s (fun c3 h3 _ => by
          rw [hrun] at h3
          cases h3
          exact hp)
        rw [e, hrun] at h
        cases h
        exact ⟨e, hrun, fun _ => hp⟩
    · have e : s.preempt_check = s := preempt_check_stays s (fun c3 h3 h4 => by
        rw [hrun] at h3
        cases h3
        exact absurd h4 hpos)
      rw [e, hrun] at h
      cases h
      exact ⟨e, hrun, fun h4 => absurd h4 hpos⟩

theorem finish_tick_timeline (s : MLFQ_Scheduler) (c : Nat) :
    (finish_tick s c).timeline_pid = s.timeline_pid ∧
    (finish_tick s c).timeline_queue = s.timeline_queue ∧
    (finish_tick s c).config = s.config := by
  by_cases h0 : (getP s.all_processes c).remaining = 0
  · rw [finish_tick_done s c h0]
    exact ⟨rfl, rfl, rfl⟩
  · by_cases hq : 0 < s.config.quantum (getP s.all_processes c).priority ∧
        s.config.quantum (getP s.all_processes c).priority ≤
          (getP s.all_processes c).time_in_current_quantum
    · rw [finish_tick_expire s c h0 hq]
      exact ⟨rfl, rfl, rfl⟩
    · rw [finish_tick_stay s c h0 hq]
      exact ⟨rfl, rfl, rfl⟩

theorem execute_timeline (u : MLFQ_Scheduler) (c : Nat) :
    (execute u c).timeline_pid = u.timeline_pid ++ [(getP u.all_processes c).pid] ∧
    (execute u c).timeline_queue =
      u.timeline_queue ++ [((getP u.all_processes c).priority : Int)] := by
  rw [execute_eq]
  obtain ⟨h1, h2, _⟩ := finish_tick_timeline (before_check u c) c
  rw [h1, h2]
  exact ⟨rfl, rfl⟩

theorem apply_aging_running (s : MLFQ_Scheduler) :
    s.apply_aging.currently_running = s.currently_running := by
  unfold apply_aging
  generalize (List.range s.config.num_queues).tail = L
  induction L generalizing s with
  | nil => rfl
  | cons q L ih =>
    rw [List.foldl_cons]
    exact (ih (age_level s q)).trans rfl

theorem maybe_aging_running (s : MLFQ_Scheduler) :
    s.maybe_aging.currently_running = s.currently_running := by
  unfold maybe_aging
  split
  · exact apply_aging_running s
  · rfl

/-- The facts about one pass through the loop body of a run on a valid input
and configuration that the proofs about single stages start from. -/
theorem pass_setup (procs : List Process) (cfg : Config) (hin : ValidInput procs)
    (hcfg : ValidConfig cfg) (s : MLFQ_Scheduler) (h : Reaches (init procs cfg) s)
    (hlt : s.completed < (s.all_processes.length : Int)) :
    WF (procs.map Process.copy) cfg s.current_time s ∧
    s.add_arrivals.purge = s.add_arrivals ∧
    WF (procs.map Process.copy) cfg (s.current_time + 1) s.add_arrivals.purge.maybe_aging ∧
    WF (procs.map Process.copy) cfg (s.current_time + 1)
      s.add_arrivals.purge.maybe_aging.maybe_boost ∧
    WF (procs.map Process.copy) cfg (s.add_arrivals.housekeeping.current_time + 1)
      s.add_arrivals.housekeeping ∧
    Lowers s.all_processes s.add_arrivals.purge.maybe_aging.all_processes ∧
    Lowers s.add_arrivals.purge.maybe_aging.all_processes
      s.add_arrivals.purge.maybe_aging.maybe_boost.all_processes ∧
    s.add_arrivals.housekeeping.all_processes =
      s.add_arrivals.purge.maybe_aging.maybe_boost.all_processes ∧
    s.add_arrivals.purge.maybe_aging.currently_running = s.currently_running ∧
    s.step = resume_or_dispatch s.add_arrivals.housekeeping ∧
    s.add_arrivals.housekeeping.completed <
      (s.add_arrivals.housekeeping.all_processes.length : Int) ∧
    s.add_arrivals.housekeeping.current_time = s.current_time ∧
    s.add_arrivals.housekeeping.timeline_pid = s.timeline_pid ∧
    s.add_arrivals.housekeeping.timeline_queue = s.timeline_queue ∧
    (∀ i, i < (procs.map Process.copy).length →
      1 ≤ (getP (procs.map Process.copy) i).burst) ∧
    s.add_arrivals.purge.maybe_aging.current_time = s.current_time := by
  obtain ⟨hnq, hcap, hq, _⟩ := hcfg
  have hw := reaches_wf procs cfg hin hnq hcap s h
  have hburst : ∀ i, i < (procs.map Process.copy).length →
      1 ≤ (getP (procs.map Process.copy) i).burst := by
    intro i hi
    rw [List.length_map] at hi
    rw [getP_map_copy, if_pos hi]
    exact (validInput_getP hin i hi).2
  obtain ⟨w1, hp, _, r1, _⟩ := wf_add_arrivals hw hnq hburst
  obtain ⟨w3, w4, w5, l3, l4, e5, t5⟩ := wf_housekeeping hw hnq hcap hburst
  have hk := housekeeping_eq hw hnq hburst
  have hstep := step_eq hw hnq hcap hburst
  obtain ⟨f1, _⟩ := add_arrivals_spec s (by rw [hw.inv.config]; exact hnq)
    (by rw [hw.inv.qlen]; decide)
  have hsh := shuffle_housekeeping (inv_add_arrivals hw.inv hnq) hnq hcap
  rw [hp, hk]
  rw [← hk]
  refine ⟨hw, rfl, w3, w4, ?_, l3, l4, ?_, (maybe_aging_running _).trans r1, ?_, ?_, ?_, ?_, ?_,
    hburst, ?_⟩
  · rw [hk, t5]; exact w5
  · rw [hk]; exact e5
  · rw [hk]; exact hstep
  · rw [hsh.completed, hsh.core.1, f1.completed, f1.core.1]; exact hlt
  · rw [hsh.current_time, f1.current_time]
  · rw [hsh.timeline_pid, f1.timeline_pid]
  · rw [hsh.timeline_queue, f1.timeline_queue]
  · rw [(shuffle_maybe_aging s.add_arrivals
      (by rw [w1.inv.config, w1.inv.qlen]; exact hcap)).current_time, f1.current_time]

end MLFQ_Scheduler

/-- C18: in a pass of a run on a valid input and configuration in which a
record `c` executes, with `u` the engine after the preemption check and the
dispatch, the pass is the execution of `c` from `u`, the timeline unit of the
pass is `(pid, level)` of `c`, and every queue of an index strictly below the
level of `c` is empty in `u`. When the pass dispatches (no record holds the
CPU after the preemption check), `get_highest_priority_queue` gives the lowest
index `a` of a non-empty queue, and the record dispatched is the front entry
of `queues[a]`, which is removed from that queue; its level is `a`. -/
theorem mlfq_strict_priority (procs : List Process) (cfg : Config) (hin : ValidInput procs)
    (hcfg : ValidConfig cfg) (s : MLFQ_Scheduler)
    (h : Reaches (MLFQ_Scheduler.init procs cfg) s)
    (hlt : s.completed < (s.all_processes.length : Int)) :
    (∀ u c, s.add_arrivals.housekeeping.on_cpu = some (u, c) →
      s.step = MLFQ_Scheduler.Outcome.next (MLFQ_Scheduler.execute u c) ∧
      u.currently_running = some c ∧
      (∀ q, q < (getP u.all_processes c).priority → qget u.queues q = []) ∧
      (MLFQ_Scheduler.execute u c).timeline_pid =
        s.timeline_pid ++ [(getP u.all_processes c).pid] ∧
      (MLFQ_Scheduler.execute u c).timeline_queue =
        s.timeline_queue ++ [((getP u.all_processes c).priority : Int)]) ∧
    (∀ a, s.add_arrivals.housekeeping.currently_running = none →
      s.add_arrivals.housekeeping.get_highest_priority_queue = some a →
      qget s.add_arrivals.housekeeping.queues a ≠ [] ∧
      (∀ q, q < a → qget s.add_arrivals.housekeeping.queues q = []) ∧
      ∃ c rest, qget s.add_arrivals.housekeeping.queues a = c :: rest ∧
        s.add_arrivals.housekeeping.on_cpu =
          some (s.add_arrivals.housekeeping.take a c rest, c) ∧
        (s.add_arrivals.housekeeping.take a c rest).queues =
          qset s.add_arrivals.housekeeping.queues a rest ∧
        (getP (s.add_arrivals.housekeeping.take a c rest).all_processes c).priority = a) := by
  obtain ⟨_, _, _, _, w5, _, _, _, _, hstep, hlt5, _, tp, tq, hburst, _⟩ :=
    MLFQ_Scheduler.pass_setup procs cfg hin hcfg s h hlt
  have hcap := hcfg.2.1
  have hcases := MLFQ_Scheduler.pass_cases _ w5 hburst hcap hlt5
  constructor
  · intro u c hon
    rcases hcases with ⟨c2, hc, ho, hr⟩ | ⟨_, a, c2, rest, hq, he, ho, hr, hwt⟩ | ⟨_, _, ho, _⟩
    · rw [ho] at hon
      cases hon
      obtain ⟨e1, e2⟩ := MLFQ_Scheduler.execute_timeline s.add_arrivals.housekeeping c
      refine ⟨by rw [hstep, hr], hc, fun q hq => ?_, by rw [e1, tp], by rw [e2, tq]⟩
      have hpc : s.add_arrivals.housekeeping =
          s.add_arrivals.purge.maybe_aging.maybe_boost.preempt_check := rfl
      rw [hpc] at hc
      obtain ⟨k1, _, k3⟩ := MLFQ_Scheduler.preempt_check_running _ c hc
      have hpos := (w5.inv.running_pos c (by rw [hpc]; exact hc)).1
      rw [hpc, k1] at hpos hq ⊢
      have hnp := k3 hpos
      by_contra hne
      have := (MLFQ_Scheduler.should_preempt_iff _ _).2 ⟨q, hq, hne⟩
      rw [hnp] at this
      cases this
    · rw [ho] at hon
      cases hon
      obtain ⟨e1, e2⟩ := MLFQ_Scheduler.execute_timeline
        (s.add_arrivals.housekeeping.take a c rest) c
      have hpr := (MLFQ_Scheduler.take_counters s.add_arrivals.housekeeping a c rest c).1
      have hlev := w5.xinv.level a c (by rw [he]; exact List.mem_cons_self c rest)
      obtain ⟨_, _, w3, _⟩ := MLFQ_Scheduler.take_spec s.add_arrivals.housekeeping a c rest
        (MLFQ_Scheduler.mem_lt_length w5.inv w5.xinv
          (by rw [he]; exact List.mem_cons_self c rest))
      refine ⟨by rw [hstep, hr], rfl, fun q hq2 => ?_, ?_, ?_⟩
      · rw [hpr, hlev] at hq2
        show qget (qset s.add_arrivals.housekeeping.queues a rest) q = []
        rw [qget_qset]
        have : ¬ a = q := by omega
        simp only [this, false_and, if_false]
        exact MLFQ_Scheduler.get_highest_lowest _ a hq q hq2
      · rw [e1]
        show s.add_arrivals.housekeeping.timeline_pid ++ _ = _
        rw [tp]
      · rw [e2]
        show s.add_arrivals.housekeeping.timeline_queue ++ _ = _
        rw [tq]
    · rw [ho] at hon
      cases hon
  · intro a hrun hq
    obtain ⟨_, hne⟩ := MLFQ_Scheduler.get_highest_some _ a hq
    refine ⟨hne, MLFQ_Scheduler.get_highest_lowest _ a hq, ?_⟩
    cases he : qget s.add_arrivals.housekeeping.queues a with
    | nil => exact absurd he hne
    | cons c rest =>
      refine ⟨c, rest, rfl, (MLFQ_Scheduler.on_cpu_take _ a c rest hrun hq he).1, rfl, ?_⟩
      rw [(MLFQ_Scheduler.take_counters s.add_arrivals.housekeeping a c rest c).1]
      exact w5.xinv.level a c (by rw [he]; exact List.mem_cons_self c rest)

set_option maxRecDepth 100000 in
/-- Witness of `mlfq_strict_priority`: pass 3 of the run on `P1(0, 10)`,
`P2(3, 1)` with three levels, in which `P2` arrives, `P1` is preempted at
level 1 and `P2` is dispatched from the queue of level 0. -/
theorem mlfq_strict_priority_witness :
    ValidInput preempt_procs ∧ ValidConfig threeLevels ∧
    Reaches (MLFQ_Scheduler.init preempt_procs threeLevels) (preempt_state 3) ∧
    (preempt_state 3).completed < ((preempt_state 3).all_processes.length : Int) ∧
    (preempt_state 3).add_arrivals.housekeeping.get_highest_priority_queue = some 0 ∧
    qget (preempt_state 3).add_arrivals.housekeeping.queues 0 ≠ [] :=
  have hlt : (preempt_state 3).completed < ((preempt_state 3).all_processes.length : Int) := by
    decide!
  have hrun : (preempt_state 3).add_arrivals.housekeeping.currently_running = none := by
    decide!
  have hq : (preempt_state 3).add_arrivals.housekeeping.get_highest_priority_queue = some 0 := by
    decide!
  ⟨validInput_preempt, validConfig_threeLevels, preempt_reaches 3 (by decide), hlt, hq,
    ((mlfq_strict_priority preempt_procs threeLevels validInput_preempt validConfig_threeLevels
      (preempt_state 3) (preempt_reaches 3 (by decide)) hlt).2 0 hrun hq).1⟩

namespace MLFQ_Scheduler

theorem maybe_boost_running {P : List Process} {cfg : Config} {T : Int} (s : MLFQ_Scheduler)
    (hcap : cfg.num_queues ≤ QUEUE_SLOTS) (h : WF P cfg T s) :
    s.maybe_boost.currently_running = s.currently_running := by
  unfold maybe_boost
  split
  · exact (xinv_apply_priority_boost s hcap h.inv h.xinv).2.2.running
  · rfl

theorem lowers_level_zero {a b : List Process} (h : Lowers a b) (i : Nat)
    (h0 : (getP a i).priority = 0) : getP b i = getP a i := by
  apply lower_eq_of_priority (h.2 i)
  have := lower_priority_le (h.2 i)
  omega

theorem should_preempt_zero (s : MLFQ_Scheduler) : s.should_preempt 0 = false := by
  cases h : s.should_preempt 0 with
  | false => rfl
  | true =>
    obtain ⟨q, hq, _⟩ := (should_preempt_iff s 0).1 h
    omega

end MLFQ_Scheduler

/-- C19: at the preemption check a running, unfinished record `c` is
preempted (the running slot is cleared, `c` is pushed to the front of the
queue of its level and the event counter is incremented) if and only if some
queue of an index strictly below its level has an entry; otherwise the check
changes nothing, whatever the queue of its own level holds. In a run on a
valid input and configuration the running record at the check is unfinished,
so the equivalence holds in every pass; and a record that holds the CPU at
level 0 at the head of a pass is not preempted and executes in the pass at
level 0, after which it still holds the CPU, or is complete, or has used up
`time_quantum[0] > 0`. -/
theorem mlfq_preemption :
    (∀ (s : MLFQ_Scheduler) (c : Nat), s.currently_running = some c →
      0 < (getP s.all_processes c).remaining →
      (s.preempt_check.currently_running = none ↔
        ∃ q, q < (getP s.all_processes c).priority ∧ qget s.queues q ≠ []) ∧
      ((∃ q, q < (getP s.all_processes c).priority ∧ qget s.queues q ≠ []) →
        s.preempt_check =
          { s with
            queues := qset s.queues (getP s.all_processes c).priority
              (c :: qget s.queues (getP s.all_processes c).priority),
            currently_running := none,
            context_switches := s.context_switches + 1 }) ∧
      ((∀ q, q < (getP s.all_processes c).priority → qget s.queues q = []) →
        s.preempt_check = s)) ∧
    (∀ (procs : List Process) (cfg : Config), ValidInput procs → ValidConfig cfg →
      ∀ s, Reaches (MLFQ_Scheduler.init procs cfg) s →
      s.completed < (s.all_processes.length : Int) →
      (∀ c, s.add_arrivals.purge.maybe_aging.maybe_boost.currently_running = some c →
        0 < (getP s.add_arrivals.purge.maybe_aging.maybe_boost.all_processes c).remaining) ∧
      (∀ c, s.currently_running = some c → (getP s.all_processes c).priority = 0 →
        s.add_arrivals.housekeeping.currently_running = some c ∧
        ∃ t, s.step = MLFQ_Scheduler.Outcome.next t ∧
          t.timeline_pid = s.timeline_pid ++ [(getP s.all_processes c).pid] ∧
          t.timeline_queue = s.timeline_queue ++ [0] ∧
          (t.currently_running = some c ∨ (getP t.all_processes c).remaining = 0 ∨
            (0 < cfg.quantum 0 ∧
              cfg.quantum 0 ≤ (getP s.all_processes c).time_in_current_quantum + 1)))) := by
  constructor
  · intro s c hc hpos
    have hyes : (∃ q, q < (getP s.all_processes c).priority ∧ qget s.queues q ≠ []) →
        s.preempt_check =
          { s with
            queues := qset s.queues (getP s.all_processes c).priority
              (c :: qget s.queues (getP s.all_processes c).priority),
            currently_running := none,
            context_switches := s.context_switches + 1 } :=
      fun hq => MLFQ_Scheduler.preempt_check_preempts s c hc hpos
        ((MLFQ_Scheduler.should_preempt_iff _ _).2 hq)
    have hno : (∀ q, q < (getP s.all_processes c).priority → qget s.queues q = []) →
        s.preempt_check = s := by
      intro hq
      apply MLFQ_Scheduler.preempt_check_stays
      intro c2 hc2 _
      rw [hc] at hc2
      cases hc2
      cases hp : s.should_preempt (getP s.all_processes c).priority with
      | false => rfl
      | true =>
        obtain ⟨q, h1, h2⟩ := (MLFQ_Scheduler.should_preempt_iff _ _).1 hp
        exact absurd (hq q h1) h2
    refine ⟨⟨fun hn => ?_, fun hq => by rw [hyes hq]⟩, hyes, hno⟩
    by_contra hne
    have hall : ∀ q, q < (getP s.all_processes c).priority → qget s.queues q = [] := by
      intro q hq
      by_contra h2
      exact hne ⟨q, hq, h2⟩
    rw [hno hall, hc] at hn
    cases hn
  · intro procs cfg hin hcfg s h hlt
    obtain ⟨hw, _, w3, w4, w5, l3, l4, e5, r3, hstep, hlt5, _, tp, tq, hburst, _⟩ :=
      MLFQ_Scheduler.pass_setup procs cfg hin hcfg s h hlt
    have hcap := hcfg.2.1
    refine ⟨fun c hc => (w4.inv.running_pos c hc).1, fun c hc h0 => ?_⟩
    have hrB : s.add_arrivals.purge.maybe_aging.maybe_boost.currently_running = some c := by
      rw [MLFQ_Scheduler.maybe_boost_running _ hcap w3, r3]; exact hc
    have hA := MLFQ_Scheduler.lowers_level_zero l3 c h0
    have hB := MLFQ_Scheduler.lowers_level_zero l4 c (by rw [hA]; exact h0)
    have hpc : s.add_arrivals.housekeeping =
        s.add_arrivals.purge.maybe_aging.maybe_boost.preempt_check := rfl
    have hstay : s.add_arrivals.purge.maybe_aging.maybe_boost.preempt_check =
        s.add_arrivals.purge.maybe_aging.maybe_boost := by
      apply MLFQ_Scheduler.preempt_check_stays
      intro c2 hc2 _
      rw [hrB] at hc2
      cases hc2
      rw [hB, hA, h0]
      exact MLFQ_Scheduler.should_preempt_zero _
    have hrH : s.add_arrivals.housekeeping.currently_running = some c := by
      rw [hpc, hstay]; exact hrB
    have hrec : getP s.add_arrivals.housekeeping.all_processes c = getP s.all_processes c := by
      rw [e5, hB, hA]
    refine ⟨hrH, ?_⟩
    have hpos := (w5.inv.running_pos c hrH).1
    obtain ⟨_, hr⟩ := MLFQ_Scheduler.on_cpu_running _ c hrH hpos
    obtain ⟨e1, e2⟩ := MLFQ_Scheduler.execute_timeline s.add_arrivals.housekeeping c
    refine ⟨_, by rw [hstep, hr], by rw [e1, tp, hrec], by rw [e2, tq, hrec, h0]; rfl, ?_⟩
    have hcl : c < s.add_arrivals.housekeeping.all_processes.length := by
      rw [w5.inv.len]; exact (w5.inv.active_lt c (Or.inr hrH)).1
    obtain ⟨_, b2, b3, _, _, _, b7, _, b9⟩ :=
      MLFQ_Scheduler.before_check_spec s.add_arrivals.housekeeping c
    have hs := sched_fields (b9 hcl)
    rw [MLFQ_Scheduler.execute_eq]
    by_cases hz : (getP (MLFQ_Scheduler.before_check s.add_arrivals.housekeeping c).all_processes
        c).remaining = 0
    · right; left
      rw [MLFQ_Scheduler.finish_tick_done _ c hz]
      dsimp only
      rw [getP_setP_self _ _ _ (by rw [b7]; exact hcl)]
      exact hz
    · by_cases hq : 0 < (MLFQ_Scheduler.before_check s.add_arrivals.housekeeping c).config.quantum
          (getP (MLFQ_Scheduler.before_check s.add_arrivals.housekeeping c).all_processes
            c).priority ∧
          (MLFQ_Scheduler.before_check s.add_arrivals.housekeeping c).config.quantum
            (getP (MLFQ_Scheduler.before_check s.add_arrivals.housekeeping c).all_processes
              c).priority ≤
          (getP (MLFQ_Scheduler.before_check s.add_arrivals.housekeeping c).all_processes
            c).time_in_current_quantum
      · right; right
        rw [hs.2.1, hs.2.2, b3, w5.inv.config] at hq
        have e1 : (getP s.add_arrivals.housekeeping.all_processes c).priority = 0 := by
          rw [hrec]; exact h0
        have e2 : (getP s.add_arrivals.housekeeping.all_processes c).time_in_current_quantum =
            (getP s.all_processes c).time_in_current_quantum := by rw [hrec]
        dsimp only at hq
        rw [e1, e2] at hq
        exact hq
      · left
        rw [MLFQ_Scheduler.finish_tick_stay _ c hz hq]
        exact b2.trans hrH

set_option maxRecDepth 100000 in
/-- Witness of `mlfq_preemption`: in pass 3 of the run on `P1(0, 10)`,
`P2(3, 1)` with three levels the arrival of `P2` at level 0 preempts `P1`,
which runs at level 1; in pass 1 of Scenario C with boost interval 2, `P1`
runs at level 0 while `P2` waits at level 0, and `P1` is not preempted. -/
theorem mlfq_preemption_witness :
    (preempt_state 3).add_arrivals.purge.maybe_aging.maybe_boost.currently_running = some 0 ∧
    0 < (getP (preempt_state 3).add_arrivals.purge.maybe_aging.maybe_boost.all_processes
      0).remaining ∧
    (preempt_state 3).add_arrivals.purge.maybe_aging.maybe_boost.preempt_check.currently_running
      = none ∧
    ValidInput scenarioC_procs ∧ ValidConfig (scenarioC 12 2) ∧
    Reaches (MLFQ_Scheduler.init scenarioC_procs (scenarioC 12 2)) (boost_state 1) ∧
    (boost_state 1).currently_running = some 0 ∧
    qget (boost_state 1).queues 0 = [1] ∧
    (boost_state 1).add_arrivals.housekeeping.currently_running = some 0 :=
  have h1 : (preempt_state 3).add_arrivals.purge.maybe_aging.maybe_boost.currently_running =
      some 0 := by decide!
  have h2 : 0 < (getP (preempt_state 3).add_arrivals.purge.maybe_aging.maybe_boost.all_processes
      0).remaining := by decide!
  have h3 : ∃ q, q < (getP (preempt_state 3).add_arrivals.purge.maybe_aging.maybe_boost.all_processes
      0).priority ∧
      qget (preempt_state 3).add_arrivals.purge.maybe_aging.maybe_boost.queues q ≠ [] :=
    ⟨0, by decide!, by decide!⟩
  have h4 : ValidConfig (scenarioC 12 2) := validConfig_scenarioC 12 2 (by decide) (by decide)
  have h5 : (boost_state 1).completed < ((boost_state 1).all_processes.length : Int) := by
    decide!
  have h6 : (boost_state 1).currently_running = some 0 := by decide!
  have h7 : (getP (boost_state 1).all_processes 0).priority = 0 := by decide!
  ⟨h1, h2, ((mlfq_preemption.1 _ 0 h1 h2).1).2 h3, validInput_scenarioC, h4,
    boost_reaches 1 (by decide), h6, by decide!,
    ((mlfq_preemption.2 scenarioC_procs (scenarioC 12 2) validInput_scenarioC h4 (boost_state 1)
      (boost_reaches 1 (by decide)) h5).2 0 h6 h7).1⟩

/-! ## Priority boost -/

/-- C20: in a pass of a run on a valid input and configuration with
`current_time > 0` and `current_time % boost_interval == 0` the boost runs,
and after it every queue of a level from `1` on is empty; every record that
waited at a level from `1` on is in `queues[0]` with level `0` and both
counters `0`; the running slot is as before, and a record in it has level `0`,
with its quantum counter reset when its level was above `0`. The boost does
not preempt: a record that holds the CPU when the boost runs holds it after
the preemption check, executes in the pass, and the timeline unit of the pass
is its pid at level `0`. -/
theorem mlfq_priority_boost (procs : List Process) (cfg : Config) (hin : ValidInput procs)
    (hcfg : ValidConfig cfg) (s : MLFQ_Scheduler)
    (h : Reaches (MLFQ_Scheduler.init procs cfg) s)
    (hlt : s.completed < (s.all_processes.length : Int))
    (hguard : 0 < s.current_time ∧ Int.tmod s.current_time cfg.boost_interval = 0) :
    s.add_arrivals.purge.maybe_aging.maybe_boost =
      s.add_arrivals.purge.maybe_aging.apply_priority_boost ∧
    (∀ l, 1 ≤ l → qget s.add_arrivals.purge.maybe_aging.maybe_boost.queues l = []) ∧
    (∀ l i, 1 ≤ l → i ∈ qget s.add_arrivals.purge.maybe_aging.queues l →
      i ∈ qget s.add_arrivals.purge.maybe_aging.maybe_boost.queues 0 ∧
      (getP s.add_arrivals.purge.maybe_aging.maybe_boost.all_processes i).priority = 0 ∧
      (getP s.add_arrivals.purge.maybe_aging.maybe_boost.all_processes
        i).time_in_current_quantum = 0 ∧
      (getP s.add_arrivals.purge.maybe_aging.maybe_boost.all_processes i).time_in_queue = 0) ∧
    (∀ c, s.add_arrivals.purge.maybe_aging.currently_running = some c →
      s.add_arrivals.purge.maybe_aging.maybe_boost.currently_running = some c ∧
      (getP s.add_arrivals.purge.maybe_aging.maybe_boost.all_processes c).priority = 0 ∧
      (0 < (getP s.add_arrivals.purge.maybe_aging.all_processes c).priority →
        (getP s.add_arrivals.purge.maybe_aging.maybe_boost.all_processes
          c).time_in_current_quantum = 0) ∧
      s.add_arrivals.housekeeping.currently_running = some c ∧
      ∃ t, s.step = MLFQ_Scheduler.Outcome.next t ∧
        t.timeline_pid = s.timeline_pid ++ [(getP s.all_processes c).pid] ∧
        t.timeline_queue = s.timeline_queue ++ [0]) := by
  obtain ⟨hw, _, w3, w4, w5, l3, l4, e5, r3, hstep, hlt5, _, tp, tq, hburst, t3⟩ :=
    MLFQ_Scheduler.pass_setup procs cfg hin hcfg s h hlt
  have hcap := hcfg.2.1
  have hb : s.add_arrivals.purge.maybe_aging.maybe_boost =
      s.add_arrivals.purge.maybe_aging.apply_priority_boost := by
    have hg : 0 < s.add_arrivals.purge.maybe_aging.current_time ∧
        Int.tmod s.add_arrivals.purge.maybe_aging.current_time
          s.add_arrivals.purge.maybe_aging.config.boost_interval = 0 := by
      rw [t3, w3.inv.config]; exact hguard
    show (if _ then _ else _) = _
    rw [if_pos hg]
  have hspec := (MLFQ_Scheduler.xinv_apply_priority_boost _ hcap w3.inv w3.xinv).2.2
  rw [← hb] at hspec
  refine ⟨hb, hspec.emptied, hspec.moved, fun c hc => ?_⟩
  have hrB : s.add_arrivals.purge.maybe_aging.maybe_boost.currently_running = some c := by
    rw [hspec.running]; exact hc
  obtain ⟨p0, p1, _⟩ := hspec.run_reset c hc
  have hpc : s.add_arrivals.housekeeping =
      s.add_arrivals.purge.maybe_aging.maybe_boost.preempt_check := rfl
  have hstay : s.add_arrivals.purge.maybe_aging.maybe_boost.preempt_check =
      s.add_arrivals.purge.maybe_aging.maybe_boost := by
    apply MLFQ_Scheduler.preempt_check_stays
    intro c2 hc2 _
    rw [hrB] at hc2
    cases hc2
    rw [p0]
    exact MLFQ_Scheduler.should_preempt_zero _
  have hrH : s.add_arrivals.housekeeping.currently_running = some c := by
    rw [hpc, hstay]; exact hrB
  refine ⟨hrB, p0, p1, hrH, ?_⟩
  have hpos := (w5.inv.running_pos c hrH).1
  obtain ⟨_, hr⟩ := MLFQ_Scheduler.on_cpu_running _ c hrH hpos
  obtain ⟨e1, e2⟩ := MLFQ_Scheduler.execute_timeline s.add_arrivals.housekeeping c
  have hpid : (getP s.add_arrivals.housekeeping.all_processes c).pid =
      (getP s.all_processes c).pid := by
    rw [e5]
    have c1 := lower_core (l3.2 c)
    have c2 := lower_core (l4.2 c)
    exact (core_fields (c2.trans c1)).1
  have hprio : (getP s.add_arrivals.housekeeping.all_processes c).priority = 0 := by
    rw [e5]; exact p0
  exact ⟨_, by rw [hstep, hr], by rw [e1, tp, hpid], by rw [e2, tq, hprio]; rfl⟩

set_option maxRecDepth 100000 in
/-- Witness of `mlfq_priority_boost`: pass 6 of Scenario C with boost interval
2, in which the boost runs while `P1` holds the CPU at level 1; the pass
executes `P1` and records it at level 0. -/
theorem mlfq_priority_boost_witness :
    ValidInput scenarioC_procs ∧ ValidConfig (scenarioC 12 2) ∧
    Reaches (MLFQ_Scheduler.init scenarioC_procs (scenarioC 12 2)) (boost_state 6) ∧
    (boost_state 6).completed < ((boost_state 6).all_processes.length : Int) ∧
    (0 < (boost_state 6).current_time ∧
      Int.tmod (boost_state 6).current_time (scenarioC 12 2).boost_interval = 0) ∧
    (boost_state 6).add_arrivals.purge.maybe_aging.currently_running = some 0 ∧
    (getP (boost_state 6).add_arrivals.purge.maybe_aging.all_processes 0).priority = 1 ∧
    (getP (boost_state 6).add_arrivals.purge.maybe_aging.maybe_boost.all_processes 0).priority
      = 0 ∧
    (boost_state 6).add_arrivals.housekeeping.currently_running = some 0 :=
  have h4 : ValidConfig (scenarioC 12 2) := validConfig_scenarioC 12 2 (by decide) (by decide)
  have h5 : (boost_state 6).completed < ((boost_state 6).all_processes.length : Int) := by
    decide!
  have h6 : 0 < (boost_state 6).current_time ∧
      Int.tmod (boost_state 6).current_time (scenarioC 12 2).boost_interval = 0 := by decide!
  have h7 : (boost_state 6).add_arrivals.purge.maybe_aging.currently_running = some 0 := by
    decide!
  have h := (mlfq_priority_boost scenarioC_procs (scenarioC 12 2) validInput_scenarioC h4
    (boost_state 6) (boost_reaches 6 (by decide)) h5 h6).2.2.2 0 h7
  ⟨validInput_scenarioC, h4, boost_reaches 6 (by decide), h5, h6, h7, by decide!, h.2.1,
    h.2.2.2.1⟩

/-! ## Direction of promotions and demotions -/

theorem getP_of_length_le (ps : List Process) (i : Nat) (h : ps.length ≤ i) :
    getP ps i = default := by
  unfold getP
  rw [List.getD_eq_getElem?_getD, List.getElem?_eq_none h]
  rfl

namespace MLFQ_Scheduler

theorem age_level_priority_le (t : MLFQ_Scheduler) (a : Nat)
    (h : ∀ i, i ∈ qget t.queues a → (getP t.all_processes i).priority = a) (i : Nat) :
    (getP (age_level t a).all_processes i).priority ≤ (getP t.all_processes i).priority ∧
    (i ∉ qget t.queues a → getP (age_level t a).all_processes i = getP t.all_processes i) := by
  obtain ⟨hcnt, hsame, hreset⟩ := aging_scan_x t.config.aging_threshold t.currently_running a
    (qget t.queues a) t.all_processes
  have hlen := (aging_scan_spec t.config.aging_threshold t.currently_running a
    (a + 1) (by omega) (qget t.queues a) t.all_processes).1.1
  have hps : (age_level t a).all_processes =
      (aging_scan t.config.aging_threshold t.currently_running a
        (qget t.queues a) t.all_processes).1 := rfl
  have hmoved : ∀ j, j ∈ (aging_scan t.config.aging_threshold t.currently_running a
      (qget t.queues a) t.all_processes).2.2 → j ∈ qget t.queues a := by
    intro j hj
    have := hcnt j
    have h0 := List.count_pos_iff.2 hj
    exact List.count_pos_iff.1 (by omega)
  rw [hps]
  constructor
  · by_cases hm : i ∈ (aging_scan t.config.aging_threshold t.currently_running a
        (qget t.queues a) t.all_processes).2.2
    · by_cases hil : i < t.all_processes.length
      · rw [hreset i hil hm, h i (hmoved i hm)]
        show a - 1 ≤ a
        omega
      · rw [getP_of_length_le _ i (by rw [hlen]; omega), getP_of_length_le _ i (by omega)]
    · rw [hsame i hm]
  · intro hi
    exact hsame i (fun hm => hi (hmoved i hm))

theorem age_level_queues_above (t : MLFQ_Scheduler) (a q : Nat) (hq : a < q) :
    qget (age_level t a).queues q = qget t.queues q := by
  have h1 : ¬ (a - 1 = q ∧ a - 1 < (qset t.queues a (aging_scan t.config.aging_threshold
      t.currently_running a (qget t.queues a) t.all_processes).2.1).length) := by
    intro h; omega
  have h2 : ¬ (a = q ∧ a < t.queues.length) := by
    intro h; omega
  show qget (qset (qset t.queues a _) (a - 1) _) q = _
  rw [qget_qset, if_neg h1, qget_qset, if_neg h2]

theorem age_range_priority_le (s : MLFQ_Scheduler) (k a : Nat) (t : MLFQ_Scheduler)
    (h1 : ∀ i, (getP t.all_processes i).priority ≤ (getP s.all_processes i).priority)
    (h2 : ∀ q i, a ≤ q → i ∈ qget t.queues q → (getP t.all_processes i).priority = q) :
    ∀ i, (getP ((List.range' a k).foldl age_level t).all_processes i).priority ≤
      (getP s.all_processes i).priority := by
  induction k generalizing a t with
  | zero => exact h1
  | succ k ih =>
    rw [List.range'_succ, List.foldl_cons]
    apply ih (a + 1) (age_level t a)
    · intro i
      exact le_trans (age_level_priority_le t a (fun j hj => h2 a j (le_refl a) hj) i).1 (h1 i)
    · intro q i hq hi
      rw [age_level_queues_above t a q (by omega)] at hi
      have hp := h2 q i (by omega) hi
      have hni : i ∉ qget t.queues a := by
        intro hia
        have := h2 a i (le_refl a) hia
        omega
      rw [(age_level_priority_le t a (fun j hj => h2 a j (le_refl a) hj) i).2 hni]
      exact hp

theorem apply_aging_priority_le (s : MLFQ_Scheduler) (h : s.LevelsAgree) (i : Nat) :
    (getP s.apply_aging.all_processes i).priority ≤ (getP s.all_processes i).priority := by
  unfold apply_aging
  rw [List.range_eq_range', List.tail_range']
  exact age_range_priority_le s _ _ s (fun _ => le_refl _) (fun q j _ hj => h q j hj) i

theorem boost_reset_fold_priority_le (L : List Nat) (ps : List Process) (i : Nat) :
    (getP (L.foldl (fun ps p => setP ps p boost_reset) ps) i).priority ≤
      (getP ps i).priority := by
  obtain ⟨hsame, hreset⟩ := boost_reset_fold_x L ps
  have hlen := (boost_reset_fold 1 L ps).1.1
  by_cases hm : i ∈ L
  · by_cases hil : i < ps.length
    · rw [hreset i hil hm]
      exact Nat.zero_le _
    · rw [getP_of_length_le _ i (by rw [hlen]; omega), getP_of_length_le _ i (by omega)]
  · rw [hsame i hm]

theorem boost_fold_priority_le (L : List Nat) (acc : MLFQ_Scheduler × List Nat) (i : Nat) :
    (getP (L.foldl boost_level acc).1.all_processes i).priority ≤
      (getP acc.1.all_processes i).priority := by
  induction L generalizing acc with
  | nil => exact le_refl _
  | cons q L ih =>
    rw [List.foldl_cons]
    exact le_trans (ih (boost_level acc q))
      (boost_reset_fold_priority_le (qget acc.1.queues q) acc.1.all_processes i)

theorem apply_priority_boost_priority_le (s : MLFQ_Scheduler) (i : Nat) :
    (getP s.apply_priority_boost.all_processes i).priority ≤
      (getP s.all_processes i).priority := by
  have hf := boost_fold_priority_le ((List.range s.config.num_queues).tail) (s, []) i
  unfold apply_priority_boost
  simp only
  split
  · split
    · dsimp only
      rw [getP_setP]
      split
      · exact Nat.zero_le _
      · exact hf
    · exact hf
  · exact hf

end MLFQ_Scheduler

namespace MLFQ_Scheduler

theorem finish_tick_priority (s : MLFQ_Scheduler) (c i : Nat) :
    (getP (finish_tick s c).all_processes i).priority ≤ (getP s.all_processes i).priority + 1 ∧
    ((getP s.all_processes i).priority < (getP (finish_tick s c).all_processes i).priority →
      i = c ∧ (getP s.all_processes c).remaining ≠ 0 ∧
      0 < s.config.quantum (getP s.all_processes c).priority ∧
      s.config.quantum (getP s.all_processes c).priority ≤
        (getP s.all_processes c).time_in_current_quantum ∧
      (getP s.all_processes c).priority + 1 < s.config.num_queues) := by
  have hsame : (getP (finish_tick s c).all_processes i).priority =
      (getP s.all_processes i).priority →
      (getP (finish_tick s c).all_processes i).priority ≤
        (getP s.all_processes i).priority + 1 ∧
      ((getP s.all_processes i).priority <
          (getP (finish_tick s c).all_processes i).priority →
        i = c ∧ (getP s.all_processes c).remaining ≠ 0 ∧
        0 < s.config.quantum (getP s.all_processes c).priority ∧
        s.config.quantum (getP s.all_processes c).priority ≤
          (getP s.all_processes c).time_in_current_quantum ∧
        (getP s.all_processes c).priority + 1 < s.config.num_queues) := by
    intro e
    rw [e]
    exact ⟨by omega, fun hlt => absurd hlt (lt_irrefl _)⟩
  by_cases h0 : (getP s.all_processes c).remaining = 0
  · apply hsame
    rw [finish_tick_done s c h0]
    dsimp only
    rw [getP_setP]
    split
    · next h => rw [h.1]
    · rfl
  · by_cases hq : 0 < s.config.quantum (getP s.all_processes c).priority ∧
        s.config.quantum (getP s.all_processes c).priority ≤
          (getP s.all_processes c).time_in_current_quantum
    · by_cases hic : c = i ∧ c < s.all_processes.length
      · obtain ⟨h1, h2⟩ := hic
        subst h1
        by_cases hlt : (getP s.all_processes c).priority + 1 < s.config.num_queues
        · have e : (getP (finish_tick s c).all_processes c).priority =
              (getP s.all_processes c).priority + 1 := by
            rw [finish_tick_expire s c h0 hq]
            dsimp only
            rw [getP_setP_self _ _ _ h2]
            dsimp only
            rw [if_pos hlt]
          rw [e]
          exact ⟨le_refl _, fun _ => ⟨rfl, h0, hq.1, hq.2, hlt⟩⟩
        · apply hsame
          rw [finish_tick_expire s c h0 hq]
          dsimp only
          rw [getP_setP_self _ _ _ h2]
          dsimp only
          rw [if_neg hlt]
      · apply hsame
        rw [finish_tick_expire s c h0 hq]
        dsimp only
        rw [getP_setP, if_neg hic]
    · apply hsame
      rw [finish_tick_stay s c h0 hq]

end MLFQ_Scheduler

/-- C17: the aging sweep lowers or keeps the level of every record, for every
engine state in which each queued record has the index of its queue as its
level; the priority boost lowers or keeps the level of every record, for
every engine state. In a run on a valid input and configuration the queues
and levels agree at the head of every pass and where the pass applies the
sweep and the boost, so neither step ever increases a level. -/
theorem mlfq_promotion_direction :
    (∀ s : MLFQ_Scheduler, s.LevelsAgree → ∀ i,
      (getP s.apply_aging.all_processes i).priority ≤ (getP s.all_processes i).priority) ∧
    (∀ (s : MLFQ_Scheduler) (i : Nat),
      (getP s.apply_priority_boost.all_processes i).priority ≤
        (getP s.all_processes i).priority) ∧
    (∀ (procs : List Process) (cfg : Config), ValidInput procs → ValidConfig cfg →
      ∀ s, Reaches (MLFQ_Scheduler.init procs cfg) s →
      s.LevelsAgree ∧
      (s.completed < (s.all_processes.length : Int) →
        s.add_arrivals.purge.LevelsAgree ∧ s.add_arrivals.purge.maybe_aging.LevelsAgree ∧
        ∀ i, (getP s.add_arrivals.purge.maybe_aging.all_processes i).priority ≤
            (getP s.add_arrivals.purge.all_processes i).priority ∧
          (getP s.add_arrivals.purge.maybe_aging.maybe_boost.all_processes i).priority ≤
            (getP s.add_arrivals.purge.maybe_aging.all_processes i).priority)) := by
  refine ⟨MLFQ_Scheduler.apply_aging_priority_le, MLFQ_Scheduler.apply_priority_boost_priority_le,
    fun procs cfg hin hcfg s h => ?_⟩
  have hw := MLFQ_Scheduler.reaches_wf procs cfg hin hcfg.1 hcfg.2.1 s h
  refine ⟨hw.xinv.level, fun hlt => ?_⟩
  obtain ⟨_, hp, w3, _, _, _, l4, _, _, _, _, _, _, _, hburst, _⟩ :=
    MLFQ_Scheduler.pass_setup procs cfg hin hcfg s h hlt
  obtain ⟨w1, _, _, _, _⟩ := MLFQ_Scheduler.wf_add_arrivals hw hcfg.1 hburst
  have l3 := (MLFQ_Scheduler.wf_maybe_aging _ hcfg.2.1 w1).2
  rw [← hp] at l3 w1
  exact ⟨w1.xinv.level, w3.xinv.level,
    fun i => ⟨lower_priority_le (l3.2 i), lower_priority_le (l4.2 i)⟩⟩

set_option maxRecDepth 100000 in
/-- Witness of `mlfq_promotion_direction`: pass 7 of the run on `P1(0, 10)`,
`P2(0, 10)` with Scenario C's levels and an aging sweep in every pass, in
which the sweep promotes `P2` from level 1 to level 0. -/
theorem mlfq_promotion_direction_witness :
    ValidInput aging_procs ∧ ValidConfig (scenarioC 1 50) ∧
    Reaches (MLFQ_Scheduler.init aging_procs (scenarioC 1 50)) (aging_state 7) ∧
    (aging_state 7).add_arrivals.purge.LevelsAgree ∧
    (getP (aging_state 7).add_arrivals.purge.all_processes 1).priority = 1 ∧
    (getP (aging_state 7).add_arrivals.purge.apply_aging.all_processes 1).priority = 0 ∧
    (∀ i, (getP (aging_state 7).add_arrivals.purge.apply_aging.all_processes i).priority ≤
      (getP (aging_state 7).add_arrivals.purge.all_processes i).priority) :=
  have h1 : ValidInput aging_procs := by simp [ValidInput, aging_procs, Process.new]
  have h2 : ValidConfig (scenarioC 1 50) := validConfig_scenarioC 1 50 (by decide) (by decide)
  have h3 : Reaches (MLFQ_Scheduler.init aging_procs (scenarioC 1 50)) (aging_state 7) := by
    apply reaches_after
    intro j hj
    interval_cases j <;> decide!
  have h4 : (aging_state 7).add_arrivals.purge.LevelsAgree :=
    ((mlfq_promotion_direction.2.2 aging_procs (scenarioC 1 50) h1 h2 (aging_state 7) h3).2
      (by decide!)).1
  ⟨h1, h2, h3, h4, by decide!, by decide!, mlfq_promotion_direction.1 _ h4⟩

/-- C16: the completion and demotion check raises the level of at most the
running record `c`, by exactly one, and only when `c` is unfinished,
`time_quantum[level] > 0`, `time_in_current_quantum >= time_quantum[level]`
and `level < num_queues - 1`; this holds for every engine state. In a pass of
a run on a valid input and configuration no stage before the check raises a
level: admission, purge, aging sweep, boost and preemption check leave every
level at or below its value at the head of the pass, and dispatch, execution
and waiting-time accounting leave every level as it is. So over a pass a level
rises by at most one, only for the record that executes in the pass, and only
from a level with a positive quantum that is not the lowest one; a record at
the lowest level or at a level with quantum `0` does not rise. -/
theorem mlfq_demotion_direction :
    (∀ (s : MLFQ_Scheduler) (c i : Nat),
      (getP (MLFQ_Scheduler.finish_tick s c).all_processes i).priority ≤
        (getP s.all_processes i).priority + 1 ∧
      ((getP s.all_processes i).priority <
          (getP (MLFQ_Scheduler.finish_tick s c).all_processes i).priority →
        i = c ∧ (getP s.all_processes c).remaining ≠ 0 ∧
        0 < s.config.quantum (getP s.all_processes c).priority ∧
        s.config.quantum (getP s.all_processes c).priority ≤
          (getP s.all_processes c).time_in_current_quantum ∧
        (getP s.all_processes c).priority + 1 < s.config.num_queues)) ∧
    (∀ (procs : List Process) (cfg : Config), ValidInput procs → ValidConfig cfg →
      ∀ s, Reaches (MLFQ_Scheduler.init procs cfg) s →
      s.completed < (s.all_processes.length : Int) →
      (∀ i, (getP s.add_arrivals.housekeeping.all_processes i).priority ≤
        (getP s.all_processes i).priority) ∧
      (∀ u c, s.add_arrivals.housekeeping.on_cpu = some (u, c) →
        s.step = MLFQ_Scheduler.Outcome.next
          (MLFQ_Scheduler.finish_tick (MLFQ_Scheduler.before_check u c) c) ∧
        (MLFQ_Scheduler.before_check u c).currently_running = some c ∧
        (MLFQ_Scheduler.before_check u c).config = cfg ∧
        ∀ i, (getP (MLFQ_Scheduler.before_check u c).all_processes i).priority =
          (getP s.add_arrivals.housekeeping.all_processes i).priority) ∧
      ∃ t, s.step = MLFQ_Scheduler.Outcome.next t ∧
        ∀ i, (getP t.all_processes i).priority ≤ (getP s.all_processes i).priority + 1 ∧
          ((getP s.all_processes i).priority < (getP t.all_processes i).priority →
            (∃ u, s.add_arrivals.housekeeping.on_cpu = some (u, i)) ∧
            0 < cfg.quantum (getP s.all_processes i).priority ∧
            (getP s.all_processes i).priority + 1 < cfg.num_queues) ∧
          ((getP s.all_processes i).priority + 1 = cfg.num_queues ∨
            cfg.quantum (getP s.all_processes i).priority = 0 →
            (getP t.all_processes i).priority ≤ (getP s.all_processes i).priority)) := by
  refine ⟨MLFQ_Scheduler.finish_tick_priority, fun procs cfg hin hcfg s h hlt => ?_⟩
  obtain ⟨_, _, _, _, w5, l3, l4, e5, _, hstep, hlt5, _, _, _, hburst, _⟩ :=
    MLFQ_Scheduler.pass_setup procs cfg hin hcfg s h hlt
  have hcap := hcfg.2.1
  have hH : ∀ i, (getP s.add_arrivals.housekeeping.all_processes i).priority ≤
      (getP s.all_processes i).priority := by
    intro i
    rw [e5]
    exact le_trans (lower_priority_le (l4.2 i)) (lower_priority_le (l3.2 i))
  have hbusy : ∀ u c, WF (procs.map Process.copy) cfg (u.current_time + 1) u →
      u.currently_running = some c →
      (∀ i, (getP u.all_processes i).priority =
        (getP s.add_arrivals.housekeeping.all_processes i).priority) →
      (MLFQ_Scheduler.before_check u c).currently_running = some c ∧
      (MLFQ_Scheduler.before_check u c).config = cfg ∧
      ∀ i, (getP (MLFQ_Scheduler.before_check u c).all_processes i).priority =
        (getP s.add_arrivals.housekeeping.all_processes i).priority := by
    intro u c hwu hrun hpr
    have hcl : c < u.all_processes.length := by
      rw [hwu.inv.len]; exact (hwu.inv.active_lt c (Or.inr hrun)).1
    obtain ⟨_, b2, b3, _, _, _, _, b8, b9⟩ := MLFQ_Scheduler.before_check_spec u c
    refine ⟨b2.trans hrun, b3.trans hwu.inv.config, fun i => ?_⟩
    rw [← hpr i]
    by_cases hic : i = c
    · subst hic; exact (sched_fields (b9 hcl)).2.1
    · exact (sched_fields (b8 i hic)).2.1
  have hfin : ∀ u c, s.add_arrivals.housekeeping.on_cpu = some (u, c) →
      (MLFQ_Scheduler.before_check u c).config = cfg →
      (∀ i, (getP (MLFQ_Scheduler.before_check u c).all_processes i).priority =
        (getP s.add_arrivals.housekeeping.all_processes i).priority) →
      ∀ i, (getP (MLFQ_Scheduler.finish_tick (MLFQ_Scheduler.before_check u c)
          c).all_processes i).priority ≤ (getP s.all_processes i).priority + 1 ∧
        ((getP s.all_processes i).priority <
            (getP (MLFQ_Scheduler.finish_tick (MLFQ_Scheduler.before_check u c)
              c).all_processes i).priority →
          (∃ u, s.add_arrivals.housekeeping.on_cpu = some (u, i)) ∧
          0 < cfg.quantum (getP s.all_processes i).priority ∧
          (getP s.all_processes i).priority + 1 < cfg.num_queues) ∧
        ((getP s.all_processes i).priority + 1 = cfg.num_queues ∨
          cfg.quantum (getP s.all_processes i).priority = 0 →
          (getP (MLFQ_Scheduler.finish_tick (MLFQ_Scheduler.before_check u c)
            c).all_processes i).priority ≤ (getP s.all_processes i).priority) := by
    intro u c hon hcf hpr i
    obtain ⟨f1, f2⟩ := MLFQ_Scheduler.finish_tick_priority (MLFQ_Scheduler.before_check u c) c i
    have hle := hH i
    rw [hpr i] at f1 f2
    have hup : (getP s.all_processes i).priority <
        (getP (MLFQ_Scheduler.finish_tick (MLFQ_Scheduler.before_check u c)
          c).all_processes i).priority →
        (∃ u, s.add_arrivals.housekeeping.on_cpu = some (u, i)) ∧
        0 < cfg.quantum (getP s.all_processes i).priority ∧
        (getP s.all_processes i).priority + 1 < cfg.num_queues := by
      intro hlt2
      obtain ⟨g1, _, g3, _, g5⟩ := f2 (by omega)
      subst g1
      have heq : (getP s.add_arrivals.housekeeping.all_processes i).priority =
          (getP s.all_processes i).priority := by omega
      rw [hpr i, hcf, heq] at g3 g5
      exact ⟨⟨u, hon⟩, g3, g5⟩
    refine ⟨by omega, hup, fun hor => ?_⟩
    by_contra hgt
    obtain ⟨_, g3, g5⟩ := hup (by omega)
    rcases hor with hor | hor <;> omega
  refine ⟨hH, ?_, ?_⟩
  · intro u c hon
    rcases MLFQ_Scheduler.pass_cases _ w5 hburst hcap hlt5 with ⟨c2, hc, ho, hr⟩ |
        ⟨_, a, c2, rest, _, _, ho, hr, hwt⟩ | ⟨_, _, ho, _⟩
    · rw [ho] at hon
      cases hon
      exact ⟨by rw [hstep, hr, MLFQ_Scheduler.execute_eq], hbusy _ c w5 hc (fun _ => rfl)⟩
    · rw [ho] at hon
      cases hon
      exact ⟨by rw [hstep, hr, MLFQ_Scheduler.execute_eq],
        hbusy _ c hwt rfl (fun i => (MLFQ_Scheduler.take_counters _ a c rest i).1)⟩
    · rw [ho] at hon
      cases hon
  · rcases MLFQ_Scheduler.pass_cases _ w5 hburst hcap hlt5 with ⟨c, hc, ho, hr⟩ |
        ⟨_, a, c, rest, _, _, ho, hr, hwt⟩ | ⟨_, _, _, hr⟩
    · obtain ⟨_, k2, k3⟩ := hbusy _ c w5 hc (fun _ => rfl)
      exact ⟨_, by rw [hstep, hr, MLFQ_Scheduler.execute_eq], hfin _ c ho k2 k3⟩
    · obtain ⟨_, k2, k3⟩ := hbusy (MLFQ_Scheduler.take _ a c rest) c hwt rfl
        (fun i => (MLFQ_Scheduler.take_counters _ a c rest i).1)
      exact ⟨_, by rw [hstep, hr, MLFQ_Scheduler.execute_eq], hfin _ c ho k2 k3⟩
    · refine ⟨_, by rw [hstep, hr], fun i => ?_⟩
      have := hH i
      dsimp only
      exact ⟨by omega, fun hlt2 => by omega, fun _ => this⟩

set_option maxRecDepth 100000 in
/-- Witness of `mlfq_demotion_direction`: pass 5 of the run on `P1(0, 10)`,
`P2(3, 1)` with three levels, in which `P1` uses up the quantum `3` of level 1
and is demoted to level 2; at level 2, the lowest, its level stays in pass 7;
and the completion and demotion check of pass 5 itself. -/
theorem mlfq_demotion_direction_witness :
    ValidInput preempt_procs ∧ ValidConfig threeLevels ∧
    Reaches (MLFQ_Scheduler.init preempt_procs threeLevels) (preempt_state 5) ∧
    (preempt_state 5).completed < ((preempt_state 5).all_processes.length : Int) ∧
    (getP (preempt_state 5).all_processes 0).priority = 1 ∧
    (getP (preempt_state 6).all_processes 0).priority = 2 ∧
    (preempt_state 5).step = MLFQ_Scheduler.Outcome.next (preempt_state 6) ∧
    (0 < threeLevels.quantum (getP (preempt_state 5).all_processes 0).priority ∧
      (getP (preempt_state 5).all_processes 0).priority + 1 < threeLevels.num_queues) ∧
    (getP (MLFQ_Scheduler.finish_tick (MLFQ_Scheduler.before_check (preempt_state 5) 0)
      0).all_processes 0).priority ≤
      (getP (MLFQ_Scheduler.before_check (preempt_state 5) 0).all_processes 0).priority + 1 :=
  have h5 : (preempt_state 5).completed < ((preempt_state 5).all_processes.length : Int) := by
    decide!
  have hst : (preempt_state 5).step = MLFQ_Scheduler.Outcome.next (preempt_state 6) := by
    decide!
  have h := (mlfq_demotion_direction.2 preempt_procs threeLevels validInput_preempt
    validConfig_threeLevels (preempt_state 5) (preempt_reaches 5 (by decide)) h5).2.2
  have hup : (getP (preempt_state 5).all_processes 0).priority <
      (getP (preempt_state 6).all_processes 0).priority := by decide!
  ⟨validInput_preempt, validConfig_threeLevels, preempt_reaches 5 (by decide), h5,
    by decide!, by decide!, hst,
    by
      obtain ⟨t, ht, hall⟩ := h
      rw [hst] at ht
      cases ht
      exact ((hall 0).2.1 hup).2,
    (mlfq_demotion_direction.1 _ 0 0).1⟩

/-! ## Quantum continuity -/

namespace MLFQ_Scheduler

theorem finish_tick_others (s : MLFQ_Scheduler) (c i : Nat) (hi : i ≠ c) :
    getP (finish_tick s c).all_processes i = getP s.all_processes i := by
  by_cases h0 : (getP s.all_processes c).remaining = 0
  · rw [finish_tick_done s c h0]
    dsimp only
    exact getP_setP_ne _ _ _ _ (Ne.symm hi)
  · by_cases hq : 0 < s.config.quantum (getP s.all_processes c).priority ∧
        s.config.quantum (getP s.all_processes c).priority ≤
          (getP s.all_processes c).time_in_current_quantum
    · rw [finish_tick_expire s c h0 hq]
      dsimp only
      exact getP_setP_ne _ _ _ _ (Ne.symm hi)
    · rw [finish_tick_stay s c h0 hq]

theorem finish_tick_remaining (s : MLFQ_Scheduler) (c i : Nat) :
    (getP (finish_tick s c).all_processes i).remaining = (getP s.all_processes i).remaining := by
  by_cases h0 : (getP s.all_processes c).remaining = 0
  · rw [finish_tick_done s c h0]
    dsimp only
    rw [getP_setP]
    split
    · next h => rw [h.1]
    · rfl
  · by_cases hq : 0 < s.config.quantum (getP s.all_processes c).priority ∧
        s.config.quantum (getP s.all_processes c).priority ≤
          (getP s.all_processes c).time_in_current_quantum
    · rw [finish_tick_expire s c h0 hq]
      dsimp only
      rw [getP_setP]
      split
      · next h => rw [h.1]
      · rfl
    · rw [finish_tick_stay s c h0 hq]

theorem finish_tick_expired (s : MLFQ_Scheduler) (c : Nat) (hc : c < s.all_processes.length)
    (hcap : s.config.num_queues ≤ s.queues.length)
    (hprio : (getP s.all_processes c).priority < s.config.num_queues)
    (h0 : (getP s.all_processes c).remaining ≠ 0)
    (hq : 0 < s.config.quantum (getP s.all_processes c).priority ∧
      s.config.quantum (getP s.all_processes c).priority ≤
        (getP s.all_processes c).time_in_current_quantum) :
    (getP (finish_tick s c).all_processes c).time_in_current_quantum = 0 ∧
    (getP (finish_tick s c).all_processes c).time_in_queue = 0 ∧
    (getP (finish_tick s c).all_processes c).priority =
      (if (getP s.all_processes c).priority + 1 < s.config.num_queues
        then (getP s.all_processes c).priority + 1 else (getP s.all_processes c).priority) ∧
    (∃ front, qget (finish_tick s c).queues (getP (finish_tick s c).all_processes c).priority =
      front ++ [c]) ∧
    (finish_tick s c).currently_running = none := by
  have hlev : (if (getP s.all_processes c).priority + 1 < s.config.num_queues
      then (getP s.all_processes c).priority + 1 else (getP s.all_processes c).priority) <
      s.queues.length := by
    split <;> omega
  rw [finish_tick_expire s c h0 hq]
  dsimp only
  rw [getP_setP_self _ _ _ hc]
  refine ⟨rfl, rfl, rfl, ⟨qget s.queues (if (getP s.all_processes c).priority + 1 <
    s.config.num_queues then (getP s.all_processes c).priority + 1
    else (getP s.all_processes c).priority), ?_⟩, rfl⟩
  dsimp only
  rw [qget_qset]
  simp only [hlev, and_self, if_true]

end MLFQ_Scheduler

namespace MLFQ_Scheduler

theorem execute_counter {P : List Process} {cfg : Config} (u : MLFQ_Scheduler) (c2 c : Nat)
    (hw : WF P cfg (u.current_time + 1) u) (hrun : u.currently_running = some c2)
    (hcap : cfg.num_queues ≤ QUEUE_SLOTS)
    (hpos : 0 < (getP (execute u c2).all_processes c).remaining) :
    ((getP (execute u c2).all_processes c).remaining = (getP u.all_processes c).remaining ∧
      (getP (execute u c2).all_processes c).time_in_current_quantum =
        (getP u.all_processes c).time_in_current_quantum ∧
      (getP (execute u c2).all_processes c).priority = (getP u.all_processes c).priority) ∨
    ((getP (execute u c2).all_processes c).remaining = (getP u.all_processes c).remaining - 1 ∧
      ((¬ (0 < cfg.quantum (getP u.all_processes c).priority ∧
            cfg.quantum (getP u.all_processes c).priority ≤
              (getP u.all_processes c).time_in_current_quantum + 1) ∧
          (getP (execute u c2).all_processes c).time_in_current_quantum =
            (getP u.all_processes c).time_in_current_quantum + 1 ∧
          (getP (execute u c2).all_processes c).priority = (getP u.all_processes c).priority ∧
          (execute u c2).currently_running = some c) ∨
        ((0 < cfg.quantum (getP u.all_processes c).priority ∧
            cfg.quantum (getP u.all_processes c).priority ≤
              (getP u.all_processes c).time_in_current_quantum + 1) ∧
          (getP (execute u c2).all_processes c).time_in_current_quantum = 0 ∧
          (getP (execute u c2).all_processes c).priority =
            (if (getP u.all_processes c).priority + 1 < cfg.num_queues
              then (getP u.all_processes c).priority + 1
              else (getP u.all_processes c).priority) ∧
          (∃ front, qget (execute u c2).queues
            (getP (execute u c2).all_processes c).priority = front ++ [c]) ∧
          (execute u c2).currently_running = none))) := by
  have hcl : c2 < u.all_processes.length := by
    rw [hw.inv.len]; exact (hw.inv.active_lt c2 (Or.inr hrun)).1
  obtain ⟨b1, b2, b3, _, _, _, b7, b8, b9⟩ := before_check_spec u c2
  rw [execute_eq] at hpos ⊢
  by_cases hc : c = c2
  · subst hc
    right
    have hs := sched_fields (b9 hcl)
    have hco := core_fields hs.1
    have hrem : (getP (before_check u c).all_processes c).remaining =
        (getP u.all_processes c).remaining - 1 := hco.2.2.2.1
    have htic : (getP (before_check u c).all_processes c).time_in_current_quantum =
        (getP u.all_processes c).time_in_current_quantum + 1 := hs.2.2
    have hpri : (getP (before_check u c).all_processes c).priority =
        (getP u.all_processes c).priority := hs.2.1
    have hcfg : (before_check u c).config = cfg := b3.trans hw.inv.config
    rw [finish_tick_remaining] at hpos ⊢
    refine ⟨hrem, ?_⟩
    have h0 : (getP (before_check u c).all_processes c).remaining ≠ 0 := by omega
    by_cases hq : 0 < (before_check u c).config.quantum
          (getP (before_check u c).all_processes c).priority ∧
        (before_check u c).config.quantum (getP (before_check u c).all_processes c).priority ≤
          (getP (before_check u c).all_processes c).time_in_current_quantum
    · right
      obtain ⟨e1, _, e3, e4, e5⟩ := finish_tick_expired (before_check u c) c
        (by rw [b7]; exact hcl)
        (by rw [hcfg, b1, hw.inv.qlen]; exact hcap)
        (by rw [hpri, hcfg]; exact hw.inv.prio c) h0 hq
      rw [hcfg, hpri, htic] at hq
      rw [hcfg, hpri] at e3
      exact ⟨hq, e1, e3, e4, e5⟩
    · left
      rw [finish_tick_stay _ c h0 hq]
      rw [hcfg, hpri, htic] at hq
      exact ⟨hq, htic, hpri, b2.trans hrun⟩
  · left
    have hs := sched_fields (b8 c hc)
    have hco := core_fields hs.1
    rw [finish_tick_others _ c2 c hc]
    exact ⟨hco.2.2.2.1, hs.2.2, hs.2.1⟩

theorem pass_counter (procs : List Process) (cfg : Config) (hin : ValidInput procs)
    (hcfg : ValidConfig cfg) (t u : MLFQ_Scheduler) (c : Nat)
    (h : Reaches (init procs cfg) t) (hlt : t.completed < (t.all_processes.length : Int))
    (hst : t.step = Outcome.next u)
    (hquiet : (getP t.add_arrivals.housekeeping.all_processes c).priority =
      (getP t.all_processes c).priority)
    (hpos : 0 < (getP u.all_processes c).remaining) :
    ((getP u.all_processes c).remaining = (getP t.all_processes c).remaining ∧
      (getP u.all_processes c).time_in_current_quantum =
        (getP t.all_processes c).time_in_current_quantum ∧
      (getP u.all_processes c).priority = (getP t.all_processes c).priority) ∨
    ((getP u.all_processes c).remaining = (getP t.all_processes c).remaining - 1 ∧
      ((¬ (0 < cfg.quantum (getP t.all_processes c).priority ∧
            cfg.quantum (getP t.all_processes c).priority ≤
              (getP t.all_processes c).time_in_current_quantum + 1) ∧
          (getP u.all_processes c).time_in_current_quantum =
            (getP t.all_processes c).time_in_current_quantum + 1 ∧
          (getP u.all_processes c).priority = (getP t.all_processes c).priority ∧
          u.currently_running = some c) ∨
        ((0 < cfg.quantum (getP t.all_processes c).priority ∧
            cfg.quantum (getP t.all_processes c).priority ≤
              (getP t.all_processes c).time_in_current_quantum + 1) ∧
          (getP u.all_processes c).time_in_current_quantum = 0 ∧
          (getP u.all_processes c).priority =
            (if (getP t.all_processes c).priority + 1 < cfg.num_queues
              then (getP t.all_processes c).priority + 1
              else (getP t.all_processes c).priority) ∧
          (∃ front, qget u.queues (getP u.all_processes c).priority = front ++ [c]) ∧
          u.currently_running = none))) := by
  obtain ⟨_, _, _, _, w5, l3, l4, e5, _, hstep, hlt5, _, _, _, hburst, _⟩ :=
    pass_setup procs cfg hin hcfg t h hlt
  have hcap := hcfg.2.1
  have hrec : getP t.add_arrivals.housekeeping.all_processes c = getP t.all_processes c := by
    apply lower_eq_of_priority _ hquiet
    rw [e5]
    exact lower_trans (l3.2 c) (l4.2 c)
  rw [hst] at hstep
  rcases pass_cases _ w5 hburst hcap hlt5 with ⟨c2, hc, _, hr⟩ |
      ⟨_, a, c2, rest, _, _, _, hr, hwt⟩ | ⟨_, _, _, hr⟩
  · rw [hr] at hstep
    cases hstep
    have := execute_counter _ c2 c w5 hc hcap hpos
    rw [hrec] at this
    exact this
  · rw [hr] at hstep
    cases hstep
    have := execute_counter (take _ a c2 rest) c2 c hwt rfl hcap hpos
    obtain ⟨k1, k2, _, k4⟩ := take_counters t.add_arrivals.housekeeping a c2 rest c
    rw [k1, k2, k4, hrec] at this
    exact this
  · rw [hr] at hstep
    cases hstep
    left
    dsimp only
    rw [hrec]
    exact ⟨rfl, rfl, rfl⟩

end MLFQ_Scheduler

namespace MLFQ_Scheduler

theorem preempt_check_all_processes (s : MLFQ_Scheduler) :
    s.preempt_check.all_processes = s.all_processes := by
  rcases Option.eq_none_or_eq_some s.currently_running with hrun | ⟨c, hrun⟩
  · rw [preempt_check_stays s (fun c3 h3 => by rw [hrun] at h3; cases h3)]
  · by_cases hpos : 0 < (getP s.all_processes c).remaining
    · cases hp : s.should_preempt (getP s.all_processes c).priority with
      | true => rw [preempt_check_preempts s c hrun hpos hp]
      | false =>
        rw [preempt_check_stays s (fun c3 h3 _ => by
          rw [hrun] at h3
          cases h3
          exact hp)]
    · rw [preempt_check_stays s (fun c3 h3 h4 => by
        rw [hrun] at h3
        cases h3
        exact absurd h4 hpos)]

theorem dispatch_take (s : MLFQ_Scheduler) (a c : Nat) (rest : List Nat)
    (hq : s.get_highest_priority_queue = some a) (he : qget s.queues a = c :: rest) :
    s.dispatch = Outcome.next (execute (s.take a c rest) c) := by
  simp only [dispatch, hq, he]
  rfl

theorem quietRun_inv (procs : List Process) (cfg : Config) (hin : ValidInput procs)
    (hcfg : ValidConfig cfg) (s : MLFQ_Scheduler) (h : Reaches (init procs cfg) s)
    (c : Nat) (t : MLFQ_Scheduler) (hr : QuietRun c s t) :
    Reaches (init procs cfg) t ∧
    (getP t.all_processes c).remaining ≤ (getP s.all_processes c).remaining ∧
    (¬ (0 < cfg.quantum (getP s.all_processes c).priority ∧
        cfg.quantum (getP s.all_processes c).priority ≤
          (getP s.all_processes c).time_in_current_quantum +
            ((getP s.all_processes c).remaining - (getP t.all_processes c).remaining)) →
      (getP t.all_processes c).time_in_current_quantum =
        (getP s.all_processes c).time_in_current_quantum +
          ((getP s.all_processes c).remaining - (getP t.all_processes c).remaining) ∧
      (getP t.all_processes c).priority = (getP s.all_processes c).priority) := by
  induction hr with
  | start => exact ⟨h, le_refl _, fun _ => ⟨by omega, rfl⟩⟩
  | tick t u _ hlt hst hquiet hpos ih =>
    obtain ⟨hrt, hle, hinv⟩ := ih
    refine ⟨Reaches.tick t u hrt hlt hst, ?_, ?_⟩
    · rcases pass_counter procs cfg hin hcfg t u c hrt hlt hst hquiet hpos with
        ⟨k1, _, _⟩ | ⟨k1, _⟩ <;> omega
    · intro hne
      rcases pass_counter procs cfg hin hcfg t u c hrt hlt hst hquiet hpos with
        ⟨k1, k2, k3⟩ | ⟨k1, ⟨_, k2, k3, _⟩ | ⟨kq, _⟩⟩
      · rw [k1] at hne ⊢
        obtain ⟨i1, i2⟩ := hinv hne
        exact ⟨by rw [k2, i1], by rw [k3, i2]⟩
      · have hnt : ¬ (0 < cfg.quantum (getP s.all_processes c).priority ∧
            cfg.quantum (getP s.all_processes c).priority ≤
              (getP s.all_processes c).time_in_current_quantum +
                ((getP s.all_processes c).remaining - (getP t.all_processes c).remaining)) := by
          intro hq
          apply hne
          rw [k1]
          exact ⟨hq.1, by omega⟩
        obtain ⟨i1, i2⟩ := hinv hnt
        exact ⟨by rw [k2, i1, k1]; omega, by rw [k3, i2]⟩
      · exfalso
        have hnt : ¬ (0 < cfg.quantum (getP s.all_processes c).priority ∧
            cfg.quantum (getP s.all_processes c).priority ≤
              (getP s.all_processes c).time_in_current_quantum +
                ((getP s.all_processes c).remaining - (getP t.all_processes c).remaining)) := by
          intro hq
          apply hne
          rw [k1]
          exact ⟨hq.1, by omega⟩
        obtain ⟨i1, i2⟩ := hinv hnt
        apply hne
        rw [i2, i1] at kq
        rw [k1]
        exact ⟨kq.1, by omega⟩

end MLFQ_Scheduler

/-- C15: the preemption check writes no record, so the record it preempts
keeps its quantum counter, level, remaining time and aging counter, and it
puts that record at the front of the queue of its level; the dispatch block
writes only `started` and `start_time`, so it resets no quantum counter. In a
run on a valid input and configuration, over passes in which neither aging
sweep nor boost moves the record `c` and `c` stays unfinished, the quantum
counter of `c` is its value at the start plus the units `c` executed since
(whether or not `c` was preempted and dispatched again in between) and its
level is unchanged, as long as that sum stays below `time_quantum[level]` or
that quantum is `0`; and in the pass in which the sum reaches
`time_quantum[level] > 0`, that is after `time_quantum[level] - k` executed
units for a start value `k`, the record executes, its counter is reset, its
level is incremented unless it is the lowest, and it is appended to the queue
of its new level. -/
theorem mlfq_quantum_continuity :
    (∀ s : MLFQ_Scheduler, s.preempt_check.all_processes = s.all_processes) ∧
    (∀ (s : MLFQ_Scheduler) (c : Nat), s.currently_running = some c →
      0 < (getP s.all_processes c).remaining →
      (getP s.all_processes c).priority < s.queues.length →
      (∃ q, q < (getP s.all_processes c).priority ∧ qget s.queues q ≠ []) →
      qget s.preempt_check.queues (getP s.all_processes c).priority =
        c :: qget s.queues (getP s.all_processes c).priority ∧
      s.preempt_check.currently_running = none) ∧
    (∀ (s : MLFQ_Scheduler) (a c : Nat) (rest : List Nat),
      s.get_highest_priority_queue = some a → qget s.queues a = c :: rest →
      s.dispatch = MLFQ_Scheduler.Outcome.next (MLFQ_Scheduler.execute (s.take a c rest) c) ∧
      ∀ i, (getP (s.take a c rest).all_processes i).priority =
          (getP s.all_processes i).priority ∧
        (getP (s.take a c rest).all_processes i).time_in_current_quantum =
          (getP s.all_processes i).time_in_current_quantum ∧
        (getP (s.take a c rest).all_processes i).time_in_queue =
          (getP s.all_processes i).time_in_queue ∧
        (getP (s.take a c rest).all_processes i).remaining =
          (getP s.all_processes i).remaining) ∧
    (∀ (procs : List Process) (cfg : Config), ValidInput procs → ValidConfig cfg →
      ∀ s, Reaches (MLFQ_Scheduler.init procs cfg) s → ∀ c t, QuietRun c s t →
      (¬ (0 < cfg.quantum (getP s.all_processes c).priority ∧
          cfg.quantum (getP s.all_processes c).priority ≤
            (getP s.all_processes c).time_in_current_quantum +
              ((getP s.all_processes c).remaining - (getP t.all_processes c).remaining)) →
        (getP t.all_processes c).time_in_current_quantum =
          (getP s.all_processes c).time_in_current_quantum +
            ((getP s.all_processes c).remaining - (getP t.all_processes c).remaining) ∧
        (getP t.all_processes c).priority = (getP s.all_processes c).priority) ∧
      (∀ u, t.completed < (t.all_processes.length : Int) →
        t.step = MLFQ_Scheduler.Outcome.next u →
        (getP t.add_arrivals.housekeeping.all_processes c).priority =
          (getP t.all_processes c).priority →
        0 < (getP u.all_processes c).remaining →
        ¬ (0 < cfg.quantum (getP s.all_processes c).priority ∧
          cfg.quantum (getP s.all_processes c).priority ≤
            (getP s.all_processes c).time_in_current_quantum +
              ((getP s.all_processes c).remaining - (getP t.all_processes c).remaining)) →
        (0 < cfg.quantum (getP s.all_processes c).priority ∧
          cfg.quantum (getP s.all_processes c).priority ≤
            (getP s.all_processes c).time_in_current_quantum +
              ((getP s.all_processes c).remaining - (getP u.all_processes c).remaining)) →
        (getP u.all_processes c).remaining = (getP t.all_processes c).remaining - 1 ∧
        (getP s.all_processes c).time_in_current_quantum +
          ((getP s.all_processes c).remaining - (getP u.all_processes c).remaining) =
          cfg.quantum (getP s.all_processes c).priority ∧
        (getP u.all_processes c).time_in_current_quantum = 0 ∧
        (getP u.all_processes c).priority =
          (if (getP s.all_processes c).priority + 1 < cfg.num_queues
            then (getP s.all_processes c).priority + 1
            else (getP s.all_processes c).priority) ∧
        (∃ front, qget u.queues (getP u.all_processes c).priority = front ++ [c]) ∧
        u.currently_running = none)) := by
  refine ⟨MLFQ_Scheduler.preempt_check_all_processes, ?_, ?_, ?_⟩
  · intro s c hc hpos hlen hq
    rw [MLFQ_Scheduler.preempt_check_preempts s c hc hpos
      ((MLFQ_Scheduler.should_preempt_iff _ _).2 hq)]
    refine ⟨?_, rfl⟩
    dsimp only
    rw [qget_qset]
    simp only [hlen, and_self, if_true]
  · intro s a c rest hq he
    exact ⟨MLFQ_Scheduler.dispatch_take s a c rest hq he,
      MLFQ_Scheduler.take_counters s a c rest⟩
  · intro procs cfg hin hcfg s h c t hr
    obtain ⟨hrt, _, hinv⟩ := MLFQ_Scheduler.quietRun_inv procs cfg hin hcfg s h c t hr
    refine ⟨hinv, fun u hlt hst hquiet hpos hnt hex => ?_⟩
    obtain ⟨i1, i2⟩ := hinv hnt
    rcases MLFQ_Scheduler.pass_counter procs cfg hin hcfg t u c hrt hlt hst hquiet hpos with
      ⟨k1, _, _⟩ | ⟨k1, ⟨kn, _⟩ | ⟨kq, k2, k3, k4, k5⟩⟩
    · exfalso
      rw [k1] at hex
      exact hnt hex
    · exfalso
      apply kn
      rw [i2, i1]
      rw [k1] at hex
      exact ⟨hex.1, by omega⟩
    · rw [i2] at k3 kq
      rw [i1] at kq
      refine ⟨k1, ?_, k2, k3, k4, k5⟩
      have : ¬ cfg.quantum (getP s.all_processes c).priority ≤
          (getP s.all_processes c).time_in_current_quantum +
            ((getP s.all_processes c).remaining - (getP t.all_processes c).remaining) :=
        fun hle => hnt ⟨hex.1, hle⟩
      rw [k1]
      omega

set_option maxRecDepth 100000 in
/-- Witness of `mlfq_quantum_continuity`: in the run on `P1(0, 10)`,
`P2(3, 1)` with three levels and quanta 2, 3, 0, `P1` is preempted in pass 3
at level 1 with one unit of its quantum used; at the head of pass 4 it waits
with that counter, pass 4 dispatches it again and pass 5 is its second unit
since: its counter reaches the quantum 3 and it is demoted to level 2. -/
theorem mlfq_quantum_continuity_witness :
    ValidInput preempt_procs ∧ ValidConfig threeLevels ∧
    Reaches (MLFQ_Scheduler.init preempt_procs threeLevels) (preempt_state 4) ∧
    QuietRun 0 (preempt_state 4) (preempt_state 5) ∧
    (getP (preempt_state 4).all_processes 0).time_in_current_quantum = 1 ∧
    qget (preempt_state 4).queues 1 = [0] ∧
    (getP (preempt_state 5).all_processes 0).time_in_current_quantum = 2 ∧
    (getP (preempt_state 6).all_processes 0).time_in_current_quantum = 0 ∧
    (getP (preempt_state 6).all_processes 0).priority =
      (if (getP (preempt_state 4).all_processes 0).priority + 1 < threeLevels.num_queues
        then (getP (preempt_state 4).all_processes 0).priority + 1
        else (getP (preempt_state 4).all_processes 0).priority) :=
  have hq : QuietRun 0 (preempt_state 4) (preempt_state 5) :=
    QuietRun.tick (preempt_state 4) (preempt_state 5) QuietRun.start (by decide!) (by decide!)
      (by decide!) (by decide!)
  have h := (mlfq_quantum_continuity.2.2.2 preempt_procs threeLevels validInput_preempt
    validConfig_threeLevels (preempt_state 4) (preempt_reaches 4 (by decide)) 0
    (preempt_state 5) hq).2 (preempt_state 6) (by decide!) (by decide!) (by decide!) (by decide!)
    (by decide!) (by decide!)
  ⟨validInput_preempt, validConfig_threeLevels, preempt_reaches 4 (by decide), hq, by decide!,
    by decide!, by decide!, h.2.2.1, h.2.2.2.1⟩

/-! ## Order of arrival, start and completion -/

namespace MLFQ_Scheduler

theorem oinv_tick {s t : MLFQ_Scheduler} (hs : OInv s)
    (h : IdleTick s t ∨ ∃ c, BusyTick s t c) : OInv t := by
  rcases h with h | ⟨c, h⟩
  · have hl := h.core.1
    have hct := h.current_time
    refine ⟨fun i hi hst => ?_, fun i hi hst => ?_, fun i hi hst h0 => ?_⟩ <;>
      obtain ⟨_, e2, e3, e4, e5, e6, e7⟩ := core_fields (h.core.2 i)
    · rw [e4, e3]
      exact hs.unstarted i (hl ▸ hi) (by rw [← e7]; exact hst)
    · have := hs.started i (hl ▸ hi) (by rw [← e7]; exact hst)
      rw [e2, e3, e4, e5, hct]
      omega
    · rw [e3, e5, e6]
      exact hs.finished i (hl ▸ hi) (by rw [← e7]; exact hst) (by rw [← e4]; exact h0)
  · have hl := h.len
    have hct := h.current_time
    have key : (getP t.all_processes c).arrival ≤ (getP t.all_processes c).start_time ∧
        (getP t.all_processes c).start_time +
          ((getP t.all_processes c).burst - (getP t.all_processes c).remaining) ≤
          t.current_time := by
      rw [h.arrival, h.burst, h.remaining, h.start_time, hct]
      by_cases hst : (getP s.all_processes c).started = true
      · have := hs.started c h.lt hst
        rw [if_pos hst]
        omega
      · have hf : (getP s.all_processes c).started = false := by simpa using hst
        have := hs.unstarted c h.lt hf
        have := h.arrived
        rw [if_neg hst]
        omega
    refine ⟨fun i hi hst => ?_, fun i hi hst => ?_, fun i hi hst h0 => ?_⟩
    · by_cases hic : i = c
      · subst hic
        rw [h.started] at hst
        cases hst
      · obtain ⟨_, _, e3, e4, _, _, e7⟩ := core_fields (h.others i hic)
        rw [e4, e3]
        exact hs.unstarted i (hl ▸ hi) (by rw [← e7]; exact hst)
    · by_cases hic : i = c
      · subst hic
        exact key
      · obtain ⟨_, e2, e3, e4, e5, _, e7⟩ := core_fields (h.others i hic)
        have := hs.started i (hl ▸ hi) (by rw [← e7]; exact hst)
        rw [e2, e3, e4, e5, hct]
        omega
    · by_cases hic : i = c
      · subst hic
        have hr := h.remaining
        rw [h0] at hr
        have h1 : (getP s.all_processes i).remaining = 1 := by omega
        have hc := h.completion
        rw [if_pos h1] at hc
        rw [hc, ← hct]
        have := key.2
        rw [h0] at this
        omega
      · obtain ⟨_, _, e3, e4, e5, e6, e7⟩ := core_fields (h.others i hic)
        rw [e3, e5, e6]
        exact hs.finished i (hl ▸ hi) (by rw [← e7]; exact hst) (by rw [← e4]; exact h0)

theorem oinv_init (procs : List Process) (cfg : Config) : OInv (init procs cfg) := by
  have hst : ∀ i, (getP (init procs cfg).all_processes i).started = false ∧
      (getP (init procs cfg).all_processes i).remaining =
        (getP (init procs cfg).all_processes i).burst := by
    intro i
    have e : (init procs cfg).all_processes = procs.map Process.copy := rfl
    rw [e, getP_map_copy]
    split <;> exact ⟨rfl, rfl⟩
  refine ⟨fun i _ _ => (hst i).2, fun i _ h => ?_, fun i _ h => ?_⟩
  · rw [(hst i).1] at h
    cases h
  · rw [(hst i).1] at h
    cases h

theorem pass_ticks (procs : List Process) (cfg : Config) (hin : ValidInput procs)
    (hnq : 1 ≤ cfg.num_queues) (hcap : cfg.num_queues ≤ QUEUE_SLOTS)
    (s t : MLFQ_Scheduler) (h : Reaches (init procs cfg) s)
    (hlt : s.completed < (s.all_processes.length : Int)) (hst : s.step = Outcome.next t) :
    IdleTick s t ∨ ∃ c, BusyTick s t c := by
  have hburst : ∀ i, i < (procs.map Process.copy).length →
      1 ≤ (getP (procs.map Process.copy) i).burst := by
    intro i hi
    rw [List.length_map] at hi
    rw [getP_map_copy, if_pos hi]
    exact (validInput_getP hin i hi).2
  obtain ⟨u, h1, _, h3⟩ := step_spec s (reaches_inv procs cfg hin hnq hcap s h).1 hnq hcap
    hburst hlt
  rw [hst] at h1
  cases h1
  exact h3

theorem reaches_oinv (procs : List Process) (cfg : Config) (hin : ValidInput procs)
    (hnq : 1 ≤ cfg.num_queues) (hcap : cfg.num_queues ≤ QUEUE_SLOTS)
    (s : MLFQ_Scheduler) (h : Reaches (init procs cfg) s) : OInv s := by
  induction h with
  | start => exact oinv_init procs cfg
  | tick s t hr hlt hst ih =>
    exact oinv_tick ih (pass_ticks procs cfg hin hnq hcap s t hr hlt hst)

theorem idleInv_tick {s t : MLFQ_Scheduler} (hs : IdleInv s) (ht : TInv s)
    (h : IdleTick s t ∨ ∃ c, BusyTick s t c) : IdleInv t := by
  have hlen := timeline_length ht
  rcases h with h | ⟨c, h⟩
  · have hl := h.core.1
    have htl : t.timeline = s.timeline ++ [IDLE] := by
      unfold timeline
      rw [h.timeline_pid, h.timeline_queue, List.zip_append ht.tl_queue.symm]
      rfl
    have hco := fun i => core_fields (h.core.2 i)
    intro k hk
    rw [htl] at hk
    by_cases hkl : k < s.timeline.length
    · rw [List.getElem?_append_left hkl] at hk
      obtain ⟨⟨i, hi, ha⟩, hall⟩ := hs k hk
      refine ⟨⟨i, hl ▸ hi, by rw [(hco i).2.1]; exact ha⟩, fun j hj hja => ?_⟩
      rw [(hco j).2.1] at hja
      rw [(hco j).2.2.2.1, (hco j).2.2.2.2.2.1]
      exact hall j (hl ▸ hj) hja
    · have hk2 : k = s.timeline.length := by
        have := (List.getElem?_eq_some_iff.1 hk).1
        simp only [List.length_append, List.length_singleton] at this
        omega
      have hkt : (k : Int) = s.current_time := by rw [hk2]; exact hlen
      obtain ⟨i, hi, ha⟩ := h.future
      refine ⟨⟨i, hl ▸ hi, by rw [(hco i).2.1, hkt]; exact ha⟩, fun j hj hja => ?_⟩
      rw [(hco j).2.1, hkt] at hja
      have h0 := h.idle j (hl ▸ hj) hja
      rw [(hco j).2.2.2.1, (hco j).2.2.2.2.2.1, hkt]
      exact ⟨h0, (ht.completion_le j (hl ▸ hj) h0).2⟩
  · have hl := h.len
    obtain ⟨level, _, hq⟩ := h.timeline_queue
    have htl : t.timeline = s.timeline ++ [((getP s.all_processes c).pid, (level : Int))] := by
      unfold timeline
      rw [h.timeline_pid, hq, List.zip_append ht.tl_queue.symm]
      rfl
    intro k hk
    rw [htl] at hk
    by_cases hkl : k < s.timeline.length
    · rw [List.getElem?_append_left hkl] at hk
      obtain ⟨⟨i, hi, ha⟩, hall⟩ := hs k hk
      have harr : ∀ j, (getP t.all_processes j).arrival = (getP s.all_processes j).arrival := by
        intro j
        by_cases hjc : j = c
        · subst hjc
          exact h.arrival
        · exact (core_fields (h.others j hjc)).2.1
      refine ⟨⟨i, hl ▸ hi, by rw [harr i]; exact ha⟩, fun j hj hja => ?_⟩
      rw [harr j] at hja
      have hj0 := hall j (hl ▸ hj) hja
      have hjc : j ≠ c := by
        rintro rfl
        have := h.pos
        omega
      obtain ⟨_, _, _, e4, _, e6, _⟩ := core_fields (h.others j hjc)
      rw [e4, e6]
      exact hj0
    · exfalso
      have hk2 : k = s.timeline.length := by
        have := (List.getElem?_eq_some_iff.1 hk).1
        simp only [List.length_append, List.length_singleton] at this
        omega
      subst hk2
      rw [List.getElem?_append_right (le_refl _)] at hk
      simp only [Nat.sub_self, List.getElem?_cons_zero, Option.some.injEq] at hk
      exact level_unit_ne_idle _ _ hk

theorem reaches_idleInv (procs : List Process) (cfg : Config) (hin : ValidInput procs)
    (hnq : 1 ≤ cfg.num_queues) (hcap : cfg.num_queues ≤ QUEUE_SLOTS)
    (s : MLFQ_Scheduler) (h : Reaches (init procs cfg) s) : IdleInv s := by
  induction h with
  | start =>
    intro k hk
    simp [init, timeline] at hk
  | tick s t hr hlt hst ih =>
    exact idleInv_tick ih (reaches_inv procs cfg hin hnq hcap s hr).2
      (pass_ticks procs cfg hin hnq hcap s t hr hlt hst)

end MLFQ_Scheduler

/-- C24: after the run on a valid input, when the timeline unit at the time
`t` is the idle sentinel, some record has `arrival > t` and every record with
`arrival <= t` has `completion <= t`. In a pass of the run, the idle sentinel
is recorded exactly when, at the dispatch block, the running slot is empty and
no queue has an entry; then some record arrives after the clock of the pass
and every record that has arrived is finished. -/
theorem mlfq_work_conserving (procs : List Process) (cfg : Config) (hin : ValidInput procs)
    (hcfg : ValidConfig cfg) :
    (∀ fuel, MLFQ_Scheduler.budget procs ≤ fuel →
      ∃ s, MLFQ_Scheduler.run fuel (MLFQ_Scheduler.init procs cfg) =
          MLFQ_Scheduler.RunResult.done s false ∧
        ∀ t : Nat, s.timeline[t]? = some IDLE →
          (∃ p ∈ s.all_processes, (t : Int) < p.arrival) ∧
          ∀ p ∈ s.all_processes, p.arrival ≤ (t : Int) → p.completion ≤ (t : Int)) ∧
    (∀ s u, Reaches (MLFQ_Scheduler.init procs cfg) s →
      s.completed < (s.all_processes.length : Int) →
      s.step = MLFQ_Scheduler.Outcome.next u →
      (u.timeline_queue = s.timeline_queue ++ [-1] ↔
        s.add_arrivals.housekeeping.currently_running = none ∧
        ∀ i, ¬ s.add_arrivals.housekeeping.waiting i) ∧
      (u.timeline_queue = s.timeline_queue ++ [-1] →
        u.timeline = s.timeline ++ [IDLE] ∧
        (∃ i, i < s.all_processes.length ∧ s.current_time < (getP s.all_processes i).arrival) ∧
        ∀ i, i < s.all_processes.length → (getP s.all_processes i).arrival ≤ s.current_time →
          (getP s.all_processes i).remaining = 0)) := by
  constructor
  · intro fuel hfuel
    obtain ⟨s, r1, r2, _, _, _⟩ := MLFQ_Scheduler.run_reaches procs cfg hin hcfg fuel hfuel
    have hI := MLFQ_Scheduler.reaches_idleInv procs cfg hin hcfg.1 hcfg.2.1 s r2
    refine ⟨s, r1, fun t ht => ?_⟩
    obtain ⟨⟨i, hi, ha⟩, hall⟩ := hI t ht
    refine ⟨⟨_, List.getElem_mem hi, by rw [← getP_eq_getElem _ i hi]; exact ha⟩,
      fun p hp hpa => ?_⟩
    obtain ⟨j, hj, rfl⟩ := List.getElem_of_mem hp
    rw [← getP_eq_getElem _ j hj] at hpa ⊢
    exact (hall j hj hpa).2
  · intro s u h hlt hst
    obtain ⟨_, _, _, _, w5, _, _, _, _, hstep, hlt5, _, _, tq, hburst, _⟩ :=
      MLFQ_Scheduler.pass_setup procs cfg hin hcfg s h hlt
    have ht := (MLFQ_Scheduler.reaches_inv procs cfg hin hcfg.1 hcfg.2.1 s h).2
    have hne : ∀ (l : List Int) (level : Nat), l ++ [(level : Int)] ≠ l ++ [-1] := by
      intro l level he
      have := List.append_cancel_left he
      simp only [List.cons.injEq, and_true] at this
      omega
    rw [hst] at hstep
    have hiff : u.timeline_queue = s.timeline_queue ++ [-1] ↔
        s.add_arrivals.housekeeping.currently_running = none ∧
        ∀ i, ¬ s.add_arrivals.housekeeping.waiting i := by
      rcases MLFQ_Scheduler.pass_cases _ w5 hburst hcfg.2.1 hlt5 with ⟨c, hc, _, hr⟩ |
          ⟨_, a, c, rest, hq, he, _, hr, _⟩ | ⟨hrun, hq, _, hr⟩
      · rw [hr] at hstep
        cases hstep
        rw [(MLFQ_Scheduler.execute_timeline _ c).2, tq]
        constructor
        · intro e
          exact absurd e (hne _ _)
        · rintro ⟨e, _⟩
          rw [hc] at e
          cases e
      · rw [hr] at hstep
        cases hstep
        rw [(MLFQ_Scheduler.execute_timeline _ c).2]
        have e2 : (MLFQ_Scheduler.take s.add_arrivals.housekeeping a c rest).timeline_queue =
            s.timeline_queue := tq
        rw [e2]
        constructor
        · intro e
          exact absurd e (hne _ _)
        · rintro ⟨_, e⟩
          exfalso
          apply e c
          refine ⟨a, (MLFQ_Scheduler.get_highest_some _ a hq).1, ?_⟩
          rw [he]
          exact List.mem_cons_self _ _
      · rw [hr] at hstep
        cases hstep
        dsimp only
        rw [tq]
        exact ⟨fun _ => ⟨hrun, MLFQ_Scheduler.get_highest_none _ hq⟩, fun _ => rfl⟩
    refine ⟨hiff, fun e => ?_⟩
    rcases MLFQ_Scheduler.pass_ticks procs cfg hin hcfg.1 hcfg.2.1 s u h hlt hst with hi | ⟨c, hb⟩
    · refine ⟨?_, hi.future, hi.idle⟩
      unfold MLFQ_Scheduler.timeline
      rw [hi.timeline_pid, hi.timeline_queue, List.zip_append ht.tl_queue.symm]
      rfl
    · obtain ⟨level, _, hq⟩ := hb.timeline_queue
      rw [hq] at e
      exact absurd e (hne _ _)

set_option maxRecDepth 100000 in
/-- Witness of `mlfq_work_conserving`: the run on `P1(0, 1)`, `P2(3, 1)` with
the configuration of Scenario C, whose timeline has the idle units 1 and 2. -/
theorem mlfq_work_conserving_witness :
    ValidInput gap_procs ∧ ValidConfig (scenarioC 3 50) ∧
    MLFQ_Scheduler.budget gap_procs ≤ 5 ∧
    (MLFQ_Scheduler.after 4 (MLFQ_Scheduler.init gap_procs (scenarioC 3 50))).timeline =
      [(1, 0), IDLE, IDLE, (2, 0)] ∧
    ∃ s, MLFQ_Scheduler.run 5 (MLFQ_Scheduler.init gap_procs (scenarioC 3 50)) =
        MLFQ_Scheduler.RunResult.done s false ∧
      ∀ t : Nat, s.timeline[t]? = some IDLE →
        (∃ p ∈ s.all_processes, (t : Int) < p.arrival) ∧
        ∀ p ∈ s.all_processes, p.arrival ≤ (t : Int) → p.completion ≤ (t : Int) :=
  have h1 : ValidInput gap_procs := by simp [ValidInput, gap_procs, Process.new]
  have h2 : ValidConfig (scenarioC 3 50) := validConfig_scenarioC 3 50 (by decide) (by decide)
  ⟨h1, h2, by decide, by decide!,
    (mlfq_work_conserving gap_procs (scenarioC 3 50) h1 h2).1 5 (by decide)⟩

/-! ## The quantum bound -/

theorem quantumBound_lowers {cfg : Config} {a b : List Process} (h : QuantumBound cfg a)
    (hl : Lowers a b) : QuantumBound cfg b := by
  intro i hpos hq
  rcases hl.2 i with e | ⟨_, e2, _⟩
  · rw [e] at hpos hq ⊢
    exact h i hpos hq
  · rw [e2]
    exact hq

namespace MLFQ_Scheduler

theorem quantumBound_execute {P : List Process} {cfg : Config} (w : MLFQ_Scheduler) (c : Nat)
    (hw : WF P cfg (w.current_time + 1) w) (hrun : w.currently_running = some c)
    (hcap : cfg.num_queues ≤ QUEUE_SLOTS) (h : QuantumBound cfg w.all_processes) :
    QuantumBound cfg (execute w c).all_processes := by
  intro i hpos hq
  rcases execute_counter w c i hw hrun hcap hpos with ⟨k1, k2, k3⟩ | ⟨_, ⟨kn, k2, k3, _⟩ |
      ⟨_, k2, _⟩⟩
  · rw [k1] at hpos
    rw [k3] at hq
    rw [k2, k3]
    exact h i hpos hq
  · rw [k3] at hq ⊢
    rw [k2]
    by_contra hlt
    exact kn ⟨hq, by omega⟩
  · rw [k2]
    exact hq

theorem quantumBound_pass (procs : List Process) (cfg : Config) (hin : ValidInput procs)
    (hcfg : ValidConfig cfg) (s u : MLFQ_Scheduler) (h : Reaches (init procs cfg) s)
    (hlt : s.completed < (s.all_processes.length : Int)) (hst : s.step = Outcome.next u)
    (hb : QuantumBound cfg s.all_processes) :
    QuantumBound cfg s.add_arrivals.housekeeping.all_processes ∧
    QuantumBound cfg u.all_processes := by
  obtain ⟨_, _, _, _, w5, l3, l4, e5, _, hstep, hlt5, _, _, _, hburst, _⟩ :=
    pass_setup procs cfg hin hcfg s h hlt
  have hcap := hcfg.2.1
  have hh : QuantumBound cfg s.add_arrivals.housekeeping.all_processes := by
    rw [e5]
    exact quantumBound_lowers (quantumBound_lowers hb l3) l4
  refine ⟨hh, ?_⟩
  rw [hst] at hstep
  rcases pass_cases _ w5 hburst hcap hlt5 with ⟨c, hc, _, hr⟩ |
      ⟨_, a, c, rest, _, _, _, hr, hwt⟩ | ⟨_, _, _, hr⟩
  · rw [hr] at hstep
    cases hstep
    exact quantumBound_execute _ c w5 hc hcap hh
  · rw [hr] at hstep
    cases hstep
    apply quantumBound_execute (take _ a c rest) c hwt rfl hcap
    intro i hpos hq
    obtain ⟨k1, k2, _, k4⟩ := take_counters s.add_arrivals.housekeeping a c rest i
    rw [k4] at hpos
    rw [k1] at hq ⊢
    rw [k2]
    exact hh i hpos hq
  · rw [hr] at hstep
    cases hstep
    exact hh

theorem reaches_quantumBound (procs : List Process) (cfg : Config) (hin : ValidInput procs)
    (hcfg : ValidConfig cfg) (s : MLFQ_Scheduler) (h : Reaches (init procs cfg) s) :
    QuantumBound cfg s.all_processes := by
  induction h with
  | start =>
    intro i _ hq
    have e : (init procs cfg).all_processes = procs.map Process.copy := rfl
    rw [e, getP_map_copy] at hq ⊢
    split at hq <;> split <;> exact hq
  | tick s t hr hlt hst ih =>
    exact (quantumBound_pass procs cfg hin hcfg s t hr hlt hst ih).2

end MLFQ_Scheduler

namespace MLFQ_Scheduler

theorem execute_quantum {P : List Process} {cfg : Config} (w : MLFQ_Scheduler) (c : Nat)
    (hw : WF P cfg (w.current_time + 1) w) (hrun : w.currently_running = some c)
    (hcap : cfg.num_queues ≤ QUEUE_SLOTS) (hb : QuantumBound cfg w.all_processes)
    (hq : 0 < cfg.quantum (getP w.all_processes c).priority)
    (hpos : 0 < (getP (execute w c).all_processes c).remaining) :
    ((getP (execute w c).all_processes c).time_in_current_quantum =
        (getP w.all_processes c).time_in_current_quantum + 1 ∧
      (getP (execute w c).all_processes c).time_in_current_quantum <
        cfg.quantum (getP w.all_processes c).priority ∧
      (getP (execute w c).all_processes c).priority = (getP w.all_processes c).priority ∧
      (execute w c).currently_running = some c) ∨
    ((getP w.all_processes c).time_in_current_quantum + 1 =
        cfg.quantum (getP w.all_processes c).priority ∧
      (getP (execute w c).all_processes c).time_in_current_quantum = 0 ∧
      (getP (execute w c).all_processes c).priority =
        (if (getP w.all_processes c).priority + 1 < cfg.num_queues
          then (getP w.all_processes c).priority + 1
          else (getP w.all_processes c).priority) ∧
      (∃ front, qget (execute w c).queues
        (getP (execute w c).all_processes c).priority = front ++ [c]) ∧
      (execute w c).currently_running = none) := by
  have hrem := (busyTick_execute w c hrun hw.inv rfl hcap).1.remaining
  have hlt := hb c (by omega) hq
  rcases execute_counter w c c hw hrun hcap hpos with ⟨k1, _, _⟩ | ⟨_, ⟨kn, k2, k3, k4⟩ |
      ⟨ke, k2, k3, k4, k5⟩⟩
  · omega
  · left
    refine ⟨k2, ?_, k3, k4⟩
    rw [k2]
    by_contra hge
    exact kn ⟨hq, by omega⟩
  · right
    exact ⟨by omega, k2, k3, k4, k5⟩

end MLFQ_Scheduler

/-- C27: at the head of every pass of the loop of `run` on a valid input and
configuration, and at the dispatch block of every pass, every unfinished
record whose level has a positive quantum has
`time_in_current_quantum < time_quantum[level]`. In a pass in which the record
`c` executes at a level with a positive quantum and stays unfinished, its
counter rises by one and either is still below the quantum, with `c` keeping
its level and the CPU, or has reached the quantum exactly: then the counter is
reset, the level is incremented unless it is the lowest, `c` is appended to
the queue of its new level and the running slot is cleared. So no record
executes more than `time_quantum[L]` units at a level `L` with a positive
quantum without this requeue. -/
theorem mlfq_quantum_bound (procs : List Process) (cfg : Config) (hin : ValidInput procs)
    (hcfg : ValidConfig cfg) :
    (∀ s, Reaches (MLFQ_Scheduler.init procs cfg) s → QuantumBound cfg s.all_processes) ∧
    (∀ s u, Reaches (MLFQ_Scheduler.init procs cfg) s →
      s.completed < (s.all_processes.length : Int) →
      s.step = MLFQ_Scheduler.Outcome.next u →
      QuantumBound cfg s.add_arrivals.housekeeping.all_processes ∧
      ∀ w c, s.add_arrivals.housekeeping.on_cpu = some (w, c) →
        0 < cfg.quantum (getP s.add_arrivals.housekeeping.all_processes c).priority →
        0 < (getP u.all_processes c).remaining →
        ((getP u.all_processes c).time_in_current_quantum =
            (getP s.add_arrivals.housekeeping.all_processes c).time_in_current_quantum + 1 ∧
          (getP u.all_processes c).time_in_current_quantum <
            cfg.quantum (getP s.add_arrivals.housekeeping.all_processes c).priority ∧
          (getP u.all_processes c).priority =
            (getP s.add_arrivals.housekeeping.all_processes c).priority ∧
          u.currently_running = some c) ∨
        ((getP s.add_arrivals.housekeeping.all_processes c).time_in_current_quantum + 1 =
            cfg.quantum (getP s.add_arrivals.housekeeping.all_processes c).priority ∧
          (getP u.all_processes c).time_in_current_quantum = 0 ∧
          (getP u.all_processes c).priority =
            (if (getP s.add_arrivals.housekeeping.all_processes c).priority + 1 < cfg.num_queues
              then (getP s.add_arrivals.housekeeping.all_processes c).priority + 1
              else (getP s.add_arrivals.housekeeping.all_processes c).priority) ∧
          (∃ front, qget u.queues (getP u.all_processes c).priority = front ++ [c]) ∧
          u.currently_running = none)) := by
  refine ⟨MLFQ_Scheduler.reaches_quantumBound procs cfg hin hcfg, fun s u h hlt hst => ?_⟩
  have hb := MLFQ_Scheduler.reaches_quantumBound procs cfg hin hcfg s h
  have hh := (MLFQ_Scheduler.quantumBound_pass procs cfg hin hcfg s u h hlt hst hb).1
  refine ⟨hh, fun w c hon hq hpos => ?_⟩
  obtain ⟨_, _, _, _, w5, _, _, _, _, hstep, hlt5, _, _, _, hburst, _⟩ :=
    MLFQ_Scheduler.pass_setup procs cfg hin hcfg s h hlt
  have hcap := hcfg.2.1
  rw [hst] at hstep
  rcases MLFQ_Scheduler.pass_cases _ w5 hburst hcap hlt5 with ⟨c2, hc, ho, hr⟩ |
      ⟨_, a, c2, rest, _, _, ho, hr, hwt⟩ | ⟨_, _, ho, _⟩
  · rw [hr] at hstep
    cases hstep
    rw [ho] at hon
    cases hon
    exact MLFQ_Scheduler.execute_quantum _ c w5 hc hcap hh hq hpos
  · rw [hr] at hstep
    cases hstep
    rw [ho] at hon
    cases hon
    have hbt : QuantumBound cfg
        (MLFQ_Scheduler.take s.add_arrivals.housekeeping a c rest).all_processes := by
      intro i hpos2 hq2
      obtain ⟨k1, k2, _, k4⟩ :=
        MLFQ_Scheduler.take_counters s.add_arrivals.housekeeping a c rest i
      rw [k4] at hpos2
      rw [k1] at hq2 ⊢
      rw [k2]
      exact hh i hpos2 hq2
    obtain ⟨k1, k2, _, _⟩ := MLFQ_Scheduler.take_counters s.add_arrivals.housekeeping a c rest c
    have := MLFQ_Scheduler.execute_quantum (MLFQ_Scheduler.take _ a c rest) c hwt rfl hcap hbt
      (by rw [k1]; exact hq) hpos
    rw [k1, k2] at this
    exact this
  · rw [ho] at hon
    cases hon

set_option maxRecDepth 100000 in
/-- Witness of `mlfq_quantum_bound`: pass 5 of the run on `P1(0, 10)`,
`P2(3, 1)` with three levels and quanta 2, 3, 0, in which `P1` executes the
third unit of its quantum at level 1 and is requeued at level 2. -/
theorem mlfq_quantum_bound_witness :
    ValidInput preempt_procs ∧ ValidConfig threeLevels ∧
    Reaches (MLFQ_Scheduler.init preempt_procs threeLevels) (preempt_state 5) ∧
    QuantumBound threeLevels (preempt_state 5).all_processes ∧
    (preempt_state 5).add_arrivals.housekeeping.on_cpu =
      some ((preempt_state 5).add_arrivals.housekeeping, 0) ∧
    (getP (preempt_state 5).add_arrivals.housekeeping.all_processes 0).time_in_current_quantum
      = 2 ∧
    threeLevels.quantum (getP (preempt_state 5).add_arrivals.housekeeping.all_processes
      0).priority = 3 ∧
    (getP (preempt_state 6).all_processes 0).time_in_current_quantum = 0 ∧
    (getP (preempt_state 6).all_processes 0).priority = 2 ∧
    QuantumBound threeLevels (preempt_state 6).all_processes :=
  have h := mlfq_quantum_bound preempt_procs threeLevels validInput_preempt
    validConfig_threeLevels
  ⟨validInput_preempt, validConfig_threeLevels, preempt_reaches 5 (by decide),
    h.1 _ (preempt_reaches 5 (by decide)), by decide!, by decide!, by decide!, by decide!,
    by decide!, h.1 _ (preempt_reaches 6 (by decide))⟩

/-! ## Context-switch counting -/

namespace MLFQ_Scheduler

theorem apply_aging_context_switches (s : MLFQ_Scheduler) :
    s.apply_aging.context_switches = s.context_switches := by
  unfold apply_aging
  generalize (List.range s.config.num_queues).tail = L
  induction L generalizing s with
  | nil => rfl
  | cons q L ih =>
    rw [List.foldl_cons]
    exact (ih (age_level s q)).trans rfl

theorem boost_fold_context_switches (L : List Nat) (acc : MLFQ_Scheduler × List Nat) :
    (L.foldl boost_level acc).1.context_switches = acc.1.context_switches := by
  induction L generalizing acc with
  | nil => rfl
  | cons q L ih =>
    rw [List.foldl_cons]
    exact (ih (boost_level acc q)).trans rfl

theorem apply_priority_boost_context_switches (s : MLFQ_Scheduler) :
    s.apply_priority_boost.context_switches = s.context_switches := by
  have h := boost_fold_context_switches (List.range s.config.num_queues).tail (s, [])
  unfold apply_priority_boost
  dsimp only
  split
  · split
    · exact h
    · exact h
  · exact h

theorem housekeeping_context_switches (s : MLFQ_Scheduler) :
    s.maybe_aging.maybe_boost.context_switches = s.context_switches := by
  have a : s.maybe_aging.context_switches = s.context_switches := by
    unfold maybe_aging
    split
    · exact apply_aging_context_switches s
    · rfl
  rw [← a]
  unfold maybe_boost
  split
  · exact apply_priority_boost_context_switches _
  · rfl

theorem preempt_guard_true (s : MLFQ_Scheduler) (h : s.preempt_guard = true) :
    ∃ c, s.currently_running = some c ∧ 0 < (getP s.all_processes c).remaining ∧
      s.should_preempt (getP s.all_processes c).priority = true := by
  unfold preempt_guard at h
  cases hc : s.currently_running with
  | none => rw [hc] at h; cases h
  | some c =>
    rw [hc] at h
    simp only [Bool.and_eq_true, decide_eq_true_eq] at h
    exact ⟨c, rfl, h.1, h.2⟩

theorem preempt_guard_false (s : MLFQ_Scheduler) (h : s.preempt_guard = false) :
    s.preempt_check = s := by
  apply preempt_check_stays
  intro c hc hpos
  unfold preempt_guard at h
  rw [hc] at h
  simp only [Bool.and_eq_false_iff, decide_eq_false_iff_not] at h
  rcases h with h | h
  · exact absurd hpos h
  · exact h

theorem finish_tick_events (b : MLFQ_Scheduler) (c : Nat) :
    (finish_tick b c).context_switches =
      b.context_switches + (if b.requeue_guard c then 1 else 0) ∧
    (b.requeue_guard c = true → (finish_tick b c).currently_running = none) := by
  by_cases h0 : (getP b.all_processes c).remaining = 0
  · have hg : b.requeue_guard c = false := decide_eq_false (fun h => h.1 h0)
    rw [hg, finish_tick_done b c h0]
    exact ⟨by simp, fun h => by cases h⟩
  · by_cases hq : 0 < b.config.quantum (getP b.all_processes c).priority ∧
        b.config.quantum (getP b.all_processes c).priority ≤
          (getP b.all_processes c).time_in_current_quantum
    · have hg : b.requeue_guard c = true := decide_eq_true ⟨h0, hq⟩
      rw [hg, finish_tick_expire b c h0 hq]
      exact ⟨by simp, fun _ => rfl⟩
    · have hg : b.requeue_guard c = false := decide_eq_false (fun h => hq h.2)
      rw [hg, finish_tick_stay b c h0 hq]
      exact ⟨by simp, fun h => by cases h⟩

theorem execute_events (w : MLFQ_Scheduler) (c : Nat) :
    (execute w c).context_switches =
      w.context_switches + (if (before_check w c).requeue_guard c then 1 else 0) ∧
    ((before_check w c).requeue_guard c = true → (execute w c).currently_running = none) := by
  obtain ⟨_, _, _, _, b5, _⟩ := before_check_spec w c
  rw [execute_eq, ← b5]
  exact finish_tick_events (before_check w c) c

theorem execute_running (w : MLFQ_Scheduler) (c : Nat) (hrun : w.currently_running = some c) :
    (execute w c).currently_running = none ∨ (execute w c).currently_running = some c := by
  obtain ⟨_, b2, _⟩ := before_check_spec w c
  rw [execute_eq]
  by_cases h0 : (getP (before_check w c).all_processes c).remaining = 0
  · rw [finish_tick_done _ c h0]
    exact Or.inl rfl
  · by_cases hq : 0 < (before_check w c).config.quantum
          (getP (before_check w c).all_processes c).priority ∧
        (before_check w c).config.quantum (getP (before_check w c).all_processes c).priority ≤
          (getP (before_check w c).all_processes c).time_in_current_quantum
    · rw [finish_tick_expire _ c h0 hq]
      exact Or.inl rfl
    · rw [finish_tick_stay _ c h0 hq]
      exact Or.inr (b2.trans hrun)

end MLFQ_Scheduler

namespace MLFQ_Scheduler

theorem pass_preempted (procs : List Process) (cfg : Config) (hin : ValidInput procs)
    (hcfg : ValidConfig cfg) (s : MLFQ_Scheduler) (h : Reaches (init procs cfg) s)
    (hlt : s.completed < (s.all_processes.length : Int)) :
    s.add_arrivals.housekeeping.context_switches =
      s.context_switches + (if s.preempts then 1 else 0) ∧
    (s.preempts = true → ∃ c, s.currently_running = some c ∧
      s.add_arrivals.housekeeping.currently_running = none ∧
      c ∈ qget s.add_arrivals.housekeeping.queues
        (getP s.add_arrivals.housekeeping.all_processes c).priority ∧
      (getP s.add_arrivals.housekeeping.all_processes c).priority < cfg.num_queues ∧
      ∃ q, q < (getP s.add_arrivals.housekeeping.all_processes c).priority ∧
        qget s.add_arrivals.housekeeping.queues q ≠ []) ∧
    (s.preempts = false →
      s.add_arrivals.housekeeping.currently_running = s.currently_running) := by
  obtain ⟨hw, hp, w3, w4, _, _, _, e5, r3, _⟩ := pass_setup procs cfg hin hcfg s h hlt
  have hcap := hcfg.2.1
  have hcs0 : s.add_arrivals.context_switches = s.context_switches :=
    (add_arrivals_spec s (by rw [hw.inv.config]; exact hcfg.1)
      (by rw [hw.inv.qlen]; decide)).2.2.1
  have hcs4 : s.add_arrivals.purge.maybe_aging.maybe_boost.context_switches =
      s.context_switches := by
    rw [housekeeping_context_switches, hp, hcs0]
  have hrun4 : s.add_arrivals.purge.maybe_aging.maybe_boost.currently_running =
      s.currently_running := by
    rw [maybe_boost_running _ hcap w3, r3]
  have hh : s.add_arrivals.housekeeping =
      s.add_arrivals.purge.maybe_aging.maybe_boost.preempt_check := rfl
  cases hg : s.preempts with
  | false =>
    have e := preempt_guard_false _ hg
    rw [hh, e, hcs4]
    exact ⟨by simp, fun hc => absurd hc (by decide), fun _ => hrun4⟩
  | true =>
    obtain ⟨c, hc, hpos, hsp⟩ := preempt_guard_true _ hg
    have e := preempt_check_preempts _ c hc hpos hsp
    have hlev := w4.inv.prio c
    have hlen : (getP s.add_arrivals.purge.maybe_aging.maybe_boost.all_processes c).priority <
        s.add_arrivals.purge.maybe_aging.maybe_boost.queues.length := by
      rw [w4.inv.qlen]
      omega
    obtain ⟨q, hq, hne⟩ := (should_preempt_iff _ _).1 hsp
    rw [e5, hh, e]
    dsimp only
    rw [hcs4]
    refine ⟨by simp, fun _ => ⟨c, hrun4 ▸ hc, rfl, ?_, hlev, q, hq, ?_⟩,
      fun hc2 => absurd hc2 (by decide)⟩
    · rw [qget_qset]
      simp only [hlen, and_self, if_true]
      exact List.mem_cons_self _ _
    · rw [qget_qset]
      have : ¬ ((getP s.add_arrivals.purge.maybe_aging.maybe_boost.all_processes c).priority = q ∧
          (getP s.add_arrivals.purge.maybe_aging.maybe_boost.all_processes c).priority <
            s.add_arrivals.purge.maybe_aging.maybe_boost.queues.length) := by
        intro hx
        omega
      rw [if_neg this]
      exact hne

theorem pass_events (procs : List Process) (cfg : Config) (hin : ValidInput procs)
    (hcfg : ValidConfig cfg) (s u : MLFQ_Scheduler) (h : Reaches (init procs cfg) s)
    (hlt : s.completed < (s.all_processes.length : Int)) (hst : s.step = Outcome.next u) :
    u.context_switches = s.context_switches + s.events ∧
    (s.preempts = true → s.dispatches = true) ∧
    (u.timeline_queue = s.timeline_queue ++ [-1] → s.events = 0) ∧
    (∀ c, s.currently_running = some c → u.currently_running = some c → s.events = 0) := by
  obtain ⟨hcs, hpt, hpf⟩ := pass_preempted procs cfg hin hcfg s h hlt
  obtain ⟨hw, _, _, _, w5, _, _, _, _, hstep, hlt5, _, _, tq, hburst, _⟩ :=
    pass_setup procs cfg hin hcfg s h hlt
  have hcap := hcfg.2.1
  have hne : ∀ (l : List Int) (level : Nat), l ++ [(level : Int)] ≠ l ++ [-1] := by
    intro l level he
    have := List.append_cancel_left he
    simp only [List.cons.injEq, and_true] at this
    omega
  rw [hst] at hstep
  rcases pass_cases _ w5 hburst hcap hlt5 with ⟨c2, hc, ho, hr⟩ |
      ⟨hrun, a, c2, rest, hq, he, ho, hr, hwt⟩ | ⟨hrun, hq, ho, hr⟩
  · rw [hr] at hstep
    cases hstep
    have hpos := (w5.inv.running_pos c2 hc).1
    have hpre : s.preempts = false := by
      cases hg : s.preempts with
      | false => rfl
      | true =>
        obtain ⟨_, _, hn, _⟩ := hpt hg
        rw [hc] at hn
        cases hn
    have hdis : s.dispatches = false := by
      have hne0 : ¬ (getP s.add_arrivals.housekeeping.all_processes c2).remaining = 0 := by omega
      simp [dispatches, dispatch_guard, hc, hne0]
    have hreq : s.requeues = (before_check s.add_arrivals.housekeeping c2).requeue_guard c2 := by
      simp only [requeues, ho]
    obtain ⟨x1, x2⟩ := execute_events s.add_arrivals.housekeeping c2
    have hev : s.events = if s.requeues then 1 else 0 := by
      unfold events
      rw [hpre, hdis]
      simp
    refine ⟨?_, fun hx => absurd hx (by rw [hpre]; decide), fun e => ?_, fun c _ hu => ?_⟩
    · rw [x1, hcs, hpre, hev, hreq]
      simp
    · rw [(execute_timeline _ c2).2, tq] at e
      exact absurd e (hne _ _)
    · rw [hev]
      cases hg : s.requeues with
      | false => simp
      | true =>
        rw [hreq] at hg
        rw [x2 hg] at hu
        cases hu
  · rw [hr] at hstep
    cases hstep
    have hdis : s.dispatches = true := by
      simp [dispatches, dispatch_guard, hrun, hq]
    have hreq : s.requeues =
        (before_check (take s.add_arrivals.housekeeping a c2 rest) c2).requeue_guard c2 := by
      simp only [requeues, ho]
    obtain ⟨x1, _⟩ := execute_events (take s.add_arrivals.housekeeping a c2 rest) c2
    have x3 : (take s.add_arrivals.housekeeping a c2 rest).context_switches =
        s.add_arrivals.housekeeping.context_switches + 1 := rfl
    refine ⟨?_, fun _ => hdis, fun e => ?_, fun c hs hu => ?_⟩
    · rw [x1, x3, hcs]
      unfold events
      rw [hdis, hreq]
      simp only [if_true]
      ring
    · have e2 : (take s.add_arrivals.housekeeping a c2 rest).timeline_queue =
          s.timeline_queue := tq
      rw [(execute_timeline _ c2).2, e2] at e
      exact absurd e (hne _ _)
    · exfalso
      cases hg : s.preempts with
      | false =>
        have := hpf hg
        rw [hrun, hs] at this
        cases this
      | true =>
        obtain ⟨c3, hc3, _, hmem, _, q, hql, hqne⟩ := hpt hg
        rw [hs] at hc3
        cases hc3
        have hcc : c2 = c := by
          rcases execute_running (take s.add_arrivals.housekeeping a c2 rest) c2 rfl with
            hn | hn
          · rw [hn] at hu
            cases hu
          · rw [hn] at hu
            exact Option.some.inj hu
        subst hcc
        have hla := w5.xinv.level a c2 (by rw [he]; exact List.mem_cons_self _ _)
        rw [hla] at hql
        exact hqne (get_highest_lowest _ a hq q hql)
  · rw [hr] at hstep
    cases hstep
    have hpre : s.preempts = false := by
      cases hg : s.preempts with
      | false => rfl
      | true =>
        exfalso
        obtain ⟨c, _, _, hmem, hlev, _⟩ := hpt hg
        exact get_highest_none _ hq c ⟨_, by rw [w5.inv.config]; exact hlev, hmem⟩
    have hdis : s.dispatches = false := by
      simp [dispatches, dispatch_guard, hrun, hq]
    have hreq : s.requeues = false := by
      simp only [requeues, ho]
    have hev : s.events = 0 := by
      unfold events
      rw [hpre, hdis, hreq]
      simp
    refine ⟨?_, fun hx => absurd hx (by rw [hpre]; decide), fun _ => hev, fun _ _ _ => hev⟩
    dsimp only
    rw [hcs, hpre, hev]
    simp

end MLFQ_Scheduler

namespace MLFQ_Scheduler

theorem execute_requeue {P : List Process} {cfg : Config} (w : MLFQ_Scheduler) (c : Nat)
    (hw : WF P cfg (w.current_time + 1) w) (hrun : w.currently_running = some c)
    (hcap : cfg.num_queues ≤ QUEUE_SLOTS)
    (hg : (before_check w c).requeue_guard c = true) :
    (execute w c).currently_running = none ∧
    (getP (execute w c).all_processes c).priority =
      (if (getP w.all_processes c).priority + 1 < cfg.num_queues
        then (getP w.all_processes c).priority + 1 else (getP w.all_processes c).priority) ∧
    ∃ front, qget (execute w c).queues (getP (execute w c).all_processes c).priority =
      front ++ [c] := by
  have hcl : c < w.all_processes.length := by
    rw [hw.inv.len]; exact (hw.inv.active_lt c (Or.inr hrun)).1
  obtain ⟨b1, _, b3, _, _, _, b7, _, b9⟩ := before_check_spec w c
  have hs := sched_fields (b9 hcl)
  have hpri : (getP (before_check w c).all_processes c).priority =
      (getP w.all_processes c).priority := hs.2.1
  have hcfg : (before_check w c).config = cfg := b3.trans hw.inv.config
  unfold requeue_guard at hg
  rw [decide_eq_true_eq] at hg
  obtain ⟨_, _, e3, e4, e5⟩ := finish_tick_expired (before_check w c) c
    (by rw [b7]; exact hcl)
    (by rw [hcfg, b1, hw.inv.qlen]; exact hcap)
    (by rw [hpri, hcfg]; exact hw.inv.prio c) hg.1 hg.2
  rw [hcfg, hpri] at e3
  rw [execute_eq]
  exact ⟨e5, e3, e4⟩

end MLFQ_Scheduler

/-- C23: in every pass of the loop of `run` on a valid input and
configuration, `context_switches` rises by the number of transition events of
the pass: one when the preemption block preempts, one when the dispatch block
dispatches a record (started before or not), and one when the `else if` branch
of the completion and demotion check requeues the record that executed, which
it does also at the lowest level, where the level stays. A pass that preempts
also dispatches, so it raises the counter by at least two; a pass that records
an idle unit and a pass at whose head and end the same record holds the CPU
leave the counter as it is. -/
theorem mlfq_context_switches (procs : List Process) (cfg : Config) (hin : ValidInput procs)
    (hcfg : ValidConfig cfg) (s u : MLFQ_Scheduler)
    (h : Reaches (MLFQ_Scheduler.init procs cfg) s)
    (hlt : s.completed < (s.all_processes.length : Int))
    (hst : s.step = MLFQ_Scheduler.Outcome.next u) :
    u.context_switches = s.context_switches + s.events ∧
    (s.preempts = true → s.dispatches = true ∧ s.context_switches + 2 ≤ u.context_switches) ∧
    (u.timeline_queue = s.timeline_queue ++ [-1] → u.context_switches = s.context_switches) ∧
    (∀ c, s.currently_running = some c → u.currently_running = some c →
      u.context_switches = s.context_switches) ∧
    (s.requeues = true → ∃ w c, s.add_arrivals.housekeeping.on_cpu = some (w, c) ∧
      u.currently_running = none ∧
      (getP u.all_processes c).priority =
        (if (getP w.all_processes c).priority + 1 < cfg.num_queues
          then (getP w.all_processes c).priority + 1 else (getP w.all_processes c).priority) ∧
      ∃ front, qget u.queues (getP u.all_processes c).priority = front ++ [c]) := by
  obtain ⟨e1, e2, e3, e4⟩ := MLFQ_Scheduler.pass_events procs cfg hin hcfg s u h hlt hst
  refine ⟨e1, fun hp => ⟨e2 hp, ?_⟩, fun hi => by rw [e1, e3 hi, add_zero],
    fun c hs hu => by rw [e1, e4 c hs hu, add_zero], fun hr => ?_⟩
  · rw [e1]
    unfold MLFQ_Scheduler.events
    rw [hp, e2 hp]
    simp only [if_true]
    split <;> omega
  · obtain ⟨_, _, _, _, w5, _, _, _, _, hstep, hlt5, _, _, _, hburst, _⟩ :=
      MLFQ_Scheduler.pass_setup procs cfg hin hcfg s h hlt
    have hcap := hcfg.2.1
    rw [hst] at hstep
    rcases MLFQ_Scheduler.pass_cases _ w5 hburst hcap hlt5 with ⟨c2, hc, ho, hx⟩ |
        ⟨_, a, c2, rest, _, _, ho, hx, hwt⟩ | ⟨_, _, ho, _⟩
    · rw [hx] at hstep
      cases hstep
      simp only [MLFQ_Scheduler.requeues, ho] at hr
      exact ⟨_, c2, ho, MLFQ_Scheduler.execute_requeue _ c2 w5 hc hcap hr⟩
    · rw [hx] at hstep
      cases hstep
      simp only [MLFQ_Scheduler.requeues, ho] at hr
      exact ⟨_, c2, ho,
        MLFQ_Scheduler.execute_requeue (MLFQ_Scheduler.take _ a c2 rest) c2 hwt rfl hcap hr⟩
    · simp only [MLFQ_Scheduler.requeues, ho] at hr
      exact absurd hr (by decide)

set_option maxRecDepth 100000 in
/-- Witness of `mlfq_context_switches`: pass 3 of the run on `P1(0, 10)`,
`P2(3, 1)` with three levels, which preempts `P1` and dispatches `P2`, and
pass 5, which requeues `P1`. -/
theorem mlfq_context_switches_witness :
    ValidInput preempt_procs ∧ ValidConfig threeLevels ∧
    Reaches (MLFQ_Scheduler.init preempt_procs threeLevels) (preempt_state 3) ∧
    (preempt_state 3).preempts = true ∧ (preempt_state 3).dispatches = true ∧
    (preempt_state 3).requeues = false ∧ (preempt_state 5).requeues = true ∧
    (preempt_state 4).context_switches =
      (preempt_state 3).context_switches + (preempt_state 3).events ∧
    (preempt_state 3).context_switches + 2 ≤ (preempt_state 4).context_switches :=
  have h := mlfq_context_switches preempt_procs threeLevels validInput_preempt
    validConfig_threeLevels (preempt_state 3) (preempt_state 4) (preempt_reaches 3 (by decide))
    (by decide!) (by decide!)
  ⟨validInput_preempt, validConfig_threeLevels, preempt_reaches 3 (by decide), by decide!,
    by decide!, by decide!, by decide!, h.1, (h.2.1 (by decide!)).2⟩

/-! ## Admission -/

namespace MLFQ_Scheduler

theorem add_arrival_queue_fold (L : List Nat) (s : MLFQ_Scheduler)
    (hnq : 0 < s.config.num_queues) (hlen : 0 < s.queues.length) :
    qget (L.foldl add_arrival s).queues 0 = qget s.queues 0 ++ L.filter (fun i =>
      decide ((getP s.all_processes i).arrival = s.current_time ∧
        (getP s.all_processes i).started = false ∧ (getP s.all_processes i).start_time = -1)) ∧
    ∀ q, q ≠ 0 → qget (L.foldl add_arrival s).queues q = qget s.queues q := by
  induction L generalizing s with
  | nil => exact ⟨by simp, fun _ _ => rfl⟩
  | cons a L ih =>
    obtain ⟨f1, _⟩ := add_arrival_spec s a hnq hlen
    obtain ⟨h1, h2⟩ := ih (add_arrival s a) (by rw [f1.config]; exact hnq)
      (by rw [f1.qlen]; exact hlen)
    have hp : L.filter (fun i =>
        decide ((getP (add_arrival s a).all_processes i).arrival = (add_arrival s a).current_time ∧
          (getP (add_arrival s a).all_processes i).started = false ∧
          (getP (add_arrival s a).all_processes i).start_time = -1)) =
        L.filter (fun i =>
        decide ((getP s.all_processes i).arrival = s.current_time ∧
          (getP s.all_processes i).started = false ∧
          (getP s.all_processes i).start_time = -1)) := by
      apply List.filter_congr
      intro i _
      obtain ⟨_, e2, _, _, e5, _, e7⟩ := core_fields (f1.core.2 i)
      rw [e2, e5, e7, f1.current_time]
    rw [List.foldl_cons, h1, hp]
    by_cases hc : (getP s.all_processes a).arrival = s.current_time ∧
        (getP s.all_processes a).started = false ∧ (getP s.all_processes a).start_time = -1
    · have he : add_arrival s a =
          { s with
            all_processes := setP s.all_processes a (fun x => { x with priority := 0 }),
            queues := qset s.queues 0 (qget s.queues 0 ++ [a]) } := by
        unfold add_arrival
        exact if_pos hc
      constructor
      · rw [List.filter_cons_of_pos (by simpa using hc), he]
        dsimp only
        rw [qget_qset]
        simp only [hlen, and_self, if_true, List.append_assoc, List.singleton_append]
      · intro q hq
        rw [h2 q hq, he]
        dsimp only
        rw [qget_qset]
        have : ¬ (0 = q ∧ 0 < s.queues.length) := fun hx => hq hx.1.symm
        rw [if_neg this]
    · have he : add_arrival s a = s := by
        unfold add_arrival
        exact if_neg hc
      constructor
      · rw [List.filter_cons_of_neg (by simpa using hc), he]
      · intro q hq
        rw [h2 q hq, he]

theorem add_arrivals_queue (s : MLFQ_Scheduler)
    (hnq : 0 < s.config.num_queues) (hlen : 0 < s.queues.length) :
    qget s.add_arrivals.queues 0 = qget s.queues 0 ++ s.admitted ∧
    ∀ q, q ≠ 0 → qget s.add_arrivals.queues q = qget s.queues q :=
  add_arrival_queue_fold (List.range s.all_processes.length) s hnq hlen

theorem after_succ_next (n : Nat) (x y : MLFQ_Scheduler)
    (h : (after n x).step = Outcome.next y) : after (n + 1) x = y := by
  induction n generalizing x with
  | zero =>
    simp only [after] at h ⊢
    rw [h]
  | succ n ih =>
    cases hx : x.step with
    | next x1 =>
      have e : after (n + 1) x = after n x1 := by simp only [after, hx]
      rw [e] at h
      have e2 : after (n + 1 + 1) x = after (n + 1) x1 := by simp only [after, hx]
      rw [e2]
      exact ih x1 h
    | exit x1 =>
      have e : after (n + 1) x = x := by simp only [after, hx]
      rw [e, hx] at h
      cases h
    | fault =>
      have e : after (n + 1) x = x := by simp only [after, hx]
      rw [e, hx] at h
      cases h

theorem pass_clock (procs : List Process) (cfg : Config) (hin : ValidInput procs)
    (hnq : 1 ≤ cfg.num_queues) (hcap : cfg.num_queues ≤ QUEUE_SLOTS)
    (s t : MLFQ_Scheduler) (h : Reaches (init procs cfg) s)
    (hlt : s.completed < (s.all_processes.length : Int)) (hst : s.step = Outcome.next t) :
    t.current_time = s.current_time + 1 := by
  rcases pass_ticks procs cfg hin hnq hcap s t h hlt hst with hi | ⟨c, hb⟩
  · exact hi.current_time
  · exact hb.current_time

theorem reaches_eq_after (procs : List Process) (cfg : Config) (hin : ValidInput procs)
    (hnq : 1 ≤ cfg.num_queues) (hcap : cfg.num_queues ≤ QUEUE_SLOTS)
    (s : MLFQ_Scheduler) (h : Reaches (init procs cfg) s) :
    ∃ n : Nat, (n : Int) = s.current_time ∧ s = after n (init procs cfg) := by
  induction h with
  | start => exact ⟨0, rfl, rfl⟩
  | tick s t hr hlt hst ih =>
    obtain ⟨n, hn, hs⟩ := ih
    refine ⟨n + 1, ?_, ?_⟩
    · rw [pass_clock procs cfg hin hnq hcap s t hr hlt hst, ← hn]
      push_cast
      rfl
    · rw [hs] at hst
      exact (after_succ_next n _ t hst).symm

theorem reaches_unique (procs : List Process) (cfg : Config) (hin : ValidInput procs)
    (hnq : 1 ≤ cfg.num_queues) (hcap : cfg.num_queues ≤ QUEUE_SLOTS)
    (s t : MLFQ_Scheduler) (hs : Reaches (init procs cfg) s) (ht : Reaches (init procs cfg) t)
    (he : s.current_time = t.current_time) : s = t := by
  obtain ⟨n, hn, e1⟩ := reaches_eq_after procs cfg hin hnq hcap s hs
  obtain ⟨m, hm, e2⟩ := reaches_eq_after procs cfg hin hnq hcap t ht
  have : n = m := by omega
  rw [e1, e2, this]

theorem reaches_at (procs : List Process) (cfg : Config) (hin : ValidInput procs)
    (hnq : 1 ≤ cfg.num_queues) (hcap : cfg.num_queues ≤ QUEUE_SLOTS)
    (s : MLFQ_Scheduler) (h : Reaches (init procs cfg) s) (k : Int) (h0 : 0 ≤ k)
    (hk : k ≤ s.current_time) :
    ∃ t, Reaches (init procs cfg) t ∧ t.current_time = k ∧
      (k < s.current_time → t.completed < (t.all_processes.length : Int) ∧
        ∃ u, t.step = Outcome.next u) := by
  induction h with
  | start =>
    have e : (init procs cfg).current_time = 0 := rfl
    rw [e] at hk
    exact ⟨init procs cfg, Reaches.start, by rw [e]; omega, fun hlt => by rw [e] at hlt; omega⟩
  | tick s t hr hlt hst ih =>
    have hc := pass_clock procs cfg hin hnq hcap s t hr hlt hst
    by_cases hks : k ≤ s.current_time
    · obtain ⟨w, w1, w2, w3⟩ := ih hks
      by_cases hke : k = s.current_time
      · exact ⟨s, hr, hke.symm, fun _ => ⟨hlt, t, hst⟩⟩
      · exact ⟨w, w1, w2, fun _ => w3 (by omega)⟩
    · exact ⟨t, Reaches.tick s t hr hlt hst, by omega, fun hx => by omega⟩

end MLFQ_Scheduler

/-- C22: in every pass of the loop of `run` on a valid input and
configuration, `add_arrivals` appends to the tail of `queues[0]` exactly the
records whose arrival is the clock of the pass, in the order of the input
list, leaves the other queues and every record as they are, and the admitted
records have level 0; a record whose arrival is not before the clock is
referenced by no queue and is not the running record. Each record of the
input is admitted in exactly one pass of the run: there is a pass whose clock
is its arrival, and the loop-head state of the run with that clock is
unique. -/
theorem mlfq_admission (procs : List Process) (cfg : Config) (hin : ValidInput procs)
    (hcfg : ValidConfig cfg) :
    (∀ s, Reaches (MLFQ_Scheduler.init procs cfg) s →
      s.completed < (s.all_processes.length : Int) →
      s.all_processes.length = procs.length ∧
      qget s.add_arrivals.queues 0 = qget s.queues 0 ++
        (List.range s.all_processes.length).filter
          (fun i => decide ((getP s.all_processes i).arrival = s.current_time)) ∧
      (∀ q, q ≠ 0 → qget s.add_arrivals.queues q = qget s.queues q) ∧
      (∀ i, getP s.add_arrivals.all_processes i = getP s.all_processes i) ∧
      (∀ i, i < s.all_processes.length → (getP s.all_processes i).arrival = s.current_time →
        (getP s.add_arrivals.all_processes i).priority = 0) ∧
      (∀ i, i < s.all_processes.length → s.current_time ≤ (getP s.all_processes i).arrival →
        s.refs i = 0 ∧ s.currently_running ≠ some i)) ∧
    (∀ i, i < procs.length →
      ∃ s, (Reaches (MLFQ_Scheduler.init procs cfg) s ∧
          s.completed < (s.all_processes.length : Int) ∧
          (∃ u, s.step = MLFQ_Scheduler.Outcome.next u) ∧
          (getP s.all_processes i).arrival = s.current_time ∧ i ∈ s.admitted) ∧
        ∀ t, Reaches (MLFQ_Scheduler.init procs cfg) t →
          (getP t.all_processes i).arrival = t.current_time → t = s) := by
  obtain ⟨hnq, hcap, _⟩ := hcfg
  have hburst : ∀ i, i < (procs.map Process.copy).length →
      1 ≤ (getP (procs.map Process.copy) i).burst := by
    intro i hi
    rw [List.length_map] at hi
    rw [MLFQ_Scheduler.getP_map_copy, if_pos hi]
    exact (MLFQ_Scheduler.validInput_getP hin i hi).2
  have hadm : ∀ s, Reaches (MLFQ_Scheduler.init procs cfg) s →
      s.admitted = (List.range s.all_processes.length).filter
        (fun i => decide ((getP s.all_processes i).arrival = s.current_time)) := by
    intro s h
    have hw := MLFQ_Scheduler.reaches_wf procs cfg hin hnq hcap s h
    unfold MLFQ_Scheduler.admitted
    apply List.filter_congr
    intro i hi
    rw [List.mem_range, hw.inv.len] at hi
    by_cases ha : (getP s.all_processes i).arrival = s.current_time
    · have := (hw.inv.fresh i hi (le_of_eq ha.symm)).2
      simp [ha, this.1, this.2]
    · simp [ha]
  constructor
  · intro s h _
    have hw := MLFQ_Scheduler.reaches_wf procs cfg hin hnq hcap s h
    have hq0 : 0 < s.queues.length := by rw [hw.inv.qlen]; decide
    obtain ⟨a1, a2⟩ := MLFQ_Scheduler.add_arrivals_queue s (by rw [hw.inv.config]; exact hnq) hq0
    obtain ⟨w1, _, e1, _⟩ := MLFQ_Scheduler.wf_add_arrivals hw hnq hburst
    rw [hadm s h] at a1
    refine ⟨by rw [hw.inv.len, List.length_map], a1, a2, e1, fun i hi ha => ?_,
      fun i hi ha => ⟨?_, fun hr => ?_⟩⟩
    · rw [e1 i]
      exact hw.xinv.unstarted i (hw.inv.fresh i (hw.inv.len ▸ hi) (le_of_eq ha.symm)).2.1
    · apply (refsOf_eq_zero _ i).2
      intro q hq
      have := (hw.inv.active_lt i (Or.inl (waiting_of_mem hw.inv hw.xinv hq).2)).2
      omega
    · have := (hw.inv.active_lt i (Or.inr hr)).2
      omega
  · intro i hi
    obtain ⟨sf, _, rf, _, _, r5⟩ := MLFQ_Scheduler.run_reaches procs cfg hin ⟨hnq, hcap, ‹_›⟩
      (MLFQ_Scheduler.budget procs) (le_refl _)
    have hwf := MLFQ_Scheduler.reaches_wf procs cfg hin hnq hcap sf rf
    have hil : i < (procs.map Process.copy).length := by rw [List.length_map]; exact hi
    have hstat : ∀ s, Reaches (MLFQ_Scheduler.init procs cfg) s →
        (getP s.all_processes i).arrival = (getP procs i).arrival := by
      intro s h
      have := ((MLFQ_Scheduler.reaches_wf procs cfg hin hnq hcap s h).inv.static i).2.1
      rw [this, MLFQ_Scheduler.getP_map_copy, if_pos hi]
      rfl
    have hv := MLFQ_Scheduler.validInput_getP hin i hi
    have hlate : (getP procs i).arrival < sf.current_time := by
      by_contra hge
      have hf := hwf.inv.fresh i hil (by rw [hstat sf rf]; omega)
      have h0 : (getP sf.all_processes i).remaining = 0 := by
        have hi2 : i < sf.all_processes.length := by rw [hwf.inv.len]; exact hil
        rw [getP_eq_getElem _ i hi2]
        exact r5 _ (List.getElem_mem hi2)
      have hb := (hwf.inv.static i).2.2
      rw [MLFQ_Scheduler.getP_map_copy, if_pos hi] at hb
      have : (getP sf.all_processes i).burst = (getP procs i).burst := hb
      omega
    obtain ⟨s, s1, s2, s3⟩ := MLFQ_Scheduler.reaches_at procs cfg hin hnq hcap sf rf
      (getP procs i).arrival hv.1 (le_of_lt hlate)
    obtain ⟨s4, s5⟩ := s3 hlate
    have harr : (getP s.all_processes i).arrival = s.current_time := by
      rw [hstat s s1, s2]
    refine ⟨s, ⟨s1, s4, s5, harr, ?_⟩, fun t ht hta => ?_⟩
    · rw [hadm s s1, List.mem_filter, List.mem_range]
      have hw := MLFQ_Scheduler.reaches_wf procs cfg hin hnq hcap s s1
      exact ⟨by rw [hw.inv.len]; exact hil, by simpa using harr⟩
    · apply MLFQ_Scheduler.reaches_unique procs cfg hin hnq hcap t s ht s1
      rw [← hta, hstat t ht, s2]

set_option maxRecDepth 100000 in
/-- Witness of `mlfq_admission`: the run on `P1(0, 10)`, `P2(3, 1)` with three
levels; `P2` is admitted in the pass at the clock 3. -/
theorem mlfq_admission_witness :
    ValidInput preempt_procs ∧ ValidConfig threeLevels ∧
    Reaches (MLFQ_Scheduler.init preempt_procs threeLevels) (preempt_state 3) ∧
    qget (preempt_state 3).queues 0 = [] ∧
    qget (preempt_state 3).add_arrivals.queues 0 = [1] ∧
    (preempt_state 3).admitted = [1] ∧
    qget (preempt_state 3).add_arrivals.queues 0 = qget (preempt_state 3).queues 0 ++
      (List.range (preempt_state 3).all_processes.length).filter
        (fun i => decide ((getP (preempt_state 3).all_processes i).arrival =
          (preempt_state 3).current_time)) :=
  have h := (mlfq_admission preempt_procs threeLevels validInput_preempt
    validConfig_threeLevels).1 (preempt_state 3) (preempt_reaches 3 (by decide)) (by decide!)
  ⟨validInput_preempt, validConfig_threeLevels, preempt_reaches 3 (by decide), by decide!,
    by decide!, by decide!, h.2.1⟩

/-! ## The aging sweep -/

namespace MLFQ_Scheduler

theorem aging_scan_filter (thr : Int) (running : Option Nat) (q : Nat) (L : List Nat)
    (ps : List Process) (hnd : L.Nodup) :
    (aging_scan thr running q L ps).2.1 = L.filter (fun p =>
      !decide (some p ≠ running ∧ thr ≤ (getP ps p).time_in_queue)) ∧
    (aging_scan thr running q L ps).2.2 = L.filter (fun p =>
      decide (some p ≠ running ∧ thr ≤ (getP ps p).time_in_queue)) := by
  induction L generalizing ps with
  | nil => exact ⟨rfl, rfl⟩
  | cons p rest ih =>
    obtain ⟨hp, hrest⟩ := List.nodup_cons.1 hnd
    by_cases hc : some p ≠ running ∧ thr ≤ (getP ps p).time_in_queue
    · have e : aging_scan thr running q (p :: rest) ps =
          ((aging_scan thr running q rest (setP ps p (aging_reset q))).1,
           (aging_scan thr running q rest (setP ps p (aging_reset q))).2.1,
           p :: (aging_scan thr running q rest (setP ps p (aging_reset q))).2.2) := by
        rw [aging_scan]
        exact if_pos hc
      obtain ⟨h1, h2⟩ := ih (setP ps p (aging_reset q)) hrest
      have hcg : ∀ j ∈ rest, getP (setP ps p (aging_reset q)) j = getP ps j := by
        intro j hj
        exact getP_setP_ne ps p j _ (fun h => hp (h ▸ hj))
      rw [e]
      dsimp only
      have d1 : decide (some p ≠ running ∧ thr ≤ (getP ps p).time_in_queue) = true :=
        decide_eq_true hc
      rw [h1, h2, List.filter_cons_of_neg (by simp [d1]),
        List.filter_cons_of_pos (by simp [d1])]
      constructor
      · apply List.filter_congr
        intro j hj
        rw [hcg j hj]
      · congr 1
        apply List.filter_congr
        intro j hj
        rw [hcg j hj]
    · have e : aging_scan thr running q (p :: rest) ps =
          ((aging_scan thr running q rest ps).1,
           p :: (aging_scan thr running q rest ps).2.1,
           (aging_scan thr running q rest ps).2.2) := by
        rw [aging_scan]
        exact if_neg hc
      obtain ⟨h1, h2⟩ := ih ps hrest
      rw [e]
      dsimp only
      have d0 : decide (some p ≠ running ∧ thr ≤ (getP ps p).time_in_queue) = false :=
        decide_eq_false hc
      rw [h1, h2, List.filter_cons_of_pos (by simp [d0]),
        List.filter_cons_of_neg (by simp [d0])]
      exact ⟨rfl, rfl⟩

end MLFQ_Scheduler

namespace MLFQ_Scheduler

theorem agedTo_start (s : MLFQ_Scheduler) : AgedTo s 1 s where
  below := fun l hl => by omega
  last := fun l hl => by
    have : l = 0 := by omega
    subst this
    simp
  above := fun _ _ => rfl
  promoted := fun l i h1 hl => by omega
  kept := fun _ _ => rfl
  config := rfl
  running := rfl
  qlen := rfl
  plen := rfl

theorem agedTo_step (s t : MLFQ_Scheduler) (a : Nat) (hx : s.Exclusive) (h1 : 1 ≤ a)
    (ha : a < s.queues.length) (h : AgedTo s a t) : AgedTo s (a + 1) (age_level t a) := by
  obtain ⟨hlev, hnd, hidx, _⟩ := hx
  have hqt : a < t.queues.length := by rw [h.qlen]; exact ha
  have hL : qget t.queues a = qget s.queues a := h.above a (le_refl a)
  have hrec : ∀ j, j ∈ qget s.queues a → getP t.all_processes j = getP s.all_processes j := by
    intro j hj
    apply h.kept
    intro l _ hla hm
    have := (hlev l j hm).symm.trans (hlev a j hj)
    omega
  have htest : ∀ j, j ∈ qget s.queues a →
      decide (some j ≠ t.currently_running ∧
        t.config.aging_threshold ≤ (getP t.all_processes j).time_in_queue) = s.aged j := by
    intro j hj
    rw [hrec j hj, h.running, h.config]
    rfl
  obtain ⟨f1, f2⟩ := aging_scan_filter t.config.aging_threshold t.currently_running a
    (qget t.queues a) t.all_processes (by rw [hL]; exact hnd a)
  have g1 : (aging_scan t.config.aging_threshold t.currently_running a (qget t.queues a)
      t.all_processes).2.1 = (qget s.queues a).filter (fun i => !s.aged i) := by
    rw [f1, hL]
    apply List.filter_congr
    intro j hj
    rw [htest j hj]
  have g2 : (aging_scan t.config.aging_threshold t.currently_running a (qget t.queues a)
      t.all_processes).2.2 = (qget s.queues a).filter s.aged := by
    rw [f2, hL]
    apply List.filter_congr
    intro j hj
    exact htest j hj
  obtain ⟨_, hsame, hreset⟩ := aging_scan_x t.config.aging_threshold t.currently_running a
    (qget t.queues a) t.all_processes
  rw [g2] at hsame hreset
  have hplen := (aging_scan_spec t.config.aging_threshold t.currently_running a
    (a + 1) (by omega) (qget t.queues a) t.all_processes).1.1
  have hps : (age_level t a).all_processes =
      (aging_scan t.config.aging_threshold t.currently_running a
        (qget t.queues a) t.all_processes).1 := rfl
  have hne : ¬ a = a - 1 := by omega
  refine {
    below := fun l hl => ?_
    last := fun l hl => ?_
    above := fun l hl => ?_
    promoted := fun l i hl1 hla hm hag => ?_
    kept := fun i hk => ?_
    config := h.config
    running := h.running
    qlen := ?_
    plen := ?_ }
  · rw [qget_age_level t a l h1 hqt]
    by_cases e1 : l = a - 1
    · have e2 : a = l + 1 := by omega
      rw [if_pos e1, g2, ← e1, h.last l e2.symm, e2]
    · have e2 : ¬ l = a := by omega
      rw [if_neg e1, if_neg e2]
      exact h.below l (by omega)
  · have e : l = a := by omega
    subst e
    rw [qget_age_level t l l h1 hqt, if_neg hne, if_pos rfl, g1]
    apply List.filter_congr
    intro j _
    have : decide (l = 0) = false := decide_eq_false (by omega)
    rw [this, Bool.false_or]
  · have e1 : ¬ l = a - 1 := by omega
    have e2 : ¬ l = a := by omega
    rw [qget_age_level t a l h1 hqt, if_neg e1, if_neg e2]
    exact h.above l (by omega)
  · by_cases e : l = a
    · subst e
      have hmem : i ∈ (qget s.queues l).filter s.aged := List.mem_filter.2 ⟨hm, hag⟩
      rw [hps, hreset i (by rw [h.plen]; exact hidx l i hm) hmem, hrec i hm]
    · have hnot : i ∉ (qget s.queues a).filter s.aged := by
        intro hin
        have := (hlev l i hm).symm.trans (hlev a i (List.mem_filter.1 hin).1)
        exact e this
      rw [hps, hsame i hnot]
      exact h.promoted l i hl1 (by omega) hm hag
  · have hnot : i ∉ (qget s.queues a).filter s.aged := by
      intro hin
      obtain ⟨m1, m2⟩ := List.mem_filter.1 hin
      have := hk a h1 (by omega) m1
      rw [this] at m2
      cases m2
    rw [hps, hsame i hnot]
    exact h.kept i (fun l hl1 hla hm => hk l hl1 (by omega) hm)
  · show (qset (qset t.queues a _) (a - 1) _).length = _
    rw [length_qset, length_qset]
    exact h.qlen
  · rw [hps, hplen]
    exact h.plen

theorem agedTo_fold (s : MLFQ_Scheduler) (hx : s.Exclusive) (k a : Nat) (t : MLFQ_Scheduler)
    (h1 : 1 ≤ a) (hak : a + k ≤ s.queues.length) (h : AgedTo s a t) :
    AgedTo s (a + k) ((List.range' a k).foldl age_level t) := by
  induction k generalizing a t with
  | zero => exact h
  | succ k ih =>
    rw [List.range'_succ, List.foldl_cons]
    have := ih (a + 1) (age_level t a) (by omega) (by omega)
      (agedTo_step s t a hx h1 (by omega) h)
    rw [show a + (k + 1) = a + 1 + k by omega]
    exact this

theorem sweepSpec_apply_aging (s : MLFQ_Scheduler) (hx : s.Exclusive) :
    SweepSpec s s.apply_aging := by
  unfold apply_aging
  rw [List.range_eq_range', List.tail_range']
  by_cases hn : s.config.num_queues = 0
  · rw [hn]
    exact {
      queues := fun l hl => by omega
      promoted := fun l i _ hl => by omega
      kept := fun _ _ => rfl
      running := rfl }
  · have h := agedTo_fold s hx (s.config.num_queues - 1) 1 s (le_refl 1)
      (by have := hx.2.2.2; omega) (agedTo_start s)
    rw [show 1 + (s.config.num_queues - 1) = s.config.num_queues by omega] at h
    rw [show 0 + 1 = 1 by rfl]
    exact {
      queues := fun l hl => by
        by_cases e : l + 1 < s.config.num_queues
        · rw [if_pos e]
          exact h.below l e
        · rw [if_neg e, List.append_nil]
          exact h.last l (by omega)
      promoted := h.promoted
      kept := h.kept
      running := h.running }

end MLFQ_Scheduler

/-- C21: the aging sweep `apply_aging`, on an engine whose queues are
exclusive, moves every entry of a queue of level `l >= 1` that is not the
running record and has `time_in_queue >= aging_threshold` to the tail of the
queue of level `l - 1`, in the order of the entries, and leaves the record
with level `l - 1`, `time_in_queue = 0` and `time_in_current_quantum = 0`,
every other field unchanged; the queues keep
their other entries in their order, and every other record, the running
record among them, and the running slot are unchanged. A record moved to
level `l - 1` is not moved again in the same sweep. In a pass of a run on a
valid input and configuration the queues are exclusive where the sweep is
applied, no queued record is the running one, and the sweep is applied when
`current_time > 0` and `current_time % aging_check_interval == 0`. -/
theorem mlfq_aging_sweep :
    (∀ s : MLFQ_Scheduler, s.Exclusive → SweepSpec s s.apply_aging) ∧
    (∀ (s : MLFQ_Scheduler) (c : Nat), s.currently_running = some c → s.aged c = false) ∧
    (∀ (procs : List Process) (cfg : Config), ValidInput procs → ValidConfig cfg →
      ∀ s, Reaches (MLFQ_Scheduler.init procs cfg) s →
      s.completed < (s.all_processes.length : Int) →
      s.add_arrivals.purge.Exclusive ∧
      (0 < s.current_time ∧ Int.tmod s.current_time cfg.aging_check_interval = 0 →
        s.add_arrivals.purge.maybe_aging = s.add_arrivals.purge.apply_aging) ∧
      (∀ l i, i ∈ qget s.add_arrivals.purge.queues l →
        s.add_arrivals.purge.aged i =
          decide (cfg.aging_threshold ≤
            (getP s.add_arrivals.purge.all_processes i).time_in_queue)) ∧
      (∀ c, s.add_arrivals.purge.currently_running = some c →
        s.add_arrivals.purge.apply_aging.currently_running = some c ∧
        getP s.add_arrivals.purge.apply_aging.all_processes c =
          getP s.add_arrivals.purge.all_processes c)) := by
  have hrun : ∀ (s : MLFQ_Scheduler) (c : Nat), s.currently_running = some c →
      s.aged c = false := by
    intro s c hc
    unfold MLFQ_Scheduler.aged
    rw [hc]
    simp
  refine ⟨MLFQ_Scheduler.sweepSpec_apply_aging, hrun, fun procs cfg hin hcfg s h _ => ?_⟩
  obtain ⟨hnq, hcap, _⟩ := hcfg
  have hw := MLFQ_Scheduler.reaches_wf procs cfg hin hnq hcap s h
  have hburst : ∀ i, i < (procs.map Process.copy).length →
      1 ≤ (getP (procs.map Process.copy) i).burst := by
    intro i hi
    rw [List.length_map] at hi
    rw [MLFQ_Scheduler.getP_map_copy, if_pos hi]
    exact (MLFQ_Scheduler.validInput_getP hin i hi).2
  obtain ⟨w1, hp, _, _, t1⟩ := MLFQ_Scheduler.wf_add_arrivals hw hnq hburst
  rw [hp]
  have hex : s.add_arrivals.Exclusive := by
    refine ⟨w1.xinv.level, fun q => ?_, fun q i hm => MLFQ_Scheduler.mem_lt_length w1.inv w1.xinv hm,
      by rw [w1.inv.config, w1.inv.qlen]; exact hcap⟩
    rw [List.nodup_iff_count_le_one]
    intro i
    exact le_trans (count_qget_le_refsOf _ q i) (w1.xinv.once i)
  refine ⟨hex, fun hc => ?_, fun l i hm => ?_, fun c hc => ?_⟩
  · unfold MLFQ_Scheduler.maybe_aging
    rw [t1, w1.inv.config, if_pos hc]
  · have hne : some i ≠ s.add_arrivals.currently_running := by
      intro he
      have h0 := w1.xinv.running i he.symm
      have := (refsOf_eq_zero _ i).1 h0 l
      exact this hm
    unfold MLFQ_Scheduler.aged
    rw [w1.inv.config]
    simp [hne]
  · have hs := MLFQ_Scheduler.sweepSpec_apply_aging _ hex
    refine ⟨hs.running.trans hc, hs.kept c (fun _ _ _ _ => hrun _ c hc)⟩

set_option maxRecDepth 100000 in
/-- Witness of `mlfq_aging_sweep`: passes 7 and 8 of the run on `P1(0, 10)`,
`P2(0, 10)` with Scenario C's levels and an aging sweep in every pass. In
pass 7 `P2` waits at level 1 with `time_in_queue = 3`, the threshold, and the
sweep moves it to the tail of the queue of level 0. In pass 8 `P1` waits at
level 1 with `time_in_queue = 3` and `time_in_current_quantum = 3`, and the
sweep leaves it in the queue of level 0 with level 0 and both counters 0. -/
theorem mlfq_aging_sweep_witness :
    ValidInput aging_procs ∧ ValidConfig (scenarioC 1 50) ∧
    Reaches (MLFQ_Scheduler.init aging_procs (scenarioC 1 50)) (aging_state 7) ∧
    (aging_state 7).add_arrivals.purge.Exclusive ∧
    qget (aging_state 7).add_arrivals.purge.queues 1 = [1] ∧
    (aging_state 7).add_arrivals.purge.aged 1 = true ∧
    qget (aging_state 7).add_arrivals.purge.apply_aging.queues 0 = [1] ∧
    qget (aging_state 7).add_arrivals.purge.apply_aging.queues 1 = [] ∧
    (getP (aging_state 7).add_arrivals.purge.apply_aging.all_processes 1).priority = 0 ∧
    SweepSpec (aging_state 7).add_arrivals.purge
      (aging_state 7).add_arrivals.purge.apply_aging ∧
    Reaches (MLFQ_Scheduler.init aging_procs (scenarioC 1 50)) (aging_state 8) ∧
    qget (aging_state 8).add_arrivals.purge.queues 1 = [0] ∧
    (aging_state 8).add_arrivals.purge.currently_running = some 1 ∧
    ((getP (aging_state 8).add_arrivals.purge.all_processes 0).priority,
      (getP (aging_state 8).add_arrivals.purge.all_processes 0).time_in_queue,
      (getP (aging_state 8).add_arrivals.purge.all_processes 0).time_in_current_quantum) =
      (1, 3, 3) ∧
    ((getP (aging_state 8).add_arrivals.purge.apply_aging.all_processes 0).priority,
      (getP (aging_state 8).add_arrivals.purge.apply_aging.all_processes 0).time_in_queue,
      (getP (aging_state 8).add_arrivals.purge.apply_aging.all_processes
        0).time_in_current_quantum) = (0, 0, 0) ∧
    qget (aging_state 8).add_arrivals.purge.apply_aging.queues 0 = [0] ∧
    getP (aging_state 8).add_arrivals.purge.apply_aging.all_processes 1 =
      getP (aging_state 8).add_arrivals.purge.all_processes 1 ∧
    SweepSpec (aging_state 8).add_arrivals.purge
      (aging_state 8).add_arrivals.purge.apply_aging :=
  have h1 : ValidInput aging_procs := by simp [ValidInput, aging_procs, Process.new]
  have h2 : ValidConfig (scenarioC 1 50) := validConfig_scenarioC 1 50 (by decide) (by decide)
  have h3 : Reaches (MLFQ_Scheduler.init aging_procs (scenarioC 1 50)) (aging_state 7) := by
    apply reaches_after
    intro j hj
    interval_cases j <;> decide!
  have h5 : Reaches (MLFQ_Scheduler.init aging_procs (scenarioC 1 50)) (aging_state 8) := by
    apply reaches_after
    intro j hj
    interval_cases j <;> decide!
  have h4 := (mlfq_aging_sweep.2.2 aging_procs (scenarioC 1 50) h1 h2 (aging_state 7) h3
    (by decide!)).1
  have h6 := (mlfq_aging_sweep.2.2 aging_procs (scenarioC 1 50) h1 h2 (aging_state 8) h5
    (by decide!)).1
  ⟨h1, h2, h3, h4, by decide!, by decide!, by decide!, by decide!, by decide!,
    mlfq_aging_sweep.1 _ h4, h5, by decide!, by decide!, by decide!, by decide!, by decide!,
    by decide!, mlfq_aging_sweep.1 _ h6⟩

/-! ## Runs in which every record stays at level 0 -/

namespace MLFQ_Scheduler

theorem age_level_nil (s : MLFQ_Scheduler) (q : Nat) (h : qget s.queues q = []) :
    age_level s q = s := by
  have e1 : qset s.queues q [] = s.queues := by
    have := qset_qget_self s.queues q
    rw [h] at this
    exact this
  unfold age_level
  rw [h]
  simp only [aging_scan]
  rw [e1, List.append_nil, qset_qget_self]

theorem apply_aging_level_zero (s : MLFQ_Scheduler)
    (h : ∀ l, 1 ≤ l → qget s.queues l = []) : s.apply_aging = s := by
  unfold apply_aging
  have hL : ∀ q ∈ (List.range s.config.num_queues).tail, 1 ≤ q :=
    fun q hq => (mem_tail_range hq).1
  generalize (List.range s.config.num_queues).tail = L at hL
  induction L with
  | nil => rfl
  | cons q L ih =>
    rw [List.foldl_cons, age_level_nil s q (h q (hL q (List.mem_cons_self q L)))]
    exact ih (fun r hr => hL r (List.mem_cons_of_mem q hr))

theorem boost_level_nil (s : MLFQ_Scheduler) (w : List Nat) (q : Nat)
    (h : qget s.queues q = []) : boost_level (s, w) q = (s, w) := by
  have e1 : qset s.queues q [] = s.queues := by
    have := qset_qget_self s.queues q
    rw [h] at this
    exact this
  unfold boost_level
  simp only [h, List.foldl_nil, List.append_nil, e1]

theorem apply_priority_boost_level_zero (s : MLFQ_Scheduler)
    (h : ∀ l, 1 ≤ l → qget s.queues l = [])
    (hp : ∀ c, s.currently_running = some c → (getP s.all_processes c).priority = 0) :
    s.apply_priority_boost = s := by
  have hf : ((List.range s.config.num_queues).tail).foldl boost_level (s, []) = (s, []) := by
    have hL : ∀ q ∈ (List.range s.config.num_queues).tail, 1 ≤ q :=
      fun q hq => (mem_tail_range hq).1
    generalize (List.range s.config.num_queues).tail = L at hL
    induction L with
    | nil => rfl
    | cons q L ih =>
      rw [List.foldl_cons, boost_level_nil s [] q (h q (hL q (List.mem_cons_self q L)))]
      exact ih (fun r hr => hL r (List.mem_cons_of_mem q hr))
  unfold apply_priority_boost
  rw [hf]
  simp only [List.append_nil, qset_qget_self]
  split
  · next c hc =>
    have h0 : ¬ 0 < (getP s.all_processes c).priority := by
      rw [hp c hc]
      exact lt_irrefl 0
    rw [if_neg h0]
  · rfl

theorem preempt_check_level_zero (s : MLFQ_Scheduler)
    (hp : ∀ c, s.currently_running = some c → (getP s.all_processes c).priority = 0) :
    s.preempt_check = s := by
  apply preempt_check_stays
  intro c hc _
  rw [hp c hc]
  exact should_preempt_zero s

theorem housekeeping_level_zero {P : List Process} {cfg : Config} {T : Int}
    (s : MLFQ_Scheduler) (hw : WF P cfg T s)
    (hz : ∀ i, (getP s.all_processes i).priority = 0) : s.housekeeping = s := by
  have hq : ∀ l, 1 ≤ l → qget s.queues l = [] := by
    intro l hl
    apply List.eq_nil_iff_forall_not_mem.2
    intro i hi
    have := hw.xinv.level l i hi
    rw [hz i] at this
    omega
  have e1 : s.purge = s := purge_eq_self s hw.xinv.live
  have e2 : s.maybe_aging = s := by
    unfold maybe_aging
    split
    · exact apply_aging_level_zero s hq
    · rfl
  have e3 : s.maybe_boost = s := by
    unfold maybe_boost
    split
    · exact apply_priority_boost_level_zero s hq (fun c _ => hz c)
    · rfl
  unfold housekeeping
  rw [e1, e2, e3]
  exact preempt_check_level_zero s (fun c _ => hz c)

end MLFQ_Scheduler

namespace MLFQ_Scheduler

theorem admitted_eq {P : List Process} {cfg : Config} (s : MLFQ_Scheduler)
    (hi : Inv P cfg s.current_time s) :
    s.admitted = (List.range s.all_processes.length).filter
      (fun i => decide ((getP s.all_processes i).arrival = s.current_time)) := by
  unfold admitted
  apply List.filter_congr
  intro i hil
  rw [List.mem_range, hi.len] at hil
  by_cases ha : (getP s.all_processes i).arrival = s.current_time
  · have := (hi.fresh i hil (le_of_eq ha.symm)).2
    simp [ha, this.1, this.2]
  · simp [ha]

theorem pass_level_zero (procs : List Process) (cfg : Config) (hin : ValidInput procs)
    (hcfg : ValidConfig cfg) (m u : MLFQ_Scheduler) (h : Reaches (init procs cfg) m)
    (hlt : m.completed < (m.all_processes.length : Int)) (hst : m.step = Outcome.next u)
    (hz : ∀ i, (getP m.all_processes i).priority = 0) :
    WF (procs.map Process.copy) cfg (m.add_arrivals.current_time + 1) m.add_arrivals ∧
    (∀ i, getP m.add_arrivals.all_processes i = getP m.all_processes i) ∧
    qget m.add_arrivals.queues 0 = qget m.queues 0 ++ m.admitted ∧
    m.add_arrivals.currently_running = m.currently_running ∧
    m.add_arrivals.current_time = m.current_time ∧
    m.add_arrivals.completed = m.completed ∧
    m.add_arrivals.timeline_queue = m.timeline_queue ∧
    ((∃ c, m.currently_running = some c ∧ u = execute m.add_arrivals c) ∨
     (m.currently_running = none ∧ ∃ c rest, qget m.add_arrivals.queues 0 = c :: rest ∧
        WF (procs.map Process.copy) cfg (m.add_arrivals.current_time + 1)
          (take m.add_arrivals 0 c rest) ∧
        u = execute (take m.add_arrivals 0 c rest) c) ∨
     (m.currently_running = none ∧ qget m.add_arrivals.queues 0 = [] ∧
        u = { m.add_arrivals with
          timeline_pid := m.add_arrivals.timeline_pid ++ [0],
          timeline_queue := m.add_arrivals.timeline_queue ++ [-1],
          current_time := m.add_arrivals.current_time + 1 })) := by
  obtain ⟨hw, _, _, _, w5, _, _, _, _, hstep, hlt5, _, _, tq, hburst, _⟩ :=
    pass_setup procs cfg hin hcfg m h hlt
  obtain ⟨hnq, hcap, _⟩ := hcfg
  obtain ⟨w1, _, e1, r1, t1⟩ := wf_add_arrivals hw hnq hburst
  have hq0 : 0 < m.queues.length := by rw [hw.inv.qlen]; decide
  have hnq0 : 0 < m.config.num_queues := by rw [hw.inv.config]; exact hnq
  obtain ⟨a1, _⟩ := add_arrivals_queue m hnq0 hq0
  obtain ⟨f1, _⟩ := add_arrivals_spec m hnq0 hq0
  have hz1 : ∀ i, (getP m.add_arrivals.all_processes i).priority = 0 := by
    intro i
    rw [e1 i]
    exact hz i
  have hk := housekeeping_level_zero m.add_arrivals w1 hz1
  rw [hk] at w5 hstep hlt5 tq
  rw [hst] at hstep
  have hqe : ∀ l, 1 ≤ l → qget m.add_arrivals.queues l = [] := by
    intro l hl
    apply List.eq_nil_iff_forall_not_mem.2
    intro i hi
    have := w1.xinv.level l i hi
    rw [hz1 i] at this
    omega
  refine ⟨w5, e1, a1, r1, t1, f1.completed, tq, ?_⟩
  rcases pass_cases _ w5 hburst hcap hlt5 with ⟨c, hc, _, hr⟩ |
      ⟨hrun, a, c, rest, hq, he, _, hr, hwt⟩ | ⟨hrun, hq, _, hr⟩
  · rw [hr] at hstep
    exact Or.inl ⟨c, r1 ▸ hc, (Outcome.next.inj hstep)⟩
  · rw [hr] at hstep
    have ha : a = 0 := by
      by_contra hne
      exact (get_highest_some _ a hq).2 (hqe a (by omega))
    subst ha
    exact Or.inr (Or.inl ⟨r1 ▸ hrun, c, rest, he, hwt, (Outcome.next.inj hstep)⟩)
  · rw [hr] at hstep
    refine Or.inr (Or.inr ⟨r1 ▸ hrun, ?_, (Outcome.next.inj hstep)⟩)
    apply List.eq_nil_iff_forall_not_mem.2
    intro i hi
    exact get_highest_none _ hq i ⟨0, by rw [w1.inv.config]; exact hnq, hi⟩

theorem execute_level_zero {P : List Process} {cfg : Config} (w : MLFQ_Scheduler) (c : Nat)
    (hw : WF P cfg (w.current_time + 1) w) (hrun : w.currently_running = some c)
    (hcap : cfg.num_queues ≤ QUEUE_SLOTS)
    (hz : (getP w.all_processes c).priority = 0) :
    BusyTick w (execute w c) c ∧
    (∀ i, i ≠ c → (getP (execute w c).all_processes i).sched = (getP w.all_processes i).sched) ∧
    (((getP w.all_processes c).remaining = 1 ∧ (execute w c).currently_running = none ∧
        (execute w c).queues = w.queues) ∨
     ((getP w.all_processes c).remaining ≠ 1 ∧
        (0 < cfg.quantum 0 ∧
          cfg.quantum 0 ≤ (getP w.all_processes c).time_in_current_quantum + 1) ∧
        (execute w c).currently_running = none ∧
        (execute w c).queues = qset w.queues (if 0 + 1 < cfg.num_queues then 0 + 1 else 0)
          (qget w.queues (if 0 + 1 < cfg.num_queues then 0 + 1 else 0) ++ [c]) ∧
        (getP (execute w c).all_processes c).time_in_current_quantum = 0 ∧
        (getP (execute w c).all_processes c).priority =
          (if 0 + 1 < cfg.num_queues then 0 + 1 else 0)) ∨
     ((getP w.all_processes c).remaining ≠ 1 ∧
        ¬ (0 < cfg.quantum 0 ∧
          cfg.quantum 0 ≤ (getP w.all_processes c).time_in_current_quantum + 1) ∧
        (execute w c).currently_running = some c ∧ (execute w c).queues = w.queues ∧
        (getP (execute w c).all_processes c).time_in_current_quantum =
          (getP w.all_processes c).time_in_current_quantum + 1 ∧
        (getP (execute w c).all_processes c).priority = 0)) := by
  have hcl : c < w.all_processes.length := by
    rw [hw.inv.len]; exact (hw.inv.active_lt c (Or.inr hrun)).1
  obtain ⟨b1, b2, b3, _, _, _, b7, b8, b9⟩ := before_check_spec w c
  have hs := sched_fields (b9 hcl)
  have hrem : (getP (before_check w c).all_processes c).remaining =
      (getP w.all_processes c).remaining - 1 := (core_fields hs.1).2.2.2.1
  have htic : (getP (before_check w c).all_processes c).time_in_current_quantum =
      (getP w.all_processes c).time_in_current_quantum + 1 := hs.2.2
  have hpri : (getP (before_check w c).all_processes c).priority = 0 := hs.2.1.trans hz
  have hcfg : (before_check w c).config = cfg := b3.trans hw.inv.config
  refine ⟨(busyTick_execute w c hrun hw.inv rfl hcap).1, fun i hi => ?_, ?_⟩
  · rw [execute_eq, finish_tick_others _ c i hi]
    exact b8 i hi
  · rw [execute_eq]
    by_cases h0 : (getP (before_check w c).all_processes c).remaining = 0
    · left
      rw [finish_tick_done _ c h0]
      exact ⟨by omega, rfl, b1⟩
    · have h1 : (getP w.all_processes c).remaining ≠ 1 := by omega
      by_cases hq : 0 < (before_check w c).config.quantum
            (getP (before_check w c).all_processes c).priority ∧
          (before_check w c).config.quantum (getP (before_check w c).all_processes c).priority ≤
            (getP (before_check w c).all_processes c).time_in_current_quantum
      · right
        left
        rw [finish_tick_expire _ c h0 hq]
        rw [hcfg, hpri, htic] at hq
        dsimp only
        rw [getP_setP_self _ _ _ (by rw [b7]; exact hcl), hcfg, hpri, b1]
        exact ⟨h1, hq, rfl, rfl, rfl, rfl⟩
      · right
        right
        rw [finish_tick_stay _ c h0 hq]
        rw [hcfg, hpri, htic] at hq
        exact ⟨h1, hq, b2.trans hrun, b1, htic, hpri⟩

end MLFQ_Scheduler

/-! ## Round-Robin against the one-level MLFQ -/

namespace RR_Scheduler

theorem execute_fields (x : RR_Scheduler) (c : Nat) (hc : c < x.processes.length) :
    (x.execute c).processes.length = x.processes.length ∧
    (∀ i, i ≠ c → getP (x.execute c).processes i = getP x.processes i) ∧
    (getP (x.execute c).processes c).core =
      (({ getP x.processes c with
          remaining := (getP x.processes c).remaining - 1,
          completion := if (getP x.processes c).remaining = 1 then x.current_time + 1
            else (getP x.processes c).completion }) : Process).core ∧
    (x.execute c).current_time = x.current_time + 1 ∧
    (x.execute c).time_quantum = x.time_quantum ∧
    (x.execute c).next_arrival = x.next_arrival ∧
    (x.execute c).completed =
      (if (getP x.processes c).remaining = 1 then x.completed + 1 else x.completed) ∧
    (((getP x.processes c).remaining = 1 ∧ (x.execute c).currently_running = none ∧
        (x.execute c).ready_queue = x.ready_queue) ∨
     ((getP x.processes c).remaining ≠ 1 ∧ x.time_quantum ≤ x.quantum_used + 1 ∧
        (x.execute c).currently_running = none ∧
        (x.execute c).ready_queue = x.ready_queue ++ [c]) ∨
     ((getP x.processes c).remaining ≠ 1 ∧ ¬ x.time_quantum ≤ x.quantum_used + 1 ∧
        (x.execute c).currently_running = x.currently_running ∧
        (x.execute c).ready_queue = x.ready_queue ∧
        (x.execute c).quantum_used = x.quantum_used + 1)) := by
  have hl : c < (setP x.processes c
      (fun y => { y with remaining := y.remaining - 1 })).length := by
    rw [length_setP]; exact hc
  by_cases h1 : (getP x.processes c).remaining = 1
  · have e : x.execute c =
        { x with
          processes := setP (setP x.processes c
            (fun y => { y with remaining := y.remaining - 1 })) c
            (fun y => { y with completion := x.current_time + 1 }),
          quantum_used := x.quantum_used + 1,
          current_time := x.current_time + 1,
          total_busy_time := x.total_busy_time + 1,
          completed := x.completed + 1,
          currently_running := none } := by
      unfold execute
      dsimp only
      rw [getP_setP_self _ _ _ hc]
      dsimp only
      rw [if_pos (by omega)]
    rw [e]
    dsimp only
    refine ⟨by rw [length_setP, length_setP], fun i hi => ?_, ?_, rfl, rfl, rfl,
      by rw [if_pos h1], Or.inl ⟨h1, rfl, rfl⟩⟩
    · rw [getP_setP_ne _ _ _ _ (Ne.symm hi), getP_setP_ne _ _ _ _ (Ne.symm hi)]
    · rw [getP_setP_self _ _ _ hl, getP_setP_self _ _ _ hc, if_pos h1]
  · by_cases hq : x.time_quantum ≤ x.quantum_used + 1
    · have e : x.execute c =
          { x with
            processes := setP x.processes c (fun y => { y with remaining := y.remaining - 1 }),
            quantum_used := x.quantum_used + 1,
            current_time := x.current_time + 1,
            total_busy_time := x.total_busy_time + 1,
            ready_queue := x.ready_queue ++ [c],
            currently_running := none } := by
        unfold execute
        dsimp only
        rw [getP_setP_self _ _ _ hc]
        dsimp only
        rw [if_neg (by omega), if_pos hq]
      rw [e]
      dsimp only
      refine ⟨by rw [length_setP], fun i hi => ?_, ?_, rfl, rfl, rfl,
        by rw [if_neg h1], Or.inr (Or.inl ⟨h1, hq, rfl, rfl⟩)⟩
      · rw [getP_setP_ne _ _ _ _ (Ne.symm hi)]
      · rw [getP_setP_self _ _ _ hc, if_neg h1]
    · have e : x.execute c =
          { x with
            processes := setP x.processes c (fun y => { y with remaining := y.remaining - 1 }),
            quantum_used := x.quantum_used + 1,
            current_time := x.current_time + 1,
            total_busy_time := x.total_busy_time + 1 } := by
        unfold execute
        dsimp only
        rw [getP_setP_self _ _ _ hc]
        dsimp only
        rw [if_neg (by omega), if_neg hq]
      rw [e]
      dsimp only
      refine ⟨by rw [length_setP], fun i hi => ?_, ?_, rfl, rfl, rfl,
        by rw [if_neg h1], Or.inr (Or.inr ⟨h1, hq, rfl, rfl, rfl⟩)⟩
      · rw [getP_setP_ne _ _ _ _ (Ne.symm hi)]
      · rw [getP_setP_self _ _ _ hc, if_neg h1]

end RR_Scheduler

theorem sim_execute {P : List Process} {cfg : Config} (q T : Int) (w : MLFQ_Scheduler)
    (x : RR_Scheduler) (c : Nat)
    (hw : WF P cfg (w.current_time + 1) w) (hrun : w.currently_running = some c)
    (hcap : cfg.num_queues ≤ QUEUE_SLOTS) (hz : (getP w.all_processes c).priority = 0)
    (h1 : cfg.num_queues = 1) (hq : cfg.quantum 0 = q) (hq0 : 0 < q)
    (hs : Sim q T w x) : Sim q T (MLFQ_Scheduler.execute w c) (x.execute c) := by
  have hcl : c < w.all_processes.length := by
    rw [hw.inv.len]; exact (hw.inv.active_lt c (Or.inr hrun)).1
  have hcx : c < x.processes.length := by rw [hs.len]; exact hcl
  obtain ⟨bt, hoth, hcase⟩ := MLFQ_Scheduler.execute_level_zero w c hw hrun hcap hz
  obtain ⟨x1, x2, x3, x4, x5, x6, x7, xcase⟩ := RR_Scheduler.execute_fields x c hcx
  obtain ⟨c1, c2, c3, c4, c5, c6, c7⟩ := core_fields (hs.core c)
  obtain ⟨hpos, hst⟩ := hw.inv.running_pos c hrun
  have hticc : (getP w.all_processes c).time_in_current_quantum = x.quantum_used := by
    have := hs.tic c hpos
    rw [if_pos hrun] at this
    exact this
  have hq0len : 0 < w.queues.length := by rw [hw.inv.qlen]; decide
  have hothers : ∀ i, i ≠ c → 0 < (getP (MLFQ_Scheduler.execute w c).all_processes i).remaining →
      (getP (MLFQ_Scheduler.execute w c).all_processes i).time_in_current_quantum = 0 := by
    intro i hi hp
    have hsf := sched_fields (hoth i hi)
    have hco := core_fields hsf.1
    rw [hco.2.2.2.1] at hp
    have := hs.tic i hp
    rw [hrun, if_neg (fun e => hi (Option.some.inj e).symm)] at this
    rw [hsf.2.2, this]
  have harr : ∀ i, (getP (MLFQ_Scheduler.execute w c).all_processes i).arrival =
      (getP w.all_processes i).arrival := by
    intro i
    by_cases hi : i = c
    · subst hi
      exact bt.arrival
    · exact (core_fields (bt.others i hi)).2.1
  rw [c4, hs.time_quantum, ← hticc] at xcase
  rw [hq] at hcase
  have hqrt : (MLFQ_Scheduler.execute w c).queues = w.queues ∨
      (MLFQ_Scheduler.execute w c).queues = qset w.queues 0 (qget w.queues 0 ++ [c]) := by
    rcases hcase with ⟨_, _, a3⟩ | ⟨_, _, _, a4, _⟩ | ⟨_, _, _, a4, _⟩
    · exact Or.inl a3
    · right
      rw [a4, h1]
      rfl
    · exact Or.inl a4
  refine {
    len := by rw [x1, bt.len, hs.len]
    core := fun i => ?_
    queue := ?_
    running := ?_
    current_time := by rw [x4, bt.current_time, hs.current_time]
    completed := by rw [x7, bt.completed, hs.completed, c4]
    time_quantum := by rw [x5, hs.time_quantum]
    tic := fun i hp => ?_
    next := fun i hi => by
      rw [x6, harr i]
      exact hs.next i (by rw [← bt.len]; exact hi)
    next_le := by rw [x6, bt.len]; exact hs.next_le }
  · by_cases hi : i = c
    · subst hi
      have e5 := bt.start_time
      rw [if_pos hst] at e5
      rw [x3]
      simp only [Process.core, Prod.mk.injEq]
      refine ⟨by rw [c1, bt.pid], by rw [c2, bt.arrival], by rw [c3, bt.burst],
        by rw [c4, bt.remaining], by rw [c5, e5], ?_, by rw [c7, hst, bt.started]⟩
      rw [bt.completion, c4, c6, hs.current_time]
    · rw [x2 i hi]
      exact (hs.core i).trans (sched_fields (hoth i hi)).1.symm
  · rcases hcase with ⟨a1, _, a3⟩ | ⟨a1, a2, _, a4, _⟩ | ⟨a1, a2, _, a4, _⟩ <;>
      rcases xcase with ⟨y1, _, y3⟩ | ⟨y1, y2, _, y4⟩ | ⟨y1, y2, _, y4, _⟩
    · rw [y3, a3, hs.queue]
    · exact absurd a1 y1
    · exact absurd a1 y1
    · exact absurd y1 a1
    · rw [y4, a4, h1, hs.queue]
      show _ = qget (qset w.queues 0 (qget w.queues 0 ++ [c])) 0
      rw [qget_qset]
      simp only [hq0len, and_self, if_true]
    · exact absurd a2.2 y2
    · exact absurd y1 a1
    · exact absurd ⟨hq0, y2⟩ a2
    · rw [y4, a4, hs.queue]
  · rcases hcase with ⟨a1, a2, _⟩ | ⟨a1, a2, a3, _⟩ | ⟨a1, a2, a3, _⟩ <;>
      rcases xcase with ⟨y1, y2, _⟩ | ⟨y1, y2, y3, _⟩ | ⟨y1, y2, y3, _⟩
    · rw [y2, a2]
    · exact absurd a1 y1
    · exact absurd a1 y1
    · exact absurd y1 a1
    · rw [y3, a3]
    · exact absurd a2.2 y2
    · exact absurd y1 a1
    · exact absurd ⟨hq0, y2⟩ a2
    · rw [y3, a3, hs.running, hrun]
  · by_cases hi : i = c
    · subst hi
      rw [bt.remaining] at hp
      rcases hcase with ⟨a1, _, _⟩ | ⟨a1, a2, a3, _, a5, _⟩ | ⟨a1, a2, a3, _, a5, _⟩ <;>
        rcases xcase with ⟨y1, _, _⟩ | ⟨y1, y2, _, _⟩ | ⟨y1, y2, _, _, y5⟩
      · omega
      · exact absurd a1 y1
      · exact absurd a1 y1
      · exact absurd y1 a1
      · rw [a5, a3]
        simp
      · exact absurd a2.2 y2
      · exact absurd y1 a1
      · exact absurd ⟨hq0, y2⟩ a2
      · rw [a5, a3, if_pos rfl, y5]
    · rw [hothers i hi hp]
      have hne : (MLFQ_Scheduler.execute w c).currently_running ≠ some i := by
        rcases MLFQ_Scheduler.execute_running w c hrun with hn | hn
        · rw [hn]
          exact fun e => by cases e
        · rw [hn]
          exact fun e => hi (Option.some.inj e).symm
      rw [if_neg hne]

theorem sorted_lt_ext (l1 l2 : List Nat) (h1 : l1.Sorted (· < ·)) (h2 : l2.Sorted (· < ·))
    (h : ∀ i, i ∈ l1 ↔ i ∈ l2) : l1 = l2 :=
  List.eq_of_perm_of_sorted ((List.perm_ext_iff_of_nodup h1.nodup h2.nodup).2 h) h1 h2

theorem sorted_getP (procs : List Process)
    (h : procs.Sorted (fun a b => a.arrival < b.arrival)) (i j : Nat) (hij : i < j)
    (hj : j < procs.length) : (getP procs i).arrival < (getP procs j).arrival := by
  rw [getP_eq_getElem procs i (by omega), getP_eq_getElem procs j hj]
  exact List.pairwise_iff_getElem.1 h i j (by omega) hj hij

namespace RR_Scheduler

theorem step_running (r : RR_Scheduler) (c : Nat)
    (hc : r.arrivals.currently_running = some c)
    (hpos : (getP r.arrivals.processes c).remaining ≠ 0) :
    r.step = r.arrivals.execute c := by
  unfold step
  dsimp only
  rw [hc]
  dsimp only
  rw [if_neg hpos]

theorem step_take (r : RR_Scheduler) (c : Nat) (rest : List Nat)
    (hrun : r.arrivals.currently_running = none)
    (hq : r.arrivals.ready_queue = c :: rest) :
    r.step = (r.arrivals.take c rest).execute c := by
  unfold step
  dsimp only
  rw [hrun]
  dsimp only
  unfold dispatch
  rw [hq]
  rfl

theorem step_idle (r : RR_Scheduler)
    (hrun : r.arrivals.currently_running = none) (hq : r.arrivals.ready_queue = []) :
    r.step = { r.arrivals with current_time := r.arrivals.current_time + 1 } := by
  have e : r.step = r.arrivals.dispatch := by
    unfold step
    dsimp only
    rw [hrun]
  rw [e]
  unfold dispatch
  split
  · rfl
  · next c rest h =>
    rw [hq] at h
    cases h

theorem take_fields (x : RR_Scheduler) (c : Nat) (rest : List Nat)
    (hc : c < x.processes.length) :
    (x.take c rest).processes.length = x.processes.length ∧
    (∀ i, i ≠ c → getP (x.take c rest).processes i = getP x.processes i) ∧
    (getP (x.take c rest).processes c).core =
      (({ getP x.processes c with
          started := true,
          start_time := if (getP x.processes c).started = true
            then (getP x.processes c).start_time else x.current_time }) : Process).core := by
  unfold take
  dsimp only
  by_cases hs : (getP x.processes c).started = false
  · rw [if_pos hs]
    refine ⟨length_setP _ _ _, fun i hi => getP_setP_ne _ _ _ _ (Ne.symm hi), ?_⟩
    rw [getP_setP_self _ _ _ hc]
    simp [hs]
  · rw [if_neg hs]
    have ht : (getP x.processes c).started = true := by simpa using hs
    refine ⟨rfl, fun _ _ => rfl, ?_⟩
    simp [Process.core, ht]

end RR_Scheduler

theorem sim_take (q T : Int) (w : MLFQ_Scheduler) (x : RR_Scheduler) (c : Nat)
    (rest : List Nat) (hrun : w.currently_running = none)
    (hcl : c < w.all_processes.length) (hq0len : 0 < w.queues.length)
    (hs : Sim q T w x) : Sim q T (MLFQ_Scheduler.take w 0 c rest) (x.take c rest) := by
  have hcx : c < x.processes.length := by rw [hs.len]; exact hcl
  obtain ⟨t1, t2, t3, t4, t5, t6, t7, _, t9, t10⟩ := MLFQ_Scheduler.take_spec w 0 c rest hcl
  obtain ⟨y1, y2, y3⟩ := RR_Scheduler.take_fields x c rest hcx
  obtain ⟨c1, c2, c3, c4, c5, c6, c7⟩ := core_fields (hs.core c)
  have harr : ∀ i, (getP (MLFQ_Scheduler.take w 0 c rest).all_processes i).arrival =
      (getP w.all_processes i).arrival := by
    intro i
    by_cases hi : i = c
    · subst hi
      exact t4
    · rw [t2 i hi]
  refine {
    len := by rw [y1, t1, hs.len]
    core := fun i => ?_
    queue := ?_
    running := rfl
    current_time := hs.current_time
    completed := hs.completed
    time_quantum := hs.time_quantum
    tic := fun i hp => ?_
    next := fun i hi => by
      rw [harr i]
      exact hs.next i (by rw [← t1]; exact hi)
    next_le := by rw [t1]; exact hs.next_le }
  · by_cases hi : i = c
    · subst hi
      rw [y3]
      simp only [Process.core, Prod.mk.injEq]
      refine ⟨by rw [c1, t3], by rw [c2, t4], by rw [c3, t5], by rw [c4, t6], ?_,
        by rw [c6, t7], by rw [t9]⟩
      rw [t10, c7, c5, hs.current_time]
    · rw [y2 i hi, t2 i hi]
      exact hs.core i
  · show rest = qget (qset w.queues 0 rest) 0
    rw [qget_qset]
    simp only [hq0len, and_self, if_true]
  · obtain ⟨_, k2, _, k4⟩ := MLFQ_Scheduler.take_counters w 0 c rest i
    rw [k4] at hp
    have := hs.tic i hp
    rw [hrun] at this
    rw [k2, this]
    show (0 : Int) = if some c = some i then 0 else 0
    split <;> rfl

theorem sim_arrivals {P : List Process} {cfg : Config} (q : Int) (m : MLFQ_Scheduler)
    (r : RR_Scheduler) (hw : WF P cfg m.current_time m) (hnq : 1 ≤ cfg.num_queues)
    (hburst : ∀ i, i < P.length → 1 ≤ (getP P i).burst)
    (hmono : ∀ i j, i < j → j < m.all_processes.length →
      (getP m.all_processes i).arrival < (getP m.all_processes j).arrival)
    (hs : Sim q m.current_time m r) :
    Sim q (m.current_time + 1) m.add_arrivals r.arrivals := by
  obtain ⟨w1, _, e1, r1, t1⟩ := MLFQ_Scheduler.wf_add_arrivals hw hnq hburst
  have hq0 : 0 < m.queues.length := by rw [hw.inv.qlen]; decide
  have hnq0 : 0 < m.config.num_queues := by rw [hw.inv.config]; exact hnq
  obtain ⟨a1, _⟩ := MLFQ_Scheduler.add_arrivals_queue m hnq0 hq0
  obtain ⟨f1, _⟩ := MLFQ_Scheduler.add_arrivals_spec m hnq0 hq0
  have hlen1 : m.add_arrivals.all_processes.length = m.all_processes.length := by
    rw [w1.inv.len, hw.inv.len]
  obtain ⟨k, k1, k2, k3, k4⟩ := RR_Scheduler.arriving_spec r
  have harr : ∀ i, (getP r.processes i).arrival = (getP m.all_processes i).arrival :=
    fun i => (core_fields (hs.core i)).2.1
  rw [hs.current_time] at k3 k4
  rw [hs.len] at k1 k4
  have hmem : ∀ i, i ∈ m.admitted ↔ i ∈ r.arriving := by
    intro i
    rw [MLFQ_Scheduler.admitted_eq m hw.inv, k2, List.mem_filter, List.mem_range,
      List.mem_range'_1, decide_eq_true_eq]
    constructor
    · rintro ⟨hi, ha⟩
      have h1 : ¬ i < r.next_arrival := fun hx => by
        have := (hs.next i hi).1 hx
        omega
      refine ⟨by omega, ?_⟩
      by_contra h2
      have h3 : r.next_arrival + k < m.all_processes.length := by omega
      have h4 := k4 h3
      rw [harr] at h4
      by_cases h5 : r.next_arrival + k = i
      · rw [h5] at h4
        omega
      · have := hmono (r.next_arrival + k) i (by omega) hi
        omega
    · rintro ⟨h1, h2⟩
      have h3 := k3 i h1 h2
      rw [harr] at h3
      have hnl := hs.next_le
      have hi : i < m.all_processes.length := by
        rw [max_eq_right hnl] at k1
        omega
      refine ⟨hi, ?_⟩
      have : ¬ (getP m.all_processes i).arrival < m.current_time := fun hx => by
        have := (hs.next i hi).2 hx
        omega
      omega
  have hadm : m.admitted = r.arriving := by
    apply sorted_lt_ext _ _ _ _ hmem
    · unfold MLFQ_Scheduler.admitted
      exact (List.sorted_lt_range _).filter _
    · rw [k2]
      exact List.pairwise_lt_range' _ _
  have hkl : r.arriving.length = k := by rw [k2, List.length_range']
  refine {
    len := by show r.processes.length = _; rw [hs.len, hlen1]
    core := fun i => by
      show (getP r.processes i).core = _
      rw [e1 i]
      exact hs.core i
    queue := by
      show r.ready_queue ++ r.arriving = _
      rw [a1, hs.queue, hadm]
    running := by
      show r.currently_running = _
      rw [r1]
      exact hs.running
    current_time := by
      show r.current_time = _
      rw [t1]
      exact hs.current_time
    completed := by
      show r.completed = _
      rw [f1.completed]
      exact hs.completed
    time_quantum := hs.time_quantum
    tic := fun i hp => by
      rw [e1 i] at hp ⊢
      rw [r1]
      exact hs.tic i hp
    next := fun i hi => ?_
    next_le := ?_ }
  · rw [hlen1] at hi
    show i < r.next_arrival + r.arriving.length ↔ _
    rw [e1 i, hkl]
    constructor
    · intro hx
      by_cases h1 : i < r.next_arrival
      · have := (hs.next i hi).1 h1
        omega
      · have := k3 i (by omega) hx
        rw [harr] at this
        omega
    · intro hx
      by_cases h1 : (getP m.all_processes i).arrival < m.current_time
      · have := (hs.next i hi).2 h1
        omega
      · have h2 : i ∈ m.admitted := by
          rw [MLFQ_Scheduler.admitted_eq m hw.inv, List.mem_filter, List.mem_range,
            decide_eq_true_eq]
          exact ⟨hi, by omega⟩
        rw [hadm, k2, List.mem_range'_1] at h2
        exact h2.2
  · show r.next_arrival + r.arriving.length ≤ _
    rw [hlen1, hkl]
    rw [max_eq_right hs.next_le] at k1
    exact k1

theorem stdSort_of_sorted (sort : List Process → List Process) (hsort : StdSort sort)
    (l : List Process) (hl : l.Sorted (fun a b => a.arrival < b.arrival)) : sort l = l := by
  obtain ⟨hperm, hs⟩ := hsort l
  have hnd : (l.map (fun p => p.arrival)).Nodup :=
    List.Sorted.nodup (r := (· < ·)) (List.pairwise_map.2 hl)
  have hnd2 : ((sort l).map (fun p => p.arrival)).Nodup := (hperm.map _).nodup_iff.2 hnd
  have hne : (sort l).Pairwise (fun a b => a.arrival ≠ b.arrival) := List.pairwise_map.1 hnd2
  have hlt : (sort l).Sorted (fun a b => a.arrival < b.arrival) :=
    (List.Pairwise.and hs hne).imp (fun h => lt_of_le_of_ne h.1 h.2)
  haveI : IsAntisymm Process (fun a b => a.arrival < b.arrival) :=
    ⟨fun a b h1 h2 => absurd h1 (not_lt.2 (le_of_lt h2))⟩
  exact List.eq_of_perm_of_sorted hperm hlt hl

theorem sim_step (procs : List Process) (cfg : Config) (hin : ValidInput procs)
    (hcfg : ValidConfig cfg) (q : Int) (h1 : cfg.num_queues = 1) (hq : cfg.quantum 0 = q)
    (hq0 : 0 < q) (hsorted : procs.Sorted (fun a b => a.arrival < b.arrival))
    (m u : MLFQ_Scheduler) (r : RR_Scheduler) (h : Reaches (MLFQ_Scheduler.init procs cfg) m)
    (hlt : m.completed < (m.all_processes.length : Int))
    (hst : m.step = MLFQ_Scheduler.Outcome.next u)
    (hs : Sim q m.current_time m r) : Sim q u.current_time u r.step := by
  have hnq := hcfg.1
  have hcap := hcfg.2.1
  have hw := MLFQ_Scheduler.reaches_wf procs cfg hin hnq hcap m h
  have hz : ∀ i, (getP m.all_processes i).priority = 0 := by
    intro i
    have := hw.inv.prio i
    rw [h1] at this
    omega
  have hburst : ∀ i, i < (procs.map Process.copy).length →
      1 ≤ (getP (procs.map Process.copy) i).burst := by
    intro i hi
    rw [List.length_map] at hi
    rw [MLFQ_Scheduler.getP_map_copy, if_pos hi]
    exact (MLFQ_Scheduler.validInput_getP hin i hi).2
  have hmono : ∀ i j, i < j → j < m.all_processes.length →
      (getP m.all_processes i).arrival < (getP m.all_processes j).arrival := by
    intro i j hij hj
    rw [hw.inv.len, List.length_map] at hj
    rw [(hw.inv.static i).2.1, (hw.inv.static j).2.1, MLFQ_Scheduler.getP_map_copy,
      MLFQ_Scheduler.getP_map_copy, if_pos hj, if_pos (by omega)]
    exact sorted_getP procs hsorted i j hij hj
  obtain ⟨w1, e1, _, r1, _, _, _, hcases⟩ :=
    MLFQ_Scheduler.pass_level_zero procs cfg hin hcfg m u h hlt hst hz
  have hs1 := sim_arrivals q m r hw hnq hburst hmono hs
  have hz1 : ∀ i, (getP m.add_arrivals.all_processes i).priority = 0 := by
    intro i
    rw [e1 i]
    exact hz i
  rw [MLFQ_Scheduler.pass_clock procs cfg hin hnq hcap m u h hlt hst]
  rcases hcases with ⟨c, hc, hu⟩ | ⟨hrun, c, rest, he, hwt, hu⟩ | ⟨hrun, he, hu⟩
  · have hc1 := r1.trans hc
    have hpos := (w1.inv.running_pos c hc1).1
    have hrem : (getP r.arrivals.processes c).remaining ≠ 0 := by
      rw [(core_fields (hs1.core c)).2.2.2.1]
      omega
    rw [hu, RR_Scheduler.step_running r c (hs1.running.trans hc1) hrem]
    exact sim_execute q _ m.add_arrivals r.arrivals c w1 hc1 hcap (hz1 c) h1 hq hq0 hs1
  · have hrun1 := r1.trans hrun
    have hcl : c < m.add_arrivals.all_processes.length :=
      MLFQ_Scheduler.mem_lt_length w1.inv w1.xinv
        (show c ∈ qget m.add_arrivals.queues 0 by rw [he]; exact List.mem_cons_self _ _)
    have hq0len : 0 < m.add_arrivals.queues.length := by rw [w1.inv.qlen]; decide
    rw [hu, RR_Scheduler.step_take r c rest (hs1.running.trans hrun1) (hs1.queue.trans he)]
    have hs2 := sim_take q _ m.add_arrivals r.arrivals c rest hrun1 hcl hq0len hs1
    have hzt : (getP (MLFQ_Scheduler.take m.add_arrivals 0 c rest).all_processes c).priority
        = 0 := by
      rw [(MLFQ_Scheduler.take_counters m.add_arrivals 0 c rest c).1]
      exact hz1 c
    exact sim_execute q _ (MLFQ_Scheduler.take m.add_arrivals 0 c rest)
      (r.arrivals.take c rest) c hwt rfl hcap hzt h1 hq hq0 hs2
  · have hrun1 := r1.trans hrun
    rw [hu, RR_Scheduler.step_idle r (hs1.running.trans hrun1) (hs1.queue.trans he)]
    exact {
      len := hs1.len
      core := hs1.core
      queue := hs1.queue
      running := hs1.running
      current_time := by
        show r.arrivals.current_time + 1 = m.add_arrivals.current_time + 1
        rw [hs1.current_time]
      completed := hs1.completed
      time_quantum := hs1.time_quantum
      tic := hs1.tic
      next := hs1.next
      next_le := hs1.next_le }

theorem sim_run (procs : List Process) (cfg : Config) (hin : ValidInput procs)
    (hcfg : ValidConfig cfg) (q : Int) (h1 : cfg.num_queues = 1) (hq : cfg.quantum 0 = q)
    (hq0 : 0 < q) (hsorted : procs.Sorted (fun a b => a.arrival < b.arrival))
    (fuel : Nat) (m sm : MLFQ_Scheduler) (r : RR_Scheduler)
    (h : Reaches (MLFQ_Scheduler.init procs cfg) m) (hs : Sim q m.current_time m r)
    (hrun : MLFQ_Scheduler.run fuel m = MLFQ_Scheduler.RunResult.done sm false) :
    ∃ sr, RR_Scheduler.loop fuel r = some sr ∧ Sim q sm.current_time sm sr := by
  have hcond : r.completed < (r.processes.length : Int) ↔
      m.completed < (m.all_processes.length : Int) := by
    rw [hs.completed, hs.len]
  induction fuel generalizing m r with
  | zero =>
    by_cases hlt : m.completed < (m.all_processes.length : Int)
    · simp only [MLFQ_Scheduler.run, hlt, if_true] at hrun
      cases hrun
    · simp only [MLFQ_Scheduler.run, hlt, if_false] at hrun
      cases hrun
      refine ⟨r, ?_, hs⟩
      simp only [RR_Scheduler.loop, hcond, hlt, if_false]
  | succ fuel ih =>
    by_cases hlt : m.completed < (m.all_processes.length : Int)
    · cases hstep : m.step with
      | next u =>
        simp only [MLFQ_Scheduler.run, hlt, if_true, hstep] at hrun
        have hs2 := sim_step procs cfg hin hcfg q h1 hq hq0 hsorted m u r h hlt hstep hs
        obtain ⟨sr, e, f⟩ := ih u r.step (Reaches.tick m u h hlt hstep) hs2 hrun
          (by rw [hs2.completed, hs2.len])
        refine ⟨sr, ?_, f⟩
        simp only [RR_Scheduler.loop, hcond, hlt, if_true]
        exact e
      | exit u =>
        simp only [MLFQ_Scheduler.run, hlt, if_true, hstep] at hrun
        cases hrun
      | fault =>
        simp only [MLFQ_Scheduler.run, hlt, if_true, hstep] at hrun
        cases hrun
    · simp only [MLFQ_Scheduler.run, hlt, if_false] at hrun
      cases hrun
      refine ⟨r, ?_, hs⟩
      simp only [RR_Scheduler.loop, hcond, hlt, if_false]

theorem sim_init (sort : List Process → List Process) (hsort : StdSort sort)
    (procs : List Process) (cfg : Config) (hin : ValidInput procs) (q : Int)
    (hsorted : procs.Sorted (fun a b => a.arrival < b.arrival)) :
    Sim q 0 (MLFQ_Scheduler.init procs cfg) (RR_Scheduler.init sort procs q) := by
  have hcopy : (procs.map Process.copy).Sorted (fun a b => a.arrival < b.arrival) :=
    List.pairwise_map.2 hsorted
  have e : sort (procs.map Process.copy) = procs.map Process.copy :=
    stdSort_of_sorted sort hsort _ hcopy
  have hr : (RR_Scheduler.init sort procs q).processes = procs.map Process.copy := e
  have hm : (MLFQ_Scheduler.init procs cfg).all_processes = procs.map Process.copy := rfl
  refine {
    len := by rw [hr, hm]
    core := fun i => by rw [hr, hm]
    queue := by
      show [] = qget (List.replicate QUEUE_SLOTS []) 0
      rw [MLFQ_Scheduler.qget_replicate]
    running := rfl
    current_time := rfl
    completed := rfl
    time_quantum := rfl
    tic := fun i _ => ?_
    next := fun i hi => ?_
    next_le := Nat.zero_le _ }
  · have hrn : (MLFQ_Scheduler.init procs cfg).currently_running = none := rfl
    have hne : ¬ (none : Option Nat) = some i := fun hx => by cases hx
    rw [hrn, if_neg hne, hm, MLFQ_Scheduler.getP_map_copy]
    split <;> rfl
  · rw [hm, List.length_map] at hi
    rw [hm, MLFQ_Scheduler.getP_map_copy, if_pos hi]
    have := (MLFQ_Scheduler.validInput_getP hin i hi).1
    show i < 0 ↔ (getP procs i).arrival < 0
    constructor
    · intro hx
      omega
    · intro hx
      omega

/-- C26: with one level of quantum `q >= 1` and any positive aging and boost
parameters, on a process list in increasing order of arrival with pairwise
distinct arrivals (`arrival >= 0`, `burst >= 1`), the MLFQ engine and the
Round-Robin engine with quantum `q` end within the same number of loop
iterations, and the records of the two engines agree, in the order of the
list, on pid, arrival, burst, `start_time` and `completion`. This holds for
every `std::sort` that meets its contract. -/
theorem mlfq_one_level_round_robin (sort : List Process → List Process)
    (hsort : StdSort sort) (procs : List Process) (cfg : Config) (q : Int)
    (hin : ValidInput procs) (hcfg : ValidConfig cfg)
    (h1 : cfg.num_queues = 1) (hq : cfg.time_quantum = [q]) (hq1 : 1 ≤ q)
    (hsorted : procs.Sorted (fun a b => a.arrival < b.arrival))
    (fuel : Nat) (hfuel : MLFQ_Scheduler.budget procs ≤ fuel) :
    ∃ sm sr, MLFQ_Scheduler.run fuel (MLFQ_Scheduler.init procs cfg) =
        MLFQ_Scheduler.RunResult.done sm false ∧
      RR_Scheduler.loop fuel (RR_Scheduler.init sort procs q) = some sr ∧
      sr.processes.map (fun p => (p.pid, p.arrival, p.burst, p.start_time, p.completion)) =
        sm.all_processes.map
          (fun p => (p.pid, p.arrival, p.burst, p.start_time, p.completion)) := by
  obtain ⟨sm, r1, _⟩ := MLFQ_Scheduler.run_reaches procs cfg hin hcfg fuel hfuel
  have hq2 : cfg.quantum 0 = q := by
    unfold Config.quantum
    rw [hq]
    rfl
  obtain ⟨sr, e, hs⟩ := sim_run procs cfg hin hcfg q h1 hq2 (by omega) hsorted fuel
    (MLFQ_Scheduler.init procs cfg) sm (RR_Scheduler.init sort procs q) Reaches.start
    (sim_init sort hsort procs cfg hin q hsorted) r1
  refine ⟨sm, sr, r1, e, ?_⟩
  apply List.ext_getElem
  · rw [List.length_map, List.length_map, hs.len]
  · intro n hn1 hn2
    rw [List.length_map] at hn1 hn2
    have := core_fields (hs.core n)
    rw [getP_eq_getElem _ n hn1, getP_eq_getElem _ n hn2] at this
    obtain ⟨c1, c2, c3, _, c5, c6, _⟩ := this
    simp only [List.getElem_map, c1, c2, c3, c5, c6]

set_option maxRecDepth 100000 in
/-- Witness of `mlfq_one_level_round_robin`: `P1(0, 5)`, `P2(1, 3)` with the
quantum 2: both engines give `P1` the start 0 and the completion 8 and `P2`
the start 2 and the completion 7. -/
theorem mlfq_one_level_round_robin_witness :
    StdSort insertion_sort ∧ ValidInput scenarioA_procs ∧ ValidConfig (oneLevel 2) ∧
    scenarioA_procs.Sorted (fun a b => a.arrival < b.arrival) ∧
    (RR_Scheduler.loop 9 (RR_Scheduler.init insertion_sort scenarioA_procs 2)).map
      (fun s => s.processes.map (fun p => (p.pid, p.start_time, p.completion))) =
      some [(1, 0, 8), (2, 2, 7)] ∧
    ∃ sm sr, MLFQ_Scheduler.run 9 (MLFQ_Scheduler.init scenarioA_procs (oneLevel 2)) =
        MLFQ_Scheduler.RunResult.done sm false ∧
      RR_Scheduler.loop 9 (RR_Scheduler.init insertion_sort scenarioA_procs 2) = some sr ∧
      sr.processes.map (fun p => (p.pid, p.arrival, p.burst, p.start_time, p.completion)) =
        sm.all_processes.map
          (fun p => (p.pid, p.arrival, p.burst, p.start_time, p.completion)) :=
  have h1 : ValidInput scenarioA_procs := by simp [ValidInput, scenarioA_procs, Process.new]
  have h2 : ValidConfig (oneLevel 2) := by simp [ValidConfig, oneLevel, QUEUE_SLOTS]
  have h3 : scenarioA_procs.Sorted (fun a b => a.arrival < b.arrival) := by
    simp [scenarioA_procs, Process.new]
  ⟨stdSort_insertion_sort, h1, h2, h3, by decide!,
    mlfq_one_level_round_robin insertion_sort stdSort_insertion_sort scenarioA_procs
      (oneLevel 2) 2 h1 h2 rfl rfl (by decide) h3 9 (by decide)⟩

/-! ## FCFS against the MLFQ whose level 0 has no quantum -/

namespace MLFQ_Scheduler

theorem tick_unique {m u : MLFQ_Scheduler} {c : Nat}
    (h : IdleTick m u ∨ ∃ d, BusyTick m u d)
    (hrem : (getP u.all_processes c).remaining = (getP m.all_processes c).remaining - 1) :
    BusyTick m u c := by
  rcases h with h | ⟨d, h⟩
  · have := (core_fields (h.core.2 c)).2.2.2.1
    omega
  · by_cases hd : d = c
    · subst hd
      exact h
    · have := (core_fields (h.others c (Ne.symm hd))).2.2.2.1
      omega

theorem execute_fifo {P : List Process} {cfg : Config} (w : MLFQ_Scheduler) (c : Nat)
    (hw : WF P cfg (w.current_time + 1) w) (hrun : w.currently_running = some c)
    (hcap : cfg.num_queues ≤ QUEUE_SLOTS) (hq0 : cfg.quantum 0 = 0)
    (hz : ∀ i, (getP w.all_processes i).priority = 0) :
    (∀ i, (getP (execute w c).all_processes i).priority = 0) ∧
    (execute w c).currently_running =
      (if (getP w.all_processes c).remaining = 1 then none else some c) ∧
    (execute w c).queues = w.queues ∧
    (getP (execute w c).all_processes c).remaining = (getP w.all_processes c).remaining - 1 ∧
    (execute w c).timeline_queue = w.timeline_queue ++ [0] := by
  obtain ⟨hb, hoth, hcases⟩ := execute_level_zero w c hw hrun hcap (hz c)
  have htl := (execute_timeline w c).2
  rw [hz c] at htl
  have hq : ¬ (0 < cfg.quantum 0 ∧
      cfg.quantum 0 ≤ (getP w.all_processes c).time_in_current_quantum + 1) := by
    rw [hq0]
    intro hx
    exact absurd hx.1 (lt_irrefl 0)
  have hpc : (getP (execute w c).all_processes c).priority = 0 := by
    obtain ⟨_, _, b3, _, _, _, _, _, b9⟩ := before_check_spec w c
    have hcl : c < w.all_processes.length := by
      rw [hw.inv.len]; exact (hw.inv.active_lt c (Or.inr hrun)).1
    have hpri : (getP (before_check w c).all_processes c).priority = 0 :=
      (sched_fields (b9 hcl)).2.1.trans (hz c)
    by_contra hne
    have h1 := (finish_tick_priority (before_check w c) c c).2
    rw [← execute_eq, hpri] at h1
    obtain ⟨_, _, h2, _⟩ := h1 (by omega)
    rw [b3, hw.inv.config, hq0] at h2
    exact absurd h2 (lt_irrefl 0)
  refine ⟨fun i => ?_, ?_, ?_, hb.remaining, htl⟩
  · by_cases hi : i = c
    · subst hi
      exact hpc
    · rw [(sched_fields (hoth i hi)).2.1]
      exact hz i
  · rcases hcases with ⟨h1, h2, _⟩ | ⟨_, h2, _⟩ | ⟨h1, _, h2, _⟩
    · rw [if_pos h1, h2]
    · exact absurd h2 hq
    · rw [if_neg h1, h2]
  · rcases hcases with ⟨_, _, h2⟩ | ⟨_, h2, _⟩ | ⟨_, _, _, h2, _⟩
    · exact h2
    · exact absurd h2 hq
    · exact h2

theorem pass_fifo (procs : List Process) (cfg : Config) (hin : ValidInput procs)
    (hcfg : ValidConfig cfg) (hq0 : cfg.quantum 0 = 0) (m u : MLFQ_Scheduler)
    (h : Reaches (init procs cfg) m)
    (hlt : m.completed < (m.all_processes.length : Int)) (hst : m.step = Outcome.next u)
    (hz : ∀ i, (getP m.all_processes i).priority = 0) :
    (∀ i, (getP u.all_processes i).priority = 0) ∧
    ((∃ c, m.currently_running = some c ∧ BusyTick m u c ∧
        u.currently_running =
          (if (getP m.all_processes c).remaining = 1 then none else some c) ∧
        qget u.queues 0 = qget m.queues 0 ++ m.admitted ∧
        u.timeline_queue = m.timeline_queue ++ [0]) ∨
     (m.currently_running = none ∧ ∃ c rest, qget m.queues 0 ++ m.admitted = c :: rest ∧
        BusyTick m u c ∧
        u.currently_running =
          (if (getP m.all_processes c).remaining = 1 then none else some c) ∧
        qget u.queues 0 = rest ∧ u.timeline_queue = m.timeline_queue ++ [0]) ∨
     (m.currently_running = none ∧ qget m.queues 0 ++ m.admitted = [] ∧
        (∀ i, getP u.all_processes i = getP m.all_processes i) ∧
        u.currently_running = none ∧ qget u.queues 0 = [] ∧
        u.timeline_queue = m.timeline_queue ++ [-1])) := by
  have hnq := hcfg.1
  have hcap := hcfg.2.1
  have hticks := pass_ticks procs cfg hin hnq hcap m u h hlt hst
  obtain ⟨w1, e1, a1, r1, _, _, tq1, hcases⟩ :=
    pass_level_zero procs cfg hin hcfg m u h hlt hst hz
  have hz1 : ∀ i, (getP m.add_arrivals.all_processes i).priority = 0 := by
    intro i
    rw [e1 i]
    exact hz i
  rcases hcases with ⟨c, hc, hu⟩ | ⟨hrun, c, rest, he, hwt, hu⟩ | ⟨hrun, he, hu⟩
  · subst hu
    obtain ⟨f1, f2, f3, f4, f5⟩ := execute_fifo m.add_arrivals c w1 (r1.trans hc) hcap hq0 hz1
    rw [e1 c] at f2 f4
    exact ⟨f1, Or.inl ⟨c, hc, tick_unique hticks f4, f2, by rw [f3, a1], by rw [f5, tq1]⟩⟩
  · subst hu
    have hzt : ∀ i, (getP (take m.add_arrivals 0 c rest).all_processes i).priority = 0 := by
      intro i
      rw [(take_counters m.add_arrivals 0 c rest i).1]
      exact hz1 i
    obtain ⟨f1, f2, f3, f4, f5⟩ :=
      execute_fifo (take m.add_arrivals 0 c rest) c hwt rfl hcap hq0 hzt
    rw [(take_counters m.add_arrivals 0 c rest c).2.2.2, e1 c] at f2 f4
    have hq0len : 0 < m.add_arrivals.queues.length := by rw [w1.inv.qlen]; decide
    refine ⟨f1, Or.inr (Or.inl ⟨hrun, c, rest, by rw [← a1]; exact he,
      tick_unique hticks f4, f2, ?_, ?_⟩)⟩
    · rw [f3]
      show qget (qset m.add_arrivals.queues 0 rest) 0 = rest
      rw [qget_qset]
      simp only [hq0len, and_self, if_true]
    · rw [f5]
      show m.add_arrivals.timeline_queue ++ [0] = _
      rw [tq1]
  · subst hu
    refine ⟨fun i => hz1 i, Or.inr (Or.inr ⟨hrun, by rw [← a1]; exact he, e1,
      r1.trans hrun, he, ?_⟩)⟩
    show m.add_arrivals.timeline_queue ++ [-1] = _
    rw [tq1]

end MLFQ_Scheduler

namespace MLFQ_Scheduler

theorem fifo_queue {P : List Process} {cfg : Config} (m : MLFQ_Scheduler) (D : List Nat)
    (hw : WF P cfg m.current_time m) (hnq : 1 ≤ cfg.num_queues)
    (hz : ∀ i, (getP m.all_processes i).priority = 0) (ho : OInv m)
    (hburst : ∀ i, i < P.length → 1 ≤ (getP P i).burst)
    (hd : ∀ i j, i < P.length → j < P.length → (getP P i).arrival = (getP P j).arrival →
      i = j)
    (hf : Fifo P m D) :
    (qget m.queues 0 ++ m.admitted).Pairwise
      (fun i j => (getP P i).arrival < (getP P j).arrival) ∧
    (∀ i, i ∈ qget m.queues 0 → (getP P i).arrival < m.current_time) ∧
    (∀ i, i ∈ m.admitted → (getP P i).arrival = m.current_time) ∧
    (∀ i, i ∈ qget m.queues 0 ++ m.admitted →
      i < P.length ∧ (getP m.all_processes i).started = false) ∧
    (m.currently_running = none → ∀ j, j < P.length →
      (getP m.all_processes j).started = false → (getP P j).arrival ≤ m.current_time →
      j ∈ qget m.queues 0 ++ m.admitted) := by
  have harr : ∀ i, (getP m.all_processes i).arrival = (getP P i).arrival :=
    fun i => (hw.inv.static i).2.1
  have hnq0 : 0 < m.config.num_queues := by rw [hw.inv.config]; exact hnq
  have hql : ∀ i, i ∈ qget m.queues 0 → i < P.length ∧ (getP P i).arrival < m.current_time := by
    intro i hi
    have := hw.inv.active_lt i (Or.inl ⟨0, hnq0, hi⟩)
    rw [harr] at this
    exact this
  have hadm : ∀ i, i ∈ m.admitted ↔ i < P.length ∧ (getP P i).arrival = m.current_time := by
    intro i
    rw [admitted_eq m hw.inv, List.mem_filter, List.mem_range, decide_eq_true_eq, hw.inv.len,
      harr]
  have hnd : m.admitted.Nodup := by
    rw [admitted_eq m hw.inv]
    exact (List.nodup_range _).filter _
  refine ⟨?_, fun i hi => (hql i hi).2, fun i hi => ((hadm i).1 hi).2, ?_, ?_⟩
  · refine List.pairwise_append.2 ⟨hf.queue_sorted, ?_, ?_⟩
    · refine hnd.pairwise_of_forall_ne (fun a ha b hb hne => ?_)
      have h1 := (hadm a).1 ha
      have h2 := (hadm b).1 hb
      exact absurd (hd a b h1.1 h2.1 (h1.2.trans h2.2.symm)) hne
    · intro a ha b hb
      have h1 := (hql a ha).2
      have h2 := ((hadm b).1 hb).2
      omega
  · intro i hi
    rcases List.mem_append.1 hi with h1 | h1
    · exact ⟨(hql i h1).1, hf.queue_unstarted i h1⟩
    · have h2 := (hadm i).1 h1
      refine ⟨h2.1, (hw.inv.fresh i h2.1 ?_).2.1⟩
      rw [harr]
      exact le_of_eq h2.2.symm
  · intro hrun j hj hs ha
    by_cases hlt : (getP P j).arrival < m.current_time
    · have hrem := ho.unstarted j (by rw [hw.inv.len]; exact hj) hs
      have hb := hburst j hj
      rw [← (hw.inv.static j).2.2] at hb
      rcases hw.inv.no_lost j hj (by rw [harr]; exact hlt) (by omega) with ⟨q, _, hq⟩ | hr
      · have := hw.xinv.level q j hq
        rw [hz j] at this
        subst this
        exact List.mem_append.2 (Or.inl hq)
      · rw [hrun] at hr
        cases hr
    · exact List.mem_append.2 (Or.inr ((hadm j).2 ⟨hj, by omega⟩))

end MLFQ_Scheduler

namespace MLFQ_Scheduler

theorem fifo_idle {P : List Process} (m u : MLFQ_Scheduler) (D : List Nat)
    (hf : Fifo P m D) (hrun : m.currently_running = none)
    (hrec : ∀ i, getP u.all_processes i = getP m.all_processes i)
    (hur : u.currently_running = none) (huq : qget u.queues 0 = [])
    (hct : m.current_time ≤ u.current_time) : Fifo P u D where
  mem := fun i => by rw [hrec i]; exact hf.mem i
  order := hf.order
  sorted := hf.sorted
  chain := hf.chain.imp (fun a b hab => by rw [hrec a, hrec b]; exact hab)
  head := fun a ha => by rw [hrec a]; exact hf.head a ha
  finished := fun i hi => by rw [hrec i]; exact hf.finished i hi
  run := fun c hc => by rw [hur] at hc; cases hc
  idle := fun _ l hl => by
    rw [hrec l]
    exact le_trans (hf.idle hrun l hl) hct
  busy := fun _ hq => absurd huq hq
  queue_sorted := by rw [huq]; exact List.Pairwise.nil
  queue_unstarted := fun i hi => by rw [huq] at hi; cases hi

theorem fifo_run {P : List Process} {cfg : Config} (m u : MLFQ_Scheduler) (c : Nat)
    (D : List Nat) (hw : WF P cfg m.current_time m) (hf : Fifo P m D)
    (hc : m.currently_running = some c) (hb : BusyTick m u c)
    (hur : u.currently_running =
      (if (getP m.all_processes c).remaining = 1 then none else some c))
    (hqs : (qget u.queues 0).Pairwise (fun i j => (getP P i).arrival < (getP P j).arrival))
    (hqu : ∀ i, i ∈ qget u.queues 0 → (getP m.all_processes i).started = false) :
    Fifo P u D := by
  have hcs : (getP m.all_processes c).started = true := (hw.inv.running_pos c hc).2
  obtain ⟨hlast, hrem⟩ := hf.run c hc
  have hst : ∀ i, (getP u.all_processes i).start_time = (getP m.all_processes i).start_time := by
    intro i
    by_cases hi : i = c
    · subst hi
      rw [hb.start_time, if_pos hcs]
    · exact (core_fields (hb.others i hi)).2.2.2.2.1
  have hsd : ∀ i, (getP u.all_processes i).started = (getP m.all_processes i).started := by
    intro i
    by_cases hi : i = c
    · subst hi
      rw [hb.started, hcs]
    · exact (core_fields (hb.others i hi)).2.2.2.2.2.2
  have hone : u.currently_running = none → (getP m.all_processes c).remaining = 1 := by
    intro hx
    by_contra hne
    rw [if_neg hne] at hur
    rw [hur] at hx
    cases hx
  have hend : (getP m.all_processes c).remaining = 1 →
      (getP u.all_processes c).start_time + (getP P c).burst = u.current_time := by
    intro h1
    rw [hst c, hb.current_time]
    omega
  refine {
    mem := fun i => by rw [hsd i]; exact hf.mem i
    order := hf.order
    sorted := hf.sorted
    chain := hf.chain.imp (fun a b hab => by rw [hst a, hst b]; exact hab)
    head := fun a ha => by rw [hst a]; exact hf.head a ha
    finished := fun i hi h0 => ?_
    run := fun d hd => ?_
    idle := fun hx l hl => ?_
    busy := fun hx _ => ⟨c, hlast, hend (hone hx)⟩
    queue_sorted := hqs
    queue_unstarted := fun i hi => by rw [hsd i]; exact hqu i hi }
  · by_cases hic : i = c
    · subst hic
      have h1 : (getP m.all_processes i).remaining = 1 := by
        have := hb.remaining
        omega
      rw [hb.completion, if_pos h1, hst i]
      omega
    · obtain ⟨_, _, _, c4, _, c6, _⟩ := core_fields (hb.others i hic)
      rw [c4] at h0
      rw [c6, hst i]
      exact hf.finished i hi h0
  · by_cases h1 : (getP m.all_processes c).remaining = 1
    · rw [if_pos h1] at hur
      rw [hur] at hd
      cases hd
    · rw [if_neg h1] at hur
      rw [hur] at hd
      cases hd
      refine ⟨hlast, ?_⟩
      rw [hb.remaining, hst c, hb.current_time]
      omega
  · rw [hlast] at hl
    cases hl
    exact le_of_eq (hend (hone hx))

end MLFQ_Scheduler

namespace MLFQ_Scheduler

theorem fifo_dispatch {P : List Process} {cfg : Config} (m u : MLFQ_Scheduler) (c : Nat)
    (rest D : List Nat) (hw : WF P cfg m.current_time m) (ho : OInv m) (hf : Fifo P m D)
    (hrun : m.currently_running = none) (hb : BusyTick m u c)
    (hur : u.currently_running =
      (if (getP m.all_processes c).remaining = 1 then none else some c))
    (hQ : qget m.queues 0 ++ m.admitted = c :: rest) (huq : qget u.queues 0 = rest)
    (q1 : (qget m.queues 0 ++ m.admitted).Pairwise
      (fun i j => (getP P i).arrival < (getP P j).arrival))
    (q2 : ∀ i, i ∈ qget m.queues 0 → (getP P i).arrival < m.current_time)
    (q3 : ∀ i, i ∈ m.admitted → (getP P i).arrival = m.current_time)
    (q4 : ∀ i, i ∈ qget m.queues 0 ++ m.admitted →
      i < P.length ∧ (getP m.all_processes i).started = false)
    (q5 : ∀ j, j < P.length → (getP m.all_processes j).started = false →
      (getP P j).arrival ≤ m.current_time → j ∈ qget m.queues 0 ++ m.admitted) :
    Fifo P u (D ++ [c]) := by
  have hcT : (getP P c).arrival ≤ m.current_time := by
    have hcQ : c ∈ qget m.queues 0 ++ m.admitted := by rw [hQ]; exact List.mem_cons_self _ _
    rcases List.mem_append.1 hcQ with h1 | h1
    · exact le_of_lt (q2 c h1)
    · exact le_of_eq (q3 c h1)
  have hempty : qget m.queues 0 = [] → (getP P c).arrival = m.current_time := by
    intro hq
    rw [hq, List.nil_append] at hQ
    exact q3 c (by rw [hQ]; exact List.mem_cons_self _ _)
  rw [hQ] at q1 q4 q5
  obtain ⟨hcl, hcs⟩ := q4 c (List.mem_cons_self _ _)
  have hcD : c ∉ D := fun hx => by
    have := ((hf.mem c).1 hx).2
    rw [hcs] at this
    cases this
  have hne : ∀ i, i ∈ D → i ≠ c := fun i hi hic => hcD (hic ▸ hi)
  have hremc : (getP m.all_processes c).remaining = (getP P c).burst :=
    (ho.unstarted c (by rw [hw.inv.len]; exact hcl) hcs).trans (hw.inv.static c).2.2
  have hstc : (getP u.all_processes c).start_time = m.current_time := by
    rw [hb.start_time, if_neg (by rw [hcs]; decide)]
  have hst : ∀ i, i ≠ c →
      (getP u.all_processes i).start_time = (getP m.all_processes i).start_time :=
    fun i hi => (core_fields (hb.others i hi)).2.2.2.2.1
  have hsd : ∀ i, i ≠ c →
      (getP u.all_processes i).started = (getP m.all_processes i).started :=
    fun i hi => (core_fields (hb.others i hi)).2.2.2.2.2.2
  have hlink : ∀ l, D.getLast? = some l → m.current_time =
      max ((getP m.all_processes l).start_time + (getP P l).burst) (getP P c).arrival := by
    intro l hl
    by_cases hq : qget m.queues 0 = []
    · rw [hempty hq]
      exact (max_eq_right (hf.idle hrun l hl)).symm
    · obtain ⟨k, hk, he⟩ := hf.busy hrun hq
      rw [hl] at hk
      cases hk
      rw [he]
      exact (max_eq_left hcT).symm
  have hone : u.currently_running = none → (getP m.all_processes c).remaining = 1 := by
    intro hx
    by_contra hn
    rw [if_neg hn] at hur
    rw [hur] at hx
    cases hx
  have hend : (getP m.all_processes c).remaining = 1 →
      (getP u.all_processes c).start_time + (getP P c).burst = u.current_time := by
    intro h1
    rw [hstc, hb.current_time]
    omega
  refine {
    mem := fun i => ?_
    order := fun i hi j hj hjn => ?_
    sorted := List.pairwise_append.2 ⟨hf.sorted, List.pairwise_singleton _ _, fun a ha b hb => ?_⟩
    chain := List.Chain'.append
      ((List.Chain'.iff_mem.1 hf.chain).imp (fun a b hab => ?_))
      (List.chain'_singleton c) (fun x hx y hy => ?_)
    head := fun a ha => ?_
    finished := fun i hi h0 => ?_
    run := fun d hd => ?_
    idle := fun hx l hl => ?_
    busy := fun hx _ => ⟨c, List.getLast?_concat D, hend (hone hx)⟩
    queue_sorted := by rw [huq]; exact (List.pairwise_cons.1 q1).2
    queue_unstarted := fun i hi => ?_ }
  · rw [List.mem_append, List.mem_singleton]
    by_cases hi : i = c
    · subst hi
      exact ⟨fun _ => ⟨hcl, hb.started⟩, fun _ => Or.inr rfl⟩
    · rw [hsd i hi]
      exact ⟨fun hx => hx.elim (fun h1 => (hf.mem i).1 h1) (fun h1 => absurd h1 hi),
        fun hx => Or.inl ((hf.mem i).2 hx)⟩
  · have hjD : j ∉ D := fun hx => hjn (List.mem_append.2 (Or.inl hx))
    have hjc : j ≠ c := fun hx => hjn (List.mem_append.2 (Or.inr (by rw [hx]; simp)))
    rcases List.mem_append.1 hi with h1 | h1
    · exact hf.order i h1 j hj hjD
    · rw [List.mem_singleton] at h1
      subst h1
      have hjs : (getP m.all_processes j).started = false := by
        cases hx : (getP m.all_processes j).started
        · rfl
        · exact absurd ((hf.mem j).2 ⟨hj, hx⟩) hjD
      by_cases hle : (getP P j).arrival ≤ m.current_time
      · have hjq := q5 j hj hjs hle
        rcases List.mem_cons.1 hjq with h2 | h2
        · exact absurd h2 hjc
        · exact (List.pairwise_cons.1 q1).1 j h2
      · omega
  · rw [List.mem_singleton] at hb
    subst hb
    exact hf.order a ha b hcl hcD
  · obtain ⟨ha, hb2, hab2⟩ := hab
    show (getP u.all_processes b).start_time =
      max ((getP u.all_processes a).start_time + (getP P a).burst) (getP P b).arrival
    rw [hst a (hne a ha), hst b (hne b hb2)]
    exact hab2
  · have hyc : y = c := by simpa using hy.symm
    subst hyc
    show (getP u.all_processes y).start_time =
      max ((getP u.all_processes x).start_time + (getP P x).burst) (getP P y).arrival
    rw [hst x (hne x (List.mem_of_mem_getLast? hx)), hstc]
    exact hlink x hx
  · by_cases hD : D = []
    · subst hD
      have hac : a = c := by simpa using ha.symm
      subst hac
      rw [hstc]
      have hq : qget m.queues 0 = [] := by
        by_contra hq
        obtain ⟨k, hk, _⟩ := hf.busy hrun hq
        cases hk
      exact (hempty hq).symm
    · rw [List.head?_append_of_ne_nil D hD] at ha
      rw [hst a (hne a (List.mem_of_mem_head? ha))]
      exact hf.head a ha
  · by_cases hic : i = c
    · subst hic
      have h1 : (getP m.all_processes i).remaining = 1 := by
        have := hb.remaining
        omega
      rw [hb.completion, if_pos h1, hstc]
      omega
    · have hiD : i ∈ D := (List.mem_append.1 hi).elim id
        (fun hx => absurd (List.mem_singleton.1 hx) hic)
      obtain ⟨_, _, _, c4, _, c6, _⟩ := core_fields (hb.others i hic)
      rw [c4] at h0
      rw [c6, hst i hic]
      exact hf.finished i hiD h0
  · by_cases h1 : (getP m.all_processes c).remaining = 1
    · rw [if_pos h1] at hur
      rw [hur] at hd
      cases hd
    · rw [if_neg h1] at hur
      rw [hur] at hd
      cases hd
      refine ⟨List.getLast?_concat D, ?_⟩
      rw [hb.remaining, hstc, hb.current_time]
      omega
  · rw [List.getLast?_concat] at hl
    cases hl
    exact le_of_eq (hend (hone hx))
  · rw [huq] at hi
    have hic : i ≠ c := by
      intro hx
      have := (List.pairwise_cons.1 q1).1 i hi
      rw [hx] at this
      exact lt_irrefl _ this
    rw [hsd i hic]
    exact (q4 i (List.mem_cons_of_mem _ hi)).2

end MLFQ_Scheduler

theorem distinct_arrivals (procs : List Process)
    (hnd : (procs.map (fun p => p.arrival)).Nodup) (i j : Nat)
    (hi : i < (procs.map Process.copy).length) (hj : j < (procs.map Process.copy).length)
    (h : (getP (procs.map Process.copy) i).arrival = (getP (procs.map Process.copy) j).arrival) :
    i = j := by
  rw [List.length_map] at hi hj
  rw [MLFQ_Scheduler.getP_map_copy, MLFQ_Scheduler.getP_map_copy, if_pos hi, if_pos hj,
    getP_eq_getElem _ i hi, getP_eq_getElem _ j hj] at h
  have hi2 : i < (procs.map (fun p => p.arrival)).length := by rw [List.length_map]; exact hi
  have hj2 : j < (procs.map (fun p => p.arrival)).length := by rw [List.length_map]; exact hj
  apply (@List.Nodup.getElem_inj_iff _ _ hnd i hi2 j hj2).1
  rw [List.getElem_map, List.getElem_map]
  exact h

namespace MLFQ_Scheduler

theorem fifo_init (procs : List Process) (cfg : Config) :
    Fifo (procs.map Process.copy) (init procs cfg) [] := by
  have hs : ∀ i, (getP (init procs cfg).all_processes i).started = false := by
    intro i
    have e : (init procs cfg).all_processes = procs.map Process.copy := rfl
    rw [e, getP_map_copy]
    split <;> rfl
  have hq : qget (init procs cfg).queues 0 = [] := qget_replicate _ _
  exact {
    mem := fun i => ⟨fun hx => absurd hx (List.not_mem_nil i),
      fun hx => absurd hx.2 (by rw [hs i]; decide)⟩
    order := fun i hi => absurd hi (List.not_mem_nil i)
    sorted := List.Pairwise.nil
    chain := List.chain'_nil
    head := fun a ha => absurd ha (by simp)
    finished := fun i hi => absurd hi (List.not_mem_nil i)
    run := fun c hc => absurd hc (by simp [init])
    idle := fun _ l hl => absurd hl (by simp)
    busy := fun _ hx => absurd hq hx
    queue_sorted := by rw [hq]; exact List.Pairwise.nil
    queue_unstarted := fun i _ => hs i }

theorem reaches_fifo (procs : List Process) (cfg : Config) (hin : ValidInput procs)
    (hcfg : ValidConfig cfg) (hq0 : cfg.quantum 0 = 0)
    (hnd : (procs.map (fun p => p.arrival)).Nodup)
    (m : MLFQ_Scheduler) (h : Reaches (init procs cfg) m) :
    (∀ i, (getP m.all_processes i).priority = 0) ∧
    (∀ e, e ∈ m.timeline → e = IDLE ∨ e.2 = 0) ∧
    ∃ D, Fifo (procs.map Process.copy) m D := by
  have hnq := hcfg.1
  have hcap := hcfg.2.1
  have hburst : ∀ i, i < (procs.map Process.copy).length →
      1 ≤ (getP (procs.map Process.copy) i).burst := by
    intro i hi
    rw [List.length_map] at hi
    rw [getP_map_copy, if_pos hi]
    exact (validInput_getP hin i hi).2
  induction h with
  | start =>
    refine ⟨fun i => ?_, fun e he => ?_, [], fifo_init procs cfg⟩
    · have e : (init procs cfg).all_processes = procs.map Process.copy := rfl
      rw [e, getP_map_copy]
      split <;> rfl
    · simp [init, timeline] at he
  | tick m u hr hlt hst ih =>
    obtain ⟨hz, htl, D, hf⟩ := ih
    have hw := reaches_wf procs cfg hin hnq hcap m hr
    have ho := reaches_oinv procs cfg hin hnq hcap m hr
    have ht := (reaches_inv procs cfg hin hnq hcap m hr).2
    have hticks := pass_ticks procs cfg hin hnq hcap m u hr hlt hst
    have hclock := pass_clock procs cfg hin hnq hcap m u hr hlt hst
    obtain ⟨q1, q2, q3, q4, q5⟩ := fifo_queue m D hw hnq hz ho hburst
      (distinct_arrivals procs hnd) hf
    obtain ⟨hz2, hcases⟩ := pass_fifo procs cfg hin hcfg hq0 m u hr hlt hst hz
    have hbusy : ∀ c, BusyTick m u c → u.timeline_queue = m.timeline_queue ++ [0] →
        ∀ e, e ∈ u.timeline → e = IDLE ∨ e.2 = 0 := by
      intro c hb hq e he
      unfold timeline at he
      rw [hb.timeline_pid, hq, List.zip_append ht.tl_queue.symm, List.mem_append] at he
      rcases he with he | he
      · exact htl e he
      · simp only [List.zip_cons_cons, List.zip_nil_right, List.mem_singleton] at he
        right
        rw [he]
    refine ⟨hz2, ?_, ?_⟩
    · rcases hcases with ⟨c, _, hb, _, _, hq⟩ | ⟨_, c, rest, _, hb, _, _, hq⟩ |
          ⟨_, _, hrec, _, _, hq⟩
      · exact hbusy c hb hq
      · exact hbusy c hb hq
      · rcases hticks with hi | ⟨d, hb⟩
        · intro e he
          unfold timeline at he
          rw [hi.timeline_pid, hi.timeline_queue, List.zip_append ht.tl_queue.symm,
            List.mem_append] at he
          rcases he with he | he
          · exact htl e he
          · simp only [List.zip_cons_cons, List.zip_nil_right, List.mem_singleton] at he
            left
            rw [he]
            rfl
        · have h1 := hb.remaining
          have h2 := hb.pos
          rw [hrec d] at h1
          omega
    · rcases hcases with ⟨c, hc, hb, hur, huq, _⟩ | ⟨hrun, c, rest, hQ, hb, hur, huq, _⟩ |
          ⟨hrun, _, hrec, hur, huq, _⟩
      · exact ⟨D, fifo_run m u c D hw hf hc hb hur (by rw [huq]; exact q1)
          (fun i hi => (q4 i (by rw [← huq]; exact hi)).2)⟩
      · exact ⟨D ++ [c], fifo_dispatch m u c rest D hw ho hf hrun hb hur hQ huq q1 q2 q3 q4
          (q5 hrun)⟩
      · exact ⟨D, fifo_idle m u D hf hrun hrec hur huq (by omega)⟩

end MLFQ_Scheduler

theorem stdSort_unique (sort : List Process → List Process) (hsort : StdSort sort)
    (P l : List Process) (hperm : l.Perm P)
    (hl : l.Sorted (fun a b => a.arrival < b.arrival)) : sort P = l := by
  obtain ⟨hp, hs⟩ := hsort P
  have hp2 : (sort P).Perm l := hp.trans hperm.symm
  have hnd : (l.map (fun p => p.arrival)).Nodup :=
    List.Sorted.nodup (r := (· < ·)) (List.pairwise_map.2 hl)
  have hnd2 : ((sort P).map (fun p => p.arrival)).Nodup := (hp2.map _).nodup_iff.2 hnd
  have hne : (sort P).Pairwise (fun a b => a.arrival ≠ b.arrival) := List.pairwise_map.1 hnd2
  have hlt : (sort P).Sorted (fun a b => a.arrival < b.arrival) :=
    (List.Pairwise.and hs hne).imp (fun h => lt_of_le_of_ne h.1 h.2)
  haveI : IsAntisymm Process (fun a b => a.arrival < b.arrival) :=
    ⟨fun a b h1 h2 => absurd h1 (not_lt.2 (le_of_lt h2))⟩
  exact List.eq_of_perm_of_sorted hp2 hlt hl

namespace FCFS_Scheduler

theorem loop_chain (P : List Process) (st : Nat → Int) (A : Int) (D : List Nat)
    (ct busy cs : Int) (h0 : 0 ≤ ct)
    (hl : ∀ i, i ∈ D → 0 ≤ (getP P i).arrival ∧ (getP P i).arrival ≤ A ∧ 0 ≤ (getP P i).burst)
    (hb : max ct A + (D.map (fun i => (getP P i).burst)).sum ≤ INT_MAX)
    (hhead : ∀ a, D.head? = some a → st a = max ct (getP P a).arrival)
    (hchain : D.Chain' (fun x y => st y = max (st x + (getP P x).burst) (getP P y).arrival)) :
    (loop ct busy cs (D.map (getP P))).processes.map
        (fun p => (p.pid, p.arrival, p.burst, p.start_time, p.completion)) =
      D.map (fun i => ((getP P i).pid, (getP P i).arrival, (getP P i).burst, st i,
        st i + (getP P i).burst)) := by
  induction D generalizing ct busy cs with
  | nil => rfl
  | cons a D ih =>
    obtain ⟨ha0, haA, hb0⟩ := hl a (List.mem_cons_self a D)
    have hsum : 0 ≤ (D.map (fun i => (getP P i).burst)).sum := by
      apply List.sum_nonneg
      intro x hx
      obtain ⟨i, hi, e⟩ := List.mem_map.1 hx
      rw [← e]
      exact (hl i (List.mem_cons_of_mem a hi)).2.2
    simp only [List.map_cons, List.sum_cons] at hb
    have hct : ct ≤ max ct A := le_max_left _ _
    have hA : A ≤ max ct A := le_max_right _ _
    have hs : (if ct < (getP P a).arrival then (getP P a).arrival else ct) = st a := by
      rw [hhead a rfl, max_def]
      split_ifs <;> omega
    have hr : 0 ≤ st a ∧ st a ≤ max ct A := by
      rw [← hs]
      split <;> constructor <;> omega
    have hc : (serve ct (getP P a)).completion = st a + (getP P a).burst := by
      show wrapInt ((if ct < (getP P a).arrival then (getP P a).arrival else ct) + _) = _
      rw [hs]
      exact wrapInt_of_range _ (by omega) (by omega)
    have hrest := ih (serve ct (getP P a)).completion (wrapInt (busy + (getP P a).burst))
      (cs + 1) (by rw [hc]; omega) (fun i hi => hl i (List.mem_cons_of_mem a hi))
      (by
        rw [hc]
        have : max (st a + (getP P a).burst) A ≤ max ct A + (getP P a).burst :=
          max_le (by omega) (by omega)
        omega)
      (fun b hb => by rw [hc]; exact (List.chain'_cons'.1 hchain).1 b hb)
      (List.chain'_cons'.1 hchain).2
    simp only [List.map_cons, loop]
    rw [hrest]
    congr 1
    show ((getP P a).pid, (getP P a).arrival, (getP P a).burst,
      (if ct < (getP P a).arrival then (getP P a).arrival else ct),
      (serve ct (getP P a)).completion) = _
    rw [hs, hc]

end FCFS_Scheduler

theorem fifo_served (sort : List Process → List Process) (hsort : StdSort sort)
    (P : List Process) (cfg : Config) (sm : MLFQ_Scheduler) (D : List Nat)
    (hw : WF P cfg sm.current_time sm) (ho : OInv sm) (hf : Fifo P sm D)
    (hpos : ∀ i, i < P.length → 0 ≤ (getP P i).arrival ∧ 1 ≤ (getP P i).burst)
    (hfin : ∀ i, i < P.length → (getP sm.all_processes i).remaining = 0)
    (A : Int) (hA0 : 0 ≤ A) (hA : ∀ i, i < P.length → (getP P i).arrival ≤ A)
    (hrange : (P.map (fun p => p.burst)).sum + A ≤ INT_MAX) :
    D.Perm (List.range P.length) ∧
    (FCFS_Scheduler.loop 0 0 0 (sort P)).processes.map
        (fun p => (p.pid, p.arrival, p.burst, p.start_time, p.completion)) =
      D.map (fun i => ((getP sm.all_processes i).pid, (getP sm.all_processes i).arrival,
        (getP sm.all_processes i).burst, (getP sm.all_processes i).start_time,
        (getP sm.all_processes i).completion)) := by
  have hstarted : ∀ i, i < P.length → (getP sm.all_processes i).started = true := by
    intro i hi
    cases hx : (getP sm.all_processes i).started
    · have h1 := ho.unstarted i (by rw [hw.inv.len]; exact hi) hx
      have h2 := (hpos i hi).2
      rw [hfin i hi, (hw.inv.static i).2.2] at h1
      omega
    · rfl
  have hmem : ∀ i, i ∈ D ↔ i < P.length := fun i =>
    ⟨fun hx => ((hf.mem i).1 hx).1, fun hx => (hf.mem i).2 ⟨hx, hstarted i hx⟩⟩
  have hnd : D.Nodup := hf.sorted.imp (fun h e => by rw [e] at h; exact lt_irrefl _ h)
  have hperm : D.Perm (List.range P.length) :=
    (List.perm_ext_iff_of_nodup hnd (List.nodup_range _)).2
      (fun i => by rw [hmem, List.mem_range])
  have hDP : (D.map (getP P)).Perm P := by
    have := hperm.map (getP P)
    rw [map_getP_range] at this
    exact this
  have hsort2 : sort P = D.map (getP P) :=
    stdSort_unique sort hsort P _ hDP (List.pairwise_map.2 hf.sorted)
  have hsum : (D.map (fun i => (getP P i).burst)).sum = (P.map (fun p => p.burst)).sum := by
    have h1 := (hperm.map (fun i => (getP P i).burst)).sum_eq
    rw [h1]
    conv_rhs => rw [← map_getP_range P]
    rw [List.map_map]
    rfl
  refine ⟨hperm, ?_⟩
  rw [hsort2, FCFS_Scheduler.loop_chain P (fun i => (getP sm.all_processes i).start_time) A D
    0 0 0 (le_refl 0)
    (fun i hi => ⟨(hpos i ((hmem i).1 hi)).1, hA i ((hmem i).1 hi),
      by have := (hpos i ((hmem i).1 hi)).2; omega⟩)
    (by rw [hsum, max_eq_right hA0]; omega)
    (fun a ha => by
      show (getP sm.all_processes a).start_time = _
      rw [hf.head a ha]
      exact (max_eq_right (hpos a ((hmem a).1 (List.mem_of_mem_head? ha))).1).symm)
    hf.chain]
  apply List.map_congr_left
  intro i hi
  obtain ⟨s1, s2, s3⟩ := hw.inv.static i
  rw [s1, s2, s3, hf.finished i hi (hfin i ((hmem i).1 hi))]

/-- C25, as amended: with `quantum[0] = 0`, between one and ten levels and
any positive aging and boost parameters, on a process list with pairwise
distinct arrivals (`arrival >= 0`, `burst >= 1`) whose bursts and latest
arrival add up to at most `INT_MAX` (so that the `int` clock of FCFS does not
overflow) the run of the MLFQ engine ends, and its
records are those of the FCFS engine with the same start and completion time
for every process: the two record lists agree, up to the order of the
records, on pid, arrival, burst, `start_time` and `completion`, and a record
of FCFS and a record of MLFQ with the same arrival have the same `start_time`
and `completion`. Every timeline entry is the idle entry `(0, -1)` or is at
level 0. This holds for every `std::sort` that meets its contract. -/
theorem mlfq_zero_quantum_fcfs (sort : List Process → List Process) (hsort : StdSort sort)
    (procs : List Process) (cfg : Config) (hin : ValidInput procs) (hcfg : ValidConfig cfg)
    (hq0 : cfg.quantum 0 = 0) (hnd : (procs.map (fun p => p.arrival)).Nodup)
    (hrange : (procs.map (fun p => p.burst)).sum + maxArrival procs ≤ INT_MAX)
    (fuel : Nat) (hfuel : MLFQ_Scheduler.budget procs ≤ fuel) :
    ∃ sm, MLFQ_Scheduler.run fuel (MLFQ_Scheduler.init procs cfg) =
        MLFQ_Scheduler.RunResult.done sm false ∧
      ((FCFS_Scheduler.served sort procs).processes.map
          (fun p => (p.pid, p.arrival, p.burst, p.start_time, p.completion))).Perm
        (sm.all_processes.map
          (fun p => (p.pid, p.arrival, p.burst, p.start_time, p.completion))) ∧
      (∀ f, f ∈ (FCFS_Scheduler.served sort procs).processes → ∀ p, p ∈ sm.all_processes →
        f.arrival = p.arrival → f.start_time = p.start_time ∧ f.completion = p.completion) ∧
      (∀ e, e ∈ sm.timeline → e = IDLE ∨ e.2 = 0) := by
  obtain ⟨sm, r1, r2, _, r4, r5⟩ := MLFQ_Scheduler.run_reaches procs cfg hin hcfg fuel hfuel
  obtain ⟨_, htl, D, hf⟩ := MLFQ_Scheduler.reaches_fifo procs cfg hin hcfg hq0 hnd sm r2
  have hw := MLFQ_Scheduler.reaches_wf procs cfg hin hcfg.1 hcfg.2.1 sm r2
  have ho := MLFQ_Scheduler.reaches_oinv procs cfg hin hcfg.1 hcfg.2.1 sm r2
  have hpos : ∀ i, i < (procs.map Process.copy).length →
      0 ≤ (getP (procs.map Process.copy) i).arrival ∧
      1 ≤ (getP (procs.map Process.copy) i).burst := by
    intro i hi
    rw [List.length_map] at hi
    rw [MLFQ_Scheduler.getP_map_copy, if_pos hi]
    exact MLFQ_Scheduler.validInput_getP hin i hi
  have hfin : ∀ i, i < (procs.map Process.copy).length →
      (getP sm.all_processes i).remaining = 0 := by
    intro i hi
    rw [← hw.inv.len] at hi
    rw [getP_eq_getElem _ i hi]
    exact r5 _ (List.getElem_mem hi)
  have hA : ∀ i, i < (procs.map Process.copy).length →
      (getP (procs.map Process.copy) i).arrival ≤ maxArrival procs := by
    intro i hi
    rw [List.length_map] at hi
    rw [MLFQ_Scheduler.getP_map_copy, if_pos hi]
    exact MLFQ_Scheduler.arrival_le_maxArrival procs i hi
  have hsumP : ((procs.map Process.copy).map (fun p => p.burst)).sum =
      (procs.map (fun p => p.burst)).sum := by
    rw [List.map_map]
    rfl
  obtain ⟨hperm, hmap⟩ := fifo_served sort hsort _ cfg sm D hw ho hf hpos hfin
    (maxArrival procs) (MLFQ_Scheduler.le_foldl_max _ 0).1 hA (by rw [hsumP]; exact hrange)
  have hserved : (FCFS_Scheduler.served sort procs).processes =
      (FCFS_Scheduler.loop 0 0 0 (sort (procs.map Process.copy))).processes := rfl
  refine ⟨sm, r1, ?_, ?_, htl⟩
  · rw [hserved, hmap]
    have h1 := hperm.map (fun i => ((getP sm.all_processes i).pid,
      (getP sm.all_processes i).arrival, (getP sm.all_processes i).burst,
      (getP sm.all_processes i).start_time, (getP sm.all_processes i).completion))
    have h2 : (List.range (procs.map Process.copy).length).map
        (fun i => ((getP sm.all_processes i).pid,
          (getP sm.all_processes i).arrival, (getP sm.all_processes i).burst,
          (getP sm.all_processes i).start_time, (getP sm.all_processes i).completion)) =
        sm.all_processes.map
          (fun p => (p.pid, p.arrival, p.burst, p.start_time, p.completion)) := by
      rw [← hw.inv.len]
      conv_rhs => rw [← map_getP_range sm.all_processes]
      rw [List.map_map]
      rfl
    rw [h2] at h1
    exact h1
  · intro f hf2 p hp harr
    have h1 : (f.pid, f.arrival, f.burst, f.start_time, f.completion) ∈
        (FCFS_Scheduler.served sort procs).processes.map
          (fun p => (p.pid, p.arrival, p.burst, p.start_time, p.completion)) :=
      List.mem_map.2 ⟨f, hf2, rfl⟩
    rw [hserved, hmap] at h1
    obtain ⟨i, hi, he⟩ := List.mem_map.1 h1
    obtain ⟨j, hj, hpj⟩ := List.getElem_of_mem hp
    rw [← getP_eq_getElem _ j hj] at hpj
    simp only [Prod.mk.injEq] at he
    obtain ⟨_, e2, _, e4, e5⟩ := he
    have hil : i < (procs.map Process.copy).length := ((hf.mem i).1 hi).1
    have hjl : j < (procs.map Process.copy).length := by rw [← hw.inv.len]; exact hj
    have hij : i = j := by
      apply distinct_arrivals procs hnd i j hil hjl
      rw [← (hw.inv.static i).2.1, ← (hw.inv.static j).2.1, e2, hpj]
      exact harr
    rw [← hpj, ← hij]
    exact ⟨e4.symm, e5.symm⟩

set_option maxRecDepth 100000 in
/-- Witness of `mlfq_zero_quantum_fcfs`: `P1(0, 5)`, `P2(1, 3)` with the quanta
`[0, 2]`: FCFS gives `P1` the start 0 and the completion 5 and `P2` the start 5
and the completion 8, and so does the MLFQ engine. -/
theorem mlfq_zero_quantum_fcfs_witness :
    StdSort insertion_sort ∧ ValidInput scenarioA_procs ∧ ValidConfig fcfsLevels ∧
    fcfsLevels.quantum 0 = 0 ∧ (scenarioA_procs.map (fun p => p.arrival)).Nodup ∧
    (scenarioA_procs.map (fun p => p.burst)).sum + maxArrival scenarioA_procs ≤ INT_MAX ∧
    MLFQ_Scheduler.budget scenarioA_procs ≤ 9 ∧
    (FCFS_Scheduler.served insertion_sort scenarioA_procs).processes.map
      (fun p => (p.pid, p.start_time, p.completion)) = [(1, 0, 5), (2, 5, 8)] ∧
    ∃ sm, MLFQ_Scheduler.run 9 (MLFQ_Scheduler.init scenarioA_procs fcfsLevels) =
        MLFQ_Scheduler.RunResult.done sm false ∧
      ((FCFS_Scheduler.served insertion_sort scenarioA_procs).processes.map
          (fun p => (p.pid, p.arrival, p.burst, p.start_time, p.completion))).Perm
        (sm.all_processes.map
          (fun p => (p.pid, p.arrival, p.burst, p.start_time, p.completion))) ∧
      (∀ f, f ∈ (FCFS_Scheduler.served insertion_sort scenarioA_procs).processes →
        ∀ p, p ∈ sm.all_processes →
        f.arrival = p.arrival → f.start_time = p.start_time ∧ f.completion = p.completion) ∧
      (∀ e, e ∈ sm.timeline → e = IDLE ∨ e.2 = 0) :=
  have h1 : ValidInput scenarioA_procs := by simp [ValidInput, scenarioA_procs, Process.new]
  have h2 : ValidConfig fcfsLevels := by simp [ValidConfig, fcfsLevels, QUEUE_SLOTS]
  have h3 : (scenarioA_procs.map (fun p => p.arrival)).Nodup := by
    simp [scenarioA_procs, Process.new]
  ⟨stdSort_insertion_sort, h1, h2, rfl, h3, by decide, by decide, by decide!,
    mlfq_zero_quantum_fcfs insertion_sort stdSort_insertion_sort scenarioA_procs fcfsLevels
      h1 h2 rfl h3 (by decide) 9 (by decide)⟩

set_option maxRecDepth 100000 in
/-- C25, counterexample: the run on `P1(0, 1)`, `P2(3, 1)` with the quanta
`[0, 2]`: the arrivals are distinct, the bursts and the latest arrival add up
to 5, and `quantum[0] = 0`, and the timeline has the two idle units 1 and 2,
whose entries carry the level `-1`; so not every timeline entry is at level
0. -/
theorem mlfq_zero_quantum_idle_level :
    ValidInput gap_procs ∧ ValidConfig fcfsLevels ∧ fcfsLevels.quantum 0 = 0 ∧
    (gap_procs.map (fun p => p.arrival)).Nodup ∧
    (gap_procs.map (fun p => p.burst)).sum + maxArrival gap_procs ≤ INT_MAX ∧
    ∃ s, MLFQ_Scheduler.run 5 (MLFQ_Scheduler.init gap_procs fcfsLevels) =
        MLFQ_Scheduler.RunResult.done s false ∧
      s.timeline = [(1, 0), (0, -1), (0, -1), (2, 0)] ∧
      s.timeline_queue = [0, -1, -1, 0] ∧
      ¬ ∀ x, x ∈ s.timeline_queue → x = 0 :=
  have h1 : ValidInput gap_procs := by simp [ValidInput, gap_procs, Process.new]
  have h2 : ValidConfig fcfsLevels := by simp [ValidConfig, fcfsLevels, QUEUE_SLOTS]
  have h3 : (gap_procs.map (fun p => p.arrival)).Nodup := by
    simp [gap_procs, Process.new]
  have h4 : (MLFQ_Scheduler.after 4 (MLFQ_Scheduler.init gap_procs fcfsLevels)).timeline_queue =
      [0, -1, -1, 0] := by decide!
  ⟨h1, h2, rfl, h3, by decide, MLFQ_Scheduler.after 4 (MLFQ_Scheduler.init gap_procs fcfsLevels),
    by decide!, by decide!, h4, fun hx => by
      have := hx (-1) (by rw [h4]; simp)
      exact absurd this (by decide)⟩

end MlfqScheduler
